import Mathlib

/-!
# GMDH model search: a shallow embedding of the C sources

The C `double` is modelled twice.  The first model is exact arithmetic: a value is a
rational number or `nan`; every arithmetic operation with a `nan` operand yields
`nan`, a division by zero yields `nan` (the C result is not a finite number), and
every ordered comparison with a `nan` operand is false.  The algebraic properties of
the procedures are stated in it, and say so.  The second model, in the namespace
`ieee`, is IEEE 754 binary64 arithmetic with rounding, overflow and underflow; the
score functions, the quadratic fit and the split are embedded in it as well, and what
is said of the values the machine computes is stated in it.

Arrays are lists; an output array is passed in and returned updated, as the C
functions do through a pointer.  A read outside an array (undefined in C) yields
`nan`, a write outside is dropped.  The `int` arithmetic that sizes the models array
of linear_combinatorial_gmdh wraps to 32 bits.
-/

namespace GMDH

/-! ## The numeric model -/

/-- The C type double in exact arithmetic: a rational value or not-a-number. -/
inductive double where
  | val (q : ℚ)
  | nan
deriving DecidableEq

namespace double

/-- Addition of doubles. -/
def add : double → double → double
  | val a, val b => val (a + b)
  | _, _ => nan

/-- Subtraction of doubles. -/
def sub : double → double → double
  | val a, val b => val (a - b)
  | _, _ => nan

/-- Multiplication of doubles. -/
def mul : double → double → double
  | val a, val b => val (a * b)
  | _, _ => nan

/-- Division of doubles; a zero divisor gives no finite number. -/
def div : double → double → double
  | val a, val b => if b = 0 then nan else val (a / b)
  | _, _ => nan

instance : Add double := ⟨add⟩
instance : Sub double := ⟨sub⟩
instance : Mul double := ⟨mul⟩
instance : Div double := ⟨div⟩
instance : Zero double := ⟨val 0⟩
instance : One double := ⟨val 1⟩

/-- The C library predicate isnan. -/
def isnan : double → Bool
  | val _ => false
  | nan => true

/-- The C library function fabs. -/
def fabs : double → double
  | val a => val |a|
  | nan => nan

/-- The comparison `a > b` of C: false when an operand is not a number. -/
def gt : double → double → Bool
  | val a, val b => decide (b < a)
  | _, _ => false

/-- The comparison `a < b` of C: false when an operand is not a number. -/
def lt : double → double → Bool
  | val a, val b => decide (a < b)
  | _, _ => false

end double

/-- The literal 1e-10 used as the singularity threshold. -/
def eps : double := double.val (1 / 10 ^ 10)

/-- The value returned by calculate_rmse: `sqrt radicand` stands for the
non-negative square root of a rational radicand (kept symbolic, the root itself
need not be rational) and `infinity` for the C constant INFINITY. -/
inductive rmse_t where
  | sqrt (radicand : ℚ)
  | infinity
deriving DecidableEq

namespace rmse_t

/-- The comparison `a > b` on errors.  Radicands are means of squares, hence
non-negative, and the square root is strictly increasing there. -/
def gt : rmse_t → rmse_t → Bool
  | sqrt a, sqrt b => decide (b < a)
  | infinity, sqrt _ => true
  | _, infinity => false

/-- The order `a <= b` on errors. -/
def le : rmse_t → rmse_t → Prop
  | sqrt a, sqrt b => a ≤ b
  | _, infinity => True
  | infinity, sqrt _ => False

instance : DecidableRel le := fun a b => by
  cases a <;> cases b <;> unfold le <;> infer_instance

end rmse_t

/-! ## Data model (gmdh.h) -/

/-- The struct dataset_t (feature names, used only for printing, are left out). -/
structure dataset_t where
  data : List (List double)
  target : List double
  n_samples : Nat
  n_features : Nat

/-- The struct polynomial_model_t. -/
structure polynomial_model_t where
  coeffs : List double
  feature1 : Nat
  feature2 : Nat
  error : rmse_t
  r2 : double
deriving DecidableEq

/-- The struct linear_model_t. -/
structure linear_model_t where
  coeffs : List double
  feature_indices : List Nat
  n_features : Nat
  error : rmse_t
  r2 : double
deriving DecidableEq

/-- Freshly allocated storage for `n` doubles; its content is never read before
being written, and is modelled as not-a-number. -/
def malloc_double (n : Nat) : List double := List.replicate n double.nan

/-- The read `x[i]` of a vector. -/
def vget (x : List double) (i : Nat) : double := x.getD i double.nan

/-- The read `a[r][c]` of a matrix stored as an array of rows. -/
def mget (a : List (List double)) (r c : Nat) : double := vget (a.getD r []) c

/-- Assignment `x[i] = v` on a vector. -/
def set1 (x : List double) (i : Nat) (v : double) : List double := x.set i v

/-- Assignment `a[k][j] = v` on a matrix. -/
def set2 (a : List (List double)) (k j : Nat) (v : double) : List (List double) :=
  a.set k (set1 (a.getD k []) j v)

/-! ## polynomial.c -/

/-- The augmented matrix `[A | b]` built at the start of a solve. -/
def build_aug (A : List (List double)) (b : List double) (n : Nat) : List (List double) :=
  (List.range n).map (fun i => (List.range n).map (fun j => mget A i j) ++ [vget b i])

/-- Pivot search: the loop `for k = i+1 .. n-1` keeping the row of largest
magnitude in column `i`. -/
def find_max_row (aug : List (List double)) (i n : Nat) : Nat :=
  (List.range' (i + 1) (n - (i + 1))).foldl
    (fun max_row k =>
      if double.gt (double.fabs (mget aug k i)) (double.fabs (mget aug max_row i)) then k
      else max_row) i

/-- Exchange of the row pointers `aug[i]` and `aug[max_row]`. -/
def swap_rows (aug : List (List double)) (i max_row : Nat) : List (List double) :=
  let tmp := aug.getD i []
  let aug := aug.set i (aug.getD max_row [])
  aug.set max_row tmp

/-- Elimination of one row: `factor = aug[k][i] / aug[i][i]`, then
`aug[k][j] -= factor * aug[i][j]` for `j = i .. n`. -/
def eliminate_row (aug : List (List double)) (i k n : Nat) : List (List double) :=
  let factor := mget aug k i / mget aug i i
  (List.range' i (n + 1 - i)).foldl
    (fun a j => set2 a k j (mget a k j - factor * mget a i j)) aug

/-- Elimination of column `i` from all rows `k = i+1 .. n-1`. -/
def eliminate (aug : List (List double)) (i n : Nat) : List (List double) :=
  (List.range' (i + 1) (n - (i + 1))).foldl (fun a k => eliminate_row a i k n) aug

/-- One iteration of the forward elimination loop of solve_linear_system. -/
def forward_step (n : Nat) (aug : List (List double)) (i : Nat) : List (List double) :=
  eliminate (swap_rows aug i (find_max_row aug i n)) i n

/-- The forward elimination loop of solve_linear_system (first `m` iterations). -/
def forward_elimination (aug : List (List double)) (n m : Nat) : List (List double) :=
  (List.range m).foldl (forward_step n) aug

/-- One iteration of back substitution, for row `i`. -/
def back_substitute_row (aug : List (List double)) (n : Nat) (x : List double) (i : Nat) :
    List double :=
  let x1 := set1 x i (mget aug i n)
  let x2 := (List.range' (i + 1) (n - (i + 1))).foldl
    (fun x j => set1 x i (vget x i - mget aug i j * vget x j)) x1
  set1 x2 i (vget x2 i / mget aug i i)

/-- The back substitution loop `for i = n-1 .. 0`. -/
def back_substitution (aug : List (List double)) (n : Nat) (x : List double) : List double :=
  (List.range n).reverse.foldl (back_substitute_row aug n) x

/-- The function solve_linear_system of polynomial.c, in exact arithmetic. -/
def solve_linear_system (A : List (List double)) (b : List double) (x : List double)
    (n : Nat) : List double :=
  back_substitution (forward_elimination (build_aug A b n) n n) n x

/-- The design-matrix row of fit_polynomial for sample `i`. -/
def design_row (x1 x2 y : List double) (i : Nat) : List double :=
  if (vget x1 i).isnan || (vget x2 i).isnan || (vget y i).isnan then
    (List.range 6).foldl (fun row j => set1 row j 0) (malloc_double 6)
  else
    let row := set1 (malloc_double 6) 0 1
    let row := set1 row 1 (vget x1 i)
    let row := set1 row 2 (vget x2 i)
    let row := set1 row 3 (vget x1 i * vget x1 i)
    let row := set1 row 4 (vget x2 i * vget x2 i)
    set1 row 5 (vget x1 i * vget x2 i)

/-- The normal matrix `XtX` of fit_polynomial: rows whose target is missing are skipped. -/
def poly_XtX (X : List (List double)) (y : List double) (n : Nat) : List (List double) :=
  (List.range 6).map (fun i => (List.range 6).map (fun j =>
    (List.range n).foldl
      (fun s k => if !(vget y k).isnan then s + mget X k i * mget X k j else s) 0))

/-- The right-hand side `Xty` of fit_polynomial. -/
def poly_Xty (X : List (List double)) (y : List double) (n : Nat) : List double :=
  (List.range 6).map (fun i =>
    (List.range n).foldl
      (fun s k => if !(vget y k).isnan then s + mget X k i * vget y k else s) 0)

/-- The function fit_polynomial of polynomial.c, in exact arithmetic. -/
def fit_polynomial (x1 x2 y : List double) (n : Nat) (coeffs : List double) : List double :=
  let X := (List.range n).map (design_row x1 x2 y)
  solve_linear_system (poly_XtX X y n) (poly_Xty X y n) coeffs 6

/-- The function predict_polynomial of polynomial.c, in exact arithmetic. -/
def predict_polynomial (x1 x2 : double) (coeffs : List double) : double :=
  vget coeffs 0 + vget coeffs 1 * x1 + vget coeffs 2 * x2 + vget coeffs 3 * x1 * x1
    + vget coeffs 4 * x2 * x2 + vget coeffs 5 * x1 * x2

/-- The accumulation loop of calculate_rmse: the pair `(sum, count)`. -/
def rmse_sums (pred actual : List double) (n : Nat) : ℚ × Nat :=
  (List.range n).foldl
    (fun acc i =>
      match vget pred i, vget actual i with
      | double.val p, double.val a => (acc.1 + (p - a) * (p - a), acc.2 + 1)
      | _, _ => acc) (0, 0)

/-- The function calculate_rmse of polynomial.c, in exact arithmetic. -/
def calculate_rmse (pred actual : List double) (n : Nat) : rmse_t :=
  let s := rmse_sums pred actual n
  if s.2 > 0 then rmse_t.sqrt (s.1 / s.2) else rmse_t.infinity

/-- The mean loop of calculate_r2: the pair `(mean, count)` before the division. -/
def r2_mean_sums (actual : List double) (n : Nat) : double × Nat :=
  (List.range n).foldl
    (fun acc i =>
      if !(vget actual i).isnan then (acc.1 + vget actual i, acc.2 + 1) else acc) (0, 0)

/-- The function calculate_r2 of polynomial.c, in exact arithmetic. -/
def calculate_r2 (pred actual : List double) (n : Nat) : double :=
  let s := r2_mean_sums actual n
  let mean := s.1 / double.val s.2
  let ss := (List.range n).foldl
    (fun (acc : double × double) i =>
      if !(vget pred i).isnan && !(vget actual i).isnan then
        (acc.1 + (vget actual i - mean) * (vget actual i - mean),
         acc.2 + (vget actual i - vget pred i) * (vget actual i - vget pred i))
      else acc) (0, 0)
  1 - ss.2 / ss.1

/-! ## The exchange sort shared by the search procedures -/

/-- One inner pass `for j = 0 .. m-1: if a[j].error > a[j+1].error then swap`. -/
def bubble_pass {α : Type} (gt : α → α → Bool) : Nat → List α → List α
  | 0, l => l
  | _ + 1, [] => []
  | _ + 1, [a] => [a]
  | m + 1, a :: b :: t =>
    if gt a b then b :: bubble_pass gt m (a :: t) else a :: bubble_pass gt m (b :: t)

/-- The sorting loops: pass `i = 0 .. len-2` runs the inner loop up to `len - i - 1`. -/
def bubble_sort {α : Type} (gt : α → α → Bool) (l : List α) : List α :=
  (List.range (l.length - 1)).foldl (fun acc i => bubble_pass gt (l.length - i - 1) acc) l

/-! ## gmdh_combinatorial.c -/

/-- The body of the pair loop of combinatorial_gmdh: fit on the training columns
`i`, `j` and score on the validation columns. -/
def fit_pair (train valid : dataset_t) (i j : Nat) : polynomial_model_t :=
  let x1_train := (List.range train.n_samples).map (fun k => mget train.data k i)
  let x2_train := (List.range train.n_samples).map (fun k => mget train.data k j)
  let coeffs := fit_polynomial x1_train x2_train train.target train.n_samples (malloc_double 6)
  let predictions := (List.range valid.n_samples).map
    (fun k => predict_polynomial (mget valid.data k i) (mget valid.data k j) coeffs)
  { coeffs := coeffs
    feature1 := i
    feature2 := j
    error := calculate_rmse predictions valid.target valid.n_samples
    r2 := calculate_r2 predictions valid.target valid.n_samples }

/-- The nested pair loops of combinatorial_gmdh: the models in generation order. -/
def combinatorial_models (train valid : dataset_t) : List polynomial_model_t :=
  (List.range train.n_features).foldl
    (fun models i =>
      (List.range' (i + 1) (train.n_features - (i + 1))).foldl
        (fun models j => models ++ [fit_pair train valid i j]) models) []

/-- The function combinatorial_gmdh: the returned array and the value stored in
`*n_models`. -/
def combinatorial_gmdh (train valid : dataset_t) : List polynomial_model_t × Nat :=
  let models := combinatorial_models train valid
  let n_models := models.length
  (bubble_sort (fun a b => rmse_t.gt a.error b.error) models, n_models)

/-! ## gmdh_linear_combinatorial.c -/

/-- The design matrix of fit_linear_multivariate: a leading 1 then the features. -/
def linear_design (X : List (List double)) (n_samples n_features : Nat) : List (List double) :=
  (List.range n_samples).map (fun i =>
    (List.range n_features).foldl (fun row j => set1 row (j + 1) (mget X i j))
      (set1 (malloc_double (n_features + 1)) 0 1))

/-- The normal matrix `XtX` of fit_linear_multivariate. -/
def linear_XtX (design : List (List double)) (n_samples n_coeffs : Nat) : List (List double) :=
  (List.range n_coeffs).map (fun i => (List.range n_coeffs).map (fun j =>
    (List.range n_samples).foldl (fun s k => s + mget design k i * mget design k j) 0))

/-- The right-hand side `Xty` of fit_linear_multivariate. -/
def linear_Xty (design : List (List double)) (y : List double) (n_samples n_coeffs : Nat) :
    List double :=
  (List.range n_coeffs).map (fun i =>
    (List.range n_samples).foldl (fun s k => s + mget design k i * vget y k) 0)

/-- The state of the inlined solver: the augmented matrix, the flag set when
the code jumps to `cleanup` on a pivot below 1e-10, and, as a ghost record,
every divisor used so far in execution order. -/
structure solver_state where
  aug : List (List double)
  singular : Bool
  divisors : List double

/-- The elimination loop `for k = i+1 .. n-1` of fit_linear_multivariate; each
iteration divides by the current `aug[i][i]`. -/
def linear_eliminate (st : solver_state) (i n : Nat) : solver_state :=
  (List.range' (i + 1) (n - (i + 1))).foldl
    (fun st k =>
      { st with aug := eliminate_row st.aug i k n, divisors := st.divisors ++ [mget st.aug i i] })
    st

/-- One iteration of the guarded forward elimination of fit_linear_multivariate;
once the jump to `cleanup` is taken no further iteration runs. -/
def linear_forward_step (n : Nat) (st : solver_state) (i : Nat) : solver_state :=
  if st.singular then st
  else
    let max_row := find_max_row st.aug i n
    let aug := swap_rows st.aug i max_row
    if double.lt (double.fabs (mget aug i i)) eps then { st with aug := aug, singular := true }
    else linear_eliminate { st with aug := aug } i n

/-- The guarded forward elimination loop (first `m` iterations). -/
def linear_forward (n : Nat) (st : solver_state) (m : Nat) : solver_state :=
  (List.range m).foldl (linear_forward_step n) st

/-- The back substitution loop of fit_linear_multivariate with its divisors. -/
def linear_back (st : solver_state) (n : Nat) (coeffs : List double) :
    List double × List double :=
  (List.range n).reverse.foldl
    (fun acc i => (back_substitute_row st.aug n acc.1 i, acc.2 ++ [mget st.aug i i]))
    (coeffs, st.divisors)

/-- The function fit_linear_multivariate: the coefficients written and the ghost
record of the divisors of every division performed. -/
def fit_linear_multivariate (X : List (List double)) (y : List double)
    (n_samples n_features : Nat) (coeffs : List double) : List double × List double :=
  let n_coeffs := n_features + 1
  let design := linear_design X n_samples n_features
  let XtX := linear_XtX design n_samples n_coeffs
  let Xty := linear_Xty design y n_samples n_coeffs
  let aug := build_aug XtX Xty n_coeffs
  let st := linear_forward n_coeffs { aug := aug, singular := false, divisors := [] } n_coeffs
  if st.singular then ((List.range n_coeffs).foldl (fun c j => set1 c j 0) coeffs, st.divisors)
  else linear_back st n_coeffs coeffs

/-- The function predict_linear. -/
def predict_linear (x : List double) (coeffs : List double) (n_features : Nat) : double :=
  (List.range n_features).foldl (fun result i => result + vget coeffs (i + 1) * vget x i)
    (vget coeffs 0)

/-- The backward scan `while (i >= 0 && indices[i] == F - s + i) i--`; the
argument is `i + 1`, and `none` stands for `i < 0`. -/
def scan_back (indices : List Nat) (F s : Nat) : Nat → Option Nat
  | 0 => none
  | i + 1 =>
    if ((indices.getD i 0 : Nat) : Int) = (F : Int) - (s : Int) + (i : Int) then
      scan_back indices F s i
    else some i

/-- The step "next combination": `none` when the loop sets `done`. -/
def next_combination (indices : List Nat) (F s : Nat) : Option (List Nat) :=
  match scan_back indices F s s with
  | none => none
  | some i =>
    let indices := indices.set i (indices.getD i 0 + 1)
    some ((List.range' (i + 1) (s - (i + 1))).foldl
      (fun ind j => ind.set j (ind.getD (j - 1) 0 + 1)) indices)

/-- The body of the while loop up to "store model": extract the columns, fit,
score, and build the stored model. -/
def fit_subset (train valid : dataset_t) (subset_size : Nat) (indices : List Nat) :
    linear_model_t :=
  let X_train := (List.range train.n_samples).map (fun i =>
    (List.range subset_size).map (fun j => mget train.data i (indices.getD j 0)))
  let X_valid := (List.range valid.n_samples).map (fun i =>
    (List.range subset_size).map (fun j => mget valid.data i (indices.getD j 0)))
  let coeffs := (fit_linear_multivariate X_train train.target train.n_samples subset_size
    (malloc_double (subset_size + 1))).1
  let predictions := (List.range valid.n_samples).map
    (fun i => predict_linear (X_valid.getD i []) coeffs subset_size)
  { coeffs := coeffs
    feature_indices := indices.take subset_size
    n_features := subset_size
    error := calculate_rmse predictions valid.target valid.n_samples
    r2 := calculate_r2 predictions valid.target valid.n_samples }

/-- The loop `while (!done)` for one subset size; `fuel` bounds the number of
iterations and `none` means the bound was reached. -/
def subset_loop (train valid : dataset_t) (subset_size : Nat) :
    Nat → List Nat → List linear_model_t → Option (List linear_model_t)
  | 0, _, _ => none
  | fuel + 1, indices, models =>
    let models := models ++ [fit_subset train valid subset_size indices]
    match next_combination indices train.n_features subset_size with
    | none => some models
    | some indices => subset_loop train valid subset_size fuel indices models

/-- The loop over subset sizes: the models in generation order. -/
def linear_models (train valid : dataset_t) (min_features max_features fuel : Nat) :
    Option (List linear_model_t) :=
  (List.range' min_features (max_features + 1 - min_features)).foldl
    (fun acc subset_size => acc.bind (fun models =>
      subset_loop train valid subset_size fuel (List.range subset_size) models))
    (some [])

/-- The value an `int` holds after an arithmetic result `x` is stored in it: the
32-bit two's complement wraparound of the usual targets. -/
def wrap32 (x : Int) : Int := (x + 2147483648) % 4294967296 - 2147483648

/-- The inner counting loop of linear_combinatorial_gmdh as the machine runs it:
`int count = 1; for i < s: count = count * (F - i) / (i + 1)`, the product wrapped to
an `int` before the truncating division. -/
def combination_count_int (F s : Nat) : Int :=
  (List.range s).foldl
    (fun (count : Int) (i : Nat) =>
      Int.tdiv (wrap32 (count * ((F : Int) - (i : Int)))) ((i : Int) + 1)) 1

/-- The `int total_combinations` as the machine computes it: the number of elements
of the models array passed to malloc. -/
def total_combinations_int (train : dataset_t) (min_features max_features : Nat) : Int :=
  (List.range' min_features (max_features + 1 - min_features)).foldl
    (fun (total : Int) (s : Nat) => wrap32 (total + combination_count_int train.n_features s)) 0

/-- The enumeration loops and the sort of linear_combinatorial_gmdh on an array that
is large enough: the sorted models and the number of them. -/
def linear_search (train valid : dataset_t) (min_features max_features fuel : Nat) :
    Option (List linear_model_t × Nat) :=
  (linear_models train valid min_features max_features fuel).map (fun models =>
    (bubble_sort (fun a b => rmse_t.gt a.error b.error) models, models.length))

/-- The function linear_combinatorial_gmdh: the returned array and the value
stored in `*n_models_out`.  The models array has `total_combinations` elements, the
`int` of the counting loop; every fitted model is stored at the next index, so the run
has a result only when the number of fitted models does not exceed that capacity.
`none` stands for a run without a defined result: a store outside the array (or
through the null pointer malloc returns for a negative count), or `fuel` used up. -/
def linear_combinatorial_gmdh (train valid : dataset_t) (min_features max_features fuel : Nat) :
    Option (List linear_model_t × Nat) :=
  (linear_models train valid min_features max_features fuel).bind (fun models =>
    if (models.length : Int) ≤ total_combinations_int train min_features max_features then
      some (bubble_sort (fun a b => rmse_t.gt a.error b.error) models, models.length)
    else none)

/-! ## Auxiliary definitions used in the statements and proofs -/

/-- The state of the outer loop after `k` passes over a list of length `n`. -/
def bubble_passes {α : Type} (gt : α → α → Bool) (n k : Nat) (l : List α) : List α :=
  (List.range k).foldl (fun acc i => bubble_pass gt (n - i - 1) acc) l

/-- Lexicographic order on feature pairs, the order in which the pair loops run. -/
def pair_lt (p q : Nat × Nat) : Prop := p.1 < q.1 ∨ (p.1 = q.1 ∧ p.2 < q.2)

/-- The feature pair of a model. -/
def model_pair (m : polynomial_model_t) : Nat × Nat := (m.feature1, m.feature2)

/-- The order on models by error. -/
def error_le (a b : polynomial_model_t) : Prop := rmse_t.le a.error b.error

/-- A small numeric vector. -/
def vec (l : List ℚ) : List double := l.map double.val

/-- A small numeric matrix given by rows. -/
def mat (l : List (List ℚ)) : List (List double) := l.map vec

/-- A sample dataset: eight samples of three features. -/
def sample_data : dataset_t :=
  { data := mat [[0, 0, 1], [1, 0, 2], [0, 1, 5], [1, 1, 1], [2, 0, 0], [2, 1, 3], [3, 5, 2],
      [4, 4, 4]]
    target := vec [1, 2, 3, 4, 5, 6, 7, 9]
    n_samples := 8
    n_features := 3 }

/-- A dataset with one sample of `F` features, feature `j` reading `j`, and target 1. -/
def wide_data (F : Nat) : dataset_t :=
  { data := [(List.range F).map (fun j => double.val (j : ℚ))]
    target := [double.val 1]
    n_samples := 1
    n_features := F }

/-- A dataset whose second and third feature columns coincide, so that the pairs
(0,1) and (0,2) give the same model and the same error. -/
def tie_data : dataset_t :=
  { data := mat [[0, 0, 0], [1, 0, 0], [0, 1, 1], [1, 1, 1], [2, 0, 0], [2, 1, 1], [3, 5, 5],
      [4, 4, 4]]
    target := vec [1, 2, 3, 4, 5, 6, 7, 9]
    n_samples := 8
    n_features := 3 }

/-- All strictly increasing tuples of length `s` with entries among
`lo, ..., lo + m - 1`, listed in lexicographic order. -/
def combos : Nat → Nat → Nat → List (List Nat)
  | _, _, 0 => [[]]
  | 0, _, _ + 1 => []
  | m + 1, lo, s + 1 =>
    (combos m (lo + 1) s).map (fun t => lo :: t) ++ combos m (lo + 1) (s + 1)

/-- The backward scan as the specification words it: the rightmost position `p`
with `idx[p] < F - s + p`; the argument is the number of positions still to scan. -/
def scan_back_spec (indices : List Nat) (F s : Nat) : Nat → Option Nat
  | 0 => none
  | i + 1 =>
    if ((indices.getD i 0 : Nat) : Int) < (F : Int) - (s : Int) + (i : Int) then some i
    else scan_back_spec indices F s i

/-- The order on linear models by error, as a Boolean comparison. -/
def linear_error_le (a b : linear_model_t) : Bool := decide (rmse_t.le a.error b.error)

/-- The generation order of linear_combinatorial_gmdh as the specification
describes it: sizes ascending, and within a size the feature subsets in
lexicographic order. -/
def generation_order (train valid : dataset_t) (min_features max_features : Nat) :
    List linear_model_t :=
  (List.range' min_features (max_features + 1 - min_features)).flatMap (fun s =>
    (combos train.n_features 0 s).map (fit_subset train valid s))

/-- Shape of a matrix stored as an array of rows: `n` rows of `w` entries. -/
def dims (a : List (List double)) (n w : Nat) : Prop :=
  a.length = n ∧ ∀ r, r < n → (a.getD r []).length = w

/-! ### Exact-arithmetic counterparts, used to reason about the solvers -/

/-- The pivot search of find_max_row on a rational matrix. -/
def find_max_rowQ (Q : Nat → Nat → ℚ) (i n : Nat) : Nat :=
  (List.range' (i + 1) (n - (i + 1))).foldl
    (fun max_row k => if |Q max_row i| < |Q k i| then k else max_row) i

/-- The row exchange on a rational matrix. -/
def swapQ (Q : Nat → Nat → ℚ) (i p : Nat) : Nat → Nat → ℚ :=
  fun r => Q (if r = p then i else if r = i then p else r)

/-- The elimination of column `i` on a rational augmented matrix. -/
def elimQ (Q : Nat → Nat → ℚ) (i n : Nat) : Nat → Nat → ℚ :=
  fun r c => if i < r ∧ r < n ∧ i ≤ c ∧ c ≤ n then Q r c - Q r i / Q i i * Q i c else Q r c

/-- One forward elimination step on a rational augmented matrix. -/
def stepQ (n : Nat) (Q : Nat → Nat → ℚ) (i : Nat) : Nat → Nat → ℚ :=
  elimQ (swapQ Q i (find_max_rowQ Q i n)) i n

/-- The first `m` forward elimination steps on a rational augmented matrix. -/
def forwardQ (Q : Nat → Nat → ℚ) (n m : Nat) : Nat → Nat → ℚ :=
  (List.range m).foldl (stepQ n) Q

/-- The pivot selected at step `k`, after the row exchange. -/
def pivotQ (Q : Nat → Nat → ℚ) (n k : Nat) : ℚ :=
  forwardQ Q n k (find_max_rowQ (forwardQ Q n k) k n) k

/-- The array `a` holds the rational augmented matrix `Q` with `n` rows. -/
def Rep (a : List (List double)) (Q : Nat → Nat → ℚ) (n : Nat) : Prop :=
  dims a n (n + 1) ∧ ∀ r c, r < n → c ≤ n → mget a r c = double.val (Q r c)

/-- Row `r` of a linear system read off an augmented matrix:
`sum over c < n of M r c * x c = t * M r n`.  With `t = 1` this is the system
itself, with `t = 0` the homogeneous system. -/
def RowEq (t : ℚ) (M : Nat → Nat → ℚ) (n : Nat) (x : Nat → ℚ) (r : Nat) : Prop :=
  ∑ c in Finset.range n, M r c * x c = t * M r n

/-- All `n` rows of the system hold. -/
def Sys (t : ℚ) (M : Nat → Nat → ℚ) (n : Nat) (x : Nat → ℚ) : Prop :=
  ∀ r, r < n → RowEq t M n x r

/-- The first `i` columns are zero below the diagonal. -/
def LowerZero (M : Nat → Nat → ℚ) (n i : Nat) : Prop :=
  ∀ r c, c < i → c < r → r < n → M r c = 0

/-- One iteration of back substitution on a rational augmented matrix. -/
def back_rowQ (U : Nat → Nat → ℚ) (n : Nat) (x : Nat → ℚ) (i : Nat) : Nat → ℚ :=
  Function.update x i ((U i n - ∑ j in Finset.Ico (i + 1) n, U i j * x j) / U i i)

/-- Back substitution for the rows `m-1, ..., 0` on a rational augmented matrix. -/
def backQ (U : Nat → Nat → ℚ) (n m : Nat) (x : Nat → ℚ) : Nat → ℚ :=
  (List.range m).reverse.foldl (back_rowQ U n) x

/-- The design matrix of fit_linear_multivariate over the rationals: a leading
constant 1, then the feature columns. -/
def designQ (Xq : Nat → Nat → ℚ) (s c : Nat) : ℚ := if c = 0 then 1 else Xq s (c - 1)

/-- The normal matrix of the design matrix over the rationals. -/
def normalQ (Xq : Nat → Nat → ℚ) (n_samples i j : Nat) : ℚ :=
  ∑ s in Finset.range n_samples, designQ Xq s i * designQ Xq s j

/-- The right-hand side of the normal equations over the rationals. -/
def rhsQ (Xq : Nat → Nat → ℚ) (yq : Nat → ℚ) (n_samples i : Nat) : ℚ :=
  ∑ s in Finset.range n_samples, designQ Xq s i * yq s

/-- The augmented matrix of the normal equations over the rationals. -/
def normal_augQ (Xq : Nat → Nat → ℚ) (yq : Nat → ℚ) (n_samples n : Nat) : Nat → Nat → ℚ :=
  fun r c => if c < n then normalQ Xq n_samples r c else rhsQ Xq yq n_samples r

/-- The solver state with which fit_linear_multivariate enters its forward
elimination. -/
def linear_initial_state (X : List (List double)) (y : List double)
    (n_samples n_features : Nat) : solver_state :=
  let design := linear_design X n_samples n_features
  { aug := build_aug (linear_XtX design n_samples (n_features + 1))
      (linear_Xty design y n_samples (n_features + 1)) (n_features + 1)
    singular := false
    divisors := [] }

/-- The comparison `a <= b` on doubles as a proposition: false when an operand
is not a number. -/
def double.le : double → double → Prop
  | double.val a, double.val b => a ≤ b
  | _, _ => False

/-- The training sum of squared residuals of a coefficient vector:
the sum over the samples of `(y[i] - predict_linear(X[i], coeffs))^2`. -/
def residual_sum_squares (X : List (List double)) (y : List double)
    (n_samples n_features : Nat) (coeffs : List double) : double :=
  (List.range n_samples).foldl
    (fun s i =>
      s + (vget y i - predict_linear (X.getD i []) coeffs n_features)
        * (vget y i - predict_linear (X.getD i []) coeffs n_features)) 0

/-- The value of the linear model with coefficients `c` on sample `i`, over the
rationals. -/
def linear_predQ (Xq : Nat → Nat → ℚ) (c : Nat → ℚ) (k i : Nat) : ℚ :=
  c 0 + ∑ j in Finset.range k, c (j + 1) * Xq i j

/-- The value `a` is a number within `tol` of `b`. -/
def double.near (a : double) (b tol : ℚ) : Prop :=
  match a with
  | double.val q => |q - b| ≤ tol
  | double.nan => False

/-- The design matrix of fit_polynomial over the rationals: the basis
`1, x1, x2, x1^2, x2^2, x1*x2` evaluated at sample `s`. -/
def polyQ (x1q x2q : Nat → ℚ) (s c : Nat) : ℚ :=
  match c with
  | 0 => 1
  | 1 => x1q s
  | 2 => x2q s
  | 3 => x1q s * x1q s
  | 4 => x2q s * x2q s
  | 5 => x1q s * x2q s
  | _ => 0

/-- The normal matrix of fit_polynomial over the rationals. -/
def poly_normalQ (x1q x2q : Nat → ℚ) (n i j : Nat) : ℚ :=
  ∑ s in Finset.range n, polyQ x1q x2q s i * polyQ x1q x2q s j

/-- The right-hand side of the normal equations of fit_polynomial over the rationals. -/
def poly_rhsQ (x1q x2q yq : Nat → ℚ) (n i : Nat) : ℚ :=
  ∑ s in Finset.range n, polyQ x1q x2q s i * yq s

/-- The coefficient vector of an affine model `c0 + c1*x1 + c2*x2` in the
quadratic basis. -/
def affine_coeffs (c0 c1 c2 : ℚ) (j : Nat) : ℚ :=
  match j with
  | 0 => c0
  | 1 => c1
  | 2 => c2
  | _ => 0

/-- Sample `i` has all of `x1[i]`, `x2[i]` and `y[i]` present. -/
def row_present (x1 x2 y : List double) (i : Nat) : Bool :=
  !((vget x1 i).isnan || (vget x2 i).isnan || (vget y i).isnan)

/-- The indices below `n` of the samples without a missing value, in order. -/
def present_rows (x1 x2 y : List double) (n : Nat) : List Nat :=
  (List.range n).filter (row_present x1 x2 y)

/-- The array `v` after the deletion of every sample with a missing `x1`, `x2` or `y`. -/
def delete_missing (x1 x2 y : List double) (n : Nat) (v : List double) : List double :=
  (present_rows x1 x2 y n).map (vget v)

/-- Both `pred[i]` and `actual[i]` are present (not missing). -/
def both_present (pred actual : List double) (i : Nat) : Bool :=
  !(vget pred i).isnan && !(vget actual i).isnan

/-- The number carried by a double (zero for not-a-number). -/
def double.value : double → ℚ
  | double.val q => q
  | double.nan => 0

/-- The real number `r` is the value of the error `e`: the non-negative square
root of the radicand. -/
def rmse_t.denotes : rmse_t → ℝ → Prop
  | rmse_t.sqrt q, r => 0 ≤ r ∧ r ^ 2 = (q : ℝ)
  | rmse_t.infinity, _ => False

/-- The second loop of calculate_r2: the pair `(ss_tot, ss_res)` it accumulates. -/
def r2_sums (pred actual : List double) (n : Nat) : double × double :=
  let s := r2_mean_sums actual n
  let mean := s.1 / double.val s.2
  (List.range n).foldl
    (fun (acc : double × double) i =>
      if !(vget pred i).isnan && !(vget actual i).isnan then
        (acc.1 + (vget actual i - mean) * (vget actual i - mean),
         acc.2 + (vget actual i - vget pred i) * (vget actual i - vget pred i))
      else acc) (0, 0)

/-- The mean of the first `n` values of a rational sequence. -/
def meanQ (aq : Nat → ℚ) (n : Nat) : ℚ := (∑ i in Finset.range n, aq i) / n

/-! ## gmdh_multirow.c -/

/-- The struct gmdh_layer_t.  The array of layers comes from malloc and a field
holds `none` until the program assigns it. -/
structure gmdh_layer_t where
  models : Option (List polynomial_model_t)
  n_models : Option Nat
  layer : Option Nat
deriving DecidableEq

/-- An element of the freshly allocated array of layers. -/
def gmdh_layer_t.fresh : gmdh_layer_t := { models := none, n_models := none, layer := none }

/-- The loop `for k < n: a[k] = f k` filling a freshly allocated array. -/
def fill_array (n : Nat) (f : Nat → double) : List double :=
  (List.range n).foldl (fun a k => set1 a k (f k)) (malloc_double n)

/-- The body of the pair loops of multirow_gmdh (the same statements in the loop of
layer 0 and in the loop of the later layers): fit the pair `i`, `j` on `train` and
score it on `valid`. -/
def multirow_fit_pair (train valid : dataset_t) (i j : Nat) : polynomial_model_t :=
  let x1_train := fill_array train.n_samples (fun k => mget train.data k i)
  let x2_train := fill_array train.n_samples (fun k => mget train.data k j)
  let coeffs := fit_polynomial x1_train x2_train train.target train.n_samples (malloc_double 6)
  let predictions := fill_array valid.n_samples
    (fun k => predict_polynomial (mget valid.data k i) (mget valid.data k j) coeffs)
  { coeffs := coeffs
    feature1 := i
    feature2 := j
    error := calculate_rmse predictions valid.target valid.n_samples
    r2 := calculate_r2 predictions valid.target valid.n_samples }

/-- The nested pair loops of multirow_gmdh over the `n` features of `train`: the array
of candidate models, `model_idx` being its length. -/
def multirow_pair_models (train valid : dataset_t) (n : Nat) : List polynomial_model_t :=
  (List.range n).foldl
    (fun models i =>
      (List.range' (i + 1) (n - (i + 1))).foldl
        (fun models j => models ++ [multirow_fit_pair train valid i j]) models) []

/-- The selection at the end of each layer: sort the candidates by error, then copy
the first `n_selected = min(models_per_layer, model_idx)` into the layer. -/
def multirow_select (candidates : List polynomial_model_t) (models_per_layer layer : Nat) :
    gmdh_layer_t :=
  let sorted := bubble_sort (fun a b => rmse_t.gt a.error b.error) candidates
  let model_idx := candidates.length
  let n_selected := if models_per_layer < model_idx then models_per_layer else model_idx
  { models := some (sorted.take n_selected)
    n_models := some n_selected
    layer := some layer }

/-- A model read at an index where none was stored. -/
def polynomial_model_t.garbage : polynomial_model_t :=
  { coeffs := [], feature1 := 0, feature2 := 0, error := rmse_t.infinity, r2 := double.nan }

/-- The dataset built for a layer from `ds` (the program passes its arguments `train`
and `valid` here): column `j` of sample `i` is the prediction of the previous layer's
model `j` on `ds.data[i][feature1]` and `ds.data[i][feature2]`; the target is shared. -/
def multirow_new_dataset (ds : dataset_t) (prev_models : List polynomial_model_t)
    (prev_n_models : Nat) : dataset_t :=
  { n_samples := ds.n_samples
    n_features := prev_n_models
    data := (List.range ds.n_samples).map (fun i =>
      fill_array prev_n_models (fun j =>
        let prev_model := prev_models.getD j polynomial_model_t.garbage
        predict_polynomial (mget ds.data i prev_model.feature1)
          (mget ds.data i prev_model.feature2) prev_model.coeffs))
    target := ds.target }

/-- The state of the layer loop of multirow_gmdh: the array of layers, whether the
`break` was taken, and (a ghost log) the train and validation datasets each iteration
built. -/
structure multirow_state where
  layers : List gmdh_layer_t
  stopped : Bool
  synthetic : List (dataset_t × dataset_t)

/-- One iteration `layer` of the loop over the later layers of multirow_gmdh. -/
def multirow_layer_step (train valid : dataset_t) (models_per_layer : Nat)
    (st : multirow_state) (layer : Nat) : multirow_state :=
  if st.stopped then st
  else
    let prev := st.layers.getD (layer - 1) gmdh_layer_t.fresh
    let prev_n_models := prev.n_models.getD 0
    let prev_models := prev.models.getD []
    let new_train := multirow_new_dataset train prev_models prev_n_models
    let new_valid := multirow_new_dataset valid prev_models prev_n_models
    let new_n_pairs := (prev_n_models * (prev_n_models - 1)) / 2
    if new_n_pairs = 0 then
      { layers := st.layers.set layer
          { st.layers.getD layer gmdh_layer_t.fresh with n_models := some 0 }
        stopped := true
        synthetic := st.synthetic ++ [(new_train, new_valid)] }
    else
      { layers := st.layers.set layer
          (multirow_select (multirow_pair_models new_train new_valid prev_n_models)
            models_per_layer layer)
        stopped := false
        synthetic := st.synthetic ++ [(new_train, new_valid)] }

/-- The state of multirow_gmdh after layer 0. -/
def multirow_layer0 (train valid : dataset_t) (n_layers models_per_layer : Nat) :
    multirow_state :=
  { layers := (List.replicate n_layers gmdh_layer_t.fresh).set 0
      (multirow_select (multirow_pair_models train valid train.n_features) models_per_layer 0)
    stopped := false
    synthetic := [] }

/-- The run of multirow_gmdh: layer 0, then the loop `for layer = 1 .. n_layers - 1`. -/
def multirow_run (train valid : dataset_t) (n_layers models_per_layer : Nat) : multirow_state :=
  (List.range' 1 (n_layers - 1)).foldl (multirow_layer_step train valid models_per_layer)
    (multirow_layer0 train valid n_layers models_per_layer)

/-- The function multirow_gmdh: the returned array of `n_layers` layers. -/
def multirow_gmdh (train valid : dataset_t) (n_layers models_per_layer : Nat) :
    List gmdh_layer_t :=
  (multirow_run train valid n_layers models_per_layer).layers

/-- The input dataset of layer `i` as the specification describes it: the original
dataset for layer 0, and for layer `i + 1` the predictions of the models of layer `i`
evaluated on the input dataset of layer `i` itself. -/
def specified_layer_input (ds : dataset_t) (layers : List gmdh_layer_t) : Nat → dataset_t
  | 0 => ds
  | i + 1 =>
    multirow_new_dataset (specified_layer_input ds layers i)
      ((layers.getD i gmdh_layer_t.fresh).models.getD [])
      ((layers.getD i gmdh_layer_t.fresh).n_models.getD 0)

/-- The training dataset the program built in iteration `layer >= 1` (empty when the
iteration did not run). -/
def built_train (st : multirow_state) (layer : Nat) : List (List double) :=
  (st.synthetic.map (fun p => p.1.data)).getD (layer - 1) []

/-- The validation dataset the program built in iteration `layer >= 1`. -/
def built_valid (st : multirow_state) (layer : Nat) : List (List double) :=
  (st.synthetic.map (fun p => p.2.data)).getD (layer - 1) []

/-- A dataset of six features (four samples), the shape used by the test of
multirow_gmdh. -/
def six_feature_data : dataset_t :=
  { data := mat [[0, 1, 2, 3, 4, 5], [1, 0, 2, 1, 0, 2], [2, 2, 1, 0, 3, 1], [3, 1, 0, 2, 2, 4]]
    target := vec [1, 2, 3, 4]
    n_samples := 4
    n_features := 6 }

/-- The run of multirow_gmdh on the sample dataset (used for training and for
validation) with three layers of at most three models. -/
def sample_run : multirow_state := multirow_run sample_data sample_data 3 3

/-- The layers multirow_gmdh returns for the sample dataset. -/
def sample_layers : List gmdh_layer_t := multirow_gmdh sample_data sample_data 3 3

/-- The first model of layer 1 in the run on the sample dataset. -/
def sample_layer1_model : polynomial_model_t :=
  ((sample_layers.getD 1 gmdh_layer_t.fresh).models.getD []).getD 0 polynomial_model_t.garbage

/-- The state of multirow_gmdh after layer 0 and the iterations `layer = 1 .. k` of
the layer loop. -/
def multirow_run_upto (train valid : dataset_t) (n_layers models_per_layer k : Nat) :
    multirow_state :=
  (List.range' 1 k).foldl (multirow_layer_step train valid models_per_layer)
    (multirow_layer0 train valid n_layers models_per_layer)

/-- The number `n_pairs` of elements combinatorial_gmdh allocates for its models array
(C integer arithmetic, division truncating toward zero). -/
def combinatorial_n_pairs (train : dataset_t) : Int :=
  Int.tdiv ((train.n_features : Int) * ((train.n_features : Int) - 1)) 2

/-- The last statement of combinatorial_gmdh, `print_model(&models[0], ...)`: the
element of the models array it reads, `none` when index 0 lies outside the array. -/
def combinatorial_gmdh_printed (train valid : dataset_t) : Option polynomial_model_t :=
  (combinatorial_gmdh train valid).1[0]?

/-- A dataset with a single feature. -/
def one_feature_data : dataset_t :=
  { data := mat [[1], [2], [3]]
    target := vec [2, 4, 6]
    n_samples := 3
    n_features := 1 }

/-! ## IEEE 754 arithmetic: the C double as the machine computes it

The definitions above compute over the rationals, which is what the algebraic
properties of the procedures are stated in.  The definitions of this section compute
as a machine with IEEE 754 binary64 doubles does: every arithmetic operation is the
exact result rounded to the nearest representable value, ties to even, with gradual
underflow, overflow to an infinity, two zeros, and not-a-number; each operation of
the source is rounded on its own (no fused multiply-add, no extended precision). -/

namespace ieee

/-- A C double as IEEE 754 binary64 holds it: a finite value given by its sign and
its magnitude (so the two zeros differ), an infinity, or not-a-number. -/
inductive binary64 where
  | finite (neg : Bool) (mag : ℚ)
  | infinite (neg : Bool)
  | nan
deriving DecidableEq

/-- The power `2 ^ e` for an integer exponent. -/
def two_pow (e : Int) : ℚ := if 0 ≤ e then (2 : ℚ) ^ e.toNat else 1 / (2 : ℚ) ^ (-e).toNat

/-- The number of binary digits of `n`, found by halving (at most `fuel` times). -/
def bit_length : Nat → Nat → Nat
  | 0, _ => 0
  | fuel + 1, n => if n = 0 then 0 else bit_length fuel (n / 2) + 1

/-- The binary exponent of a positive rational: the `e` with `2 ^ e ≤ m < 2 ^ (e + 1)`.
The digit counts of numerator and denominator give it up to one, and the comparison
settles it. -/
def floor_log2 (m : ℚ) : Int :=
  let e := (bit_length m.num.natAbs m.num.natAbs : Int) - (bit_length m.den m.den : Int)
  if two_pow e ≤ m then e else e - 1

/-- The integer nearest to a non-negative rational, a tie going to the even one. -/
def round_half_even (x : ℚ) : Int :=
  let f := Rat.floor x
  let r := x - (f : ℚ)
  if r < 1 / 2 then f else if 1 / 2 < r then f + 1 else if f % 2 = 0 then f else f + 1

/-- Rounding of an exact magnitude to binary64: 53 significant bits, least exponent
-1022 (below it the spacing stays 2^-1074), `none` when the rounded value reaches
2^1024, which is overflow. -/
def round_mag (m : ℚ) : Option ℚ :=
  if m ≤ 0 then some 0 else
    let e := max (floor_log2 m) (-1022)
    let ulp := two_pow (e - 52)
    let r := (round_half_even (m / ulp) : ℚ) * ulp
    if r < two_pow 1024 then some r else none

/-- The double nearest to the exact value of sign `neg` and magnitude `m`. -/
def round (neg : Bool) (m : ℚ) : binary64 :=
  match round_mag m with
  | some r => binary64.finite neg r
  | none => binary64.infinite neg

/-- The loop of the integer square root: bits from the highest down. -/
def isqrt_loop (n : Nat) : Nat → Nat → Nat
  | 0, r => r
  | k + 1, r =>
    if (r + 2 ^ k) * (r + 2 ^ k) ≤ n then isqrt_loop n k (r + 2 ^ k) else isqrt_loop n k r

/-- The integer square root of a natural number below 2^128. -/
def isqrt (n : Nat) : Nat := isqrt_loop n 64 0

/-- The double nearest to the square root of a positive magnitude. -/
def sqrt_mag (m : ℚ) : ℚ :=
  let h := Int.fdiv (floor_log2 m) 2
  let ulp := two_pow (h - 52)
  let N := m / (ulp * ulp)
  let s := isqrt (Rat.floor N).toNat
  let mid := ((s : ℚ) + 1 / 2) * ((s : ℚ) + 1 / 2)
  if N < mid then (s : ℚ) * ulp
  else if mid < N then ((s : ℚ) + 1) * ulp
  else if s % 2 = 0 then (s : ℚ) * ulp else ((s : ℚ) + 1) * ulp

namespace binary64

/-- The value of a finite double as a signed rational. -/
def signed (neg : Bool) (mag : ℚ) : ℚ := if neg then -mag else mag

/-- Unary minus. -/
def neg : binary64 → binary64
  | finite s m => finite (!s) m
  | infinite s => infinite (!s)
  | nan => nan

/-- Addition of doubles. -/
def add : binary64 → binary64 → binary64
  | nan, _ => nan
  | _, nan => nan
  | infinite s, infinite t => if s = t then infinite s else nan
  | infinite s, finite _ _ => infinite s
  | finite _ _, infinite t => infinite t
  | finite s a, finite t b =>
    if s = t then round s (a + b)
    else if b < a then round s (a - b)
    else if a < b then round t (b - a)
    else finite false 0

/-- Subtraction of doubles. -/
def sub (x y : binary64) : binary64 := add x (neg y)

/-- Multiplication of doubles. -/
def mul : binary64 → binary64 → binary64
  | nan, _ => nan
  | _, nan => nan
  | infinite s, infinite t => infinite (xor s t)
  | infinite s, finite t b => if b = 0 then nan else infinite (xor s t)
  | finite s a, infinite t => if a = 0 then nan else infinite (xor s t)
  | finite s a, finite t b => round (xor s t) (a * b)

/-- Division of doubles. -/
def div : binary64 → binary64 → binary64
  | nan, _ => nan
  | _, nan => nan
  | infinite _, infinite _ => nan
  | infinite s, finite t _ => infinite (xor s t)
  | finite s _, infinite t => finite (xor s t) 0
  | finite s a, finite t b =>
    if b = 0 then (if a = 0 then nan else infinite (xor s t))
    else round (xor s t) (a / b)

instance : Add binary64 := ⟨add⟩
instance : Sub binary64 := ⟨sub⟩
instance : Mul binary64 := ⟨mul⟩
instance : Div binary64 := ⟨div⟩

/-- The C library function sqrt. -/
def sqrt : binary64 → binary64
  | nan => nan
  | infinite s => if s then nan else infinite false
  | finite s m => if m = 0 then finite s 0 else if s then nan else finite false (sqrt_mag m)

/-- The C library function fabs. -/
def fabs : binary64 → binary64
  | finite _ m => finite false m
  | infinite _ => infinite false
  | nan => nan

/-- The C library predicate isnan. -/
def isnan : binary64 → Bool
  | nan => true
  | _ => false

/-- The comparison `a < b` of C: false when an operand is not a number. -/
def lt : binary64 → binary64 → Bool
  | nan, _ => false
  | _, nan => false
  | infinite s, infinite t => s && !t
  | infinite s, finite _ _ => s
  | finite _ _, infinite t => !t
  | finite s a, finite t b => decide (signed s a < signed t b)

/-- The comparison `a > b` of C. -/
def gt (x y : binary64) : Bool := lt y x

/-- The conversion of an `int` to double, which is exact. -/
def of_int (n : Int) : binary64 := finite (decide (n < 0)) (|n| : Int)

/-- The conversion `(int) x`: truncation toward zero; `none` when the value is not a
number or outside the range of `int` (undefined in C). -/
def to_int : binary64 → Option Int
  | finite s m =>
    let t := if s then -(Rat.floor m) else Rat.floor m
    if -2147483648 ≤ t ∧ t < 2147483648 then some t else none
  | _ => none

end binary64

/-- The double a decimal literal of the source denotes: the exact value rounded. -/
def lit (q : ℚ) : binary64 := round (decide (q < 0)) |q|

/-- The constant INFINITY. -/
def INFINITY : binary64 := binary64.infinite false

/-- The read `x[i]` of a vector. -/
def vget (x : List binary64) (i : Nat) : binary64 := x.getD i binary64.nan

/-- The read `a[r][c]` of a matrix stored as an array of rows. -/
def mget (a : List (List binary64)) (r c : Nat) : binary64 := vget (a.getD r []) c

/-- Assignment `x[i] = v` on a vector. -/
def set1 (x : List binary64) (i : Nat) (v : binary64) : List binary64 := x.set i v

/-- Assignment `a[k][j] = v` on a matrix. -/
def set2 (a : List (List binary64)) (k j : Nat) (v : binary64) : List (List binary64) :=
  a.set k (set1 (a.getD k []) j v)

/-- Freshly allocated storage for `n` doubles, never read before being written. -/
def malloc_double (n : Nat) : List binary64 := List.replicate n binary64.nan

/-- The augmented matrix `[A | b]` built at the start of a solve. -/
def build_aug (A : List (List binary64)) (b : List binary64) (n : Nat) :
    List (List binary64) :=
  (List.range n).map (fun i => (List.range n).map (fun j => mget A i j) ++ [vget b i])

/-- Pivot search: the loop `for k = i+1 .. n-1` keeping the row of largest
magnitude in column `i`. -/
def find_max_row (aug : List (List binary64)) (i n : Nat) : Nat :=
  (List.range' (i + 1) (n - (i + 1))).foldl
    (fun max_row k =>
      if binary64.gt (binary64.fabs (mget aug k i)) (binary64.fabs (mget aug max_row i)) then k
      else max_row) i

/-- Exchange of the row pointers `aug[i]` and `aug[max_row]`. -/
def swap_rows (aug : List (List binary64)) (i max_row : Nat) : List (List binary64) :=
  let tmp := aug.getD i []
  let aug := aug.set i (aug.getD max_row [])
  aug.set max_row tmp

/-- Elimination of one row: `factor = aug[k][i] / aug[i][i]`, then
`aug[k][j] -= factor * aug[i][j]` for `j = i .. n`. -/
def eliminate_row (aug : List (List binary64)) (i k n : Nat) : List (List binary64) :=
  let factor := mget aug k i / mget aug i i
  (List.range' i (n + 1 - i)).foldl
    (fun a j => set2 a k j (mget a k j - factor * mget a i j)) aug

/-- Elimination of column `i` from all rows `k = i+1 .. n-1`. -/
def eliminate (aug : List (List binary64)) (i n : Nat) : List (List binary64) :=
  (List.range' (i + 1) (n - (i + 1))).foldl (fun a k => eliminate_row a i k n) aug

/-- One iteration of the forward elimination loop of solve_linear_system. -/
def forward_step (n : Nat) (aug : List (List binary64)) (i : Nat) : List (List binary64) :=
  eliminate (swap_rows aug i (find_max_row aug i n)) i n

/-- The forward elimination loop of solve_linear_system (first `m` iterations). -/
def forward_elimination (aug : List (List binary64)) (n m : Nat) : List (List binary64) :=
  (List.range m).foldl (forward_step n) aug

/-- One iteration of back substitution, for row `i`. -/
def back_substitute_row (aug : List (List binary64)) (n : Nat) (x : List binary64) (i : Nat) :
    List binary64 :=
  let x1 := set1 x i (mget aug i n)
  let x2 := (List.range' (i + 1) (n - (i + 1))).foldl
    (fun x j => set1 x i (vget x i - mget aug i j * vget x j)) x1
  set1 x2 i (vget x2 i / mget aug i i)

/-- The back substitution loop `for i = n-1 .. 0`. -/
def back_substitution (aug : List (List binary64)) (n : Nat) (x : List binary64) :
    List binary64 :=
  (List.range n).reverse.foldl (back_substitute_row aug n) x

/-- The function solve_linear_system of polynomial.c in double arithmetic. -/
def solve_linear_system (A : List (List binary64)) (b : List binary64) (x : List binary64)
    (n : Nat) : List binary64 :=
  back_substitution (forward_elimination (build_aug A b n) n n) n x

/-- The design-matrix row of fit_polynomial for sample `i`. -/
def design_row (x1 x2 y : List binary64) (i : Nat) : List binary64 :=
  if (vget x1 i).isnan || (vget x2 i).isnan || (vget y i).isnan then
    (List.range 6).foldl (fun row j => set1 row j (binary64.of_int 0)) (malloc_double 6)
  else
    let row := set1 (malloc_double 6) 0 (lit 1)
    let row := set1 row 1 (vget x1 i)
    let row := set1 row 2 (vget x2 i)
    let row := set1 row 3 (vget x1 i * vget x1 i)
    let row := set1 row 4 (vget x2 i * vget x2 i)
    set1 row 5 (vget x1 i * vget x2 i)

/-- The normal matrix `XtX` of fit_polynomial: rows whose target is missing are skipped. -/
def poly_XtX (X : List (List binary64)) (y : List binary64) (n : Nat) : List (List binary64) :=
  (List.range 6).map (fun i => (List.range 6).map (fun j =>
    (List.range n).foldl
      (fun s k => if !(vget y k).isnan then s + mget X k i * mget X k j else s)
      (binary64.of_int 0)))

/-- The right-hand side `Xty` of fit_polynomial. -/
def poly_Xty (X : List (List binary64)) (y : List binary64) (n : Nat) : List binary64 :=
  (List.range 6).map (fun i =>
    (List.range n).foldl
      (fun s k => if !(vget y k).isnan then s + mget X k i * vget y k else s)
      (binary64.of_int 0))

/-- The function fit_polynomial of polynomial.c in double arithmetic. -/
def fit_polynomial (x1 x2 y : List binary64) (n : Nat) (coeffs : List binary64) :
    List binary64 :=
  let X := (List.range n).map (design_row x1 x2 y)
  solve_linear_system (poly_XtX X y n) (poly_Xty X y n) coeffs 6

/-- The function predict_polynomial of polynomial.c in double arithmetic. -/
def predict_polynomial (x1 x2 : binary64) (coeffs : List binary64) : binary64 :=
  vget coeffs 0 + vget coeffs 1 * x1 + vget coeffs 2 * x2 + vget coeffs 3 * x1 * x1
    + vget coeffs 4 * x2 * x2 + vget coeffs 5 * x1 * x2

/-- The accumulation loop of calculate_rmse: the pair `(sum, count)`. -/
def rmse_sums (pred actual : List binary64) (n : Nat) : binary64 × Int :=
  (List.range n).foldl
    (fun (acc : binary64 × Int) (i : Nat) =>
      if !(vget pred i).isnan && !(vget actual i).isnan then
        let diff := vget pred i - vget actual i
        (acc.1 + diff * diff, acc.2 + 1)
      else acc) (binary64.of_int 0, 0)

/-- The function calculate_rmse of polynomial.c in double arithmetic. -/
def calculate_rmse (pred actual : List binary64) (n : Nat) : binary64 :=
  let s := rmse_sums pred actual n
  if s.2 > 0 then binary64.sqrt (s.1 / binary64.of_int s.2) else INFINITY

/-- The mean loop of calculate_r2: the pair `(mean, count)` before the division. -/
def r2_mean_sums (actual : List binary64) (n : Nat) : binary64 × Int :=
  (List.range n).foldl
    (fun (acc : binary64 × Int) (i : Nat) =>
      if !(vget actual i).isnan then (acc.1 + vget actual i, acc.2 + 1) else acc)
    (binary64.of_int 0, 0)

/-- The second loop of calculate_r2: the pair `(ss_tot, ss_res)`. -/
def r2_sums (pred actual : List binary64) (n : Nat) : binary64 × binary64 :=
  let s := r2_mean_sums actual n
  let mean := s.1 / binary64.of_int s.2
  (List.range n).foldl
    (fun (acc : binary64 × binary64) (i : Nat) =>
      if !(vget pred i).isnan && !(vget actual i).isnan then
        (acc.1 + (vget actual i - mean) * (vget actual i - mean),
         acc.2 + (vget actual i - vget pred i) * (vget actual i - vget pred i))
      else acc) (binary64.of_int 0, binary64.of_int 0)

/-- The function calculate_r2 of polynomial.c in double arithmetic. -/
def calculate_r2 (pred actual : List binary64) (n : Nat) : binary64 :=
  let ss := r2_sums pred actual n
  lit 1 - ss.2 / ss.1

/-- The first statement of split_dataset in double arithmetic:
`n_train = (int)(ds->n_samples * train_ratio)`. -/
def split_n_train (n_samples : Nat) (train_ratio : binary64) : Option Int :=
  (binary64.of_int (n_samples : Int) * train_ratio).to_int

end ieee

namespace ieee

/-- Both `pred[i]` and `actual[i]` are present (not missing). -/
def both_present (pred actual : List binary64) (i : Nat) : Bool :=
  !(vget pred i).isnan && !(vget actual i).isnan

/-- The double `a` is a finite number within `tol` of `b`. -/
def binary64.near (a : binary64) (b tol : ℚ) : Prop :=
  match a with
  | binary64.finite s m => |binary64.signed s m - b| ≤ tol
  | _ => False

instance (a : binary64) (b tol : ℚ) : Decidable (binary64.near a b tol) := by
  cases a <;> unfold binary64.near <;> infer_instance

/-- An array of doubles given by decimal literals. -/
def vec (l : List ℚ) : List binary64 := l.map lit

end ieee

/-- A dataset of ten samples of one feature. -/
def ten_sample_data : dataset_t :=
  { data := mat [[0], [1], [2], [3], [4], [5], [6], [7], [8], [9]]
    target := vec [10, 11, 12, 13, 14, 15, 16, 17, 18, 19]
    n_samples := 10
    n_features := 1 }

/-! ## data.c -/

/-- The function split_dataset of data.c (the feature names, used only for printing,
are left out): the pair `(*train, *test)`.  The sample count of the training part is
computed in double arithmetic as the source does; each row is copied as `n_features`
entries.  The result is `none` when the conversion to int is undefined or a sample
count is negative, for which the allocation sizes make no sense. -/
def split_dataset (ds : dataset_t) (train_ratio : ieee.binary64) :
    Option (dataset_t × dataset_t) :=
  match ieee.split_n_train ds.n_samples train_ratio with
  | none => none
  | some n_train =>
    let n_test := (ds.n_samples : Int) - n_train
    if n_train < 0 ∨ n_test < 0 then none
    else
      some
        ({ n_samples := n_train.toNat
           n_features := ds.n_features
           data := (List.range n_train.toNat).map (fun i =>
             (List.range ds.n_features).map (fun j => mget ds.data i j))
           target := (List.range n_train.toNat).map (fun i => vget ds.target i) },
         { n_samples := n_test.toNat
           n_features := ds.n_features
           data := (List.range n_test.toNat).map (fun i =>
             (List.range ds.n_features).map (fun j => mget ds.data (n_train.toNat + i) j))
           target := (List.range n_test.toNat).map (fun i =>
             vget ds.target (n_train.toNat + i)) })

/-- The inner counting loop of linear_combinatorial_gmdh over the integers, that is
with no int overflow: `count = 1; for i < s: count = count * (F - i) / (i + 1)`
(division truncating toward zero). -/
def combination_count (F s : Nat) : Int :=
  (List.range s).foldl
    (fun (count : Int) (i : Nat) => Int.tdiv (count * ((F : Int) - (i : Int))) ((i : Int) + 1)) 1

/-- The value `total_combinations` over the integers, that is with no int overflow:
the number of elements allocated for the models array of linear_combinatorial_gmdh. -/
def total_combinations (train : dataset_t) (min_features max_features : Nat) : Int :=
  (List.range' min_features (max_features + 1 - min_features)).foldl
    (fun (total : Int) (s : Nat) => total + combination_count train.n_features s) 0

/-! # Theorems -/

/-! ## Double arithmetic: rounding -/

theorem bit_length_lt : ∀ (fuel n : Nat), n ≤ fuel → n < 2 ^ ieee.bit_length fuel n
  | 0, n, h => by
    have : n = 0 := by omega
    subst this
    simp [ieee.bit_length]
  | fuel + 1, n, h => by
    unfold ieee.bit_length
    split
    · omega
    · have ih := bit_length_lt fuel (n / 2) (by omega)
      rw [pow_succ]
      omega

theorem bit_length_le : ∀ (fuel n k : Nat), n < 2 ^ k → ieee.bit_length fuel n ≤ k
  | 0, _, _, _ => Nat.zero_le _
  | fuel + 1, n, k, h => by
    unfold ieee.bit_length
    split
    · omega
    · cases k with
      | zero =>
        rw [pow_zero] at h
        omega
      | succ k =>
        have ih := bit_length_le fuel (n / 2) k (by rw [pow_succ] at h; omega)
        omega

theorem two_pow_pos (e : Int) : 0 < ieee.two_pow e := by
  unfold ieee.two_pow
  split <;> positivity

theorem two_pow_natCast (k : Nat) : ieee.two_pow (k : Int) = 2 ^ k := by
  unfold ieee.two_pow
  rw [if_pos (by omega), Int.toNat_ofNat]

theorem two_pow_ge (e : Int) (K : Nat) (h : (K : Int) ≤ e) : (2 : ℚ) ^ K ≤ ieee.two_pow e := by
  unfold ieee.two_pow
  rw [if_pos (by omega)]
  exact pow_le_pow_right₀ (by norm_num) (by omega)

theorem two_pow_inv_nat (e : Int) (h : e ≤ 0) :
    ∃ N : Nat, 0 < N ∧ ieee.two_pow e = 1 / (N : ℚ) := by
  unfold ieee.two_pow
  by_cases h0 : 0 ≤ e
  · have : e = 0 := by omega
    subst this
    exact ⟨1, by norm_num, by simp⟩
  · rw [if_neg h0]
    exact ⟨2 ^ (-e).toNat, by positivity, by push_cast; rfl⟩

theorem floor_log2_le (m : ℚ) (K : Nat) (h0 : 0 < m) (hK : m < 2 ^ K) :
    ieee.floor_log2 m ≤ K := by
  have hnum : 0 < m.num := Rat.num_pos.mpr h0
  have hden := bit_length_lt m.den m.den (le_refl _)
  have hq : (m.num : ℚ) = m * m.den := (Rat.mul_den_eq_num m).symm
  have h1 : (m.num : ℚ) < 2 ^ K * (2 : ℚ) ^ ieee.bit_length m.den m.den := by
    rw [hq]
    have hd : (m.den : ℚ) < (2 : ℚ) ^ ieee.bit_length m.den m.den := by exact_mod_cast hden
    have hdpos : (0 : ℚ) < m.den := by exact_mod_cast m.den_pos
    calc m * m.den < 2 ^ K * m.den := mul_lt_mul_of_pos_right hK hdpos
      _ ≤ 2 ^ K * (2 : ℚ) ^ ieee.bit_length m.den m.den :=
          mul_le_mul_of_nonneg_left (le_of_lt hd) (by positivity)
  have h2 : m.num.natAbs < 2 ^ (K + ieee.bit_length m.den m.den) := by
    rw [pow_add]
    have hcast : ((m.num.natAbs : Nat) : ℚ) = (m.num : ℚ) := by
      rw [← Int.cast_natCast, Int.natAbs_of_nonneg (le_of_lt hnum)]
    rw [← hcast] at h1
    exact_mod_cast h1
  have h3 := bit_length_le m.num.natAbs m.num.natAbs _ h2
  unfold ieee.floor_log2
  simp only
  generalize hE : ((ieee.bit_length m.num.natAbs m.num.natAbs : Int)
    - (ieee.bit_length m.den m.den : Int)) = e0
  split
  · rename_i hle
    by_contra hc
    have := two_pow_ge e0 K (by omega)
    exact absurd (lt_of_le_of_lt (le_trans this hle) hK) (lt_irrefl _)
  · omega

theorem round_half_even_le (x : ℚ) (K : Int) (h : x ≤ K) : ieee.round_half_even x ≤ K := by
  have hf : ((Rat.floor x : Int) : ℚ) ≤ x := Rat.le_floor.mp (le_refl _)
  have hfK : Rat.floor x ≤ K := by exact_mod_cast le_trans hf h
  unfold ieee.round_half_even
  simp only
  split
  · exact hfK
  · rename_i h1
    have hlt : Rat.floor x < K := by
      rcases lt_or_eq_of_le hfK with h2 | h2
      · exact h2
      · exfalso
        apply h1
        have : x = (Rat.floor x : ℚ) := le_antisymm (by rw [h2]; exact h) hf
        rw [← this, sub_self]
        norm_num
    split
    · omega
    · split
      · exact hfK
      · omega

theorem le_round_half_even (x : ℚ) (K : Int) (h : (K : ℚ) ≤ x) : K ≤ ieee.round_half_even x := by
  have hf : K ≤ Rat.floor x := Rat.le_floor.mpr h
  unfold ieee.round_half_even
  simp only
  split
  · exact hf
  · split
    · omega
    · split
      · exact hf
      · omega

/-- Rounding keeps a magnitude between two whole numbers it lies between. -/
theorem round_mag_between (m : ℚ) (lo hi : Nat) (h0 : 0 ≤ m) (hlo : (lo : ℚ) ≤ m)
    (hhi : m ≤ (hi : ℚ)) (hbig : hi < 2 ^ 52) :
    ∃ q, ieee.round_mag m = some q ∧ (lo : ℚ) ≤ q ∧ q ≤ (hi : ℚ) := by
  unfold ieee.round_mag
  by_cases hm : m ≤ 0
  · rw [if_pos hm]
    have : m = 0 := le_antisymm hm h0
    subst this
    exact ⟨0, rfl, hlo, hhi⟩
  · rw [if_neg hm]
    have hpos : 0 < m := lt_of_not_ge hm
    have hlt : m < 2 ^ 52 := lt_of_le_of_lt hhi (by exact_mod_cast hbig)
    have he := floor_log2_le m 52 hpos hlt
    obtain ⟨N, hN, hulp⟩ := two_pow_inv_nat (max (ieee.floor_log2 m) (-1022) - 52)
      (by have : max (ieee.floor_log2 m) (-1022) ≤ 52 := max_le he (by norm_num)
          omega)
    simp only
    rw [hulp]
    have hNq : (0 : ℚ) < N := by exact_mod_cast hN
    have hdiv : m / (1 / (N : ℚ)) = m * N := by field_simp
    rw [hdiv]
    have h1 : ieee.round_half_even (m * N) ≤ ((hi * N : Nat) : Int) :=
      round_half_even_le _ _ (by push_cast; exact mul_le_mul_of_nonneg_right hhi (le_of_lt hNq))
    have h2 : ((lo * N : Nat) : Int) ≤ ieee.round_half_even (m * N) :=
      le_round_half_even _ _ (by push_cast; exact mul_le_mul_of_nonneg_right hlo (le_of_lt hNq))
    have h1q : (ieee.round_half_even (m * N) : ℚ) ≤ (hi : ℚ) * N := by exact_mod_cast h1
    have h2q : (lo : ℚ) * N ≤ (ieee.round_half_even (m * N) : ℚ) := by exact_mod_cast h2
    have hr1 : (ieee.round_half_even (m * N) : ℚ) * (1 / (N : ℚ)) ≤ hi := by
      rw [mul_one_div, div_le_iff₀ hNq]
      exact h1q
    have hr2 : (lo : ℚ) ≤ (ieee.round_half_even (m * N) : ℚ) * (1 / (N : ℚ)) := by
      rw [mul_one_div, le_div_iff₀ hNq]
      exact h2q
    have hbig2 : (hi : ℚ) < ieee.two_pow 1024 := by
      have h3 : (2 : ℚ) ^ 52 ≤ ieee.two_pow 1024 := two_pow_ge 1024 52 (by norm_num)
      have h4 : (hi : ℚ) < 2 ^ 52 := by exact_mod_cast hbig
      exact lt_of_lt_of_le h4 h3
    rw [if_pos (lt_of_le_of_lt hr1 hbig2)]
    exact ⟨_, rfl, hr2, hr1⟩

theorem rat_floor_eq (q : ℚ) : Rat.floor q = ⌊q⌋ := rfl

theorem toNat_cast_rat (z : Int) (h : 0 ≤ z) : ((z.toNat : Nat) : ℚ) = (z : ℚ) := by
  obtain ⟨k, rfl⟩ := Int.eq_ofNat_of_zero_le h
  simp

theorem of_int_mul_finite (n : Nat) (s : Bool) (r : ℚ) :
    ieee.binary64.of_int (n : Int) * ieee.binary64.finite s r = ieee.round s ((n : ℚ) * r) := by
  show ieee.binary64.mul (ieee.binary64.of_int (n : Int)) (ieee.binary64.finite s r) = _
  unfold ieee.binary64.of_int ieee.binary64.mul
  have h1 : decide ((n : Int) < 0) = false := by simp
  have h2 : |(n : Int)| = (n : Int) := abs_of_nonneg (by omega)
  rw [h1, h2]
  simp

/-- The sample count of the training part: the product `n * ratio` is rounded to a
double `q` and truncated; `q` lies between the floor and the ceiling of the exact
product. -/
theorem split_n_train_spec (n : Nat) (s : Bool) (r : ℚ) (hr0 : 0 ≤ r) (hr1 : r ≤ 1)
    (hs : s = true → r = 0) (hn : n < 2147483648) :
    ∃ q, ieee.round_mag ((n : ℚ) * r) = some q ∧
      ieee.split_n_train n (ieee.binary64.finite s r) = some ⌊q⌋ ∧
      ((⌊(n : ℚ) * r⌋ : Int) : ℚ) ≤ q ∧ q ≤ ((⌈(n : ℚ) * r⌉ : Int) : ℚ) ∧
      ⌈(n : ℚ) * r⌉ ≤ (n : Int) := by
  have hx0 : 0 ≤ (n : ℚ) * r := mul_nonneg (Nat.cast_nonneg _) hr0
  have hx1 : (n : ℚ) * r ≤ n := by
    have := mul_le_mul_of_nonneg_left hr1 (Nat.cast_nonneg (α := ℚ) n)
    rwa [mul_one] at this
  have hf0 : 0 ≤ ⌊(n : ℚ) * r⌋ := Int.floor_nonneg.mpr hx0
  have hc0 : 0 ≤ ⌈(n : ℚ) * r⌉ := Int.ceil_nonneg hx0
  have hcn : ⌈(n : ℚ) * r⌉ ≤ (n : Int) := Int.ceil_le.mpr (by exact_mod_cast hx1)
  have hlo : ((⌊(n : ℚ) * r⌋.toNat : Nat) : ℚ) ≤ (n : ℚ) * r := by
    rw [toNat_cast_rat _ hf0]
    exact Int.floor_le _
  have hhi : (n : ℚ) * r ≤ ((⌈(n : ℚ) * r⌉.toNat : Nat) : ℚ) := by
    rw [toNat_cast_rat _ hc0]
    exact Int.le_ceil _
  obtain ⟨q, hq, hq1, hq2⟩ := round_mag_between ((n : ℚ) * r) ⌊(n : ℚ) * r⌋.toNat
    ⌈(n : ℚ) * r⌉.toNat hx0 hlo hhi (by
      have : ⌈(n : ℚ) * r⌉.toNat ≤ n := by omega
      have h52 : (2147483648 : Nat) < 2 ^ 52 := by norm_num
      omega)
  rw [toNat_cast_rat _ hf0] at hq1
  rw [toNat_cast_rat _ hc0] at hq2
  refine ⟨q, hq, ?_, hq1, hq2, hcn⟩
  have hq0 : 0 ≤ q := le_trans (by exact_mod_cast hf0) hq1
  have hfq0 : 0 ≤ ⌊q⌋ := Int.floor_nonneg.mpr hq0
  have hfq1 : ⌊q⌋ ≤ ⌈(n : ℚ) * r⌉ := by
    have := Int.floor_le_floor hq2
    rwa [Int.floor_intCast] at this
  unfold ieee.split_n_train
  rw [of_int_mul_finite]
  unfold ieee.round
  rw [hq]
  simp only
  unfold ieee.binary64.to_int
  simp only
  rw [rat_floor_eq]
  have ht : (if s = true then -⌊q⌋ else ⌊q⌋) = ⌊q⌋ := by
    split
    · rename_i h
      have hr := hs h
      subst hr
      rw [mul_zero] at hq
      have : q = 0 := by
        unfold ieee.round_mag at hq
        rw [if_pos (le_refl _)] at hq
        exact (Option.some.inj hq).symm
      subst this
      simp
    · rfl
  rw [ht, if_pos ⟨by omega, by omega⟩]

/-! ## Double arithmetic: the score functions -/

theorem ieee_lit_one : ieee.lit 1 = ieee.binary64.finite false 1 := by decide!

theorem ieee_round_zero (s : Bool) : ieee.round s 0 = ieee.binary64.finite s 0 := by
  unfold ieee.round ieee.round_mag
  rw [if_pos (le_refl _)]

theorem ieee_add_finite (s t : Bool) (a b : ℚ) :
    ieee.binary64.finite s a + ieee.binary64.finite t b
      = if s = t then ieee.round s (a + b)
        else if b < a then ieee.round s (a - b)
        else if a < b then ieee.round t (b - a)
        else ieee.binary64.finite false 0 := rfl

theorem ieee_sub_finite (s t : Bool) (a b : ℚ) :
    ieee.binary64.finite s a - ieee.binary64.finite t b
      = ieee.binary64.finite s a + ieee.binary64.finite (!t) b := rfl

theorem ieee_mul_finite (s t : Bool) (a b : ℚ) :
    ieee.binary64.finite s a * ieee.binary64.finite t b = ieee.round (xor s t) (a * b) := rfl

theorem ieee_div_finite (s t : Bool) (a b : ℚ) :
    ieee.binary64.finite s a / ieee.binary64.finite t b
      = if b = 0 then (if a = 0 then ieee.binary64.nan else ieee.binary64.infinite (xor s t))
        else ieee.round (xor s t) (a / b) := rfl

theorem ieee_add_zero_zero :
    ieee.binary64.finite false 0 + ieee.binary64.finite false 0 = ieee.binary64.finite false 0 := by
  rw [ieee_add_finite, if_pos rfl, add_zero, ieee_round_zero]

theorem ieee_mul_zero_zero :
    ieee.binary64.finite false 0 * ieee.binary64.finite false 0 = ieee.binary64.finite false 0 := by
  rw [ieee_mul_finite, mul_zero]
  exact ieee_round_zero _

theorem ieee_sub_self (s : Bool) (m : ℚ) :
    ieee.binary64.finite s m - ieee.binary64.finite s m = ieee.binary64.finite false 0 := by
  rw [ieee_sub_finite, ieee_add_finite, if_neg (by cases s <;> decide), if_neg (lt_irrefl _),
    if_neg (lt_irrefl _)]

theorem ieee_of_int_zero : ieee.binary64.of_int 0 = ieee.binary64.finite false 0 := by decide!

/-- The count of calculate_rmse is the number of indices with both values present. -/
theorem ieee_rmse_count (pred actual : List ieee.binary64) :
    ∀ n, (ieee.rmse_sums pred actual n).2
      = (((List.range n).filter (ieee.both_present pred actual)).length : Int)
  | 0 => rfl
  | n + 1 => by
    have ih := ieee_rmse_count pred actual n
    unfold ieee.rmse_sums at ih ⊢
    rw [List.range_succ, List.foldl_append, List.filter_append, List.length_append]
    simp only [List.foldl_cons, List.foldl_nil]
    by_cases hb : ieee.both_present pred actual n = true
    · have hb2 := hb
      unfold ieee.both_present at hb2
      rw [if_pos hb2, List.filter_cons_of_pos hb]
      simp only [List.filter_nil, List.length_cons, List.length_nil]
      rw [ih]
      push_cast
      ring
    · have hb2 := hb
      unfold ieee.both_present at hb2
      rw [if_neg hb2, List.filter_cons_of_neg hb]
      simp only [List.filter_nil, List.length_nil]
      rw [ih]
      simp

theorem ieee_rmse_count_pos (pred actual : List ieee.binary64) (n : Nat) :
    0 < (ieee.rmse_sums pred actual n).2
      ↔ ∃ i, i < n ∧ (ieee.vget pred i).isnan = false ∧ (ieee.vget actual i).isnan = false := by
  rw [ieee_rmse_count]
  constructor
  · intro h
    have hpos : 0 < ((List.range n).filter (ieee.both_present pred actual)).length := by
      exact_mod_cast h
    obtain ⟨i, hi⟩ := List.exists_mem_of_length_pos hpos
    rw [List.mem_filter, List.mem_range] at hi
    have hb := hi.2
    unfold ieee.both_present at hb
    simp only [Bool.and_eq_true, Bool.not_eq_true'] at hb
    exact ⟨i, hi.1, hb.1, hb.2⟩
  · rintro ⟨i, hi, hp, ha⟩
    have hmem : i ∈ (List.range n).filter (ieee.both_present pred actual) := by
      rw [List.mem_filter, List.mem_range]
      refine ⟨hi, ?_⟩
      unfold ieee.both_present
      rw [hp, ha]
      rfl
    have := List.length_pos_of_mem hmem
    exact_mod_cast this

theorem ieee_sqrt_finite (s : Bool) (m : ℚ) :
    ieee.binary64.sqrt (ieee.binary64.finite s m)
      = if m = 0 then ieee.binary64.finite s 0
        else if s then ieee.binary64.nan else ieee.binary64.finite false (ieee.sqrt_mag m) := rfl

theorem ieee_sqrt_eq_infinity (x : ieee.binary64) :
    ieee.binary64.sqrt x = ieee.INFINITY ↔ x = ieee.binary64.infinite false := by
  unfold ieee.INFINITY
  cases x with
  | nan => simp [ieee.binary64.sqrt]
  | infinite s => cases s <;> simp [ieee.binary64.sqrt]
  | finite s m =>
    rw [ieee_sqrt_finite]
    constructor
    · intro h
      split at h
      · exact absurd h (by simp)
      · split at h <;> exact absurd h (by simp)
    · intro h
      exact absurd h (by simp)

/-- When calculate_rmse returns +infinity in double arithmetic: with no valid pair, or
with a mean of squares that is itself +infinity. -/
theorem ieee_calculate_rmse_infinity (pred actual : List ieee.binary64) (n : Nat) :
    ieee.calculate_rmse pred actual n = ieee.INFINITY
      ↔ (¬ ∃ i, i < n ∧ (ieee.vget pred i).isnan = false ∧ (ieee.vget actual i).isnan = false)
        ∨ (ieee.rmse_sums pred actual n).1
            / ieee.binary64.of_int (ieee.rmse_sums pred actual n).2
          = ieee.binary64.infinite false := by
  unfold ieee.calculate_rmse
  simp only
  by_cases hc : (ieee.rmse_sums pred actual n).2 > 0
  · rw [if_pos hc, ieee_sqrt_eq_infinity]
    have hex := (ieee_rmse_count_pos pred actual n).mp hc
    constructor
    · exact fun h => Or.inr h
    · rintro (h | h)
      · exact absurd hex h
      · exact h
  · rw [if_neg hc]
    have hno : ¬ ∃ i, i < n ∧ (ieee.vget pred i).isnan = false
        ∧ (ieee.vget actual i).isnan = false :=
      fun h => hc ((ieee_rmse_count_pos pred actual n).mpr h)
    exact ⟨fun _ => Or.inl hno, fun _ => rfl⟩

/-- When pred and actual hold the same finite value wherever both are present, the sum
of squares of calculate_rmse is +0. -/
theorem ieee_rmse_sum_zero (pred actual : List ieee.binary64)
    (hag : ∀ i, ieee.both_present pred actual i = true →
      ∃ s m, ieee.vget pred i = ieee.binary64.finite s m
        ∧ ieee.vget actual i = ieee.binary64.finite s m) :
    ∀ n, (ieee.rmse_sums pred actual n).1 = ieee.binary64.finite false 0
  | 0 => ieee_of_int_zero
  | n + 1 => by
    have ih := ieee_rmse_sum_zero pred actual hag n
    unfold ieee.rmse_sums at ih ⊢
    rw [List.range_succ, List.foldl_append]
    simp only [List.foldl_cons, List.foldl_nil]
    by_cases hb : ieee.both_present pred actual n = true
    · obtain ⟨s, m, hp, ha⟩ := hag n hb
      have hb2 := hb
      unfold ieee.both_present at hb2
      rw [if_pos hb2]
      simp only
      rw [ih, hp, ha, ieee_sub_self, ieee_mul_zero_zero, ieee_add_zero_zero]
    · have hb2 := hb
      unfold ieee.both_present at hb2
      rw [if_neg hb2]
      exact ih

/-- In double arithmetic too, calculate_rmse returns 0 when pred and actual hold the
same finite values wherever both are present, and there is such an index. -/
theorem ieee_calculate_rmse_zero_of_agree (pred actual : List ieee.binary64) (n : Nat)
    (hex : ∃ i, i < n ∧ (ieee.vget pred i).isnan = false ∧ (ieee.vget actual i).isnan = false)
    (hag : ∀ i, ieee.both_present pred actual i = true →
      ∃ s m, ieee.vget pred i = ieee.binary64.finite s m
        ∧ ieee.vget actual i = ieee.binary64.finite s m) :
    ieee.calculate_rmse pred actual n = ieee.binary64.finite false 0 := by
  have hc := (ieee_rmse_count_pos pred actual n).mpr hex
  unfold ieee.calculate_rmse
  simp only
  rw [if_pos hc, ieee_rmse_sum_zero pred actual hag n]
  generalize (ieee.rmse_sums pred actual n).2 = c at hc
  have hdiv : ieee.binary64.finite false 0 / ieee.binary64.of_int c
      = ieee.binary64.finite false 0 := by
    unfold ieee.binary64.of_int
    have h2 : ((|c| : Int) : ℚ) ≠ 0 := by
      have : |c| ≠ 0 := by rw [abs_ne_zero]; omega
      exact_mod_cast this
    rw [ieee_div_finite, if_neg h2, zero_div]
    have h1 : decide (c < 0) = false := by simp; omega
    rw [h1]
    exact ieee_round_zero _
  rw [hdiv, ieee_sqrt_finite, if_pos rfl]

theorem ieee_round_one : ieee.round false 1 = ieee.binary64.finite false 1 := by decide!

theorem ieee_one_sub_signed_zero (t : Bool) :
    ieee.binary64.finite false 1 - ieee.binary64.finite t 0 = ieee.binary64.finite false 1 := by
  rw [ieee_sub_finite, ieee_add_finite]
  cases t
  · rw [if_neg (by decide), if_pos (by norm_num), sub_zero, ieee_round_one]
  · rw [if_pos (by decide), add_zero, ieee_round_one]

/-- The value `1.0 - 0 / ss_tot`: 1 unless `ss_tot` is a zero or not a number. -/
theorem ieee_one_sub_zero_div (T : ieee.binary64) :
    ieee.lit 1 - ieee.binary64.finite false 0 / T
      = if T = ieee.binary64.nan ∨ ∃ t, T = ieee.binary64.finite t 0 then ieee.binary64.nan
        else ieee.binary64.finite false 1 := by
  rw [ieee_lit_one]
  cases T with
  | nan =>
    rw [if_pos (Or.inl rfl)]
    rfl
  | infinite t =>
    rw [if_neg (by simp)]
    exact ieee_one_sub_signed_zero _
  | finite t b =>
    rw [ieee_div_finite]
    by_cases hb : b = 0
    · subst hb
      rw [if_pos rfl, if_pos rfl, if_pos (Or.inr ⟨t, rfl⟩)]
      rfl
    · rw [if_neg hb, zero_div, ieee_round_zero, ieee_one_sub_signed_zero, if_neg]
      rintro (h | ⟨t2, h⟩)
      · exact absurd h (by simp)
      · exact hb (by injection h)

theorem ieee_r2_fold_res (a : List ieee.binary64) (mean : ieee.binary64) :
    ∀ (L : List Nat) (acc : ieee.binary64 × ieee.binary64),
      (∀ i ∈ L, ∃ s m, ieee.vget a i = ieee.binary64.finite s m) →
      acc.2 = ieee.binary64.finite false 0 →
      (L.foldl
        (fun (acc : ieee.binary64 × ieee.binary64) (i : Nat) =>
          if (!(ieee.vget a i).isnan && !(ieee.vget a i).isnan) = true then
            (acc.1 + (ieee.vget a i - mean) * (ieee.vget a i - mean),
             acc.2 + (ieee.vget a i - ieee.vget a i) * (ieee.vget a i - ieee.vget a i))
          else acc) acc).2 = ieee.binary64.finite false 0
  | [], _, _, h => h
  | i :: L, acc, hfin, h => by
    rw [List.foldl_cons]
    refine ieee_r2_fold_res a mean L _ (fun j hj => hfin j (List.mem_cons_of_mem _ hj)) ?_
    obtain ⟨s, m, hi⟩ := hfin i (List.mem_cons_self _ _)
    rw [hi]
    have hp : (!(ieee.binary64.finite s m).isnan && !(ieee.binary64.finite s m).isnan) = true :=
      rfl
    rw [if_pos hp]
    simp only
    rw [h, ieee_sub_self, ieee_mul_zero_zero, ieee_add_zero_zero]

/-- In double arithmetic, for a sequence of finite values scored against itself the
residual sum of squares is +0, and the result is 1 unless the total sum of squares
the function computes is a zero or not a number, in which case it is not a number. -/
theorem ieee_calculate_r2_self (a : List ieee.binary64) (n : Nat)
    (hfin : ∀ i, i < n → ∃ s m, ieee.vget a i = ieee.binary64.finite s m) :
    (ieee.r2_sums a a n).2 = ieee.binary64.finite false 0 ∧
    ieee.calculate_r2 a a n
      = (if (ieee.r2_sums a a n).1 = ieee.binary64.nan
            ∨ ∃ t, (ieee.r2_sums a a n).1 = ieee.binary64.finite t 0
          then ieee.binary64.nan else ieee.binary64.finite false 1) := by
  have hres : (ieee.r2_sums a a n).2 = ieee.binary64.finite false 0 := by
    unfold ieee.r2_sums
    simp only
    exact ieee_r2_fold_res a _ (List.range n) _
      (fun i hi => hfin i (List.mem_range.mp hi)) ieee_of_int_zero
  refine ⟨hres, ?_⟩
  unfold ieee.calculate_r2
  simp only
  rw [hres]
  exact ieee_one_sub_zero_div _

/-! ## Double arithmetic: the examples -/

set_option maxRecDepth 100000 in
theorem ieee_rmse_overflow :
    ieee.calculate_rmse [ieee.lit ((10 : ℚ) ^ 200)] [ieee.lit 0] 1 = ieee.INFINITY := by
  decide!

set_option maxRecDepth 100000 in
theorem ieee_rmse_underflow :
    ieee.calculate_rmse [ieee.lit (1 / (10 : ℚ) ^ 200)] [ieee.lit 0] 1
      = ieee.binary64.finite false 0 := by
  decide!

set_option maxRecDepth 100000 in
theorem ieee_rmse_example :
    ieee.calculate_rmse (ieee.vec [1, 2, 3, 4]) (ieee.vec [11 / 10, 21 / 10, 29 / 10, 42 / 10]) 4
      = ieee.binary64.finite false (4766161847450201 / 36028797018963968) := by
  decide!

set_option maxRecDepth 100000 in
theorem ieee_r2_example_same :
    ieee.calculate_r2 (ieee.vec [1, 2, 3, 4]) (ieee.vec [1, 2, 3, 4]) 4
      = ieee.binary64.finite false 1 := by
  decide!

set_option maxRecDepth 100000 in
theorem ieee_r2_underflow :
    ieee.calculate_r2 (ieee.vec [0, 1 / 10 ^ 170]) (ieee.vec [0, 1 / 10 ^ 170]) 2
      = ieee.binary64.nan := by
  decide!

set_option maxRecDepth 100000 in
theorem ieee_r2_underflow_data :
    ieee.vec [0, 1 / 10 ^ 170]
      = [ieee.binary64.finite false 0,
         ieee.binary64.finite false (5438853046443695 / 2 ^ 617)] := by
  decide!

set_option maxRecDepth 100000 in
theorem ieee_r2_example_constant :
    ieee.calculate_r2 (ieee.vec [1, 1, 1, 1]) (ieee.vec [1, 2, 3, 4]) 4
      = ieee.binary64.finite true (2026619832316723 / 1125899906842624) := by
  decide!

set_option maxRecDepth 100000 in
theorem ieee_r2_rounded_mean :
    ieee.calculate_r2 (ieee.vec [1 / 10, 1 / 10, 1 / 10]) (ieee.vec [0, 0, 3 / 10]) 3
      = ieee.binary64.finite false (1 / 9007199254740992) := by
  decide!

set_option maxRecDepth 100000 in
theorem ieee_fit_five_samples :
    ieee.fit_polynomial (ieee.vec [1, 2, 3, 4, 5]) (ieee.vec [1, 1, 2, 2, 3])
        (ieee.vec [9, 12, 17, 20, 25]) 5 (ieee.malloc_double 6)
      = [ieee.binary64.finite false (4503599627376603 / 1125899906842624),
         ieee.binary64.finite false (817573698801599 / 70368744177664),
         ieee.binary64.finite true (2144394888364103 / 140737488355328),
         ieee.binary64.finite false (2425869865071713 / 281474976710656),
         ieee.binary64.finite false (4851739730144877 / 140737488355328),
         ieee.binary64.finite true (2425869865072093 / 70368744177664)] := by
  decide!

set_option maxRecDepth 100000 in
theorem ieee_fit_one_sample :
    ieee.fit_polynomial (ieee.vec [1]) (ieee.vec [1]) (ieee.vec [1]) 1 (ieee.malloc_double 6)
      = List.replicate 6 ieee.binary64.nan := by
  decide!

set_option maxRecDepth 100000 in
theorem ieee_split_ten :
    (split_dataset ten_sample_data (ieee.lit (7 / 10))).map
        (fun p => (p.1.n_samples, p.2.n_samples)) = some (7, 3) := by
  decide!

set_option maxRecDepth 100000 in
theorem ieee_lit_seven_tenths :
    ieee.lit (7 / 10) = ieee.binary64.finite false (3152519739159347 / 4503599627370496) := by
  decide!


/-! ## The exchange sort: permutation, order and stability -/

section sort
variable {α : Type}

theorem bubble_pass_perm (gt : α → α → Bool) :
    ∀ (m : Nat) (l : List α), (bubble_pass gt m l).Perm l
  | 0, l => by simp [bubble_pass]
  | _ + 1, [] => by simp [bubble_pass]
  | _ + 1, [a] => by simp [bubble_pass]
  | m + 1, a :: b :: t => by
    unfold bubble_pass
    split
    · exact ((bubble_pass_perm gt m (a :: t)).cons b).trans (List.Perm.swap a b t)
    · exact (bubble_pass_perm gt m (b :: t)).cons a

theorem bubble_pass_length (gt : α → α → Bool) (m : Nat) (l : List α) :
    (bubble_pass gt m l).length = l.length :=
  (bubble_pass_perm gt m l).length_eq

theorem bubble_pass_append (gt : α → α → Bool) :
    ∀ (m : Nat) (p q : List α), m < p.length →
      bubble_pass gt m (p ++ q) = bubble_pass gt m p ++ q
  | 0, p, q, _ => by simp [bubble_pass]
  | _ + 1, [], _, h => by simp at h
  | _ + 1, [a], _, h => by simp at h
  | m + 1, a :: b :: t, q, h => by
    have h1 : m < (a :: t).length := by simpa using h
    have h2 : m < (b :: t).length := by simpa using h
    have e1 := bubble_pass_append gt m (a :: t) q h1
    have e2 := bubble_pass_append gt m (b :: t) q h2
    simp only [List.cons_append] at e1 e2 ⊢
    unfold bubble_pass
    split
    · simp [e1]
    · simp [e2]

/-- A pass over all adjacent positions of a non-empty list brings a maximum to the end. -/
theorem bubble_pass_last (gt : α → α → Bool) (le : α → α → Prop)
    (hrefl : ∀ a, le a a) (htrans : ∀ a b c, le a b → le b c → le a c)
    (hgt : ∀ a b, gt a b = true → le b a) (hngt : ∀ a b, gt a b = false → le a b) :
    ∀ (t : List α) (a : α), ∃ p mx, bubble_pass gt t.length (a :: t) = p ++ [mx] ∧
      ∀ x ∈ p, le x mx
  | [], a => ⟨[], a, by simp [bubble_pass], by simp⟩
  | b :: t, a => by
    by_cases hab : gt a b = true
    · obtain ⟨p, mx, hp, hle⟩ := bubble_pass_last gt le hrefl htrans hgt hngt t a
      refine ⟨b :: p, mx, ?_, ?_⟩
      · simp [bubble_pass, hab, hp]
      · have ha : a ∈ p ++ [mx] := by
          rw [← hp]; exact (bubble_pass_perm gt _ _).mem_iff.mpr (by simp)
        have hamx : le a mx := by
          rcases List.mem_append.mp ha with h | h
          · exact hle a h
          · simp at h; subst h; exact hrefl _
        intro x hx
        rcases List.mem_cons.mp hx with h | h
        · subst h; exact htrans _ _ _ (hgt _ _ hab) hamx
        · exact hle x h
    · have hab' : gt a b = false := by simpa using hab
      obtain ⟨p, mx, hp, hle⟩ := bubble_pass_last gt le hrefl htrans hgt hngt t b
      refine ⟨a :: p, mx, ?_, ?_⟩
      · simp [bubble_pass, hab', hp]
      · have hb : b ∈ p ++ [mx] := by
          rw [← hp]; exact (bubble_pass_perm gt _ _).mem_iff.mpr (by simp)
        have hbmx : le b mx := by
          rcases List.mem_append.mp hb with h | h
          · exact hle b h
          · simp at h; subst h; exact hrefl _
        intro x hx
        rcases List.mem_cons.mp hx with h | h
        · subst h; exact htrans _ _ _ (hngt _ _ hab') hbmx
        · exact hle x h

theorem bubble_passes_succ (gt : α → α → Bool) (n k : Nat) (l : List α) :
    bubble_passes gt n (k + 1) l = bubble_pass gt (n - k - 1) (bubble_passes gt n k l) := by
  simp [bubble_passes, List.range_succ, List.foldl_append]

theorem bubble_passes_perm (gt : α → α → Bool) (n : Nat) :
    ∀ (k : Nat) (l : List α), (bubble_passes gt n k l).Perm l
  | 0, l => by simp [bubble_passes]
  | k + 1, l => by
    rw [bubble_passes_succ]
    exact (bubble_pass_perm gt _ _).trans (bubble_passes_perm gt n k l)

theorem bubble_sort_perm (gt : α → α → Bool) (l : List α) : (bubble_sort gt l).Perm l :=
  bubble_passes_perm gt l.length (l.length - 1) l

theorem bubble_sort_length (gt : α → α → Bool) (l : List α) :
    (bubble_sort gt l).length = l.length :=
  (bubble_sort_perm gt l).length_eq

/-- After `k` passes the last `k` entries are in their final, ordered place. -/
theorem bubble_passes_inv (gt : α → α → Bool) (le : α → α → Prop)
    (hrefl : ∀ a, le a a) (htrans : ∀ a b c, le a b → le b c → le a c)
    (hgt : ∀ a b, gt a b = true → le b a) (hngt : ∀ a b, gt a b = false → le a b)
    (l : List α) :
    ∀ k, k + 1 ≤ l.length → ∃ p q, bubble_passes gt l.length k l = p ++ q ∧ q.length = k ∧
      q.Pairwise le ∧ ∀ x ∈ p, ∀ y ∈ q, le x y
  | 0, _ => ⟨l, [], by simp [bubble_passes], rfl, List.Pairwise.nil, by simp⟩
  | k + 1, hk => by
    obtain ⟨p, q, hpq, hq, hsorted, hle⟩ :=
      bubble_passes_inv gt le hrefl htrans hgt hngt l k (by omega)
    have hlen : p.length + q.length = l.length := by
      have := (bubble_passes_perm gt l.length k l).length_eq
      rw [hpq, List.length_append] at this
      exact this
    have hp : p.length = l.length - k := by omega
    cases p with
    | nil => simp at hp; omega
    | cons a t =>
      have ht : t.length = l.length - k - 1 := by simp at hp; omega
      obtain ⟨p', mx, hp', hmx⟩ := bubble_pass_last gt le hrefl htrans hgt hngt t a
      have hstep : bubble_passes gt l.length (k + 1) l = p' ++ mx :: q := by
        rw [bubble_passes_succ, hpq, bubble_pass_append gt _ _ _ (by simp; omega), ← ht, hp']
        simp
      have hperm : (p' ++ [mx]).Perm (a :: t) := by
        rw [← hp']; exact bubble_pass_perm gt _ _
      refine ⟨p', mx :: q, hstep, by simp [hq], ?_, ?_⟩
      · refine List.Pairwise.cons ?_ hsorted
        intro y hy
        exact hle mx (hperm.mem_iff.mp (by simp)) y hy
      · intro x hx y hy
        rcases List.mem_cons.mp hy with h | h
        · subst h; exact hmx x hx
        · exact hle x (hperm.mem_iff.mp (by simp [hx])) y h

/-- The exchange sort returns an ordered list, for any total preorder whose
strict part is the comparison used by the sort. -/
theorem bubble_sort_sorted (gt : α → α → Bool) (le : α → α → Prop)
    (hrefl : ∀ a, le a a) (htrans : ∀ a b c, le a b → le b c → le a c)
    (hgt : ∀ a b, gt a b = true → le b a) (hngt : ∀ a b, gt a b = false → le a b)
    (l : List α) : (bubble_sort gt l).Pairwise le := by
  cases hl : l.length with
  | zero =>
    have : l = [] := List.length_eq_zero.mp hl
    subst this
    simp [bubble_sort]
  | succ n =>
    obtain ⟨p, q, hpq, hq, hsorted, hle⟩ :=
      bubble_passes_inv gt le hrefl htrans hgt hngt l n (by omega)
    have hbs : bubble_sort gt l = p ++ q := by
      rw [← hpq]; simp [bubble_sort, bubble_passes, hl]
    rw [hbs]
    have hlen : p.length + q.length = l.length := by
      have := (bubble_sort_perm gt l).length_eq
      rw [hbs, List.length_append] at this
      exact this
    have hp1 : p.length = 1 := by omega
    match p, hp1 with
    | [a], _ =>
      exact List.Pairwise.cons (fun y hy => hle a (by simp) y hy) hsorted

/-- A pass never exchanges two entries with the same key, so for every key the
entries carrying it keep their relative order. -/
theorem bubble_pass_filter {κ : Type} [DecidableEq κ] (gt : α → α → Bool) (key : α → κ)
    (hkey : ∀ a b, gt a b = true → key a ≠ key b) (e : κ) :
    ∀ (m : Nat) (l : List α),
      (bubble_pass gt m l).filter (fun x => decide (key x = e))
        = l.filter (fun x => decide (key x = e))
  | 0, l => by simp [bubble_pass]
  | _ + 1, [] => by simp [bubble_pass]
  | _ + 1, [a] => by simp [bubble_pass]
  | m + 1, a :: b :: t => by
    unfold bubble_pass
    split
    · rename_i hab
      have hne := hkey a b hab
      have ih := bubble_pass_filter gt key hkey e m (a :: t)
      by_cases ha : key a = e
      · have hb : key b ≠ e := fun hb => hne (ha.trans hb.symm)
        simp [List.filter_cons, ha, hb] at ih ⊢
        exact ih
      · by_cases hb : key b = e
        · simp [List.filter_cons, ha, hb] at ih ⊢
          exact ih
        · simp [List.filter_cons, ha, hb] at ih ⊢
          exact ih
    · have ih := bubble_pass_filter gt key hkey e m (b :: t)
      by_cases ha : key a = e <;> simp [List.filter_cons, ha] at ih ⊢ <;> exact ih

theorem bubble_sort_filter {κ : Type} [DecidableEq κ] (gt : α → α → Bool) (key : α → κ)
    (hkey : ∀ a b, gt a b = true → key a ≠ key b) (e : κ) (l : List α) :
    (bubble_sort gt l).filter (fun x => decide (key x = e))
      = l.filter (fun x => decide (key x = e)) := by
  have h : ∀ k, (bubble_passes gt l.length k l).filter (fun x => decide (key x = e))
      = l.filter (fun x => decide (key x = e)) := by
    intro k
    induction k with
    | zero => simp [bubble_passes]
    | succ k ih => rw [bubble_passes_succ, bubble_pass_filter gt key hkey e, ih]
  exact h (l.length - 1)

end sort

theorem rmse_le_refl (a : rmse_t) : rmse_t.le a a := by cases a <;> simp [rmse_t.le]

theorem rmse_le_trans (a b c : rmse_t) : rmse_t.le a b → rmse_t.le b c → rmse_t.le a c := by
  cases a <;> cases b <;> cases c <;> simp [rmse_t.le]
  exact fun h1 h2 => le_trans h1 h2

theorem rmse_le_of_gt (a b : rmse_t) : rmse_t.gt a b = true → rmse_t.le b a := by
  cases a <;> cases b <;> simp [rmse_t.le, rmse_t.gt]
  exact fun h => h.le

theorem rmse_le_of_not_gt (a b : rmse_t) : rmse_t.gt a b = false → rmse_t.le a b := by
  cases a <;> cases b <;> simp [rmse_t.le, rmse_t.gt]

theorem rmse_ne_of_gt (a b : rmse_t) : rmse_t.gt a b = true → a ≠ b := by
  cases a <;> cases b <;> simp [rmse_t.gt]
  exact fun h => h.ne'

theorem foldl_append_singleton {α β : Type} (g : α → β) (L : List α) (init : List β) :
    L.foldl (fun acc x => acc ++ [g x]) init = init ++ L.map g := by
  induction L generalizing init with
  | nil => simp
  | cons a t ih => simp [ih]

theorem foldl_append_flatMap {α β : Type} (g : α → List β) (L : List α) (init : List β) :
    L.foldl (fun acc x => acc ++ g x) init = init ++ L.flatMap g := by
  induction L generalizing init with
  | nil => simp
  | cons a t ih => simp [ih]

theorem model_pair_fit_pair (train valid : dataset_t) (i j : Nat) :
    model_pair (fit_pair train valid i j) = (i, j) := rfl

/-- Closed form of the nested pair loops. -/
theorem combinatorial_models_eq (train valid : dataset_t) :
    combinatorial_models train valid =
      (List.range train.n_features).flatMap (fun i =>
        (List.range' (i + 1) (train.n_features - (i + 1))).map (fit_pair train valid i)) := by
  unfold combinatorial_models
  simp only [foldl_append_singleton]
  rw [foldl_append_flatMap]
  simp

theorem mem_combinatorial_models (train valid : dataset_t) (m : polynomial_model_t) :
    m ∈ combinatorial_models train valid ↔
      ∃ i j, i < j ∧ j < train.n_features ∧ m = fit_pair train valid i j := by
  rw [combinatorial_models_eq]
  simp only [List.mem_flatMap, List.mem_range, List.mem_map, List.mem_range']
  constructor
  · rintro ⟨i, hi, j, ⟨d, hd, rfl⟩, rfl⟩
    exact ⟨i, i + 1 + 1 * d, by omega, by omega, rfl⟩
  · rintro ⟨i, j, hij, hj, rfl⟩
    exact ⟨i, by omega, j, ⟨j - (i + 1), by omega, by omega⟩, rfl⟩

theorem combinatorial_models_pairwise (train valid : dataset_t) :
    (combinatorial_models train valid).Pairwise (fun a b => pair_lt (model_pair a) (model_pair b)) := by
  rw [combinatorial_models_eq]
  rw [List.pairwise_flatMap]
  refine ⟨?_, ?_⟩
  · intro i _
    rw [List.pairwise_map]
    have h := List.pairwise_lt_range' (i + 1) (train.n_features - (i + 1))
    refine h.imp ?_
    intro a b hab
    rw [model_pair_fit_pair, model_pair_fit_pair]
    exact Or.inr ⟨rfl, hab⟩
  · have h := List.pairwise_lt_range train.n_features
    refine h.imp ?_
    intro a b hab x hx y hy
    simp only [List.mem_map] at hx hy
    obtain ⟨_, _, rfl⟩ := hx
    obtain ⟨_, _, rfl⟩ := hy
    rw [model_pair_fit_pair, model_pair_fit_pair]
    exact Or.inl hab

theorem sum_range_sub (F : Nat) :
    ((List.range F).map (fun i => F - (i + 1))).sum = F * (F - 1) / 2 := by
  have h1 : ((List.range F).map (fun i => F - (i + 1))).sum
      = ∑ i in Finset.range F, (F - 1 - i) := by
    have : ∀ (f : Nat → Nat) (n : Nat), ((List.range n).map f).sum = ∑ i in Finset.range n, f i := by
      intro f n
      induction n with
      | zero => simp
      | succ n ih => simp [List.range_succ, Finset.sum_range_succ, ih]
    rw [this]
    exact Finset.sum_congr rfl (fun i _ => by omega)
  rw [h1, Finset.sum_range_reflect (fun i => i) F, Finset.sum_range_id]

theorem combinatorial_models_length (train valid : dataset_t) :
    (combinatorial_models train valid).length = train.n_features * (train.n_features - 1) / 2 := by
  rw [combinatorial_models_eq, List.length_flatMap]
  simp only [List.length_map, List.length_range', Function.comp_def]
  exact sum_range_sub _

theorem combinatorial_gmdh_perm (train valid : dataset_t) :
    (combinatorial_gmdh train valid).1.Perm (combinatorial_models train valid) :=
  bubble_sort_perm _ _

theorem combinatorial_gmdh_sorted (train valid : dataset_t) :
    (combinatorial_gmdh train valid).1.Pairwise error_le :=
  bubble_sort_sorted _ error_le (fun _ => rmse_le_refl _) (fun _ _ _ => rmse_le_trans _ _ _)
    (fun _ _ => rmse_le_of_gt _ _) (fun _ _ => rmse_le_of_not_gt _ _) _

theorem combinatorial_gmdh_stable (train valid : dataset_t) :
    (combinatorial_gmdh train valid).1.Pairwise
      (fun a b => a.error = b.error → pair_lt (model_pair a) (model_pair b)) := by
  have hfilter : ∀ e : rmse_t,
      ((combinatorial_gmdh train valid).1.filter (fun x => decide (x.error = e))).Pairwise
        (fun a b => pair_lt (model_pair a) (model_pair b)) := by
    intro e
    have h := bubble_sort_filter (fun a b : polynomial_model_t => rmse_t.gt a.error b.error)
      (fun m => m.error) (fun _ _ => rmse_ne_of_gt _ _) e (combinatorial_models train valid)
    show ((bubble_sort _ (combinatorial_models train valid)).filter _).Pairwise _
    rw [h]
    exact (combinatorial_models_pairwise train valid).filter _
  rw [List.pairwise_iff_getElem]
  intro a b ha hb hab heq
  have h := hfilter ((combinatorial_gmdh train valid).1[b]).error
  rw [List.pairwise_filter, List.pairwise_iff_getElem] at h
  exact h a b ha hb hab (by simpa using heq) (by simp)

theorem pair_lt_irrefl (p : Nat × Nat) : ¬ pair_lt p p := by
  unfold pair_lt; omega

theorem pair_lt_asymm (p q : Nat × Nat) : pair_lt p q → ¬ pair_lt q p := by
  unfold pair_lt; omega

/-- C1: combinatorial_gmdh stores in `*n_models` exactly C(F,2) = F*(F-1)/2, and the
returned sorted list, of that length, holds every pair (feature1, feature2) with
0 <= feature1 < feature2 < F exactly once and nothing else. -/
theorem C1_combinatorial_gmdh_all_pairs_once (train valid : dataset_t)
    (hF : 2 ≤ train.n_features) :
    (combinatorial_gmdh train valid).2 = Nat.choose train.n_features 2 ∧
    (combinatorial_gmdh train valid).2 = train.n_features * (train.n_features - 1) / 2 ∧
    (combinatorial_gmdh train valid).1.length = (combinatorial_gmdh train valid).2 ∧
    (∀ m ∈ (combinatorial_gmdh train valid).1,
      m.feature1 < m.feature2 ∧ m.feature2 < train.n_features) ∧
    ((combinatorial_gmdh train valid).1.map model_pair).Nodup ∧
    ∀ i j, i < j → j < train.n_features →
      (i, j) ∈ (combinatorial_gmdh train valid).1.map model_pair := by
  have hlen : (combinatorial_gmdh train valid).2 =
      train.n_features * (train.n_features - 1) / 2 := combinatorial_models_length train valid
  have _ := hF
  have hperm := (combinatorial_gmdh_perm train valid).map model_pair
  refine ⟨by rw [hlen, Nat.choose_two_right], hlen, ?_, ?_, ?_, ?_⟩
  · exact (combinatorial_gmdh_perm train valid).length_eq
  · intro m hm
    have hm' := (combinatorial_gmdh_perm train valid).mem_iff.mp hm
    obtain ⟨i, j, hij, hj, rfl⟩ := (mem_combinatorial_models train valid m).mp hm'
    exact ⟨hij, hj⟩
  · rw [hperm.nodup_iff, List.Nodup, List.pairwise_map]
    refine (combinatorial_models_pairwise train valid).imp ?_
    intro a b hab heq
    rw [heq] at hab
    exact pair_lt_irrefl _ hab
  · intro i j hij hj
    rw [hperm.mem_iff, List.mem_map]
    exact ⟨fit_pair train valid i j,
      (mem_combinatorial_models train valid _).mpr ⟨i, j, hij, hj, rfl⟩, rfl⟩

theorem C1_witness :
    2 ≤ sample_data.n_features ∧ (combinatorial_gmdh sample_data sample_data).2 = 3 ∧
      (1, 2) ∈ (combinatorial_gmdh sample_data sample_data).1.map model_pair :=
  ⟨by decide, (C1_combinatorial_gmdh_all_pairs_once sample_data sample_data (by decide)).1,
    (C1_combinatorial_gmdh_all_pairs_once sample_data sample_data (by decide)).2.2.2.2.2 1 2
      (by decide) (by decide)⟩

/-- C4: the list returned by combinatorial_gmdh is non-decreasing in error over its
whole length, and `models[0]` has the least validation error of all fitted pairs. -/
theorem C4_combinatorial_gmdh_sorted_by_error (train valid : dataset_t)
    (hF : 2 ≤ train.n_features) :
    (∀ a b, a < b → b < (combinatorial_gmdh train valid).2 →
      ∃ ma mb, (combinatorial_gmdh train valid).1[a]? = some ma ∧
        (combinatorial_gmdh train valid).1[b]? = some mb ∧ rmse_t.le ma.error mb.error) ∧
    ∃ m0, (combinatorial_gmdh train valid).1[0]? = some m0 ∧
      ∀ i j, i < j → j < train.n_features →
        rmse_t.le m0.error (fit_pair train valid i j).error := by
  have hlen : (combinatorial_gmdh train valid).1.length = (combinatorial_gmdh train valid).2 :=
    (combinatorial_gmdh_perm train valid).length_eq
  have hsorted := combinatorial_gmdh_sorted train valid
  rw [List.pairwise_iff_getElem] at hsorted
  constructor
  · intro a b hab hb
    have hb' : b < (combinatorial_gmdh train valid).1.length := by omega
    have ha' : a < (combinatorial_gmdh train valid).1.length := by omega
    exact ⟨_, _, List.getElem?_eq_getElem ha', List.getElem?_eq_getElem hb',
      hsorted a b ha' hb' hab⟩
  · have h01 : fit_pair train valid 0 1 ∈ (combinatorial_gmdh train valid).1 :=
      (combinatorial_gmdh_perm train valid).mem_iff.mpr
        ((mem_combinatorial_models train valid _).mpr ⟨0, 1, by omega, by omega, rfl⟩)
    have hpos : 0 < (combinatorial_gmdh train valid).1.length := List.length_pos_of_mem h01
    refine ⟨_, List.getElem?_eq_getElem hpos, ?_⟩
    intro i j hij hj
    have hmem : fit_pair train valid i j ∈ (combinatorial_gmdh train valid).1 :=
      (combinatorial_gmdh_perm train valid).mem_iff.mpr
        ((mem_combinatorial_models train valid _).mpr ⟨i, j, hij, hj, rfl⟩)
    obtain ⟨k, hk, hk'⟩ := List.getElem_of_mem hmem
    rw [← hk']
    rcases Nat.eq_zero_or_pos k with h0 | h0
    · subst h0; exact rmse_le_refl _
    · exact hsorted 0 k hpos hk h0

theorem C4_witness :
    2 ≤ sample_data.n_features ∧
    ∃ m0, (combinatorial_gmdh sample_data sample_data).1[0]? = some m0 ∧
      ∀ i j, i < j → j < sample_data.n_features →
        rmse_t.le m0.error (fit_pair sample_data sample_data i j).error :=
  ⟨by decide, (C4_combinatorial_gmdh_sorted_by_error sample_data sample_data (by decide)).2⟩

/-- C5: the ranking of combinatorial_gmdh is stable: of two returned models with
equal error, the one whose pair (feature1, feature2) is lexicographically smaller,
that is, was generated earlier, stands earlier in the returned list. -/
theorem C5_combinatorial_gmdh_stable (train valid : dataset_t) (a b : Nat)
    (ma mb : polynomial_model_t)
    (ha : (combinatorial_gmdh train valid).1[a]? = some ma)
    (hb : (combinatorial_gmdh train valid).1[b]? = some mb)
    (herr : ma.error = mb.error)
    (hgen : pair_lt (ma.feature1, ma.feature2) (mb.feature1, mb.feature2)) : a < b := by
  have hstable := combinatorial_gmdh_stable train valid
  rw [List.pairwise_iff_getElem] at hstable
  obtain ⟨ha1, ha2⟩ := List.getElem?_eq_some.mp ha
  obtain ⟨hb1, hb2⟩ := List.getElem?_eq_some.mp hb
  rcases Nat.lt_trichotomy a b with h | h | h
  · exact h
  · subst h
    rw [ha2] at hb2
    subst hb2
    exact absurd hgen (pair_lt_irrefl _)
  · have := hstable b a hb1 ha1 h (by rw [ha2, hb2]; exact herr.symm)
    rw [ha2, hb2] at this
    exact absurd hgen (pair_lt_asymm _ _ this)


set_option maxRecDepth 100000 in
theorem C5_witness :
    (fit_pair tie_data tie_data 0 1).error = (fit_pair tie_data tie_data 0 2).error ∧ 0 < 1 := by
  refine ⟨by decide!, ?_⟩
  exact C5_combinatorial_gmdh_stable tie_data tie_data 0 1 (fit_pair tie_data tie_data 0 1)
    (fit_pair tie_data tie_data 0 2) (by decide!) (by decide!) (by decide!) (Or.inr ⟨rfl, by decide⟩)

/-! ## Enumeration of feature subsets -/

theorem combos_length : ∀ (m lo s : Nat), (combos m lo s).length = Nat.choose m s
  | _, _, 0 => by simp [combos]
  | 0, _, _ + 1 => by simp [combos]
  | m + 1, lo, s + 1 => by
    simp [combos, combos_length m (lo + 1) s, combos_length m (lo + 1) (s + 1),
      Nat.choose_succ_succ]

theorem mem_combos : ∀ (m lo s : Nat) (t : List Nat),
    t ∈ combos m lo s ↔
      t.length = s ∧ t.Pairwise (fun a b => a < b) ∧ ∀ x ∈ t, lo ≤ x ∧ x < lo + m
  | m, lo, 0, t => by
    cases m <;> simp [combos] <;> intro h <;> subst h <;> simp
  | 0, lo, s + 1, t => by
    simp only [combos, List.not_mem_nil, false_iff]
    rintro ⟨hlen, -, hb⟩
    cases t with
    | nil => simp at hlen
    | cons a t => have := hb a (by simp); omega
  | m + 1, lo, s + 1, t => by
    simp only [combos, List.mem_append, List.mem_map, mem_combos m (lo + 1) s,
      mem_combos m (lo + 1) (s + 1)]
    constructor
    · rintro (⟨t', ⟨hlen, hpw, hb⟩, rfl⟩ | ⟨hlen, hpw, hb⟩)
      · refine ⟨by simp [hlen], List.Pairwise.cons (fun x hx => ?_) hpw, ?_⟩
        · have := hb x hx; omega
        · intro x hx
          rcases List.mem_cons.mp hx with h | h
          · subst h; omega
          · have := hb x h; omega
      · exact ⟨hlen, hpw, fun x hx => by have := hb x hx; omega⟩
    · rintro ⟨hlen, hpw, hb⟩
      cases t with
      | nil => simp at hlen
      | cons a t =>
        have ha := hb a (by simp)
        rw [List.pairwise_cons] at hpw
        by_cases hal : a = lo
        · subst hal
          left
          refine ⟨t, ⟨by simpa using hlen, hpw.2, fun x hx => ?_⟩, rfl⟩
          have h1 := hpw.1 x hx
          have h2 := hb x (by simp [hx])
          omega
        · right
          refine ⟨hlen, List.Pairwise.cons hpw.1 hpw.2, fun x hx => ?_⟩
          rcases List.mem_cons.mp hx with h | h
          · subst h; omega
          · have h1 := hpw.1 x h
            have h2 := hb x (by simp [h])
            omega

theorem lex_lt_irrefl : ∀ (t : List Nat), ¬ List.Lex (fun a b : Nat => a < b) t t
  | [], h => by cases h
  | a :: t, h => by
    cases h with
    | cons h' => exact lex_lt_irrefl t h'
    | rel h' => omega

theorem combos_pairwise_lex : ∀ (m lo s : Nat),
    (combos m lo s).Pairwise (List.Lex (fun a b : Nat => a < b))
  | m, lo, 0 => by cases m <;> simp [combos]
  | 0, lo, s + 1 => by simp [combos]
  | m + 1, lo, s + 1 => by
    simp only [combos]
    rw [List.pairwise_append]
    refine ⟨?_, combos_pairwise_lex m (lo + 1) (s + 1), ?_⟩
    · rw [List.pairwise_map]
      exact (combos_pairwise_lex m (lo + 1) s).imp (fun h => List.Lex.cons h)
    · intro a ha b hb
      obtain ⟨t, _, rfl⟩ := List.mem_map.mp ha
      obtain ⟨hlen, _, hbd⟩ := (mem_combos m (lo + 1) (s + 1) b).mp hb
      cases b with
      | nil => simp at hlen
      | cons x b =>
        have := hbd x (by simp)
        exact List.Lex.rel (by omega)

theorem scan_back_lt (indices : List Nat) (F s : Nat) :
    ∀ (k p : Nat), scan_back indices F s k = some p → p < k
  | 0, p, h => by simp [scan_back] at h
  | k + 1, p, h => by
    unfold scan_back at h
    split at h
    · have := scan_back_lt indices F s k p h; omega
    · simp at h; omega

theorem scan_back_cons (a : Nat) (t : List Nat) (F s : Nat) :
    ∀ k, scan_back (a :: t) F (s + 1) (k + 1) =
      match scan_back t F s k with
      | some p => some (p + 1)
      | none => if (a : Int) = (F : Int) - ((s + 1 : Nat) : Int) then none else some 0
  | 0 => by
    simp only [scan_back, List.getD_cons_zero]
    simp
  | k + 1 => by
    have ih := scan_back_cons a t F s k
    rw [scan_back, List.getD_cons_succ]
    conv_rhs => rw [scan_back]
    have hc : (((t.getD k 0 : Nat) : Int) = (F : Int) - ((s + 1 : Nat) : Int) + ((k + 1 : Nat) : Int))
        ↔ (((t.getD k 0 : Nat) : Int) = (F : Int) - (s : Int) + (k : Int)) := by
      push_cast; constructor <;> intro h <;> omega
    by_cases h : ((t.getD k 0 : Nat) : Int) = (F : Int) - (s : Int) + (k : Int)
    · rw [if_pos (hc.mpr h), if_pos h, ih]
    · rw [if_neg (fun h' => h (hc.mp h')), if_neg h]

theorem reset_cons (a : Nat) :
    ∀ (n k : Nat) (l : List Nat), 1 ≤ k →
      (List.range' (k + 1) n).foldl (fun ind j => ind.set j (ind.getD (j - 1) 0 + 1)) (a :: l)
        = a :: (List.range' k n).foldl (fun ind j => ind.set j (ind.getD (j - 1) 0 + 1)) l
  | 0, _, _, _ => by simp
  | n + 1, k, l, hk => by
    obtain ⟨k', rfl⟩ : ∃ k', k = k' + 1 := ⟨k - 1, by omega⟩
    simp only [List.range'_succ, List.foldl_cons, Nat.add_sub_cancel, List.set_cons_succ,
      List.getD_cons_succ]
    exact reset_cons a n (k' + 1 + 1) _ (by omega)

theorem reset_closed :
    ∀ (n : Nat) (pre : List Nat) (v : Nat) (suf : List Nat), suf.length = n →
      (List.range' (pre.length + 1) n).foldl
          (fun ind j => ind.set j (ind.getD (j - 1) 0 + 1)) (pre ++ v :: suf)
        = pre ++ v :: List.range' (v + 1) n
  | 0, pre, v, suf, h => by
    have : suf = [] := List.length_eq_zero.mp h
    subst this; simp
  | n + 1, pre, v, suf, h => by
    cases suf with
    | nil => simp at h
    | cons b suf =>
      have hlen : suf.length = n := by simpa using h
      have ih := reset_closed n (pre ++ [v]) (v + 1) suf hlen
      simp only [List.length_append, List.length_singleton, List.append_assoc,
        List.singleton_append] at ih
      simp only [List.range'_succ, List.foldl_cons, Nat.add_sub_cancel]
      have hget : (pre ++ v :: b :: suf).getD pre.length 0 = v := by
        rw [List.getD_eq_getElem?_getD, List.getElem?_append_right (le_refl _)]
        simp
      have hset : (pre ++ v :: b :: suf).set (pre.length + 1) (v + 1) = pre ++ v :: (v + 1) :: suf := by
        rw [List.set_append_right _ _ (by omega)]
        simp
      rw [hget, hset, ih]

theorem next_combination_cons (a : Nat) (t t' : List Nat) (F s : Nat)
    (h : next_combination t F s = some t') :
    next_combination (a :: t) F (s + 1) = some (a :: t') := by
  unfold next_combination at h ⊢
  rw [scan_back_cons]
  cases hscan : scan_back t F s s with
  | none => rw [hscan] at h; simp at h
  | some p =>
    rw [hscan] at h
    simp only [Option.some.injEq] at h
    simp only [List.getD_cons_succ, List.set_cons_succ, Option.some.injEq]
    have hsub : s + 1 - (p + 1 + 1) = s - (p + 1) := by omega
    rw [hsub, reset_cons a _ (p + 1) _ (by omega), h]

theorem getD_range' (lo n i : Nat) (h : i < n) : (List.range' lo n).getD i 0 = lo + i := by
  rw [List.getD_eq_getElem _ _ (by simpa using h), List.getElem_range']
  omega

theorem scan_back_max (F s : Nat) (hs : s ≤ F) :
    ∀ k, k ≤ s → scan_back (List.range' (F - s) s) F s k = none
  | 0, _ => rfl
  | k + 1, hk => by
    rw [scan_back, getD_range' _ _ _ (by omega), if_pos (by push_cast; omega)]
    exact scan_back_max F s hs k (by omega)

theorem next_combination_max (F s : Nat) (hs : s ≤ F) :
    next_combination (List.range' (F - s) s) F s = none := by
  unfold next_combination
  rw [scan_back_max F s hs s (le_refl _)]

theorem next_combination_carry (a F s : Nat) (ha : a + s + 1 < F) :
    next_combination (a :: List.range' (F - s) s) F (s + 1) = some (List.range' (a + 1) (s + 1)) := by
  unfold next_combination
  rw [scan_back_cons, scan_back_max F s (by omega) s (le_refl _)]
  simp only
  rw [if_neg (by push_cast; omega)]
  simp only [List.getD_cons_zero, List.set_cons_zero, Option.some.injEq]
  have h := reset_closed s [] (a + 1) (List.range' (F - s) s) (by simp)
  simp only [List.length_nil, List.nil_append, Nat.zero_add] at h
  rw [Nat.zero_add, Nat.add_sub_cancel, h]
  simp [List.range'_succ]

theorem combos_eq_nil : ∀ (m lo s : Nat), m < s → combos m lo s = []
  | _, _, 0, h => by omega
  | 0, _, _ + 1, _ => rfl
  | m + 1, lo, s + 1, h => by
    simp [combos, combos_eq_nil m (lo + 1) s (by omega),
      combos_eq_nil m (lo + 1) (s + 1) (by omega)]

theorem combos_head : ∀ (m lo s : Nat), s ≤ m →
    ∃ rest, combos m lo s = List.range' lo s :: rest
  | m, lo, 0, _ => ⟨[], by cases m <;> simp [combos]⟩
  | 0, _, s + 1, h => by omega
  | m + 1, lo, s + 1, h => by
    obtain ⟨rest, hrest⟩ := combos_head m (lo + 1) s (by omega)
    refine ⟨List.map (fun t => lo :: t) rest ++ combos m (lo + 1) (s + 1), ?_⟩
    simp only [combos, hrest, List.map_cons, List.cons_append, List.range'_succ]

theorem combos_getLast : ∀ (m lo s : Nat), s ≤ m →
    (combos m lo s).getLast? = some (List.range' (lo + m - s) s)
  | m, lo, 0, _ => by cases m <;> simp [combos]
  | 0, _, s + 1, h => by omega
  | m + 1, lo, s + 1, h => by
    simp only [combos]
    by_cases hsm : s + 1 ≤ m
    · obtain ⟨rest, hrest⟩ := combos_head m (lo + 1) (s + 1) hsm
      have hne : combos m (lo + 1) (s + 1) ≠ [] := by rw [hrest]; simp
      rw [List.getLast?_append_of_ne_nil _ hne, combos_getLast m (lo + 1) (s + 1) hsm]
      congr 2; omega
    · have hs : s = m := by omega
      subst hs
      rw [combos_eq_nil s (lo + 1) (s + 1) (by omega), List.append_nil, List.getLast?_map,
        combos_getLast s (lo + 1) s (le_refl _)]
      simp only [Option.map_some']
      have h1 : lo + 1 + s - s = lo + 1 := by omega
      have h2 : lo + (s + 1) - (s + 1) = lo := by omega
      rw [h1, h2, List.range'_succ]

theorem combos_chain : ∀ (m lo s F : Nat), lo + m = F →
    List.Chain' (fun t t' => next_combination t F s = some t') (combos m lo s)
  | m, lo, 0, F, _ => by cases m <;> simp [combos]
  | 0, _, s + 1, F, _ => by simp [combos]
  | m + 1, lo, s + 1, F, hF => by
    simp only [combos]
    rw [List.chain'_append]
    refine ⟨?_, combos_chain m (lo + 1) (s + 1) F (by omega), ?_⟩
    · rw [List.chain'_map]
      exact (combos_chain m (lo + 1) s F (by omega)).imp
        (fun {t t'} h => next_combination_cons lo t t' F s h)
    · intro x hx y hy
      by_cases hsm : s + 1 ≤ m
      · obtain ⟨rest, hrest⟩ := combos_head m (lo + 1) (s + 1) hsm
        rw [hrest] at hy
        simp only [List.head?_cons, Option.mem_def, Option.some.injEq] at hy
        rw [List.getLast?_map, combos_getLast m (lo + 1) s (by omega)] at hx
        simp only [Option.map_some', Option.mem_def, Option.some.injEq] at hx
        subst hx hy
        have h1 : lo + 1 + m - s = F - s := by omega
        rw [h1]
        exact next_combination_carry lo F s (by omega)
      · rw [combos_eq_nil m (lo + 1) (s + 1) (by omega)] at hy
        simp at hy

theorem subset_loop_chain (train valid : dataset_t) (s : Nat) :
    ∀ (L : List (List Nat)) (t0 : List Nat) (acc : List linear_model_t) (fuel : Nat),
      List.Chain' (fun t t' => next_combination t train.n_features s = some t') (t0 :: L) →
      (∀ t ∈ (t0 :: L).getLast?, next_combination t train.n_features s = none) →
      L.length + 1 ≤ fuel →
      subset_loop train valid s fuel t0 acc
        = some (acc ++ (t0 :: L).map (fit_subset train valid s))
  | _, _, _, 0, _, _, hfuel => by omega
  | [], t0, acc, fuel + 1, _, hlast, _ => by
    have h := hlast t0 (by simp)
    simp [subset_loop, h]
  | t1 :: L, t0, acc, fuel + 1, hchain, hlast, hfuel => by
    rw [List.chain'_cons] at hchain
    have ih := subset_loop_chain train valid s L t1 (acc ++ [fit_subset train valid s t0]) fuel
      hchain.2 (by simpa [List.getLast?_cons_cons] using hlast) (by simpa using hfuel)
    simp only [subset_loop, hchain.1, ih, List.map_cons, List.append_assoc,
      List.singleton_append]

/-- With enough fuel the loop for one size appends one model per combination,
in lexicographic order. -/
theorem subset_loop_eq (train valid : dataset_t) (s fuel : Nat) (acc : List linear_model_t)
    (hs : s ≤ train.n_features) (hfuel : Nat.choose train.n_features s ≤ fuel) :
    subset_loop train valid s fuel (List.range s) acc
      = some (acc ++ (combos train.n_features 0 s).map (fit_subset train valid s)) := by
  obtain ⟨rest, hrest⟩ := combos_head train.n_features 0 s hs
  have hlen := combos_length train.n_features 0 s
  have hchain := combos_chain train.n_features 0 s train.n_features (by omega)
  have hlast := combos_getLast train.n_features 0 s hs
  rw [hrest] at hlen hchain hlast
  rw [hrest, List.range_eq_range']
  refine subset_loop_chain train valid s rest _ acc fuel hchain ?_ (by simp at hlen; omega)
  intro t ht
  rw [hlast] at ht
  simp only [Option.mem_def, Option.some.injEq] at ht
  subst ht
  rw [Nat.zero_add]
  exact next_combination_max _ _ hs

theorem combos_bound : ∀ (m lo s : Nat) (t : List Nat), t ∈ combos m lo s →
    ∀ i, i < s → t.getD i 0 + s ≤ lo + m + i
  | _, _, 0, _, _, i, hi => by omega
  | 0, _, _ + 1, t, ht, _, _ => by simp [combos] at ht
  | m + 1, lo, s + 1, t, ht, i, hi => by
    simp only [combos, List.mem_append, List.mem_map] at ht
    rcases ht with ⟨t', ht', rfl⟩ | ht
    · cases i with
      | zero =>
        have hsm : ¬ m < s := fun h => by rw [combos_eq_nil m (lo + 1) s h] at ht'; simp at ht'
        simp only [List.getD_cons_zero]; omega
      | succ i =>
        have := combos_bound m (lo + 1) s t' ht' i (by omega)
        simp only [List.getD_cons_succ]; omega
    · have := combos_bound m (lo + 1) (s + 1) t ht i hi
      omega

theorem scan_back_eq_spec (t : List Nat) (F s : Nat) :
    ∀ k, (∀ i, i < k → t.getD i 0 + s ≤ F + i) →
      scan_back t F s k = scan_back_spec t F s k
  | 0, _ => rfl
  | k + 1, hb => by
    have hk := hb k (by omega)
    have ih := scan_back_eq_spec t F s k (fun i hi => hb i (by omega))
    rw [scan_back, scan_back_spec]
    by_cases h : ((t.getD k 0 : Nat) : Int) = (F : Int) - (s : Int) + (k : Int)
    · rw [if_pos h, if_neg (by omega), ih]
    · rw [if_neg h, if_pos (by omega)]

theorem fit_subset_feature_indices (train valid : dataset_t) (s : Nat) (t : List Nat) :
    (fit_subset train valid s t).feature_indices = t.take s := rfl

theorem fit_subset_n_features (train valid : dataset_t) (s : Nat) (t : List Nat) :
    (fit_subset train valid s t).n_features = s := rfl

theorem map_feature_indices_combos (train valid : dataset_t) (m lo s : Nat) :
    ((combos m lo s).map (fit_subset train valid s)).map (fun x => x.feature_indices)
      = combos m lo s := by
  rw [List.map_map]
  conv_rhs => rw [← List.map_id (combos m lo s)]
  refine List.map_congr_left ?_
  intro t ht
  have hlen := ((mem_combos m lo s t).mp ht).1
  simp only [Function.comp_apply, fit_subset_feature_indices, id_eq]
  exact List.take_of_length_le (by omega)

/-- C3: for a fixed size `s` with 1 <= s <= F, the enumeration loop, started at
{0,...,s-1} and advanced by the next-combination step until it reports done,
terminates and visits exactly the strictly increasing `s`-tuples over {0,...,F-1},
in lexicographic order and each once (C(F,s) of them); on every tuple visited
the scan of the code (`!=`) finds the same position as the scan of the
specification (`<`). -/
theorem C3_enumeration_is_lexicographic (train valid : dataset_t) (s fuel : Nat)
    (hs1 : 1 ≤ s) (hsF : s ≤ train.n_features)
    (hfuel : Nat.choose train.n_features s ≤ fuel) :
    ∃ models, subset_loop train valid s fuel (List.range s) [] = some models ∧
      models.map (fun m => m.feature_indices) = combos train.n_features 0 s ∧
      (models.map (fun m => m.feature_indices)).length = Nat.choose train.n_features s ∧
      (∀ t, t ∈ models.map (fun m => m.feature_indices) ↔
        t.length = s ∧ t.Pairwise (fun a b => a < b) ∧ ∀ x ∈ t, x < train.n_features) ∧
      (models.map (fun m => m.feature_indices)).Pairwise (List.Lex (fun a b : Nat => a < b)) ∧
      (models.map (fun m => m.feature_indices)).Nodup ∧
      ∀ t ∈ models.map (fun m => m.feature_indices),
        scan_back t train.n_features s s = scan_back_spec t train.n_features s s := by
  have _ := hs1
  refine ⟨_, subset_loop_eq train valid s fuel [] hsF hfuel, ?_⟩
  rw [List.nil_append, map_feature_indices_combos]
  refine ⟨rfl, combos_length _ _ _, ?_, combos_pairwise_lex _ _ _, ?_, ?_⟩
  · intro t
    rw [mem_combos]
    simp
  · refine (combos_pairwise_lex train.n_features 0 s).imp ?_
    intro a b hab heq
    subst heq
    exact lex_lt_irrefl a hab
  · intro t ht
    refine scan_back_eq_spec t _ s s (fun i hi => ?_)
    have := combos_bound _ _ _ t ht i hi
    omega

theorem C3_witness :
    1 ≤ 2 ∧ 2 ≤ sample_data.n_features ∧
    ∃ models, subset_loop sample_data sample_data 2 3 (List.range 2) [] = some models ∧
      models.map (fun m => m.feature_indices) = [[0, 1], [0, 2], [1, 2]] := by
  obtain ⟨models, h1, h2, _⟩ :=
    C3_enumeration_is_lexicographic sample_data sample_data 2 3 (by decide) (by decide)
      (by decide)
  exact ⟨by decide, by decide, models, h1, by rw [h2]; decide⟩

theorem choose_le_two_pow : ∀ (n k : Nat), Nat.choose n k ≤ 2 ^ n
  | 0, 0 => by simp
  | 0, k + 1 => by simp
  | n + 1, 0 => by simp [Nat.one_le_two_pow]
  | n + 1, k + 1 => by
    have h1 := choose_le_two_pow n k
    have h2 := choose_le_two_pow n (k + 1)
    rw [Nat.choose_succ_succ, pow_succ, Nat.succ_eq_add_one]
    omega

theorem linear_sizes_fold (train valid : dataset_t) (fuel : Nat)
    (hfuel : 2 ^ train.n_features ≤ fuel) :
    ∀ (L : List Nat) (acc : List linear_model_t), (∀ s ∈ L, s ≤ train.n_features) →
      L.foldl (fun acc s => acc.bind (fun models =>
          subset_loop train valid s fuel (List.range s) models)) (some acc)
        = some (acc ++ L.flatMap (fun s =>
            (combos train.n_features 0 s).map (fit_subset train valid s)))
  | [], acc, _ => by simp
  | s :: L, acc, h => by
    have hs : s ≤ train.n_features := h s (by simp)
    have hch : Nat.choose train.n_features s ≤ fuel :=
      le_trans (choose_le_two_pow _ _) hfuel
    simp only [List.foldl_cons, Option.some_bind, subset_loop_eq train valid s fuel acc hs hch]
    rw [linear_sizes_fold train valid fuel hfuel L _ (fun x hx => h x (by simp [hx]))]
    simp

/-- With enough fuel the loops of linear_combinatorial_gmdh produce one model
per subset, sizes ascending and subsets in lexicographic order. -/
theorem linear_models_eq (train valid : dataset_t) (min_features max_features fuel : Nat)
    (hmax : max_features ≤ train.n_features) (hfuel : 2 ^ train.n_features ≤ fuel) :
    linear_models train valid min_features max_features fuel
      = some (generation_order train valid min_features max_features) := by
  unfold linear_models generation_order
  rw [linear_sizes_fold train valid fuel hfuel]
  · simp
  · intro s hs
    rw [List.mem_range'_1] at hs
    omega

theorem generation_order_length (train valid : dataset_t) (min_features max_features : Nat) :
    (generation_order train valid min_features max_features).length
      = ∑ s in Finset.Icc min_features max_features, Nat.choose train.n_features s := by
  unfold generation_order
  rw [List.length_flatMap, Nat.Icc_eq_range']
  simp [combos_length, Function.comp_def]

theorem generation_order_nodup (train valid : dataset_t) (min_features max_features : Nat) :
    ((generation_order train valid min_features max_features).map
      (fun m => m.feature_indices)).Nodup := by
  unfold generation_order
  rw [List.map_flatMap]
  simp only [map_feature_indices_combos]
  rw [List.nodup_flatMap]
  constructor
  · intro s _
    refine (combos_pairwise_lex train.n_features 0 s).imp ?_
    intro a b hab heq
    subst heq
    exact lex_lt_irrefl a hab
  · refine (List.pairwise_lt_range' min_features _).imp ?_
    intro a b hab
    intro t hta htb
    have h1 := ((mem_combos _ _ _ t).mp hta).1
    have h2 := ((mem_combos _ _ _ t).mp htb).1
    omega

theorem stable_sorted_unique {α κ : Type} [DecidableEq κ] (le : α → α → Prop) (key : α → κ)
    (hanti : ∀ a b, le a b → le b a → key a = key b) :
    ∀ (l1 l2 : List α), l1.Perm l2 → l1.Pairwise le → l2.Pairwise le →
      (∀ e, l1.filter (fun x => decide (key x = e)) = l2.filter (fun x => decide (key x = e))) →
      l1 = l2
  | [], l2, hp, _, _, _ => (List.Perm.nil_eq hp)
  | a :: t1, [], hp, _, _, _ => by simpa using hp.length_eq
  | a :: t1, b :: t2, hp, h1, h2, hf => by
    have hkey : key a = key b := by
      by_cases hab : a = b
      · rw [hab]
      · have ha : a ∈ t2 := by
          have : a ∈ b :: t2 := hp.mem_iff.mp (by simp)
          rcases List.mem_cons.mp this with h | h
          · exact absurd h hab
          · exact h
        have hb : b ∈ t1 := by
          have : b ∈ a :: t1 := hp.mem_iff.mpr (by simp)
          rcases List.mem_cons.mp this with h | h
          · exact absurd h.symm hab
          · exact h
        exact hanti a b (List.rel_of_pairwise_cons h1 hb) (List.rel_of_pairwise_cons h2 ha)
    have hab : a = b := by
      have := hf (key a)
      simp only [List.filter_cons, decide_True, if_true, hkey.symm] at this
      exact (List.cons.inj this).1
    subst hab
    have htl : t1 = t2 := by
      refine stable_sorted_unique le key hanti t1 t2 (List.Perm.cons_inv hp) h1.tail h2.tail ?_
      intro e
      have := hf e
      simp only [List.filter_cons] at this
      by_cases he : key a = e
      · simp only [he, decide_True, if_true] at this
        exact (List.cons.inj this).2
      · simpa [he] using this
    rw [htl]

/-- The exchange sort agrees with the library merge sort, which is stable. -/
theorem bubble_sort_eq_mergeSort {α κ : Type} [DecidableEq κ] (gt le : α → α → Bool)
    (key : α → κ)
    (hkeyle : ∀ a b, key a = key b → le a b = true)
    (htrans : ∀ a b c, le a b = true → le b c = true → le a c = true)
    (hgt : ∀ a b, gt a b = true → le b a = true)
    (hngt : ∀ a b, gt a b = false → le a b = true)
    (hne : ∀ a b, gt a b = true → key a ≠ key b)
    (hanti : ∀ a b, le a b = true → le b a = true → key a = key b) (l : List α) :
    bubble_sort gt l = l.mergeSort le := by
  have htotal : ∀ a b, (le a b || le b a) = true := by
    intro a b
    cases h : gt a b
    · simp [hngt a b h]
    · simp [hgt a b h]
  refine stable_sorted_unique (fun a b => le a b = true) key hanti _ _
    ((bubble_sort_perm gt l).trans (List.mergeSort_perm l le).symm)
    (bubble_sort_sorted gt _ (fun a => hkeyle a a rfl) htrans hgt hngt l)
    (List.sorted_mergeSort htrans htotal l) ?_
  intro e
  rw [bubble_sort_filter gt key hne e l]
  have hsub : List.Sublist (l.filter (fun x => decide (key x = e))) (l.mergeSort le) := by
    refine List.sublist_mergeSort htrans htotal ?_ (List.filter_sublist l)
    rw [List.pairwise_filter]
    refine List.pairwise_of_forall ?_
    intro a b ha hb
    exact hkeyle a b (ha.trans hb.symm)
  have hsub' := hsub.filter (fun x => decide (key x = e))
  rw [List.filter_filter] at hsub'
  have hpp : (fun a => decide (key a = e) && decide (key a = e)) = (fun x => decide (key x = e)) := by
    funext a; simp
  rw [hpp] at hsub'
  refine List.Sublist.eq_of_length hsub' ?_
  exact ((List.mergeSort_perm l le).filter _).length_eq.symm

theorem rmse_le_antisymm (a b : rmse_t) : rmse_t.le a b → rmse_t.le b a → a = b := by
  cases a <;> cases b <;> simp [rmse_t.le]
  exact fun h1 h2 => le_antisymm h1 h2

theorem linear_sort_eq_mergeSort (l : List linear_model_t) :
    bubble_sort (fun a b : linear_model_t => rmse_t.gt a.error b.error) l
      = l.mergeSort linear_error_le := by
  refine bubble_sort_eq_mergeSort _ linear_error_le (fun m => m.error) ?_ ?_ ?_ ?_ ?_ ?_ l
  · intro a b h
    have h' : a.error = b.error := h
    simp only [linear_error_le, decide_eq_true_eq]
    rw [h']; exact rmse_le_refl _
  · intro a b c h1 h2
    simp only [linear_error_le, decide_eq_true_eq] at h1 h2 ⊢
    exact rmse_le_trans _ _ _ h1 h2
  · intro a b h
    simp only [linear_error_le, decide_eq_true_eq]
    exact rmse_le_of_gt _ _ h
  · intro a b h
    simp only [linear_error_le, decide_eq_true_eq]
    exact rmse_le_of_not_gt _ _ h
  · intro a b h
    exact rmse_ne_of_gt _ _ h
  · intro a b h1 h2
    simp only [linear_error_le, decide_eq_true_eq] at h1 h2
    exact rmse_le_antisymm _ _ h1 h2

/-! ## The counting loop of linear_combinatorial_gmdh -/

theorem combination_count_succ (F s : Nat) :
    combination_count F (s + 1)
      = Int.tdiv (combination_count F s * ((F : Int) - (s : Int))) ((s : Int) + 1) := by
  unfold combination_count
  rw [List.range_succ, List.foldl_append]
  rfl

theorem combination_count_eq : ∀ (F s : Nat), s ≤ F →
    combination_count F s = (Nat.choose F s : Int) ∧
    ((s : Int) + 1) ∣ combination_count F s * ((F : Int) - (s : Int))
  | F, 0, _ => by
    refine ⟨by rw [Nat.choose_zero_right]; rfl, ?_⟩
    show ((0 : Nat) : Int) + 1 ∣ _
    simp
  | F, s + 1, hs => by
    obtain ⟨ih, _⟩ := combination_count_eq F s (by omega)
    have hkey : (Nat.choose F s : Int) * ((F : Int) - (s : Int))
        = (Nat.choose F (s + 1) : Int) * ((s : Int) + 1) := by
      have h := Nat.choose_succ_right_eq F s
      have e : ((F - s : Nat) : Int) = (F : Int) - (s : Int) := by omega
      rw [← e]
      exact_mod_cast h.symm
    have hval : combination_count F (s + 1) = (Nat.choose F (s + 1) : Int) := by
      rw [combination_count_succ, ih, hkey, Int.tdiv_eq_ediv (by positivity) (by positivity)]
      exact Int.mul_ediv_cancel _ (by positivity)
    refine ⟨hval, ?_⟩
    rw [hval]
    by_cases h : s + 1 = F
    · have e : (F : Int) - ((s + 1 : Nat) : Int) = 0 := by omega
      rw [e, mul_zero]
      exact dvd_zero _
    · have h2 := Nat.choose_succ_right_eq F (s + 1)
      have e : ((F - (s + 1) : Nat) : Int) = (F : Int) - ((s + 1 : Nat) : Int) := by omega
      rw [← e]
      refine ⟨(Nat.choose F (s + 1 + 1) : Int), ?_⟩
      have h3 : (Nat.choose F (s + 1) : Int) * ((F - (s + 1) : Nat) : Int)
          = (Nat.choose F (s + 1 + 1) : Int) * (((s + 1 : Nat) : Int) + 1) := by
        exact_mod_cast h2.symm
      rw [h3]
      ring

theorem total_combinations_fold (F : Nat) :
    ∀ (L : List Nat) (acc : Int), (∀ s ∈ L, s ≤ F) →
      L.foldl (fun total s => total + combination_count F s) acc
        = acc + (((L.map (fun s => Nat.choose F s)).sum : Nat) : Int)
  | [], acc, _ => by simp
  | s :: L, acc, h => by
    rw [List.foldl_cons, total_combinations_fold F L _ (fun x hx => h x (List.mem_cons_of_mem _ hx)),
      (combination_count_eq F s (h s (List.mem_cons_self _ _))).1, List.map_cons, List.sum_cons]
    push_cast
    ring

theorem total_combinations_eq (train valid : dataset_t) (min_features max_features : Nat)
    (hmax : max_features ≤ train.n_features) :
    total_combinations train min_features max_features
      = ((generation_order train valid min_features max_features).length : Int) := by
  unfold total_combinations
  rw [total_combinations_fold train.n_features _ 0 (fun s hs => by
    rw [List.mem_range'_1] at hs
    omega), zero_add]
  congr 1
  unfold generation_order
  rw [List.length_flatMap]
  congr 1
  refine List.map_congr_left (fun s _ => ?_)
  simp [combos_length]

/-! ## The capacity of the models array -/

theorem wrap32_of_range (x : Int) (h1 : -2147483648 ≤ x) (h2 : x < 2147483648) :
    wrap32 x = x := by
  unfold wrap32
  omega

theorem choose_28_14 : Nat.choose 28 14 = 40116600 := by
  rw [Nat.choose_eq_factorial_div_factorial (by norm_num)]
  decide

theorem choose_mul_lt (F i : Nat) (hF : F ≤ 29) :
    Nat.choose F i * (F - i) < 2147483648 := by
  rcases Nat.eq_zero_or_pos F with h | h
  · subst h
    simp
  · obtain ⟨n, rfl⟩ : ∃ n, F = n + 1 := ⟨F - 1, by omega⟩
    have h1 : Nat.choose (n + 1) i * (n + 1 - i) = Nat.choose n i * (n + 1) :=
      (Nat.choose_mul_succ_eq n i).symm
    have h2 : Nat.choose n i ≤ Nat.choose 28 14 :=
      le_trans (Nat.choose_le_choose i (show n ≤ 28 by omega)) (Nat.choose_le_middle i 28)
    rw [choose_28_14] at h2
    rw [h1]
    calc Nat.choose n i * (n + 1) ≤ 40116600 * 29 := Nat.mul_le_mul h2 (by omega)
      _ < 2147483648 := by norm_num

theorem combination_count_int_succ (F s : Nat) :
    combination_count_int F (s + 1)
      = Int.tdiv (wrap32 (combination_count_int F s * ((F : Int) - (s : Int)))) ((s : Int) + 1) := by
  unfold combination_count_int
  rw [List.range_succ, List.foldl_append]
  rfl

/-- For at most 29 features no product of the counting loop leaves the range of `int`. -/
theorem combination_count_int_eq (F : Nat) (hF : F ≤ 29) : ∀ (s : Nat), s ≤ F →
    combination_count_int F s = combination_count F s
  | 0, _ => rfl
  | s + 1, hs => by
    have ih := combination_count_int_eq F hF s (by omega)
    have hv := (combination_count_eq F s (by omega)).1
    rw [combination_count_int_succ, combination_count_succ, ih, wrap32_of_range]
    · rw [hv]
      have : (0 : Int) ≤ (Nat.choose F s : Int) * ((F : Int) - (s : Int)) :=
        mul_nonneg (by positivity) (by omega)
      omega
    · rw [hv]
      have h := choose_mul_lt F s hF
      have e : ((F - s : Nat) : Int) = (F : Int) - (s : Int) := by omega
      rw [← e]
      exact_mod_cast h

theorem total_combinations_int_fold (F : Nat) (hF : F ≤ 29) :
    ∀ (L : List Nat) (acc : Int), (∀ s ∈ L, s ≤ F) → 0 ≤ acc →
      acc + (((L.map (fun s => Nat.choose F s)).sum : Nat) : Int) < 2147483648 →
      L.foldl (fun (total : Int) (s : Nat) => wrap32 (total + combination_count_int F s)) acc
        = L.foldl (fun (total : Int) (s : Nat) => total + combination_count F s) acc
  | [], _, _, _, _ => rfl
  | s :: L, acc, h, h0, hb => by
    have hs := h s (List.mem_cons_self _ _)
    have hv := (combination_count_eq F s hs).1
    rw [List.map_cons, List.sum_cons] at hb
    rw [Nat.cast_add] at hb
    have hL : (0 : Int) ≤ (((L.map (fun s => Nat.choose F s)).sum : Nat) : Int) := by positivity
    have hc : (0 : Int) ≤ (Nat.choose F s : Int) := by positivity
    rw [List.foldl_cons, List.foldl_cons, combination_count_int_eq F hF s hs,
      wrap32_of_range _ (by rw [hv]; omega) (by rw [hv]; omega)]
    exact total_combinations_int_fold F hF L _ (fun x hx => h x (List.mem_cons_of_mem _ hx))
      (by rw [hv]; omega) (by rw [hv]; omega)

/-- For at most 29 features the `int` capacity is the exact count: the counting loop
does not overflow. -/
theorem total_combinations_int_eq (train : dataset_t) (min_features max_features : Nat)
    (hF : train.n_features ≤ 29) (hmax : max_features ≤ train.n_features) :
    total_combinations_int train min_features max_features
      = total_combinations train min_features max_features := by
  unfold total_combinations_int total_combinations
  refine total_combinations_int_fold train.n_features hF _ 0 (fun s hs => by
    rw [List.mem_range'_1] at hs
    omega) (le_refl _) ?_
  rw [zero_add]
  have h1 : ((List.range' min_features (max_features + 1 - min_features)).map
      (fun s => Nat.choose train.n_features s)).sum
      = ∑ s in Finset.Icc min_features max_features, Nat.choose train.n_features s := by
    rw [Nat.Icc_eq_range']
    simp
  have h2 : ∑ s in Finset.Icc min_features max_features, Nat.choose train.n_features s
      ≤ ∑ s in Finset.range (train.n_features + 1), Nat.choose train.n_features s :=
    Finset.sum_le_sum_of_subset (fun s hs => by
      rw [Finset.mem_Icc] at hs
      rw [Finset.mem_range]
      omega)
  rw [Nat.sum_range_choose] at h2
  have h3 : 2 ^ train.n_features ≤ 2 ^ 29 := Nat.pow_le_pow_right (by norm_num) hF
  rw [h1]
  have h4 : (2 : Nat) ^ 29 < 2147483648 := by norm_num
  exact_mod_cast lt_of_le_of_lt (le_trans h2 h3) h4

/-- The capacity is the exact count when there are at most 29 features, and in every
other case in which the wrapped count comes out right. -/
theorem capacity_exact (train : dataset_t) (min_features max_features : Nat)
    (hmax : max_features ≤ train.n_features)
    (hcap : train.n_features ≤ 29 ∨ total_combinations_int train min_features max_features
      = total_combinations train min_features max_features) :
    total_combinations_int train min_features max_features
      = total_combinations train min_features max_features := by
  rcases hcap with h | h
  · exact total_combinations_int_eq train min_features max_features h hmax
  · exact h

theorem linear_search_eq (train valid : dataset_t)
    (min_features max_features fuel : Nat) (hmax : max_features ≤ train.n_features)
    (hfuel : 2 ^ train.n_features ≤ fuel) :
    linear_search train valid min_features max_features fuel
      = some (bubble_sort (fun a b : linear_model_t => rmse_t.gt a.error b.error)
          (generation_order train valid min_features max_features),
        (generation_order train valid min_features max_features).length) := by
  unfold linear_search
  rw [linear_models_eq train valid min_features max_features fuel hmax hfuel]
  rfl

/-- When the capacity suffices the function returns what its loops and its sort
produce. -/
theorem linear_combinatorial_gmdh_eq (train valid : dataset_t)
    (min_features max_features fuel : Nat) (hmax : max_features ≤ train.n_features)
    (hfuel : 2 ^ train.n_features ≤ fuel)
    (hcap : train.n_features ≤ 29 ∨ total_combinations_int train min_features max_features
      = total_combinations train min_features max_features) :
    linear_combinatorial_gmdh train valid min_features max_features fuel
      = some (bubble_sort (fun a b : linear_model_t => rmse_t.gt a.error b.error)
          (generation_order train valid min_features max_features),
        (generation_order train valid min_features max_features).length) := by
  unfold linear_combinatorial_gmdh
  rw [linear_models_eq train valid min_features max_features fuel hmax hfuel,
    capacity_exact train min_features max_features hmax hcap,
    total_combinations_eq train valid min_features max_features hmax]
  simp

/-- When more models are fitted than the array has elements the run has no result. -/
theorem linear_combinatorial_gmdh_overrun (train valid : dataset_t)
    (min_features max_features fuel : Nat) (hmax : max_features ≤ train.n_features)
    (hfuel : 2 ^ train.n_features ≤ fuel)
    (hcap : total_combinations_int train min_features max_features
      < ((generation_order train valid min_features max_features).length : Int)) :
    linear_combinatorial_gmdh train valid min_features max_features fuel = none := by
  unfold linear_combinatorial_gmdh
  rw [linear_models_eq train valid min_features max_features fuel hmax hfuel]
  simp only [Option.some_bind]
  rw [if_neg (by omega)]

/-- Whatever the function returns is what its loops and its sort produce. -/
theorem linear_combinatorial_gmdh_some (train valid : dataset_t)
    (min_features max_features fuel : Nat) (hmax : max_features ≤ train.n_features)
    (hfuel : 2 ^ train.n_features ≤ fuel) (r : List linear_model_t × Nat)
    (h : linear_combinatorial_gmdh train valid min_features max_features fuel = some r) :
    r = (bubble_sort (fun a b : linear_model_t => rmse_t.gt a.error b.error)
          (generation_order train valid min_features max_features),
        (generation_order train valid min_features max_features).length) := by
  unfold linear_combinatorial_gmdh at h
  rw [linear_models_eq train valid min_features max_features fuel hmax hfuel] at h
  simp only [Option.some_bind] at h
  split at h
  · exact (Option.some.inj h).symm
  · exact absurd h (by simp)

/-- When the capacity suffices (at most 29 features, or a wrapped count that comes out
right) linear_combinatorial_gmdh returns, stores in `*n_models_out` exactly the sum
over s = min_features..max_features of C(F,s), the returned list has that length, and
no two returned models of the same size have the same feature_indices sequence. -/
theorem linear_combinatorial_gmdh_count_of_capacity (train valid : dataset_t)
    (min_features max_features fuel : Nat) (hmax : max_features ≤ train.n_features)
    (hfuel : 2 ^ train.n_features ≤ fuel)
    (hcap : train.n_features ≤ 29 ∨ total_combinations_int train min_features max_features
      = total_combinations train min_features max_features) :
    ∃ r, linear_combinatorial_gmdh train valid min_features max_features fuel = some r ∧
      r.2 = ∑ s in Finset.Icc min_features max_features, Nat.choose train.n_features s ∧
      r.1.length = r.2 ∧
      ∀ (a b : Nat) (ma mb : linear_model_t), r.1[a]? = some ma → r.1[b]? = some mb → a ≠ b →
        ma.n_features = mb.n_features → ma.feature_indices ≠ mb.feature_indices := by
  refine ⟨_, linear_combinatorial_gmdh_eq train valid min_features max_features fuel hmax hfuel
    hcap, generation_order_length train valid _ _, bubble_sort_length _ _, ?_⟩
  intro a b ma mb ha hb hab _ heq
  simp only at ha hb
  have hperm : (List.map (fun m : linear_model_t => m.feature_indices)
      (bubble_sort (fun a b : linear_model_t => rmse_t.gt a.error b.error)
        (generation_order train valid min_features max_features))).Perm _ :=
    (bubble_sort_perm _ _).map _
  have hnodup := hperm.nodup_iff.mpr (generation_order_nodup train valid _ _)
  obtain ⟨ha1, ha2⟩ := List.getElem?_eq_some.mp ha
  obtain ⟨hb1, hb2⟩ := List.getElem?_eq_some.mp hb
  have hinj := (@List.Nodup.getElem_inj_iff _ _ hnodup a (by simpa using ha1) b
    (by simpa using hb1)).mp
    (by simp only [List.getElem_map]; rw [ha2, hb2]; exact heq)
  exact hab hinj

theorem count_int_30_29 : combination_count_int 30 29 = -25 := by decide!

theorem count_int_32_28 : combination_count_int 32 28 = 7959 := by decide!

theorem choose_32_28 : Nat.choose 32 28 = 35960 := by
  rw [← Nat.choose_symm (by norm_num : 28 ≤ 32)]
  decide

theorem total_combinations_int_single (train : dataset_t) (s : Nat) :
    total_combinations_int train s s = wrap32 (combination_count_int train.n_features s) := by
  unfold total_combinations_int
  rw [show s + 1 - s = 1 by omega]
  simp [List.range']

/-- C2: the count is lost to int overflow.  With 30 features and
min_features = max_features = 29 there are C(30,29) = 30 subsets and the enumeration
loops fit one model for each, but the counting loop
`count = count * (F - i) / (i + 1)` overflows `int` on the way and leaves
total_combinations = -25 where the exact count is 30: the models array has no element
for the models, and the call ends without a value in `*n_models_out`. -/
theorem C2_linear_combinatorial_gmdh_count_overflows (train valid : dataset_t) (fuel : Nat)
    (hF : train.n_features = 30) (hfuel : 2 ^ 30 ≤ fuel) :
    (∑ s in Finset.Icc 29 29, Nat.choose train.n_features s) = 30 ∧
    total_combinations train 29 29 = 30 ∧
    total_combinations_int train 29 29 = -25 ∧
    (∃ models, linear_models train valid 29 29 fuel = some models ∧ models.length = 30) ∧
    linear_combinatorial_gmdh train valid 29 29 fuel = none := by
  have hsum : (∑ s in Finset.Icc 29 29, Nat.choose train.n_features s) = 30 := by
    rw [hF, Finset.Icc_self, Finset.sum_singleton]
    decide
  have hlen : (generation_order train valid 29 29).length = 30 := by
    rw [generation_order_length, hsum]
  have hcap : total_combinations_int train 29 29 = -25 := by
    rw [total_combinations_int_single, hF, count_int_30_29]
    decide
  have hmax : 29 ≤ train.n_features := by omega
  have hfuel2 : 2 ^ train.n_features ≤ fuel := by rw [hF]; exact hfuel
  refine ⟨hsum, ?_, hcap, ⟨_, linear_models_eq train valid 29 29 fuel hmax hfuel2, hlen⟩,
    linear_combinatorial_gmdh_overrun train valid 29 29 fuel hmax hfuel2 ?_⟩
  · rw [total_combinations_eq train valid 29 29 hmax, hlen]
    rfl
  · rw [hcap, hlen]
    decide

theorem C2_witness :
    ((wide_data 30).n_features = 30 ∧ 2 ^ 30 ≤ 2 ^ 30) ∧
    total_combinations_int (wide_data 30) 29 29 = -25 ∧
    linear_combinatorial_gmdh (wide_data 30) (wide_data 30) 29 29 (2 ^ 30) = none :=
  ⟨⟨rfl, le_refl _⟩,
    (C2_linear_combinatorial_gmdh_count_overflows (wide_data 30) (wide_data 30) (2 ^ 30) rfl
      (le_refl _)).2.2.1,
    (C2_linear_combinatorial_gmdh_count_overflows (wide_data 30) (wide_data 30) (2 ^ 30) rfl
      (le_refl _)).2.2.2.2⟩

/-- When the capacity suffices (at most 29 features, or a wrapped count that comes out
right) the list returned by linear_combinatorial_gmdh is the stable sort by ascending
error of the generation-order list (sizes ascending, subsets in lexicographic order
within a size): it equals the stable merge sort of that list, it is non-decreasing in
error, and for every error value the models carrying it keep their generation
order. -/
theorem linear_combinatorial_gmdh_stable_sort_of_capacity (train valid : dataset_t)
    (min_features max_features fuel : Nat) (hmax : max_features ≤ train.n_features)
    (hfuel : 2 ^ train.n_features ≤ fuel)
    (hcap : train.n_features ≤ 29 ∨ total_combinations_int train min_features max_features
      = total_combinations train min_features max_features) :
    ∃ r, linear_combinatorial_gmdh train valid min_features max_features fuel = some r ∧
      linear_models train valid min_features max_features fuel
        = some (generation_order train valid min_features max_features) ∧
      r.1 = (generation_order train valid min_features max_features).mergeSort
        linear_error_le ∧
      r.1.Pairwise (fun a b => rmse_t.le a.error b.error) ∧
      ∀ e : rmse_t, r.1.filter (fun m => decide (m.error = e))
        = (generation_order train valid min_features max_features).filter
            (fun m => decide (m.error = e)) := by
  have hgen := linear_models_eq train valid min_features max_features fuel hmax hfuel
  refine ⟨_, linear_combinatorial_gmdh_eq train valid min_features max_features fuel hmax hfuel
    hcap, hgen, linear_sort_eq_mergeSort _, ?_, ?_⟩
  · exact bubble_sort_sorted _ (fun a b : linear_model_t => rmse_t.le a.error b.error)
      (fun _ => rmse_le_refl _) (fun _ _ _ => rmse_le_trans _ _ _)
      (fun _ _ => rmse_le_of_gt _ _) (fun _ _ => rmse_le_of_not_gt _ _) _
  · intro e
    exact bubble_sort_filter _ (fun m : linear_model_t => m.error)
      (fun _ _ => rmse_ne_of_gt _ _) e _

/-- C6: the sorted list is lost to int overflow.  With 32 features and
min_features = max_features = 28 the generation-order list has C(32,28) = 35960
models, which the enumeration loops fit and store one after the other, but the
counting loop overflows `int` on the way and the models array is allocated with
total_combinations = 7959 elements: the stores from index 7959 on fall outside the
array, and the call has no defined list to sort and return. -/
theorem C6_linear_combinatorial_gmdh_array_overrun (train valid : dataset_t) (fuel : Nat)
    (hF : train.n_features = 32) (hfuel : 2 ^ 32 ≤ fuel) :
    linear_models train valid 28 28 fuel = some (generation_order train valid 28 28) ∧
    (generation_order train valid 28 28).length = 35960 ∧
    total_combinations train 28 28 = 35960 ∧
    total_combinations_int train 28 28 = 7959 ∧
    linear_combinatorial_gmdh train valid 28 28 fuel = none := by
  have hlen : (generation_order train valid 28 28).length = 35960 := by
    rw [generation_order_length, hF, Finset.Icc_self, Finset.sum_singleton, choose_32_28]
  have hcap : total_combinations_int train 28 28 = 7959 := by
    rw [total_combinations_int_single, hF, count_int_32_28]
    decide
  have hmax : 28 ≤ train.n_features := by omega
  have hfuel2 : 2 ^ train.n_features ≤ fuel := by rw [hF]; exact hfuel
  refine ⟨linear_models_eq train valid 28 28 fuel hmax hfuel2, hlen, ?_, hcap,
    linear_combinatorial_gmdh_overrun train valid 28 28 fuel hmax hfuel2 ?_⟩
  · rw [total_combinations_eq train valid 28 28 hmax, hlen]
    rfl
  · rw [hcap, hlen]
    decide

theorem C6_witness :
    ((wide_data 32).n_features = 32 ∧ 2 ^ 32 ≤ 2 ^ 32) ∧
    total_combinations_int (wide_data 32) 28 28 = 7959 ∧
    linear_combinatorial_gmdh (wide_data 32) (wide_data 32) 28 28 (2 ^ 32) = none :=
  ⟨⟨rfl, le_refl _⟩,
    (C6_linear_combinatorial_gmdh_array_overrun (wide_data 32) (wide_data 32) (2 ^ 32) rfl
      (le_refl _)).2.2.2.1,
    (C6_linear_combinatorial_gmdh_array_overrun (wide_data 32) (wide_data 32) (2 ^ 32) rfl
      (le_refl _)).2.2.2.2⟩

/-! ## Arrays: reads after writes -/

theorem vget_set1 (x : List double) (i : Nat) (v : double) (r : Nat) :
    vget (set1 x i v) r = if r = i ∧ i < x.length then v else vget x r := by
  unfold vget set1
  rw [List.getD_eq_getElem?_getD, List.getD_eq_getElem?_getD, List.getElem?_set]
  by_cases h : i = r
  · subst h
    by_cases h2 : i < x.length
    · simp [h2]
    · simp [h2, List.getElem?_eq_none (Nat.le_of_not_lt h2)]
  · have h' : ¬ r = i := fun e => h e.symm
    simp [h, h']

theorem length_set1 (x : List double) (i : Nat) (v : double) :
    (set1 x i v).length = x.length := by
  simp [set1]

theorem getD_set_row (a : List (List double)) (k : Nat) (row : List double) (r : Nat) :
    (a.set k row).getD r [] = if r = k ∧ k < a.length then row else a.getD r [] := by
  rw [List.getD_eq_getElem?_getD, List.getD_eq_getElem?_getD, List.getElem?_set]
  by_cases h : k = r
  · subst h
    by_cases h2 : k < a.length
    · simp [h2]
    · simp [h2, List.getElem?_eq_none (Nat.le_of_not_lt h2)]
  · have h' : ¬ r = k := fun e => h e.symm
    simp [h, h']

theorem mget_set2 (a : List (List double)) (k j : Nat) (v : double) (r c : Nat) :
    mget (set2 a k j v) r c =
      if r = k ∧ c = j ∧ k < a.length ∧ j < (a.getD k []).length then v else mget a r c := by
  unfold mget set2
  rw [getD_set_row]
  by_cases h : r = k ∧ k < a.length
  · rw [if_pos h, vget_set1]
    obtain ⟨h1, h2⟩ := h
    subst h1
    by_cases h3 : c = j ∧ j < (a.getD r []).length
    · rw [if_pos h3, if_pos ⟨rfl, h3.1, h2, h3.2⟩]
    · rw [if_neg h3, if_neg (fun h4 => h3 ⟨h4.2.1, h4.2.2.2⟩)]
  · rw [if_neg h, if_neg (fun h4 => h ⟨h4.1, h4.2.2.1⟩)]

theorem dims_set2 (a : List (List double)) (n w k j : Nat) (v : double) (h : dims a n w) :
    dims (set2 a k j v) n w := by
  obtain ⟨h1, h2⟩ := h
  refine ⟨by simp [set2, h1], fun r hr => ?_⟩
  unfold set2
  rw [getD_set_row]
  split
  · rename_i h3
    rw [length_set1, h2 k (by omega)]
  · exact h2 r hr

/-! ## Closed forms of the elimination loops -/

theorem eliminate_row_fold (i k : Nat) (f : double) (hik : k ≠ i) (n w : Nat) :
    ∀ (L : List Nat) (a : List (List double)), L.Nodup → (∀ c ∈ L, c < w) → dims a n w →
      k < n →
      dims (L.foldl (fun a j => set2 a k j (mget a k j - f * mget a i j)) a) n w ∧
      ∀ r c, mget (L.foldl (fun a j => set2 a k j (mget a k j - f * mget a i j)) a) r c =
        if r = k ∧ c ∈ L then mget a k c - f * mget a i c else mget a r c
  | [], a, _, _, hd, _ => by simp [hd]
  | j :: L, a, hnd, hb, hd, hk => by
    rw [List.nodup_cons] at hnd
    have hd1 := dims_set2 a n w k j (mget a k j - f * mget a i j) hd
    obtain ⟨ihd, ih⟩ := eliminate_row_fold i k f hik n w L _ hnd.2
      (fun c hc => hb c (by simp [hc])) hd1 hk
    refine ⟨ihd, fun r c => ?_⟩
    have hj : j < (a.getD k []).length := by rw [hd.2 k hk]; exact hb j (by simp)
    have hka : k < a.length := by rw [hd.1]; exact hk
    have e1 : ∀ c', c' ≠ j → mget (set2 a k j (mget a k j - f * mget a i j)) k c' = mget a k c' := by
      intro c' h
      rw [mget_set2, if_neg (fun h' => h h'.2.1)]
    have e2 : ∀ c', mget (set2 a k j (mget a k j - f * mget a i j)) i c' = mget a i c' := by
      intro c'
      rw [mget_set2, if_neg (fun h' => hik h'.1.symm)]
    have e3 : mget (set2 a k j (mget a k j - f * mget a i j)) k j
        = mget a k j - f * mget a i j := by
      rw [mget_set2, if_pos ⟨rfl, rfl, hka, hj⟩]
    have e4 : ∀ r' c', r' ≠ k →
        mget (set2 a k j (mget a k j - f * mget a i j)) r' c' = mget a r' c' := by
      intro r' c' h
      rw [mget_set2, if_neg (fun h' => h h'.1)]
    rw [List.foldl_cons, ih]
    by_cases hr : r = k
    · subst hr
      by_cases hc : c ∈ L
      · have hcj : c ≠ j := fun e => hnd.1 (e ▸ hc)
        rw [if_pos ⟨rfl, hc⟩, if_pos ⟨rfl, List.mem_cons_of_mem _ hc⟩, e1 c hcj, e2]
      · by_cases hcj : c = j
        · subst hcj
          rw [if_neg (fun h => hc h.2), if_pos ⟨rfl, List.mem_cons_self _ _⟩, e3]
        · rw [if_neg (fun h => hc h.2), e1 c hcj, if_neg]
          rintro ⟨-, h⟩
          rcases List.mem_cons.mp h with h | h
          · exact hcj h
          · exact hc h
    · rw [if_neg (fun h => hr h.1), if_neg (fun h => hr h.1), e4 r c hr]

theorem eliminate_row_spec (a : List (List double)) (i k n : Nat) (hd : dims a n (n + 1))
    (hk : k < n) (hik : k ≠ i) :
    dims (eliminate_row a i k n) n (n + 1) ∧
    ∀ r c, mget (eliminate_row a i k n) r c =
      if r = k ∧ i ≤ c ∧ c ≤ n then
        mget a k c - (mget a k i / mget a i i) * mget a i c
      else mget a r c := by
  obtain ⟨h1, h2⟩ := eliminate_row_fold i k (mget a k i / mget a i i) hik n (n + 1)
    (List.range' i (n + 1 - i)) a (List.nodup_range' _ _)
    (fun c hc => by rw [List.mem_range'_1] at hc; omega) hd hk
  refine ⟨h1, fun r c => ?_⟩
  unfold eliminate_row
  rw [h2]
  have hc : c ∈ List.range' i (n + 1 - i) ↔ i ≤ c ∧ c ≤ n := by
    rw [List.mem_range'_1]; omega
  simp only [hc]

theorem eliminate_fold (i n : Nat) :
    ∀ (K : List Nat) (a : List (List double)), K.Nodup → (∀ k ∈ K, i < k ∧ k < n) →
      dims a n (n + 1) →
      dims (K.foldl (fun a k => eliminate_row a i k n) a) n (n + 1) ∧
      ∀ r c, mget (K.foldl (fun a k => eliminate_row a i k n) a) r c =
        if r ∈ K ∧ i ≤ c ∧ c ≤ n then
          mget a r c - (mget a r i / mget a i i) * mget a i c
        else mget a r c
  | [], a, _, _, hd => by simp [hd]
  | k :: K, a, hnd, hb, hd => by
    rw [List.nodup_cons] at hnd
    have hk := hb k (by simp)
    obtain ⟨hd1, h1⟩ := eliminate_row_spec a i k n hd hk.2 (by omega)
    obtain ⟨ihd, ih⟩ := eliminate_fold i n K _ hnd.2 (fun c hc => hb c (by simp [hc])) hd1
    refine ⟨ihd, fun r c => ?_⟩
    rw [List.foldl_cons, ih]
    by_cases hr : r ∈ K
    · have hrk : r ≠ k := fun e => hnd.1 (e ▸ hr)
      have hik : i ≠ k := by omega
      simp [h1, hr, hrk, hik]
    · by_cases hrk : r = k
      · subst hrk
        simp [h1, hr]
      · simp [h1, hr, hrk]

theorem eliminate_spec (a : List (List double)) (i n : Nat) (hd : dims a n (n + 1)) :
    dims (eliminate a i n) n (n + 1) ∧
    ∀ r c, mget (eliminate a i n) r c =
      if i < r ∧ r < n ∧ i ≤ c ∧ c ≤ n then
        mget a r c - (mget a r i / mget a i i) * mget a i c
      else mget a r c := by
  obtain ⟨h1, h2⟩ := eliminate_fold i n (List.range' (i + 1) (n - (i + 1))) a
    (List.nodup_range' _ _) (fun k hk => by rw [List.mem_range'_1] at hk; omega) hd
  refine ⟨h1, fun r c => ?_⟩
  unfold eliminate
  rw [h2]
  have hr : r ∈ List.range' (i + 1) (n - (i + 1)) ↔ i < r ∧ r < n := by
    rw [List.mem_range'_1]; omega
  simp only [hr, and_assoc]

theorem swap_rows_spec (a : List (List double)) (i p n w : Nat) (hd : dims a n w)
    (hi : i < n) (hp : p < n) :
    dims (swap_rows a i p) n w ∧
    ∀ r c, mget (swap_rows a i p) r c =
      mget a (if r = p then i else if r = i then p else r) c := by
  obtain ⟨h1, h2⟩ := hd
  have hrow : ∀ r, (swap_rows a i p).getD r [] =
      a.getD (if r = p then i else if r = i then p else r) [] := by
    intro r
    unfold swap_rows
    simp only
    rw [getD_set_row, getD_set_row, List.length_set]
    by_cases hrp : r = p
    · subst hrp
      simp [h1, hp]
    · by_cases hri : r = i
      · subst hri
        simp [hrp, h1, hi]
      · simp [hrp, hri]
  refine ⟨⟨by simp [swap_rows, h1], fun r hr => ?_⟩, fun r c => ?_⟩
  · rw [hrow]
    split
    · exact h2 i hi
    · split
      · exact h2 p hp
      · exact h2 r hr
  · unfold mget
    rw [hrow]

theorem find_max_row_fold (a : List (List double)) (i : Nat) :
    ∀ (K : List Nat) (m : Nat),
      let p := K.foldl (fun max_row k =>
        if double.gt (double.fabs (mget a k i)) (double.fabs (mget a max_row i)) then k
        else max_row) m
      p = m ∨ p ∈ K
  | [], m => by simp
  | k :: K, m => by
    simp only [List.foldl_cons]
    have ih := find_max_row_fold a i K
      (if double.gt (double.fabs (mget a k i)) (double.fabs (mget a m i)) then k else m)
    simp only at ih
    rcases ih with h | h
    · rw [h]
      split
      · right; simp
      · left; rfl
    · right; simp [h]

theorem find_max_row_range (a : List (List double)) (i n : Nat) (hi : i < n) :
    i ≤ find_max_row a i n ∧ find_max_row a i n < n := by
  have h := find_max_row_fold a i (List.range' (i + 1) (n - (i + 1))) i
  simp only at h
  unfold find_max_row
  rcases h with h | h
  · rw [h]; omega
  · rw [List.mem_range'_1] at h; omega

/-! ## The arrays of the solver hold rational matrices -/

theorem double_sub_val (a b : ℚ) : (double.val a - double.val b : double) = double.val (a - b) :=
  rfl

theorem double_add_val (a b : ℚ) : (double.val a + double.val b : double) = double.val (a + b) :=
  rfl

theorem double_mul_val (a b : ℚ) : (double.val a * double.val b : double) = double.val (a * b) :=
  rfl

theorem double_div_val (a b : ℚ) (hb : b ≠ 0) :
    (double.val a / double.val b : double) = double.val (a / b) := by
  show double.div _ _ = _
  simp [double.div, hb]

theorem find_max_rowQ_fold (Q : Nat → Nat → ℚ) (i : Nat) :
    ∀ (K : List Nat) (m : Nat),
      let p := K.foldl (fun max_row k => if |Q max_row i| < |Q k i| then k else max_row) m
      (p = m ∨ p ∈ K) ∧ |Q m i| ≤ |Q p i| ∧ ∀ k ∈ K, |Q k i| ≤ |Q p i|
  | [], m => by simp
  | k :: K, m => by
    simp only [List.foldl_cons]
    obtain ⟨h1, h2, h3⟩ := find_max_rowQ_fold Q i K (if |Q m i| < |Q k i| then k else m)
    refine ⟨?_, ?_, ?_⟩
    · rcases h1 with h | h
      · rw [h]
        split
        · right; simp
        · left; rfl
      · right; simp [h]
    · refine le_trans ?_ h2
      split
      · rename_i h; exact h.le
      · exact le_refl _
    · intro x hx
      rcases List.mem_cons.mp hx with h | h
      · subst h
        refine le_trans ?_ h2
        split
        · exact le_refl _
        · rename_i h; exact not_lt.mp h
      · exact h3 x h

theorem find_max_rowQ_spec (Q : Nat → Nat → ℚ) (i n : Nat) (hi : i < n) :
    i ≤ find_max_rowQ Q i n ∧ find_max_rowQ Q i n < n ∧
    ∀ r, i ≤ r → r < n → |Q r i| ≤ |Q (find_max_rowQ Q i n) i| := by
  obtain ⟨h1, h2, h3⟩ := find_max_rowQ_fold Q i (List.range' (i + 1) (n - (i + 1))) i
  unfold find_max_rowQ
  refine ⟨?_, ?_, ?_⟩
  · rcases h1 with h | h
    · rw [h]
    · rw [List.mem_range'_1] at h; omega
  · rcases h1 with h | h
    · rw [h]; exact hi
    · rw [List.mem_range'_1] at h; omega
  · intro r hr1 hr2
    rcases Nat.eq_or_lt_of_le hr1 with h | h
    · rw [← h]; exact h2
    · exact h3 r (by rw [List.mem_range'_1]; omega)

theorem find_max_row_rep_fold (a : List (List double)) (Q : Nat → Nat → ℚ) (i n : Nat)
    (hrep : Rep a Q n) (hi : i < n) :
    ∀ (K : List Nat) (m : Nat), m < n → (∀ k ∈ K, k < n) →
      K.foldl (fun max_row k =>
        if double.gt (double.fabs (mget a k i)) (double.fabs (mget a max_row i)) then k
        else max_row) m
      = K.foldl (fun max_row k => if |Q max_row i| < |Q k i| then k else max_row) m
  | [], m, _, _ => rfl
  | k :: K, m, hm, hK => by
    have hk : k < n := hK k (by simp)
    simp only [List.foldl_cons]
    rw [hrep.2 k i hk (by omega), hrep.2 m i hm (by omega)]
    have hcond : double.gt (double.fabs (double.val (Q k i))) (double.fabs (double.val (Q m i)))
        = decide (|Q m i| < |Q k i|) := rfl
    rw [hcond]
    by_cases h : |Q m i| < |Q k i|
    · simp only [h, decide_True, if_true]
      exact find_max_row_rep_fold a Q i n hrep hi K k hk (fun x hx => hK x (by simp [hx]))
    · simp only [h, decide_False, if_false]
      exact find_max_row_rep_fold a Q i n hrep hi K m hm (fun x hx => hK x (by simp [hx]))

theorem find_max_row_rep (a : List (List double)) (Q : Nat → Nat → ℚ) (i n : Nat)
    (hrep : Rep a Q n) (hi : i < n) : find_max_row a i n = find_max_rowQ Q i n :=
  find_max_row_rep_fold a Q i n hrep hi _ i hi
    (fun k hk => by rw [List.mem_range'_1] at hk; omega)

theorem swap_rep (a : List (List double)) (Q : Nat → Nat → ℚ) (i p n : Nat)
    (hrep : Rep a Q n) (hi : i < n) (hp : p < n) :
    Rep (swap_rows a i p) (swapQ Q i p) n := by
  obtain ⟨h1, h2⟩ := swap_rows_spec a i p n (n + 1) hrep.1 hi hp
  refine ⟨h1, fun r c hr hc => ?_⟩
  rw [h2]
  unfold swapQ
  refine hrep.2 _ c ?_ hc
  split
  · exact hi
  · split
    · exact hp
    · exact hr

theorem elim_rep (a : List (List double)) (Q : Nat → Nat → ℚ) (i n : Nat)
    (hrep : Rep a Q n) (hi : i < n) (hpiv : Q i i ≠ 0) :
    Rep (eliminate a i n) (elimQ Q i n) n := by
  obtain ⟨h1, h2⟩ := eliminate_spec a i n hrep.1
  refine ⟨h1, fun r c hr hc => ?_⟩
  rw [h2]
  unfold elimQ
  by_cases h : i < r ∧ r < n ∧ i ≤ c ∧ c ≤ n
  · rw [if_pos h, if_pos h, hrep.2 r c hr hc, hrep.2 r i hr (by omega),
      hrep.2 i i hi (by omega), hrep.2 i c hi hc, double_div_val _ _ hpiv, double_mul_val,
      double_sub_val]
  · rw [if_neg h, if_neg h, hrep.2 r c hr hc]

theorem step_rep (a : List (List double)) (Q : Nat → Nat → ℚ) (i n : Nat)
    (hrep : Rep a Q n) (hi : i < n) (hpiv : Q (find_max_rowQ Q i n) i ≠ 0) :
    Rep (forward_step n a i) (stepQ n Q i) n := by
  unfold forward_step stepQ
  rw [find_max_row_rep a Q i n hrep hi]
  have hp := (find_max_rowQ_spec Q i n hi).2.1
  refine elim_rep _ _ i n (swap_rep a Q i _ n hrep hi hp) hi ?_
  unfold swapQ
  by_cases h : i = find_max_rowQ Q i n
  · rw [if_pos h]; rw [← h] at hpiv; exact hpiv
  · rw [if_neg h, if_pos rfl]; exact hpiv

theorem forwardQ_succ (Q : Nat → Nat → ℚ) (n m : Nat) :
    forwardQ Q n (m + 1) = stepQ n (forwardQ Q n m) m := by
  simp [forwardQ, List.range_succ, List.foldl_append]

theorem forward_elimination_succ (a : List (List double)) (n m : Nat) :
    forward_elimination a n (m + 1) = forward_step n (forward_elimination a n m) m := by
  simp [forward_elimination, List.range_succ, List.foldl_append]

theorem forward_rep (a : List (List double)) (Q : Nat → Nat → ℚ) (n : Nat) (hrep : Rep a Q n) :
    ∀ m, m ≤ n → (∀ k, k < m → pivotQ Q n k ≠ 0) →
      Rep (forward_elimination a n m) (forwardQ Q n m) n
  | 0, _, _ => hrep
  | m + 1, hm, hpiv => by
    rw [forward_elimination_succ, forwardQ_succ]
    exact step_rep _ _ m n (forward_rep a Q n hrep m (by omega) (fun k hk => hpiv k (by omega)))
      (by omega) (hpiv m (by omega))

/-! ## Gaussian elimination over the rationals -/

theorem swapQ_invol (M : Nat → Nat → ℚ) (i p : Nat) : swapQ (swapQ M i p) i p = M := by
  funext r
  unfold swapQ
  by_cases h1 : r = p
  · subst h1
    by_cases h3 : i = r
    · simp [h3]
    · simp [h3]
  · by_cases h2 : r = i
    · subst h2
      simp [h1]
    · simp [h1, h2]

theorem swap_sys_imp (t : ℚ) (M : Nat → Nat → ℚ) (n i p : Nat) (x : Nat → ℚ) (hi : i < n)
    (hp : p < n) (h : Sys t M n x) : Sys t (swapQ M i p) n x := by
  intro r hr
  unfold RowEq swapQ
  refine h _ ?_
  split
  · exact hi
  · split
    · exact hp
    · exact hr

theorem swap_sys (t : ℚ) (M : Nat → Nat → ℚ) (n i p : Nat) (x : Nat → ℚ) (hi : i < n)
    (hp : p < n) : Sys t (swapQ M i p) n x ↔ Sys t M n x := by
  constructor
  · intro h
    have := swap_sys_imp t _ n i p x hi hp h
    rwa [swapQ_invol] at this
  · exact swap_sys_imp t M n i p x hi hp

theorem swap_lower (M : Nat → Nat → ℚ) (n i p : Nat) (h : LowerZero M n i) (hi : i < n)
    (hip : i ≤ p) (hp : p < n) : LowerZero (swapQ M i p) n i := by
  intro r c hc hcr hr
  unfold swapQ
  by_cases h1 : r = p
  · rw [if_pos h1]; exact h i c hc hc hi
  · rw [if_neg h1]
    by_cases h2 : r = i
    · rw [if_pos h2]; exact h p c hc (by omega) hp
    · rw [if_neg h2]; exact h r c hc hcr hr

theorem elimQ_row (M : Nat → Nat → ℚ) (n i r c : Nat) (h : LowerZero M n i) (hi : i < n)
    (hir : i < r) (hr : r < n) (hc : c ≤ n) :
    elimQ M i n r c = M r c - M r i / M i i * M i c := by
  unfold elimQ
  by_cases hic : i ≤ c
  · rw [if_pos ⟨hir, hr, hic, hc⟩]
  · rw [if_neg (fun h' => hic h'.2.2.1), h i c (by omega) (by omega) hi]
    ring

theorem elimQ_row_le (M : Nat → Nat → ℚ) (n i r c : Nat) (hri : r ≤ i) :
    elimQ M i n r c = M r c := by
  unfold elimQ
  rw [if_neg (fun h' => by omega)]

theorem elim_rowsum (M : Nat → Nat → ℚ) (n i r : Nat) (x : Nat → ℚ) (h : LowerZero M n i)
    (hi : i < n) (hir : i < r) (hr : r < n) :
    ∑ c in Finset.range n, elimQ M i n r c * x c
      = ∑ c in Finset.range n, M r c * x c
        - M r i / M i i * ∑ c in Finset.range n, M i c * x c := by
  rw [Finset.mul_sum, ← Finset.sum_sub_distrib]
  refine Finset.sum_congr rfl (fun c hc => ?_)
  rw [elimQ_row M n i r c h hi hir hr (by rw [Finset.mem_range] at hc; omega)]
  ring

theorem elim_sys (t : ℚ) (M : Nat → Nat → ℚ) (n i : Nat) (x : Nat → ℚ) (h : LowerZero M n i)
    (hi : i < n) : Sys t (elimQ M i n) n x ↔ Sys t M n x := by
  have hrowi : ∀ S : Nat → Nat → ℚ, (∀ c, S i c = M i c) →
      (RowEq t S n x i ↔ RowEq t M n x i) := by
    intro S hS
    unfold RowEq
    simp only [hS]
  have hi' : RowEq t (elimQ M i n) n x i ↔ RowEq t M n x i :=
    hrowi _ (fun c => elimQ_row_le M n i i c (le_refl _))
  constructor
  · intro hs r hr
    by_cases hir : i < r
    · have h1 := hs r hr
      have h2 := hi'.mp (hs i hi)
      unfold RowEq at h1 h2 ⊢
      rw [elim_rowsum M n i r x h hi hir hr, elimQ_row M n i r n h hi hir hr (le_refl _), h2] at h1
      linear_combination h1
    · have h1 := hs r hr
      unfold RowEq at h1 ⊢
      simp only [elimQ_row_le M n i r _ (by omega)] at h1
      exact h1
  · intro hs r hr
    by_cases hir : i < r
    · have h1 := hs r hr
      have h2 := hs i hi
      unfold RowEq at h1 h2 ⊢
      rw [elim_rowsum M n i r x h hi hir hr, elimQ_row M n i r n h hi hir hr (le_refl _), h1, h2]
      ring
    · have h1 := hs r hr
      unfold RowEq at h1 ⊢
      simp only [elimQ_row_le M n i r _ (by omega)]
      exact h1

theorem elim_lower (M : Nat → Nat → ℚ) (n i : Nat) (h : LowerZero M n i) (hi : i < n)
    (hpiv : M i i ≠ 0) : LowerZero (elimQ M i n) n (i + 1) := by
  intro r c hc hcr hr
  by_cases hci : c = i
  · subst hci
    rw [elimQ_row M n c r c h hi hcr hr (by omega)]
    field_simp
  · unfold elimQ
    rw [if_neg (fun h' => by omega)]
    exact h r c (by omega) hcr hr

theorem stepQ_diag (M : Nat → Nat → ℚ) (n i : Nat) :
    stepQ n M i i i = M (find_max_rowQ M i n) i := by
  unfold stepQ
  rw [elimQ_row_le _ _ _ _ _ (le_refl _)]
  unfold swapQ
  by_cases h : i = find_max_rowQ M i n
  · rw [if_pos h, ← h]
  · rw [if_neg h, if_pos rfl]

theorem stepQ_row_lt (M : Nat → Nat → ℚ) (n i r c : Nat) (hi : i < n) (hr : r < i) :
    stepQ n M i r c = M r c := by
  unfold stepQ
  rw [elimQ_row_le _ _ _ _ _ (by omega)]
  unfold swapQ
  have hp := (find_max_rowQ_spec M i n hi).1
  rw [if_neg (by omega), if_neg (by omega)]

theorem step_lower (M : Nat → Nat → ℚ) (n i : Nat) (h : LowerZero M n i) (hi : i < n)
    (hpiv : M (find_max_rowQ M i n) i ≠ 0) : LowerZero (stepQ n M i) n (i + 1) := by
  obtain ⟨hp1, hp2, _⟩ := find_max_rowQ_spec M i n hi
  have hsw := swap_lower M n i _ h hi hp1 hp2
  refine elim_lower _ n i hsw hi ?_
  have := stepQ_diag M n i
  unfold stepQ at this
  rw [elimQ_row_le _ _ _ _ _ (le_refl _)] at this
  rw [this]
  exact hpiv

theorem step_sys (t : ℚ) (M : Nat → Nat → ℚ) (n i : Nat) (x : Nat → ℚ) (h : LowerZero M n i)
    (hi : i < n) : Sys t (stepQ n M i) n x ↔ Sys t M n x := by
  obtain ⟨hp1, hp2, _⟩ := find_max_rowQ_spec M i n hi
  unfold stepQ
  rw [elim_sys t _ n i x (swap_lower M n i _ h hi hp1 hp2) hi, swap_sys t M n i _ x hi hp2]

theorem forwardQ_inv (Q : Nat → Nat → ℚ) (n : Nat) :
    ∀ m, m ≤ n → (∀ k, k < m → pivotQ Q n k ≠ 0) →
      LowerZero (forwardQ Q n m) n m ∧
      ∀ t x, (Sys t (forwardQ Q n m) n x ↔ Sys t Q n x)
  | 0, _, _ => ⟨fun r c hc => by omega, fun t x => Iff.rfl⟩
  | m + 1, hm, hpiv => by
    obtain ⟨h1, h2⟩ := forwardQ_inv Q n m (by omega) (fun k hk => hpiv k (by omega))
    rw [forwardQ_succ]
    refine ⟨step_lower _ n m h1 (by omega) (hpiv m (by omega)), fun t x => ?_⟩
    rw [step_sys t _ n m x h1 (by omega), h2]

theorem forwardQ_row_fixed (Q : Nat → Nat → ℚ) (n r c : Nat) :
    ∀ d, r + 1 + d ≤ n → forwardQ Q n (r + 1 + d) r c = forwardQ Q n (r + 1) r c
  | 0, _ => rfl
  | d + 1, h => by
    have : r + 1 + (d + 1) = (r + 1 + d) + 1 := by omega
    rw [this, forwardQ_succ, stepQ_row_lt _ n _ r c (by omega) (by omega)]
    exact forwardQ_row_fixed Q n r c d (by omega)

theorem forwardQ_diag (Q : Nat → Nat → ℚ) (n m r : Nat) (hr : r < m) (hm : m ≤ n) :
    forwardQ Q n m r r = pivotQ Q n r := by
  obtain ⟨d, rfl⟩ : ∃ d, m = r + 1 + d := ⟨m - (r + 1), by omega⟩
  rw [forwardQ_row_fixed Q n r r d hm, forwardQ_succ, stepQ_diag]
  rfl

/-- An upper triangular system with non-zero diagonal has only the trivial
homogeneous solution. -/
theorem triangular_kernel (U : Nat → Nat → ℚ) (n : Nat) (v : Nat → ℚ)
    (hlow : LowerZero U n n) (hdiag : ∀ r, r < n → U r r ≠ 0) (hv : Sys 0 U n v) :
    ∀ k, k ≤ n → ∀ c, n - k ≤ c → c < n → v c = 0
  | 0, _, c, h1, h2 => by omega
  | k + 1, hk, c, h1, h2 => by
    have ih := triangular_kernel U n v hlow hdiag hv k (by omega)
    by_cases hc : n - k ≤ c
    · exact ih c hc h2
    · have hrow := hv c h2
      unfold RowEq at hrow
      rw [Finset.sum_eq_single c] at hrow
      · rw [zero_mul] at hrow
        rcases mul_eq_zero.mp hrow with h | h
        · exact absurd h (hdiag c h2)
        · exact h
      · intro j hj hjc
        rw [Finset.mem_range] at hj
        rcases Nat.lt_or_gt_of_ne hjc with h | h
        · rw [hlow c j hj h h2, zero_mul]
        · rw [ih j (by omega) hj, mul_zero]
      · intro h
        exact absurd (Finset.mem_range.mpr h2) h

theorem backQ_succ (U : Nat → Nat → ℚ) (n m : Nat) (x : Nat → ℚ) :
    backQ U n (m + 1) x = backQ U n m (back_rowQ U n x m) := by
  simp [backQ, List.range_succ]

theorem backQ_spec (U : Nat → Nat → ℚ) (n : Nat) (hdiag : ∀ r, r < n → U r r ≠ 0) :
    ∀ m, m ≤ n → ∀ x : Nat → ℚ,
      (∀ j, m ≤ j → backQ U n m x j = x j) ∧
      ∀ r, r < m →
        U r r * backQ U n m x r + ∑ j in Finset.Ico (r + 1) n, U r j * backQ U n m x j = U r n
  | 0, _, x => ⟨fun j _ => rfl, fun r hr => by omega⟩
  | m + 1, hm, x => by
    obtain ⟨h1, h2⟩ := backQ_spec U n hdiag m (by omega) (back_rowQ U n x m)
    rw [backQ_succ]
    refine ⟨fun j hj => ?_, fun r hr => ?_⟩
    · rw [h1 j (by omega)]
      unfold back_rowQ
      rw [Function.update_noteq (by omega)]
    · by_cases hrm : r < m
      · exact h2 r hrm
      · have hr' : r = m := by omega
        subst hr'
        rw [h1 r (le_refl _)]
        have hsum : ∑ j in Finset.Ico (r + 1) n, U r j * backQ U n r (back_rowQ U n x r) j
            = ∑ j in Finset.Ico (r + 1) n, U r j * x j := by
          refine Finset.sum_congr rfl (fun j hj => ?_)
          rw [Finset.mem_Ico] at hj
          rw [h1 j (by omega)]
          unfold back_rowQ
          rw [Function.update_noteq (by omega)]
        rw [hsum]
        unfold back_rowQ
        rw [Function.update_same]
        have := hdiag r (by omega)
        field_simp

theorem sum_range_split (f : Nat → ℚ) (n r : Nat) (hr : r < n) :
    ∑ c in Finset.range n, f c
      = ∑ c in Finset.range r, f c + f r + ∑ c in Finset.Ico (r + 1) n, f c := by
  rw [Finset.range_eq_Ico, ← Finset.sum_Ico_consecutive f (Nat.zero_le r) (by omega : r ≤ n),
    ← Finset.sum_Ico_consecutive f (by omega : r ≤ r + 1) (by omega : r + 1 ≤ n)]
  simp [add_assoc]

/-- Back substitution solves an upper triangular system with non-zero diagonal. -/
theorem backQ_solves (U : Nat → Nat → ℚ) (n : Nat) (x : Nat → ℚ) (hlow : LowerZero U n n)
    (hdiag : ∀ r, r < n → U r r ≠ 0) : Sys 1 U n (backQ U n n x) := by
  intro r hr
  unfold RowEq
  rw [sum_range_split _ n r hr, one_mul]
  have hzero : ∑ c in Finset.range r, U r c * backQ U n n x c = 0 := by
    refine Finset.sum_eq_zero (fun c hc => ?_)
    rw [Finset.mem_range] at hc
    rw [hlow r c (by omega) hc hr, zero_mul]
  rw [hzero, zero_add]
  exact (backQ_spec U n hdiag n (le_refl _) x).2 r hr

theorem sum_update (f v : Nat → ℚ) (n r0 : Nat) (w : ℚ) (hr0 : r0 < n) :
    ∑ c in Finset.range n, f c * Function.update v r0 w c
      = ∑ c in Finset.range n, f c * v c + f r0 * (w - v r0) := by
  have h : ∀ c, f c * Function.update v r0 w c
      = f c * v c + (if c = r0 then f r0 * (w - v r0) else 0) := by
    intro c
    by_cases hc : c = r0
    · subst hc; simp; ring
    · simp [Function.update_noteq hc, hc]
  simp only [h]
  rw [Finset.sum_add_distrib, Finset.sum_ite_eq' (Finset.range n) r0]
  simp [hr0]

theorem triangular_extend (M : Nat → Nat → ℚ) (n k : Nat) (hk : k < n) (hlow : LowerZero M n k)
    (hdiag : ∀ r, r < k → M r r ≠ 0) :
    ∀ j, j ≤ k → ∃ v : Nat → ℚ, v k = 1 ∧ (∀ c, k < c → v c = 0) ∧
      ∀ r, k - j ≤ r → r < k → ∑ c in Finset.range n, M r c * v c = 0
  | 0, _ => ⟨fun c => if c = k then 1 else 0, by simp, fun c hc => by simp; omega,
      fun r h1 h2 => by omega⟩
  | j + 1, hj => by
    obtain ⟨v, hv1, hv2, hv3⟩ := triangular_extend M n k hk hlow hdiag j (by omega)
    have hr0 : k - (j + 1) < k := by omega
    refine ⟨Function.update v (k - (j + 1))
      (v (k - (j + 1)) - (∑ c in Finset.range n, M (k - (j + 1)) c * v c) / M (k - (j + 1)) (k - (j + 1))),
      ?_, ?_, ?_⟩
    · rw [Function.update_noteq (by omega)]; exact hv1
    · intro c hc
      rw [Function.update_noteq (by omega)]; exact hv2 c hc
    · intro r h1 h2
      rw [sum_update _ v n _ _ (by omega)]
      by_cases hr : r = k - (j + 1)
      · subst hr
        have := hdiag _ hr0
        field_simp
        ring
      · rw [hlow r (k - (j + 1)) hr0 (by omega) (by omega), zero_mul, add_zero]
        exact hv3 r (by omega) h2

/-- A zero pivot yields a non-trivial solution of the homogeneous system. -/
theorem kernel_of_zero_pivot (Q : Nat → Nat → ℚ) (n k : Nat) (hk : k < n)
    (hprev : ∀ j, j < k → pivotQ Q n j ≠ 0) (hzero : pivotQ Q n k = 0) :
    ∃ v : Nat → ℚ, v k = 1 ∧ Sys 0 Q n v := by
  obtain ⟨hlow, hsys⟩ := forwardQ_inv Q n k (by omega) hprev
  have hdiag : ∀ r, r < k → forwardQ Q n k r r ≠ 0 := by
    intro r hr
    rw [forwardQ_diag Q n k r hr (by omega)]
    exact hprev r hr
  obtain ⟨v, hv1, hv2, hv3⟩ := triangular_extend _ n k hk hlow hdiag k (le_refl _)
  refine ⟨v, hv1, (hsys 0 v).mp ?_⟩
  have hcol : ∀ r, k ≤ r → r < n → forwardQ Q n k r k = 0 := by
    intro r hr1 hr2
    have h := (find_max_rowQ_spec (forwardQ Q n k) k n hk).2.2 r hr1 hr2
    unfold pivotQ at hzero
    rw [hzero, abs_zero] at h
    exact abs_eq_zero.mp (le_antisymm h (abs_nonneg _))
  intro r hr
  unfold RowEq
  rw [zero_mul]
  by_cases hrk : r < k
  · exact hv3 r (by omega) hrk
  · refine Finset.sum_eq_zero (fun c hc => ?_)
    rw [Finset.mem_range] at hc
    rcases Nat.lt_trichotomy c k with h | h | h
    · rw [hlow r c h (by omega) hr, zero_mul]
    · rw [h, hcol r (by omega) hr, zero_mul]
    · rw [hv2 c h, mul_zero]

/-- If the homogeneous system has only the trivial solution, no pivot is zero. -/
theorem pivots_ne_zero (Q : Nat → Nat → ℚ) (n : Nat)
    (hker : ∀ v : Nat → ℚ, Sys 0 Q n v → ∀ c, c < n → v c = 0) :
    ∀ k, k < n → pivotQ Q n k ≠ 0 := by
  intro k
  induction k using Nat.strong_induction_on with
  | _ k ih =>
    intro hk hzero
    obtain ⟨v, hv1, hv2⟩ := kernel_of_zero_pivot Q n k hk (fun j hj => ih j hj (by omega)) hzero
    have := hker v hv2 k hk
    rw [hv1] at this
    exact one_ne_zero this

/-- If every pivot is non-zero, the homogeneous system has only the trivial solution. -/
theorem kernel_trivial_of_pivots (Q : Nat → Nat → ℚ) (n : Nat)
    (hpiv : ∀ k, k < n → pivotQ Q n k ≠ 0) (v : Nat → ℚ) (hv : Sys 0 Q n v) :
    ∀ c, c < n → v c = 0 := by
  obtain ⟨hlow, hsys⟩ := forwardQ_inv Q n n (le_refl _) hpiv
  have hdiag : ∀ r, r < n → forwardQ Q n n r r ≠ 0 := by
    intro r hr
    rw [forwardQ_diag Q n n r hr (le_refl _)]
    exact hpiv r hr
  intro c hc
  exact triangular_kernel _ n v hlow hdiag ((hsys 0 v).mpr hv) n (le_refl _) c (by omega) hc

/-- If every pivot is non-zero, elimination followed by back substitution solves
the system. -/
theorem backQ_forwardQ_solves (Q : Nat → Nat → ℚ) (n : Nat) (x : Nat → ℚ)
    (hpiv : ∀ k, k < n → pivotQ Q n k ≠ 0) :
    Sys 1 Q n (backQ (forwardQ Q n n) n n x) := by
  obtain ⟨hlow, hsys⟩ := forwardQ_inv Q n n (le_refl _) hpiv
  have hdiag : ∀ r, r < n → forwardQ Q n n r r ≠ 0 := by
    intro r hr
    rw [forwardQ_diag Q n n r hr (le_refl _)]
    exact hpiv r hr
  exact (hsys 1 _).mp (backQ_solves _ n x hlow hdiag)

/-! ## The solver arrays after back substitution -/

theorem sum_Ico_eq_list (f : Nat → ℚ) (a : Nat) :
    ∀ d, ∑ j in Finset.Ico a (a + d), f j = ((List.range' a d).map f).sum
  | 0 => by simp
  | d + 1 => by
    rw [← Nat.add_assoc, Finset.sum_Ico_succ_top (by omega), sum_Ico_eq_list f a d,
      List.range'_concat]
    simp

theorem back_inner_fold (aug : List (List double)) (U : Nat → Nat → ℚ) (n i : Nat)
    (xq : Nat → ℚ) (hrep : Rep aug U n) (hi : i < n) :
    ∀ (J : List Nat) (x : List double) (acc : ℚ), (∀ j ∈ J, i < j ∧ j < n) → x.length = n →
      vget x i = double.val acc → (∀ j, i < j → j < n → vget x j = double.val (xq j)) →
      (J.foldl (fun x j => set1 x i (vget x i - mget aug i j * vget x j)) x).length = n ∧
      vget (J.foldl (fun x j => set1 x i (vget x i - mget aug i j * vget x j)) x) i
        = double.val (acc - (J.map (fun j => U i j * xq j)).sum) ∧
      ∀ j, j ≠ i →
        vget (J.foldl (fun x j => set1 x i (vget x i - mget aug i j * vget x j)) x) j = vget x j
  | [], x, acc, _, hlen, hacc, _ => by simp [hlen, hacc]
  | j :: J, x, acc, hJ, hlen, hacc, hx => by
    have hj := hJ j (by simp)
    have hstep : vget x i - mget aug i j * vget x j = double.val (acc - U i j * xq j) := by
      rw [hacc, hrep.2 i j hi (by omega), hx j hj.1 hj.2, double_mul_val, double_sub_val]
    obtain ⟨h1, h2, h3⟩ := back_inner_fold aug U n i xq hrep hi J
      (set1 x i (vget x i - mget aug i j * vget x j)) (acc - U i j * xq j)
      (fun k hk => hJ k (by simp [hk])) (by rw [length_set1, hlen])
      (by rw [vget_set1, if_pos ⟨rfl, by omega⟩, hstep])
      (fun k hk1 hk2 => by rw [vget_set1, if_neg (fun h => by omega)]; exact hx k hk1 hk2)
    refine ⟨h1, ?_, fun k hk => ?_⟩
    · rw [List.foldl_cons, h2, List.map_cons, List.sum_cons]
      congr 1; ring
    · rw [List.foldl_cons, h3 k hk, vget_set1, if_neg (fun h => hk h.1)]

theorem back_substitute_row_rep (aug : List (List double)) (U : Nat → Nat → ℚ) (n i : Nat)
    (x : List double) (xq : Nat → ℚ) (hrep : Rep aug U n) (hi : i < n) (hpiv : U i i ≠ 0)
    (hlen : x.length = n) (hx : ∀ j, i < j → j < n → vget x j = double.val (xq j)) :
    (back_substitute_row aug n x i).length = n ∧
    ∀ j, i ≤ j → j < n →
      vget (back_substitute_row aug n x i) j = double.val (back_rowQ U n xq i j) := by
  obtain ⟨h1, h2, h3⟩ := back_inner_fold aug U n i xq hrep hi
    (List.range' (i + 1) (n - (i + 1))) (set1 x i (mget aug i n)) (U i n)
    (fun j hj => by rw [List.mem_range'_1] at hj; omega) (by rw [length_set1, hlen])
    (by rw [vget_set1, if_pos ⟨rfl, by omega⟩, hrep.2 i n hi (le_refl _)])
    (fun k hk1 hk2 => by rw [vget_set1, if_neg (fun h => by omega)]; exact hx k hk1 hk2)
  unfold back_substitute_row
  simp only
  refine ⟨by rw [length_set1, h1], fun j hj1 hj2 => ?_⟩
  rw [vget_set1]
  unfold back_rowQ
  by_cases hji : j = i
  · subst hji
    rw [if_pos ⟨rfl, by rw [h1]; exact hi⟩, h2, hrep.2 j j hi (by omega),
      double_div_val _ _ hpiv, Function.update_same]
    have hs := sum_Ico_eq_list (fun k => U j k * xq k) (j + 1) (n - (j + 1))
    rw [show j + 1 + (n - (j + 1)) = n by omega] at hs
    rw [hs]
  · rw [if_neg (fun h => hji h.1), h3 j hji, vget_set1, if_neg (fun h => hji h.1),
      Function.update_noteq hji]
    exact hx j (by omega) hj2

theorem back_substitution_rep_aux (aug : List (List double)) (U : Nat → Nat → ℚ) (n : Nat)
    (hrep : Rep aug U n) (hdiag : ∀ r, r < n → U r r ≠ 0) :
    ∀ m, m ≤ n → ∀ (x : List double) (xq : Nat → ℚ), x.length = n →
      (∀ j, m ≤ j → j < n → vget x j = double.val (xq j)) →
      ((List.range m).reverse.foldl (back_substitute_row aug n) x).length = n ∧
      ∀ j, j < n →
        vget ((List.range m).reverse.foldl (back_substitute_row aug n) x) j
          = double.val (backQ U n m xq j)
  | 0, _, x, xq, hlen, hx => ⟨by simpa using hlen, fun j hj => by simpa [backQ] using hx j (by omega) hj⟩
  | m + 1, hm, x, xq, hlen, hx => by
    obtain ⟨h1, h2⟩ := back_substitute_row_rep aug U n m x xq hrep (by omega)
      (hdiag m (by omega)) hlen (fun j hj1 hj2 => hx j (by omega) hj2)
    obtain ⟨h3, h4⟩ := back_substitution_rep_aux aug U n hrep hdiag m (by omega)
      (back_substitute_row aug n x m) (back_rowQ U n xq m) h1 h2
    rw [backQ_succ]
    simp only [List.range_succ, List.reverse_append, List.reverse_cons, List.reverse_nil,
      List.nil_append, List.singleton_append, List.foldl_cons]
    exact ⟨h3, h4⟩

theorem back_substitution_rep (aug : List (List double)) (U : Nat → Nat → ℚ) (n : Nat)
    (x : List double) (hrep : Rep aug U n) (hdiag : ∀ r, r < n → U r r ≠ 0)
    (hlen : x.length = n) :
    (back_substitution aug n x).length = n ∧
    ∀ j, j < n → vget (back_substitution aug n x) j
      = double.val (backQ U n n (fun _ => 0) j) :=
  back_substitution_rep_aux aug U n hrep hdiag n (le_refl _) x (fun _ => 0) hlen
    (fun j hj1 hj2 => by omega)

theorem build_aug_spec (A : List (List double)) (b : List double) (n : Nat) :
    dims (build_aug A b n) n (n + 1) ∧
    ∀ r c, r < n → c ≤ n →
      mget (build_aug A b n) r c = if c < n then mget A r c else vget b r := by
  have hrow : ∀ r, r < n → (build_aug A b n).getD r []
      = (List.range n).map (fun j => mget A r j) ++ [vget b r] := by
    intro r hr
    unfold build_aug
    rw [List.getD_eq_getElem?_getD, List.getElem?_map, List.getElem?_range hr]
    rfl
  refine ⟨⟨by simp [build_aug], fun r hr => by rw [hrow r hr]; simp⟩, fun r c hr hc => ?_⟩
  unfold mget vget
  rw [hrow r hr, List.getD_eq_getElem?_getD]
  by_cases hcn : c < n
  · rw [if_pos hcn, List.getElem?_append_left (by simpa using hcn), List.getElem?_map,
      List.getElem?_range hcn]
    rfl
  · have hcn' : c = n := by omega
    subst hcn'
    rw [if_neg hcn, List.getElem?_append_right (by simp)]
    simp [vget, List.getD_eq_getElem?_getD]

theorem build_aug_rep (A : List (List double)) (b : List double) (n : Nat)
    (Aq : Nat → Nat → ℚ) (bq : Nat → ℚ)
    (hA : ∀ r c, r < n → c < n → mget A r c = double.val (Aq r c))
    (hb : ∀ r, r < n → vget b r = double.val (bq r)) :
    Rep (build_aug A b n) (fun r c => if c < n then Aq r c else bq r) n := by
  obtain ⟨h1, h2⟩ := build_aug_spec A b n
  refine ⟨h1, fun r c hr hc => ?_⟩
  rw [h2 r c hr hc]
  show _ = double.val (if c < n then Aq r c else bq r)
  by_cases hcn : c < n
  · rw [if_pos hcn, if_pos hcn, hA r c hr hcn]
  · rw [if_neg hcn, if_neg hcn, hb r hr]

theorem pivot_rep (a : List (List double)) (M : Nat → Nat → ℚ) (n k : Nat) (hrep : Rep a M n)
    (hk : k < n) :
    mget (swap_rows a k (find_max_row a k n)) k k = double.val (M (find_max_rowQ M k n) k) := by
  rw [find_max_row_rep a M k n hrep hk]
  have hp := (find_max_rowQ_spec M k n hk).2.1
  rw [(swap_rep a M k _ n hrep hk hp).2 k k hk (by omega)]
  unfold swapQ
  by_cases h : k = find_max_rowQ M k n
  · rw [if_pos h, ← h]
  · rw [if_neg h, if_pos rfl]

/-- The solver of polynomial.c on an exactly represented system whose
homogeneous part has only the trivial solution. -/
theorem solve_linear_system_exact (A : List (List double)) (b x0 : List double) (n : Nat)
    (Aq : Nat → Nat → ℚ) (bq : Nat → ℚ)
    (hA : ∀ r c, r < n → c < n → mget A r c = double.val (Aq r c))
    (hb : ∀ r, r < n → vget b r = double.val (bq r)) (hx0 : x0.length = n)
    (hker : ∀ v : Nat → ℚ, (∀ r, r < n → ∑ c in Finset.range n, Aq r c * v c = 0) →
      ∀ c, c < n → v c = 0) :
    ∃ x : Nat → ℚ,
      (∀ j, j < n → vget (solve_linear_system A b x0 n) j = double.val (x j)) ∧
      (∀ r, r < n → ∑ c in Finset.range n, Aq r c * x c = bq r) ∧
      ∀ k, k < n → ∃ p : ℚ, p ≠ 0 ∧
        mget (swap_rows (forward_elimination (build_aug A b n) n k) k
          (find_max_row (forward_elimination (build_aug A b n) n k) k n)) k k = double.val p := by
  have hrep0 := build_aug_rep A b n Aq bq hA hb
  have hsum : ∀ (v : Nat → ℚ) (r : Nat),
      ∑ c in Finset.range n, (fun r c => if c < n then Aq r c else bq r) r c * v c
        = ∑ c in Finset.range n, Aq r c * v c := by
    intro v r
    refine Finset.sum_congr rfl (fun c hc => ?_)
    rw [Finset.mem_range] at hc
    simp only [if_pos hc]
  have hker' : ∀ v : Nat → ℚ, Sys 0 (fun r c => if c < n then Aq r c else bq r) n v →
      ∀ c, c < n → v c = 0 := by
    intro v hv
    refine hker v (fun r hr => ?_)
    have := hv r hr
    unfold RowEq at this
    rw [hsum, zero_mul] at this
    exact this
  have hpiv := pivots_ne_zero _ n hker'
  have hrepn := forward_rep _ _ n hrep0 n (le_refl _) (fun k hk => hpiv k hk)
  have hdiag : ∀ r, r < n → forwardQ (fun r c => if c < n then Aq r c else bq r) n n r r ≠ 0 := by
    intro r hr
    rw [forwardQ_diag _ n n r hr (le_refl _)]
    exact hpiv r hr
  obtain ⟨_, hx⟩ := back_substitution_rep _ _ n x0 hrepn hdiag hx0
  refine ⟨_, hx, fun r hr => ?_, fun k hk => ?_⟩
  · have := backQ_forwardQ_solves _ n (fun _ => 0) hpiv r hr
    unfold RowEq at this
    rw [hsum, one_mul] at this
    simpa using this
  · have hrepk := forward_rep _ _ n hrep0 k (by omega) (fun j hj => hpiv j (by omega))
    exact ⟨_, hpiv k hk, pivot_rep _ _ n k hrepk hk⟩

/-- C7: over exact arithmetic, for every n >= 1, every invertible n x n matrix A
and every right-hand side b, solve_linear_system writes a vector x with A*x = b;
partial pivoting meets no zero pivot at any step. -/
theorem C7_solve_linear_system_solves (n : Nat) (hn : 1 ≤ n) (A : Matrix (Fin n) (Fin n) ℚ)
    (b : Fin n → ℚ) (hinv : IsUnit A) (Al : List (List double)) (bl x0 : List double)
    (hAl : ∀ i j : Fin n, mget Al i j = double.val (A i j))
    (hbl : ∀ i : Fin n, vget bl i = double.val (b i)) (hx0 : x0.length = n) :
    ∃ x : Fin n → ℚ,
      (∀ i : Fin n, vget (solve_linear_system Al bl x0 n) i = double.val (x i)) ∧
      A.mulVec x = b ∧
      ∀ k, k < n → ∃ p : ℚ, p ≠ 0 ∧
        mget (swap_rows (forward_elimination (build_aug Al bl n) n k) k
          (find_max_row (forward_elimination (build_aug Al bl n) n k) k n)) k k
            = double.val p := by
  have _ := hn
  have hdet : A.det ≠ 0 := ((Matrix.isUnit_iff_isUnit_det A).mp hinv).ne_zero
  obtain ⟨x, hx1, hx2, hx3⟩ := solve_linear_system_exact Al bl x0 n
    (fun r c => if h : r < n ∧ c < n then A ⟨r, h.1⟩ ⟨c, h.2⟩ else 0)
    (fun r => if h : r < n then b ⟨r, h⟩ else 0)
    (fun r c hr hc => by beta_reduce; rw [dif_pos ⟨hr, hc⟩]; exact hAl ⟨r, hr⟩ ⟨c, hc⟩)
    (fun r hr => by beta_reduce; rw [dif_pos hr]; exact hbl ⟨r, hr⟩) hx0
    (by
      intro v hv c hc
      have hmul : A.mulVec (fun j : Fin n => v j) = 0 := by
        funext i
        have := hv i i.2
        rw [Finset.sum_range] at this
        simp only [Matrix.mulVec, Matrix.dotProduct, Pi.zero_apply]
        rw [← this]
        refine Finset.sum_congr rfl (fun j _ => ?_)
        beta_reduce
        rw [dif_pos ⟨i.2, j.2⟩]
      have := Matrix.eq_zero_of_mulVec_eq_zero hdet hmul
      exact congrFun this ⟨c, hc⟩)
  refine ⟨fun i => x i, fun i => hx1 i i.2, ?_, hx3⟩
  funext i
  have := hx2 i i.2
  beta_reduce at this
  rw [Finset.sum_range, dif_pos i.2] at this
  simp only [Matrix.mulVec, Matrix.dotProduct]
  rw [← this]
  refine Finset.sum_congr rfl (fun j _ => ?_)
  rw [dif_pos ⟨i.2, j.2⟩]

theorem C7_witness :
    1 ≤ 2 ∧ ∃ x : Fin 2 → ℚ,
      (∀ i : Fin 2, vget (solve_linear_system (mat [[2, 1], [1, 3]]) (vec [3, 5])
        (malloc_double 2) 2) i = double.val (x i)) ∧
      (!![2, 1; 1, 3] : Matrix (Fin 2) (Fin 2) ℚ).mulVec x = ![3, 5] := by
  obtain ⟨x, h1, h2, _⟩ := C7_solve_linear_system_solves 2 (by decide)
    (!![2, 1; 1, 3] : Matrix (Fin 2) (Fin 2) ℚ) ![3, 5]
    (by
      rw [Matrix.isUnit_iff_isUnit_det, Matrix.det_fin_two_of]
      norm_num)
    (mat [[2, 1], [1, 3]]) (vec [3, 5]) (malloc_double 2)
    (by intro i j; fin_cases i <;> fin_cases j <;> rfl)
    (by intro i; fin_cases i <;> rfl) rfl
  exact ⟨by decide, x, h1, h2⟩

/-- C8 (evaluation at the failing inputs): solve_linear_system has no test of the
pivot against 1e-10.  On the 1 x 1 system with pivot 1e-11 it divides by the pivot
and returns 1e11 instead of 0; for fit_polynomial on the single sample
x1 = x2 = y = 1 the pivot selected at step 1 is 0, the code divides by it, and all
six coefficients are not-a-number instead of 0. -/
theorem C8_solve_linear_system_has_no_pivot_guard :
    solve_linear_system (mat [[1 / 10 ^ 11]]) (vec [1]) (malloc_double 1) 1 = vec [10 ^ 11] ∧
    double.lt (double.fabs (mget (mat [[1 / 10 ^ 11]]) 0 0)) eps = true ∧
    (let X := (List.range 1).map (design_row (vec [1]) (vec [1]) (vec [1]))
     let aug := forward_elimination
       (build_aug (poly_XtX X (vec [1]) 1) (poly_Xty X (vec [1]) 1) 6) 6 1
     mget (swap_rows aug 1 (find_max_row aug 1 6)) 1 1 = double.val 0) ∧
    fit_polynomial (vec [1]) (vec [1]) (vec [1]) 1 (malloc_double 6)
      = List.replicate 6 double.nan ∧
    fit_polynomial (vec [1]) (vec [1]) (vec [1]) 1 (malloc_double 6)
      ≠ List.replicate 6 (double.val 0) := by
  decide!

/-! ## The guarded solver inlined in fit_linear_multivariate -/

theorem linear_forward_succ (n : Nat) (st : solver_state) (m : Nat) :
    linear_forward n st (m + 1) = linear_forward_step n (linear_forward n st m) m := by
  simp [linear_forward, List.range_succ, List.foldl_append]

theorem linear_eliminate_fold (i n : Nat) :
    ∀ (K : List Nat) (st : solver_state), (∀ k ∈ K, i < k ∧ k < n) → dims st.aug n (n + 1) →
      K.foldl (fun st k =>
          { st with aug := eliminate_row st.aug i k n,
                    divisors := st.divisors ++ [mget st.aug i i] }) st
        = { aug := K.foldl (fun a k => eliminate_row a i k n) st.aug
            singular := st.singular
            divisors := st.divisors ++ List.replicate K.length (mget st.aug i i) }
  | [], st, _, _ => by simp
  | k :: K, st, hK, hd => by
    have hk := hK k (by simp)
    obtain ⟨hd1, h1⟩ := eliminate_row_spec st.aug i k n hd hk.2 (by omega)
    rw [List.foldl_cons, linear_eliminate_fold i n K _ (fun x hx => hK x (by simp [hx])) hd1]
    simp only [List.foldl_cons, List.length_cons, List.replicate_succ, List.append_assoc,
      List.singleton_append]
    rw [h1 i i, if_neg (fun h => by omega)]

theorem linear_eliminate_spec (st : solver_state) (i n : Nat) (hd : dims st.aug n (n + 1)) :
    linear_eliminate st i n
      = { aug := eliminate st.aug i n
          singular := st.singular
          divisors := st.divisors ++ List.replicate (n - (i + 1)) (mget st.aug i i) } := by
  unfold linear_eliminate eliminate
  rw [linear_eliminate_fold i n _ st (fun k hk => by rw [List.mem_range'_1] at hk; omega) hd]
  simp

theorem linear_forward_step_inv (n m : Nat) (st : solver_state) (hm : m < n)
    (hd : dims st.aug n (n + 1))
    (hdiv : ∀ d ∈ st.divisors, double.lt (double.fabs d) eps = false)
    (hdiag : st.singular = false → ∀ r, r < m →
      double.lt (double.fabs (mget st.aug r r)) eps = false) :
    dims (linear_forward_step n st m).aug n (n + 1) ∧
    (∀ d ∈ (linear_forward_step n st m).divisors, double.lt (double.fabs d) eps = false) ∧
    ((linear_forward_step n st m).singular = false → ∀ r, r < m + 1 →
      double.lt (double.fabs (mget (linear_forward_step n st m).aug r r)) eps = false) := by
  unfold linear_forward_step
  by_cases hs : st.singular = true
  · rw [if_pos hs]
    exact ⟨hd, hdiv, fun h => by rw [hs] at h; simp at h⟩
  · rw [if_neg hs]
    have hs' : st.singular = false := by simpa using hs
    obtain ⟨hp1, hp2⟩ := find_max_row_range st.aug m n hm
    obtain ⟨hsd, hsw⟩ := swap_rows_spec st.aug m (find_max_row st.aug m n) n (n + 1) hd hm hp2
    simp only
    by_cases hg : double.lt (double.fabs
        (mget (swap_rows st.aug m (find_max_row st.aug m n)) m m)) eps = true
    · rw [if_pos hg]
      exact ⟨hsd, hdiv, fun h => by simp at h⟩
    · rw [if_neg hg]
      have hg' : double.lt (double.fabs
          (mget (swap_rows st.aug m (find_max_row st.aug m n)) m m)) eps = false := by
        simpa using hg
      rw [linear_eliminate_spec _ m n hsd]
      obtain ⟨hed, hel⟩ := eliminate_spec _ m n hsd
      refine ⟨hed, fun d hd' => ?_, fun _ r hr => ?_⟩
      · rcases List.mem_append.mp hd' with h | h
        · exact hdiv d h
        · rw [List.eq_of_mem_replicate h]; exact hg'
      · simp only
        rw [hel r r, if_neg (fun h => by omega)]
        by_cases hrm : r = m
        · subst hrm; exact hg'
        · rw [hsw r r, if_neg (by omega), if_neg hrm]
          exact hdiag hs' r (by omega)

theorem linear_forward_inv (n : Nat) (st : solver_state) (hd : dims st.aug n (n + 1))
    (hdiv : ∀ d ∈ st.divisors, double.lt (double.fabs d) eps = false) :
    ∀ m, m ≤ n →
      dims (linear_forward n st m).aug n (n + 1) ∧
      (∀ d ∈ (linear_forward n st m).divisors, double.lt (double.fabs d) eps = false) ∧
      ((linear_forward n st m).singular = false → ∀ r, r < m →
        double.lt (double.fabs (mget (linear_forward n st m).aug r r)) eps = false)
  | 0, _ => ⟨hd, hdiv, fun _ r hr => by omega⟩
  | m + 1, hm => by
    obtain ⟨h1, h2, h3⟩ := linear_forward_inv n st hd hdiv m (by omega)
    rw [linear_forward_succ]
    exact linear_forward_step_inv n m _ (by omega) h1 h2 h3

theorem linear_forward_singular_mono (n : Nat) (st : solver_state) (m : Nat)
    (h : (linear_forward n st m).singular = true) :
    ∀ d, (linear_forward n st (m + d)).singular = true
  | 0 => h
  | d + 1 => by
    rw [← Nat.add_assoc, linear_forward_succ]
    unfold linear_forward_step
    rw [if_pos (linear_forward_singular_mono n st m h d)]
    exact linear_forward_singular_mono n st m h d

theorem linear_back_fold (aug : List (List double)) (n : Nat) :
    ∀ (L : List Nat) (c d : List double),
      L.foldl (fun acc i => (back_substitute_row aug n acc.1 i, acc.2 ++ [mget aug i i])) (c, d)
        = (L.foldl (back_substitute_row aug n) c, d ++ L.map (fun i => mget aug i i))
  | [], c, d => by simp
  | i :: L, c, d => by
    rw [List.foldl_cons, linear_back_fold aug n L]
    simp

theorem linear_back_spec (st : solver_state) (n : Nat) (coeffs : List double) :
    linear_back st n coeffs
      = (back_substitution st.aug n coeffs,
         st.divisors ++ (List.range n).reverse.map (fun i => mget st.aug i i)) := by
  unfold linear_back back_substitution
  rw [linear_back_fold]

theorem zero_fill_fold :
    ∀ (L : List Nat) (c : List double) (j : Nat),
      (L.foldl (fun c j => set1 c j 0) c).length = c.length ∧
      vget (L.foldl (fun c j => set1 c j 0) c) j
        = if j ∈ L ∧ j < c.length then double.val 0 else vget c j
  | [], c, j => by simp
  | k :: L, c, j => by
    obtain ⟨h1, h2⟩ := zero_fill_fold L (set1 c k 0) j
    rw [List.foldl_cons]
    refine ⟨by rw [h1, length_set1], ?_⟩
    rw [h2, length_set1, vget_set1]
    by_cases hjL : j ∈ L
    · by_cases hjc : j < c.length
      · rw [if_pos ⟨hjL, hjc⟩, if_pos ⟨List.mem_cons_of_mem _ hjL, hjc⟩]
      · rw [if_neg (fun h => hjc h.2),
          if_neg (fun (h : j = k ∧ k < c.length) => hjc (by rw [h.1]; exact h.2)),
          if_neg (fun h => hjc h.2)]
    · by_cases hjk : j = k
      · subst hjk
        by_cases hjc : j < c.length
        · rw [if_neg (fun h => hjL h.1), if_pos ⟨rfl, hjc⟩, if_pos ⟨List.mem_cons_self _ _, hjc⟩]
          rfl
        · rw [if_neg (fun h => hjL h.1), if_neg (fun h => hjc h.2), if_neg (fun h => hjc h.2)]
      · rw [if_neg (fun h => hjL h.1), if_neg (fun h => hjk h.1), if_neg]
        rintro ⟨h, -⟩
        rcases List.mem_cons.mp h with h | h
        · exact hjk h
        · exact hjL h

theorem vget_tabulate (f : Nat → double) (n i : Nat) (hi : i < n) :
    vget ((List.range n).map f) i = f i := by
  unfold vget
  rw [List.getD_eq_getElem?_getD, List.getElem?_map, List.getElem?_range hi]
  rfl

theorem mget_tabulate (F : Nat → Nat → double) (n w i j : Nat) (hi : i < n) (hj : j < w) :
    mget ((List.range n).map (fun i => (List.range w).map (fun j => F i j))) i j = F i j := by
  unfold mget
  rw [List.getD_eq_getElem?_getD, List.getElem?_map, List.getElem?_range hi]
  exact vget_tabulate _ w j hj

theorem design_row_fold (f : Nat → double) :
    ∀ (L : List Nat) (row : List double) (c : Nat),
      (L.foldl (fun row j => set1 row (j + 1) (f j)) row).length = row.length ∧
      vget (L.foldl (fun row j => set1 row (j + 1) (f j)) row) c
        = if 1 ≤ c ∧ c - 1 ∈ L ∧ c < row.length then f (c - 1) else vget row c
  | [], row, c => by simp
  | j :: L, row, c => by
    obtain ⟨h1, h2⟩ := design_row_fold f L (set1 row (j + 1) (f j)) c
    rw [List.foldl_cons]
    refine ⟨by rw [h1, length_set1], ?_⟩
    rw [h2, length_set1, vget_set1]
    by_cases hc : 1 ≤ c ∧ c < row.length
    · by_cases hL : c - 1 ∈ L
      · rw [if_pos ⟨hc.1, hL, hc.2⟩, if_pos ⟨hc.1, List.mem_cons_of_mem _ hL, hc.2⟩]
      · rw [if_neg (fun h => hL h.2.1)]
        by_cases hj : c = j + 1
        · subst hj
          rw [if_pos ⟨rfl, hc.2⟩, if_pos ⟨hc.1, by simp, hc.2⟩]
          simp
        · rw [if_neg (fun h => hj h.1), if_neg]
          rintro ⟨-, h, -⟩
          rcases List.mem_cons.mp h with h | h
          · omega
          · exact hL h
    · rw [if_neg (fun h => hc ⟨h.1, h.2.2⟩),
        if_neg (fun (h : c = j + 1 ∧ j + 1 < row.length) => hc ⟨by omega, by omega⟩),
        if_neg (fun h => hc ⟨h.1, h.2.2⟩)]

theorem linear_design_spec (X : List (List double)) (Xq : Nat → Nat → ℚ) (n_samples k : Nat)
    (hX : ∀ i j, i < n_samples → j < k → mget X i j = double.val (Xq i j)) :
    ∀ s c, s < n_samples → c ≤ k →
      mget (linear_design X n_samples k) s c = double.val (designQ Xq s c) := by
  intro s c hs hc
  have hrow : (linear_design X n_samples k).getD s []
      = (List.range k).foldl (fun row j => set1 row (j + 1) (mget X s j))
          (set1 (malloc_double (k + 1)) 0 1) := by
    unfold linear_design
    rw [List.getD_eq_getElem?_getD, List.getElem?_map, List.getElem?_range hs]
    rfl
  show vget ((linear_design X n_samples k).getD s []) c = _
  rw [hrow, (design_row_fold (fun j => mget X s j) (List.range k) _ c).2, length_set1]
  unfold designQ
  by_cases hc0 : c = 0
  · subst hc0
    rw [if_neg (fun h => by omega), if_pos rfl, vget_set1, if_pos ⟨rfl, by simp [malloc_double]⟩]
    rfl
  · rw [if_pos ⟨by omega, by rw [List.mem_range]; omega, by simp [malloc_double]; omega⟩,
      if_neg hc0]
    exact hX s (c - 1) hs (by omega)

theorem sum_fold_val (t : Nat → double) (g : Nat → ℚ) :
    ∀ n, (∀ k, k < n → t k = double.val (g k)) →
      (List.range n).foldl (fun s k => s + t k) 0 = double.val (∑ k in Finset.range n, g k)
  | 0, _ => rfl
  | n + 1, h => by
    rw [List.range_succ, List.foldl_append, sum_fold_val t g n (fun k hk => h k (by omega)),
      Finset.sum_range_succ]
    simp only [List.foldl_cons, List.foldl_nil]
    rw [h n (by omega), double_add_val]

theorem linear_normal_rep (X : List (List double)) (y : List double) (Xq : Nat → Nat → ℚ)
    (yq : Nat → ℚ) (n_samples k : Nat)
    (hX : ∀ i j, i < n_samples → j < k → mget X i j = double.val (Xq i j))
    (hy : ∀ i, i < n_samples → vget y i = double.val (yq i)) :
    Rep (linear_initial_state X y n_samples k).aug (normal_augQ Xq yq n_samples (k + 1))
      (k + 1) := by
  have hD := linear_design_spec X Xq n_samples k hX
  unfold linear_initial_state normal_augQ
  refine build_aug_rep _ _ (k + 1) _ _ (fun r c hr hc => ?_) (fun r hr => ?_)
  · unfold linear_XtX
    rw [mget_tabulate _ _ _ r c hr hc]
    exact sum_fold_val _ _ n_samples (fun s hs => by
      rw [hD s r hs (by omega), hD s c hs (by omega), double_mul_val])
  · unfold linear_Xty
    rw [vget_tabulate _ _ r hr]
    exact sum_fold_val _ _ n_samples (fun s hs => by
      rw [hD s r hs (by omega), hy s hs, double_mul_val])

theorem eps_guard (p : ℚ) :
    double.lt (double.fabs (double.val p)) eps = decide (|p| < 1 / 10 ^ 10) := rfl

/-- While the jump to cleanup is not taken, the guarded elimination performs
the steps of the exact elimination, with every pivot at least 1e-10 in magnitude. -/
theorem linear_forward_exact (n : Nat) (st0 : solver_state) (N : Nat → Nat → ℚ)
    (hrep : Rep st0.aug N n) :
    ∀ m, m ≤ n → (linear_forward n st0 m).singular = false →
      Rep (linear_forward n st0 m).aug (forwardQ N n m) n ∧
      ∀ k, k < m → ¬ |pivotQ N n k| < 1 / 10 ^ 10
  | 0, _, _ => ⟨hrep, fun k hk => by omega⟩
  | m + 1, hm, hns => by
    rw [linear_forward_succ] at hns ⊢
    have hprev : (linear_forward n st0 m).singular = false := by
      by_contra h
      have h' : (linear_forward n st0 m).singular = true := by simpa using h
      unfold linear_forward_step at hns
      rw [if_pos h', h'] at hns
      simp at hns
    obtain ⟨hrepm, hpivm⟩ := linear_forward_exact n st0 N hrep m (by omega) hprev
    have hpiv := pivot_rep _ _ n m hrepm (by omega)
    unfold linear_forward_step at hns ⊢
    rw [if_neg (by simp [hprev])] at hns ⊢
    simp only at hns ⊢
    by_cases hg : double.lt (double.fabs (mget (swap_rows (linear_forward n st0 m).aug m
        (find_max_row (linear_forward n st0 m).aug m n)) m m)) eps = true
    · rw [if_pos hg] at hns
      simp at hns
    · rw [if_neg hg]
      rw [hpiv, eps_guard] at hg
      have hsmall : ¬ |forwardQ N n m (find_max_rowQ (forwardQ N n m) m n) m| < 1 / 10 ^ 10 := by
        simpa using hg
      have hne : forwardQ N n m (find_max_rowQ (forwardQ N n m) m n) m ≠ 0 := by
        intro h0
        rw [h0] at hsmall
        exact hsmall (by norm_num)
      have hd := (swap_rows_spec (linear_forward n st0 m).aug m
        (find_max_row (linear_forward n st0 m).aug m n) n (n + 1) hrepm.1 (by omega)
        (find_max_row_range _ m n (by omega)).2).1
      rw [linear_eliminate_spec _ m n hd, forwardQ_succ]
      refine ⟨step_rep _ _ m n hrepm (by omega) hne, fun k hk => ?_⟩
      by_cases hkm : k = m
      · subst hkm; exact hsmall
      · exact hpivm k (by omega)

theorem fit_linear_multivariate_eq (X : List (List double)) (y coeffs : List double)
    (n_samples k : Nat) :
    fit_linear_multivariate X y n_samples k coeffs =
      if (linear_forward (k + 1) (linear_initial_state X y n_samples k) (k + 1)).singular then
        ((List.range (k + 1)).foldl (fun c j => set1 c j 0) coeffs,
          (linear_forward (k + 1) (linear_initial_state X y n_samples k) (k + 1)).divisors)
      else linear_back (linear_forward (k + 1) (linear_initial_state X y n_samples k) (k + 1))
        (k + 1) coeffs := rfl

theorem fit_linear_singular_zero (X : List (List double)) (y coeffs : List double)
    (n_samples k : Nat) (hlen : coeffs.length = k + 1)
    (hs : (linear_forward (k + 1) (linear_initial_state X y n_samples k) (k + 1)).singular
      = true) :
    ∀ j, j ≤ k → vget (fit_linear_multivariate X y n_samples k coeffs).1 j = double.val 0 := by
  intro j hj
  rw [fit_linear_multivariate_eq, if_pos hs]
  simp only
  rw [(zero_fill_fold _ coeffs j).2, if_pos ⟨by rw [List.mem_range]; omega, by omega⟩]

theorem linear_initial_dims (X : List (List double)) (y : List double) (n_samples k : Nat) :
    dims (linear_initial_state X y n_samples k).aug (k + 1) (k + 1 + 1) :=
  (build_aug_spec _ _ (k + 1)).1

theorem fit_linear_divisors (X : List (List double)) (y coeffs : List double)
    (n_samples k : Nat) :
    ∀ d ∈ (fit_linear_multivariate X y n_samples k coeffs).2,
      double.lt (double.fabs d) eps = false := by
  obtain ⟨_, h2, h3⟩ := linear_forward_inv (k + 1) (linear_initial_state X y n_samples k)
    (linear_initial_dims X y n_samples k) (fun d hd => by simp [linear_initial_state] at hd)
    (k + 1) (le_refl _)
  intro d hd
  rw [fit_linear_multivariate_eq] at hd
  by_cases hs : (linear_forward (k + 1) (linear_initial_state X y n_samples k) (k + 1)).singular
      = true
  · rw [if_pos hs] at hd
    exact h2 d hd
  · rw [if_neg hs, linear_back_spec] at hd
    rcases List.mem_append.mp hd with h | h
    · exact h2 d h
    · rw [List.mem_map] at h
      obtain ⟨i, hi, rfl⟩ := h
      rw [List.mem_reverse, List.mem_range] at hi
      exact h3 (by simpa using hs) i hi

/-- The exact outcome of fit_linear_multivariate when the jump to cleanup is not
taken: the coefficients solve the normal equations, which then have no other
solution. -/
theorem fit_linear_exact (X : List (List double)) (y coeffs : List double)
    (Xq : Nat → Nat → ℚ) (yq : Nat → ℚ) (n_samples k : Nat) (hlen : coeffs.length = k + 1)
    (hX : ∀ i j, i < n_samples → j < k → mget X i j = double.val (Xq i j))
    (hy : ∀ i, i < n_samples → vget y i = double.val (yq i))
    (hns : (linear_forward (k + 1) (linear_initial_state X y n_samples k) (k + 1)).singular
      = false) :
    ∃ x : Nat → ℚ,
      (∀ j, j ≤ k → vget (fit_linear_multivariate X y n_samples k coeffs).1 j
        = double.val (x j)) ∧
      Sys 1 (normal_augQ Xq yq n_samples (k + 1)) (k + 1) x ∧
      ∀ v : Nat → ℚ, Sys 0 (normal_augQ Xq yq n_samples (k + 1)) (k + 1) v →
        ∀ c, c < k + 1 → v c = 0 := by
  have hrep0 := linear_normal_rep X y Xq yq n_samples k hX hy
  obtain ⟨hrepn, hbig⟩ := linear_forward_exact (k + 1) _ _ hrep0 (k + 1) (le_refl _) hns
  have hpiv : ∀ j, j < k + 1 → pivotQ (normal_augQ Xq yq n_samples (k + 1)) (k + 1) j ≠ 0 := by
    intro j hj h0
    have := hbig j hj
    rw [h0] at this
    exact this (by norm_num)
  have hdiag : ∀ r, r < k + 1 →
      forwardQ (normal_augQ Xq yq n_samples (k + 1)) (k + 1) (k + 1) r r ≠ 0 := by
    intro r hr
    rw [forwardQ_diag _ _ _ r hr (le_refl _)]
    exact hpiv r hr
  obtain ⟨_, hx⟩ := back_substitution_rep _ _ (k + 1) coeffs hrepn hdiag hlen
  refine ⟨_, fun j hj => ?_, backQ_forwardQ_solves _ (k + 1) (fun _ => 0) hpiv,
    kernel_trivial_of_pivots _ (k + 1) hpiv⟩
  rw [fit_linear_multivariate_eq, if_neg (by simp [hns]), linear_back_spec]
  exact hx j (by omega)

theorem normal_equations_hold (Xq : Nat → Nat → ℚ) (yq c : Nat → ℚ) (n_samples k : Nat)
    (hlin : ∀ i, i < n_samples → yq i = c 0 + ∑ j in Finset.range k, c (j + 1) * Xq i j) :
    Sys 1 (normal_augQ Xq yq n_samples (k + 1)) (k + 1) c := by
  intro r hr
  unfold RowEq normal_augQ
  rw [if_neg (lt_irrefl _), one_mul]
  have hy : ∀ s, s < n_samples → yq s = ∑ j in Finset.range (k + 1), designQ Xq s j * c j := by
    intro s hs
    rw [hlin s hs, Finset.sum_range_succ', add_comm]
    congr 1
    · refine Finset.sum_congr rfl (fun j _ => ?_)
      simp [designQ, mul_comm]
    · simp [designQ]
  have hl : ∑ j in Finset.range (k + 1),
      (if j < k + 1 then normalQ Xq n_samples r j else rhsQ Xq yq n_samples r) * c j
      = ∑ j in Finset.range (k + 1), ∑ s in Finset.range n_samples,
          designQ Xq s r * (designQ Xq s j * c j) := by
    refine Finset.sum_congr rfl (fun j hj => ?_)
    rw [Finset.mem_range] at hj
    rw [if_pos hj, normalQ, Finset.sum_mul]
    exact Finset.sum_congr rfl (fun s _ => by ring)
  rw [hl, Finset.sum_comm, rhsQ]
  refine Finset.sum_congr rfl (fun s hs => ?_)
  rw [Finset.mem_range] at hs
  rw [hy s hs, Finset.mul_sum]

theorem predict_linear_fold (x coeffs : List double) (xq c : Nat → ℚ) :
    ∀ k, (∀ j, j ≤ k → vget coeffs j = double.val (c j)) →
      (∀ i, i < k → vget x i = double.val (xq i)) →
      predict_linear x coeffs k = double.val (c 0 + ∑ i in Finset.range k, c (i + 1) * xq i)
  | 0, hc, _ => by simp [predict_linear, hc 0 (le_refl _)]
  | k + 1, hc, hx => by
    have ih := predict_linear_fold x coeffs xq c k (fun j hj => hc j (by omega))
      (fun i hi => hx i (by omega))
    unfold predict_linear at ih ⊢
    rw [List.range_succ, List.foldl_append, ih, Finset.sum_range_succ]
    simp only [List.foldl_cons, List.foldl_nil]
    rw [hc (k + 1) (le_refl _), hx k (by omega), double_mul_val, double_add_val, add_assoc]

/-- C9: (a) over exact arithmetic, if the normal matrix of the design matrix (with
its leading constant-1 column) is singular, fit_linear_multivariate sets all k+1
coefficients to 0; (b) for every input it returns all zeros whenever the pivot
selected at some step reached by the elimination has magnitude below 1e-10; (c)
for every input, no division it performs has a divisor of magnitude below
1e-10. -/
theorem C9_fit_linear_multivariate_singular_fallback (X : List (List double))
    (y coeffs : List double) (n_samples k : Nat) (hlen : coeffs.length = k + 1) :
    (∀ (Xq : Nat → Nat → ℚ) (yq : Nat → ℚ),
      (∀ i j, i < n_samples → j < k → mget X i j = double.val (Xq i j)) →
      (∀ i, i < n_samples → vget y i = double.val (yq i)) →
      (Matrix.of (fun i j : Fin (k + 1) => normalQ Xq n_samples i j)).det = 0 →
      ∀ j, j ≤ k → vget (fit_linear_multivariate X y n_samples k coeffs).1 j = double.val 0) ∧
    (∀ i, i < k + 1 →
      (linear_forward (k + 1) (linear_initial_state X y n_samples k) i).singular = false →
      double.lt (double.fabs (mget
        (swap_rows (linear_forward (k + 1) (linear_initial_state X y n_samples k) i).aug i
          (find_max_row (linear_forward (k + 1) (linear_initial_state X y n_samples k) i).aug
            i (k + 1))) i i)) eps = true →
      ∀ j, j ≤ k → vget (fit_linear_multivariate X y n_samples k coeffs).1 j = double.val 0) ∧
    ∀ d ∈ (fit_linear_multivariate X y n_samples k coeffs).2,
      double.lt (double.fabs d) eps = false := by
  refine ⟨?_, ?_, fit_linear_divisors X y coeffs n_samples k⟩
  · intro Xq yq hX hy hdet
    by_cases hs : (linear_forward (k + 1) (linear_initial_state X y n_samples k)
        (k + 1)).singular = true
    · exact fit_linear_singular_zero X y coeffs n_samples k hlen hs
    · exfalso
      obtain ⟨_, _, _, hker⟩ := fit_linear_exact X y coeffs Xq yq n_samples k hlen hX hy
        (by simpa using hs)
      obtain ⟨v, hv0, hv⟩ := Matrix.exists_mulVec_eq_zero_iff.mpr hdet
      apply hv0
      funext c
      have hsys : Sys 0 (normal_augQ Xq yq n_samples (k + 1)) (k + 1)
          (fun c => if h : c < k + 1 then v ⟨c, h⟩ else 0) := by
        intro r hr
        unfold RowEq normal_augQ
        rw [zero_mul, Finset.sum_range]
        have := congrFun hv ⟨r, hr⟩
        simp only [Matrix.mulVec, Matrix.dotProduct, Matrix.of_apply, Pi.zero_apply] at this
        refine (Finset.sum_congr rfl (fun j _ => ?_)).trans this
        beta_reduce
        rw [if_pos j.2, dif_pos j.2]
      have := hker _ hsys c c.2
      rw [dif_pos c.2] at this
      exact this
  · intro i hi hns hsmall
    refine fit_linear_singular_zero X y coeffs n_samples k hlen ?_
    have hstep : (linear_forward (k + 1) (linear_initial_state X y n_samples k)
        (i + 1)).singular = true := by
      rw [linear_forward_succ]
      unfold linear_forward_step
      rw [if_neg (by simp [hns])]
      simp only
      rw [if_pos hsmall]
    have := linear_forward_singular_mono _ _ _ hstep (k + 1 - (i + 1))
    rwa [show i + 1 + (k + 1 - (i + 1)) = k + 1 by omega] at this

theorem C9_witness :
    (malloc_double 3).length = 2 + 1 ∧
    (∀ j, j ≤ 2 → vget (fit_linear_multivariate (mat [[1, 1], [2, 2], [3, 3]]) (vec [1, 2, 4]) 3 2
      (malloc_double 3)).1 j = double.val 0) ∧
    ∀ d ∈ (fit_linear_multivariate (mat [[1, 1], [2, 2], [3, 3]]) (vec [1, 2, 4]) 3 2
      (malloc_double 3)).2, double.lt (double.fabs d) eps = false := by
  have h := C9_fit_linear_multivariate_singular_fallback (mat [[1, 1], [2, 2], [3, 3]])
    (vec [1, 2, 4]) (malloc_double 3) 3 2 rfl
  refine ⟨rfl, ?_, h.2.2⟩
  refine h.1 (fun i _ => (i : ℚ) + 1) (fun i => if i = 2 then 4 else (i : ℚ) + 1) ?_ ?_ ?_
  · intro i j hi hj
    interval_cases i <;> interval_cases j <;> norm_num <;> rfl
  · intro i hi
    interval_cases i <;> norm_num <;> rfl
  · simp [Matrix.det_fin_three, normalQ, designQ, Finset.sum_range_succ]

/-- C10 (counterexample): on x1=[1,2,3,4,5], x2=[1,1,2,2,3], y=[9,12,17,20,25] the
coefficients returned by fit_linear_multivariate are not [2,3,4]. -/
theorem C10_counterexample :
    ¬ ((fit_linear_multivariate (mat [[1, 1], [2, 1], [3, 2], [4, 2], [5, 3]])
      (vec [9, 12, 17, 20, 25]) 5 2 (malloc_double 3)).1 = vec [2, 3, 4]) := by
  decide!

/-- C10 (amended): for every training set without missing values whose targets are
exactly y[i] = c0 + sum_j c_{j+1} * X[i][j], and on which no selected pivot is below
1e-10, fit_linear_multivariate returns exactly (c0, ..., ck) and predict_linear
reproduces every training target; for x1=[1,2,3,4,5], x2=[1,1,2,2,3],
y=[9,12,17,20,25] (which is y = 4 + 3*x1 + 2*x2) the coefficients are [4,3,2] and
the prediction at (3,2) is 17. -/
theorem C10_fit_linear_multivariate_recovers_exact_model (X : List (List double))
    (y coeffs : List double) (Xq : Nat → Nat → ℚ) (yq c : Nat → ℚ) (n_samples k : Nat)
    (hlen : coeffs.length = k + 1)
    (hX : ∀ i j, i < n_samples → j < k → mget X i j = double.val (Xq i j))
    (hy : ∀ i, i < n_samples → vget y i = double.val (yq i))
    (hlin : ∀ i, i < n_samples → yq i = c 0 + ∑ j in Finset.range k, c (j + 1) * Xq i j)
    (hns : (linear_forward (k + 1) (linear_initial_state X y n_samples k) (k + 1)).singular
      = false) :
    (∀ j, j ≤ k → vget (fit_linear_multivariate X y n_samples k coeffs).1 j
      = double.val (c j)) ∧
    (∀ i, i < n_samples →
      predict_linear (X.getD i []) (fit_linear_multivariate X y n_samples k coeffs).1 k
        = vget y i) ∧
    (fit_linear_multivariate (mat [[1, 1], [2, 1], [3, 2], [4, 2], [5, 3]])
      (vec [9, 12, 17, 20, 25]) 5 2 (malloc_double 3)).1 = vec [4, 3, 2] ∧
    predict_linear (vec [3, 2])
      (fit_linear_multivariate (mat [[1, 1], [2, 1], [3, 2], [4, 2], [5, 3]])
        (vec [9, 12, 17, 20, 25]) 5 2 (malloc_double 3)).1 2 = double.val 17 := by
  obtain ⟨x, hx, hsol, hker⟩ := fit_linear_exact X y coeffs Xq yq n_samples k hlen hX hy hns
  have hc := normal_equations_hold Xq yq c n_samples k hlin
  have hxc : ∀ j, j < k + 1 → x j = c j := by
    intro j hj
    have hdiff : Sys 0 (normal_augQ Xq yq n_samples (k + 1)) (k + 1) (fun j => x j - c j) := by
      intro r hr
      have h1 := hsol r hr
      have h2 := hc r hr
      unfold RowEq at h1 h2 ⊢
      simp only [mul_sub, Finset.sum_sub_distrib, h1, h2]
      ring
    have := hker _ hdiff j hj
    simp only at this
    linarith
  have hcoef : ∀ j, j ≤ k → vget (fit_linear_multivariate X y n_samples k coeffs).1 j
      = double.val (c j) := by
    intro j hj
    rw [hx j hj, hxc j (by omega)]
  refine ⟨hcoef, fun i hi => ?_, by decide!, by decide!⟩
  rw [predict_linear_fold (X.getD i []) _ (fun j => Xq i j) c k hcoef
    (fun j hj => hX i j hi hj), hy i hi, hlin i hi]

theorem C10_witness :
    (malloc_double 3).length = 2 + 1 ∧
    (∀ j, j ≤ 2 → vget (fit_linear_multivariate (mat [[1, 1], [2, 1], [3, 2], [4, 2], [5, 3]])
      (vec [9, 12, 17, 20, 25]) 5 2 (malloc_double 3)).1 j
        = double.val ((fun j : Nat => if j = 0 then (4 : ℚ) else if j = 1 then 3 else 2) j)) := by
  have h := C10_fit_linear_multivariate_recovers_exact_model
    (mat [[1, 1], [2, 1], [3, 2], [4, 2], [5, 3]]) (vec [9, 12, 17, 20, 25]) (malloc_double 3)
    (fun i j => if j = 0 then (i : ℚ) + 1 else if i < 2 then 1 else if i < 4 then 2 else 3)
    (fun i => if i = 0 then 9 else if i = 1 then 12 else if i = 2 then 17
      else if i = 3 then 20 else 25)
    (fun j => if j = 0 then 4 else if j = 1 then 3 else 2) 5 2 rfl
    (by intro i j hi hj; interval_cases i <;> interval_cases j <;> norm_num <;> rfl)
    (by intro i hi; interval_cases i <;> norm_num <;> rfl)
    (by intro i hi; interval_cases i <;> norm_num [Finset.sum_range_succ])
    (by decide!)
  exact ⟨rfl, h.1⟩

/-! ## Least squares -/

theorem linear_predQ_eq_design (Xq : Nat → Nat → ℚ) (c : Nat → ℚ) (k i : Nat) :
    linear_predQ Xq c k i = ∑ j in Finset.range (k + 1), designQ Xq i j * c j := by
  unfold linear_predQ
  rw [Finset.sum_range_succ', add_comm]
  congr 1
  · refine Finset.sum_congr rfl (fun j _ => ?_)
    simp [designQ, mul_comm]
  · simp [designQ]

/-- A solution of the normal equations of a design matrix minimises the sum of
squared residuals. -/
theorem normal_solution_minimises (D : Nat → Nat → ℚ) (y x c : Nat → ℚ) (ns m : Nat)
    (hx : ∀ j, j < m →
      ∑ i in Finset.range m, (∑ s in Finset.range ns, D s j * D s i) * x i
        = ∑ s in Finset.range ns, D s j * y s) :
    ∑ s in Finset.range ns, (y s - ∑ j in Finset.range m, D s j * x j) ^ 2
      ≤ ∑ s in Finset.range ns, (y s - ∑ j in Finset.range m, D s j * c j) ^ 2 := by
  have hcross : ∑ s in Finset.range ns,
      (y s - ∑ j in Finset.range m, D s j * x j) * (∑ j in Finset.range m, D s j * (x j - c j))
        = 0 := by
    have h1 : ∀ s, (y s - ∑ j in Finset.range m, D s j * x j)
        * (∑ j in Finset.range m, D s j * (x j - c j))
        = ∑ j in Finset.range m,
            (x j - c j) * (D s j * (y s - ∑ i in Finset.range m, D s i * x i)) := by
      intro s
      rw [Finset.mul_sum]
      exact Finset.sum_congr rfl (fun j _ => by ring)
    simp only [h1]
    rw [Finset.sum_comm]
    refine Finset.sum_eq_zero (fun j hj => ?_)
    rw [Finset.mem_range] at hj
    rw [← Finset.mul_sum]
    have h2 : ∑ s in Finset.range ns, D s j * (y s - ∑ i in Finset.range m, D s i * x i)
        = ∑ s in Finset.range ns, D s j * y s
          - ∑ i in Finset.range m, (∑ s in Finset.range ns, D s j * D s i) * x i := by
      simp only [mul_sub, Finset.sum_sub_distrib, Finset.mul_sum, Finset.sum_mul]
      congr 1
      rw [Finset.sum_comm]
      exact Finset.sum_congr rfl (fun i _ => Finset.sum_congr rfl (fun s _ => by ring))
    rw [h2, hx j hj, sub_self, mul_zero]
  have hsplit : ∀ s, (y s - ∑ j in Finset.range m, D s j * c j) ^ 2
      = (y s - ∑ j in Finset.range m, D s j * x j) ^ 2
        + 2 * ((y s - ∑ j in Finset.range m, D s j * x j)
            * (∑ j in Finset.range m, D s j * (x j - c j)))
        + (∑ j in Finset.range m, D s j * (x j - c j)) ^ 2 := by
    intro s
    have : ∑ j in Finset.range m, D s j * (x j - c j)
        = ∑ j in Finset.range m, D s j * x j - ∑ j in Finset.range m, D s j * c j := by
      simp only [mul_sub, Finset.sum_sub_distrib]
    rw [this]
    ring
  simp only [hsplit]
  rw [Finset.sum_add_distrib, Finset.sum_add_distrib, ← Finset.mul_sum, hcross]
  have hnn : 0 ≤ ∑ s in Finset.range ns, (∑ j in Finset.range m, D s j * (x j - c j)) ^ 2 :=
    Finset.sum_nonneg (fun s _ => sq_nonneg _)
  linarith

theorem residual_sum_squares_val (X : List (List double)) (y c : List double)
    (Xq : Nat → Nat → ℚ) (yq cq : Nat → ℚ) (n_samples k : Nat)
    (hX : ∀ i j, i < n_samples → j < k → mget X i j = double.val (Xq i j))
    (hy : ∀ i, i < n_samples → vget y i = double.val (yq i))
    (hc : ∀ j, j ≤ k → vget c j = double.val (cq j)) :
    residual_sum_squares X y n_samples k c
      = double.val (∑ i in Finset.range n_samples, (yq i - linear_predQ Xq cq k i) ^ 2) := by
  unfold residual_sum_squares
  refine sum_fold_val _ _ n_samples (fun i hi => ?_)
  rw [predict_linear_fold (X.getD i []) c (fun j => Xq i j) cq k hc (fun j hj => hX i j hi hj),
    hy i hi, double_sub_val, double_mul_val]
  unfold linear_predQ
  rw [pow_two]

/-- C11: over exact arithmetic, whenever fit_linear_multivariate does not take the
singular fallback, the coefficients it returns satisfy the normal equations and
minimise the training sum of squared residuals: no other coefficient vector gives
a smaller sum of (y[i] - predict_linear(X[i], c'))^2. -/
theorem C11_fit_linear_multivariate_least_squares (X : List (List double))
    (y coeffs : List double) (Xq : Nat → Nat → ℚ) (yq : Nat → ℚ) (n_samples k : Nat)
    (hlen : coeffs.length = k + 1)
    (hX : ∀ i j, i < n_samples → j < k → mget X i j = double.val (Xq i j))
    (hy : ∀ i, i < n_samples → vget y i = double.val (yq i))
    (hns : (linear_forward (k + 1) (linear_initial_state X y n_samples k) (k + 1)).singular
      = false) :
    (∃ x : Nat → ℚ,
      (∀ j, j ≤ k → vget (fit_linear_multivariate X y n_samples k coeffs).1 j
        = double.val (x j)) ∧
      ∀ i, i ≤ k →
        ∑ j in Finset.range (k + 1), normalQ Xq n_samples i j * x j = rhsQ Xq yq n_samples i) ∧
    ∀ c' : List double, (∀ j, j ≤ k → ∃ q : ℚ, vget c' j = double.val q) →
      double.le
        (residual_sum_squares X y n_samples k (fit_linear_multivariate X y n_samples k coeffs).1)
        (residual_sum_squares X y n_samples k c') := by
  obtain ⟨x, hx, hsol, _⟩ := fit_linear_exact X y coeffs Xq yq n_samples k hlen hX hy hns
  have hnormal : ∀ i, i ≤ k →
      ∑ j in Finset.range (k + 1), normalQ Xq n_samples i j * x j = rhsQ Xq yq n_samples i := by
    intro i hi
    have := hsol i (by omega)
    unfold RowEq normal_augQ at this
    rw [if_neg (lt_irrefl _), one_mul] at this
    rw [← this]
    refine Finset.sum_congr rfl (fun j hj => ?_)
    rw [Finset.mem_range] at hj
    rw [if_pos hj]
  refine ⟨⟨x, hx, hnormal⟩, fun c' hc' => ?_⟩
  choose cq hcq using hc'
  rw [residual_sum_squares_val X y _ Xq yq x n_samples k hX hy hx,
    residual_sum_squares_val X y c' Xq yq (fun j => if h : j ≤ k then cq j h else 0)
      n_samples k hX hy (fun j hj => by beta_reduce; rw [dif_pos hj]; exact hcq j hj)]
  show _ ≤ _
  simp only [linear_predQ_eq_design]
  exact normal_solution_minimises (designQ Xq) yq x _ n_samples (k + 1)
    (fun j hj => hnormal j (by omega))

theorem C11_witness :
    (malloc_double 3).length = 2 + 1 ∧
    double.le
      (residual_sum_squares (mat [[1, 1], [2, 1], [3, 2], [4, 2], [5, 3]])
        (vec [9, 12, 17, 21, 25]) 5 2
        (fit_linear_multivariate (mat [[1, 1], [2, 1], [3, 2], [4, 2], [5, 3]])
          (vec [9, 12, 17, 21, 25]) 5 2 (malloc_double 3)).1)
      (residual_sum_squares (mat [[1, 1], [2, 1], [3, 2], [4, 2], [5, 3]])
        (vec [9, 12, 17, 21, 25]) 5 2 (vec [4, 3, 2])) := by
  have h := C11_fit_linear_multivariate_least_squares
    (mat [[1, 1], [2, 1], [3, 2], [4, 2], [5, 3]]) (vec [9, 12, 17, 21, 25]) (malloc_double 3)
    (fun i j => if j = 0 then (i : ℚ) + 1 else if i < 2 then 1 else if i < 4 then 2 else 3)
    (fun i => if i = 0 then 9 else if i = 1 then 12 else if i = 2 then 17
      else if i = 3 then 21 else 25) 5 2 rfl
    (by intro i j hi hj; interval_cases i <;> interval_cases j <;> norm_num <;> rfl)
    (by intro i hi; interval_cases i <;> norm_num <;> rfl)
    (by decide!)
  exact ⟨rfl, h.2 (vec [4, 3, 2]) (fun j hj => by
    interval_cases j
    · exact ⟨4, rfl⟩
    · exact ⟨3, rfl⟩
    · exact ⟨2, rfl⟩)⟩

/-! ## fit_polynomial over exact data -/

theorem double_one : (1 : double) = double.val 1 := rfl

theorem double_zero : (0 : double) = double.val 0 := rfl

theorem design_row_val (x1 x2 y : List double) (s : Nat) (a b c : ℚ)
    (h1 : vget x1 s = double.val a) (h2 : vget x2 s = double.val b)
    (h3 : vget y s = double.val c) :
    design_row x1 x2 y s = [double.val 1, double.val a, double.val b, double.val (a * a),
      double.val (b * b), double.val (a * b)] := by
  unfold design_row
  rw [h1, h2, h3]
  simp [double.isnan, malloc_double, set1, List.replicate, double_mul_val, double_one]

theorem design_row_missing (x1 x2 y : List double) (s : Nat)
    (h : ((vget x1 s).isnan || (vget x2 s).isnan || (vget y s).isnan) = true) :
    design_row x1 x2 y s = List.replicate 6 (double.val 0) := by
  unfold design_row
  rw [if_pos h]
  rfl

theorem poly_design_spec (x1 x2 y : List double) (x1q x2q yq : Nat → ℚ) (n : Nat)
    (h1 : ∀ s, s < n → vget x1 s = double.val (x1q s))
    (h2 : ∀ s, s < n → vget x2 s = double.val (x2q s))
    (h3 : ∀ s, s < n → vget y s = double.val (yq s)) :
    ∀ s c, s < n → c < 6 →
      mget ((List.range n).map (design_row x1 x2 y)) s c = double.val (polyQ x1q x2q s c) := by
  intro s c hs hc
  unfold mget
  rw [List.getD_eq_getElem?_getD, List.getElem?_map, List.getElem?_range hs]
  simp only [Option.map_some', Option.getD_some]
  rw [design_row_val x1 x2 y s _ _ _ (h1 s hs) (h2 s hs) (h3 s hs)]
  interval_cases c <;> rfl

theorem sum_fold_val_guard (yv t : Nat → double) (g : Nat → ℚ) :
    ∀ n, (∀ k, k < n → (yv k).isnan = false ∧ t k = double.val (g k)) →
      (List.range n).foldl (fun s k => if !(yv k).isnan then s + t k else s) 0
        = double.val (∑ k in Finset.range n, g k)
  | 0, _ => rfl
  | n + 1, h => by
    rw [List.range_succ, List.foldl_append,
      sum_fold_val_guard yv t g n (fun k hk => h k (by omega)), Finset.sum_range_succ]
    simp only [List.foldl_cons, List.foldl_nil]
    rw [(h n (by omega)).1, (h n (by omega)).2, double_add_val]
    rfl

theorem poly_normal_rep (x1 x2 y : List double) (x1q x2q yq : Nat → ℚ) (n : Nat)
    (h1 : ∀ s, s < n → vget x1 s = double.val (x1q s))
    (h2 : ∀ s, s < n → vget x2 s = double.val (x2q s))
    (h3 : ∀ s, s < n → vget y s = double.val (yq s)) :
    (∀ r c, r < 6 → c < 6 →
      mget (poly_XtX ((List.range n).map (design_row x1 x2 y)) y n) r c
        = double.val (poly_normalQ x1q x2q n r c)) ∧
    ∀ r, r < 6 →
      vget (poly_Xty ((List.range n).map (design_row x1 x2 y)) y n) r
        = double.val (poly_rhsQ x1q x2q yq n r) := by
  have hD := poly_design_spec x1 x2 y x1q x2q yq n h1 h2 h3
  have hnan : ∀ s, s < n → (vget y s).isnan = false := by
    intro s hs; rw [h3 s hs]; rfl
  constructor
  · intro r c hr hc
    unfold poly_XtX
    rw [mget_tabulate _ _ _ r c hr hc]
    exact sum_fold_val_guard _ _ _ n (fun s hs => ⟨hnan s hs, by
      rw [hD s r hs hr, hD s c hs hc, double_mul_val]⟩)
  · intro r hr
    unfold poly_Xty
    rw [vget_tabulate _ _ r hr]
    exact sum_fold_val_guard _ _ _ n (fun s hs => ⟨hnan s hs, by
      rw [hD s r hs hr, h3 s hs, double_mul_val]⟩)

/-- If the targets are a combination of the columns of a design matrix, the
combination solves the normal equations. -/
theorem normal_equations_gen (D : Nat → Nat → ℚ) (y c : Nat → ℚ) (ns m : Nat)
    (hy : ∀ s, s < ns → y s = ∑ j in Finset.range m, D s j * c j) (i : Nat) :
    ∑ j in Finset.range m, (∑ s in Finset.range ns, D s i * D s j) * c j
      = ∑ s in Finset.range ns, D s i * y s := by
  have hl : ∑ j in Finset.range m, (∑ s in Finset.range ns, D s i * D s j) * c j
      = ∑ j in Finset.range m, ∑ s in Finset.range ns, D s i * (D s j * c j) := by
    refine Finset.sum_congr rfl (fun j _ => ?_)
    rw [Finset.sum_mul]
    exact Finset.sum_congr rfl (fun s _ => by ring)
  rw [hl, Finset.sum_comm]
  refine Finset.sum_congr rfl (fun s hs => ?_)
  rw [Finset.mem_range] at hs
  rw [hy s hs, Finset.mul_sum]

theorem det_ne_zero_kernel {n : Nat} (A : Matrix (Fin n) (Fin n) ℚ) (hdet : A.det ≠ 0)
    (Aq : Nat → Nat → ℚ) (hA : ∀ i j : Fin n, Aq i j = A i j) (v : Nat → ℚ)
    (hv : ∀ r, r < n → ∑ c in Finset.range n, Aq r c * v c = 0) : ∀ c, c < n → v c = 0 := by
  intro c hc
  have hmul : A.mulVec (fun j : Fin n => v j) = 0 := by
    funext i
    have := hv i i.2
    rw [Finset.sum_range] at this
    simp only [Matrix.mulVec, Matrix.dotProduct, Pi.zero_apply]
    refine (Finset.sum_congr rfl (fun j _ => ?_)).trans this
    rw [hA]
  exact congrFun (Matrix.eq_zero_of_mulVec_eq_zero hdet hmul) ⟨c, hc⟩

theorem predict_polynomial_val (coeffs : List double) (c : Nat → ℚ) (a b : ℚ)
    (hc : ∀ j, j < 6 → vget coeffs j = double.val (c j)) :
    predict_polynomial (double.val a) (double.val b) coeffs
      = double.val (c 0 + c 1 * a + c 2 * b + c 3 * a * a + c 4 * b * b + c 5 * a * b) := by
  unfold predict_polynomial
  rw [hc 0 (by omega), hc 1 (by omega), hc 2 (by omega), hc 3 (by omega), hc 4 (by omega),
    hc 5 (by omega)]
  simp only [double_mul_val, double_add_val]

/-- Exact recovery by fit_polynomial when the normal matrix is invertible. -/
theorem fit_polynomial_exact (x1 x2 y coeffs : List double) (x1q x2q yq c : Nat → ℚ) (n : Nat)
    (hlen : coeffs.length = 6)
    (h1 : ∀ s, s < n → vget x1 s = double.val (x1q s))
    (h2 : ∀ s, s < n → vget x2 s = double.val (x2q s))
    (h3 : ∀ s, s < n → vget y s = double.val (yq s))
    (hy : ∀ s, s < n → yq s = ∑ j in Finset.range 6, polyQ x1q x2q s j * c j)
    (hinv : (Matrix.of (fun i j : Fin 6 => poly_normalQ x1q x2q n i j)).det ≠ 0) :
    ∀ j, j < 6 → vget (fit_polynomial x1 x2 y n coeffs) j = double.val (c j) := by
  obtain ⟨hN, hR⟩ := poly_normal_rep x1 x2 y x1q x2q yq n h1 h2 h3
  have hker := det_ne_zero_kernel _ hinv (fun i j => poly_normalQ x1q x2q n i j)
    (fun i j => rfl)
  obtain ⟨x, hx1, hx2, _⟩ := solve_linear_system_exact _ _ coeffs 6
    (fun i j => poly_normalQ x1q x2q n i j) (fun i => poly_rhsQ x1q x2q yq n i) hN hR hlen hker
  intro j hj
  have hxc : x j = c j := by
    have := hker (fun j => x j - c j) (fun r hr => by
      have e1 := hx2 r hr
      have e2 := normal_equations_gen (polyQ x1q x2q) yq c n 6 hy r
      simp only [mul_sub, Finset.sum_sub_distrib]
      rw [e1]
      unfold poly_normalQ poly_rhsQ
      rw [e2]
      ring) j hj
    simp only at this
    linarith
  unfold fit_polynomial
  simp only
  rw [hx1 j hj, hxc]

theorem pivotQ_ne_zero_of_arrays (a : List (List double)) (Q : Nat → Nat → ℚ) (n : Nat)
    (hrep : Rep a Q n)
    (h : ∀ k, k < n → mget (swap_rows (forward_elimination a n k) k
      (find_max_row (forward_elimination a n k) k n)) k k ≠ double.val 0) :
    ∀ k, k < n → pivotQ Q n k ≠ 0 := by
  intro k
  induction k using Nat.strong_induction_on with
  | _ k ih =>
    intro hk hzero
    have hr := forward_rep a Q n hrep k (by omega) (fun j hj => ih j hj (by omega))
    apply h k hk
    rw [pivot_rep _ _ n k hr hk]
    exact congrArg double.val hzero

/-- A square system on which the elimination of solve_linear_system meets no zero
pivot has an invertible matrix. -/
theorem det_ne_zero_of_array_pivots (A : List (List double)) (b : List double) (n : Nat)
    (Aq : Nat → Nat → ℚ) (bq : Nat → ℚ)
    (hA : ∀ r c, r < n → c < n → mget A r c = double.val (Aq r c))
    (hb : ∀ r, r < n → vget b r = double.val (bq r))
    (h : ∀ k, k < n → mget (swap_rows (forward_elimination (build_aug A b n) n k) k
      (find_max_row (forward_elimination (build_aug A b n) n k) k n)) k k ≠ double.val 0) :
    (Matrix.of (fun i j : Fin n => Aq i j)).det ≠ 0 := by
  have hpiv := pivotQ_ne_zero_of_arrays _ _ n (build_aug_rep A b n Aq bq hA hb) h
  intro hdet
  obtain ⟨v, hv, hmul⟩ := Matrix.exists_mulVec_eq_zero_iff.mpr hdet
  apply hv
  have hz := kernel_trivial_of_pivots _ n hpiv (fun c => if hc : c < n then v ⟨c, hc⟩ else 0)
    (fun r hr => by
      unfold RowEq
      rw [zero_mul, Finset.sum_range]
      have := congrFun hmul ⟨r, hr⟩
      simp only [Matrix.mulVec, Matrix.dotProduct, Pi.zero_apply, Matrix.of_apply] at this
      refine (Finset.sum_congr rfl (fun j _ => ?_)).trans this
      beta_reduce
      rw [if_pos j.2, dif_pos j.2])
  funext c
  have := hz c c.2
  beta_reduce at this
  rw [dif_pos c.2] at this
  exact this

/-- Over exact arithmetic: for every training set without missing values whose targets
lie exactly on an affine surface y = c0 + c1*x1 + c2*x2 and whose 6x6 normal matrix is
invertible, fit_polynomial returns exactly the coefficients (c0, c1, c2, 0, 0, 0) and
predict_polynomial reproduces each training target exactly, hence to within 0.1. -/
theorem fit_polynomial_reproduces_affine_targets_exact (x1 x2 y coeffs : List double)
    (x1q x2q : Nat → ℚ) (c0 c1 c2 : ℚ) (n : Nat)
    (hlen : coeffs.length = 6)
    (h1 : ∀ s, s < n → vget x1 s = double.val (x1q s))
    (h2 : ∀ s, s < n → vget x2 s = double.val (x2q s))
    (h3 : ∀ s, s < n → vget y s = double.val (c0 + c1 * x1q s + c2 * x2q s))
    (hinv : (Matrix.of (fun i j : Fin 6 => poly_normalQ x1q x2q n i j)).det ≠ 0) :
    (∀ j, j < 6 →
      vget (fit_polynomial x1 x2 y n coeffs) j = double.val (affine_coeffs c0 c1 c2 j)) ∧
    ∀ s, s < n →
      predict_polynomial (vget x1 s) (vget x2 s) (fit_polynomial x1 x2 y n coeffs) = vget y s ∧
      double.near
        (predict_polynomial (vget x1 s) (vget x2 s) (fit_polynomial x1 x2 y n coeffs))
        (c0 + c1 * x1q s + c2 * x2q s) (1 / 10) := by
  have hc := fit_polynomial_exact x1 x2 y coeffs x1q x2q
    (fun s => c0 + c1 * x1q s + c2 * x2q s) (affine_coeffs c0 c1 c2) n hlen h1 h2 h3
    (fun s _ => by
      simp only [Finset.sum_range_succ, Finset.sum_range_zero, polyQ, affine_coeffs]
      ring) hinv
  refine ⟨hc, fun s hs => ?_⟩
  have hp : predict_polynomial (vget x1 s) (vget x2 s) (fit_polynomial x1 x2 y n coeffs)
      = double.val (c0 + c1 * x1q s + c2 * x2q s) := by
    rw [h1 s hs, h2 s hs, predict_polynomial_val _ (affine_coeffs c0 c1 c2) _ _ hc]
    simp only [affine_coeffs]
    congr 1
    ring
  rw [hp, h3 s hs]
  refine ⟨rfl, ?_⟩
  show |_ - _| ≤ _
  rw [sub_self, abs_zero]
  norm_num

set_option maxRecDepth 100000 in
theorem ieee_predict_five_samples :
    (List.range 5).map (fun s =>
      ieee.predict_polynomial (ieee.vget (ieee.vec [1, 2, 3, 4, 5]) s)
        (ieee.vget (ieee.vec [1, 1, 2, 2, 3]) s)
        [ieee.binary64.finite false (4503599627376603 / 1125899906842624),
         ieee.binary64.finite false (817573698801599 / 70368744177664),
         ieee.binary64.finite true (2144394888364103 / 140737488355328),
         ieee.binary64.finite false (2425869865071713 / 281474976710656),
         ieee.binary64.finite false (4851739730144877 / 140737488355328),
         ieee.binary64.finite true (2425869865072093 / 70368744177664)])
      = [ieee.binary64.finite false (633318697598859 / 70368744177664),
         ieee.binary64.finite false (422212465066075 / 35184372088832),
         ieee.binary64.finite false (598134325510141 / 35184372088832),
         ieee.binary64.finite false (175921860444149 / 8796093022208),
         ieee.binary64.finite false (219902325555205 / 8796093022208)] := by
  decide!

set_option maxRecDepth 100000 in
theorem ieee_predict_five_samples_near :
    ∀ s, s < 5 →
      ieee.binary64.near
        (([ieee.binary64.finite false (633318697598859 / 70368744177664),
           ieee.binary64.finite false (422212465066075 / 35184372088832),
           ieee.binary64.finite false (598134325510141 / 35184372088832),
           ieee.binary64.finite false (175921860444149 / 8796093022208),
           ieee.binary64.finite false (219902325555205 / 8796093022208)] :
            List ieee.binary64).getD s ieee.binary64.nan)
        (([9, 12, 17, 20, 25] : List ℚ).getD s 0) (1 / 10) := by
  decide!

set_option maxRecDepth 100000 in
/-- C12 (amended): over exact arithmetic, for every training set without missing
values whose targets lie exactly on an affine surface y = c0 + c1*x1 + c2*x2 and whose
6x6 normal matrix is invertible, fit_polynomial returns exactly the coefficients
(c0, c1, c2, 0, 0, 0) and predict_polynomial reproduces each training target exactly,
hence to within 0.1.  For x1=[1,2,3,4,5], x2=[1,1,2,2,3], y=[9,12,17,20,25] (five
samples, six unknowns, a singular normal matrix) the coefficients fit_polynomial
computes in double arithmetic give a prediction within 0.1 of 9 at (1,1), within 0.1
of 17 at (3,2), and within 0.1 of the target at each of the five training points. -/
theorem C12_fit_polynomial_reproduces_affine_targets (x1 x2 y coeffs : List double)
    (x1q x2q : Nat → ℚ) (c0 c1 c2 : ℚ) (n : Nat)
    (hlen : coeffs.length = 6)
    (h1 : ∀ s, s < n → vget x1 s = double.val (x1q s))
    (h2 : ∀ s, s < n → vget x2 s = double.val (x2q s))
    (h3 : ∀ s, s < n → vget y s = double.val (c0 + c1 * x1q s + c2 * x2q s))
    (hinv : (Matrix.of (fun i j : Fin 6 => poly_normalQ x1q x2q n i j)).det ≠ 0) :
    ((∀ j, j < 6 →
        vget (fit_polynomial x1 x2 y n coeffs) j = double.val (affine_coeffs c0 c1 c2 j)) ∧
      ∀ s, s < n →
        predict_polynomial (vget x1 s) (vget x2 s) (fit_polynomial x1 x2 y n coeffs)
          = vget y s ∧
        double.near
          (predict_polynomial (vget x1 s) (vget x2 s) (fit_polynomial x1 x2 y n coeffs))
          (c0 + c1 * x1q s + c2 * x2q s) (1 / 10)) ∧
    ieee.binary64.near
      (ieee.predict_polynomial (ieee.lit 1) (ieee.lit 1)
        (ieee.fit_polynomial (ieee.vec [1, 2, 3, 4, 5]) (ieee.vec [1, 1, 2, 2, 3])
          (ieee.vec [9, 12, 17, 20, 25]) 5 (ieee.malloc_double 6))) 9 (1 / 10) ∧
    ieee.binary64.near
      (ieee.predict_polynomial (ieee.lit 3) (ieee.lit 2)
        (ieee.fit_polynomial (ieee.vec [1, 2, 3, 4, 5]) (ieee.vec [1, 1, 2, 2, 3])
          (ieee.vec [9, 12, 17, 20, 25]) 5 (ieee.malloc_double 6))) 17 (1 / 10) ∧
    ∀ s, s < 5 →
      ieee.binary64.near
        (ieee.predict_polynomial (ieee.vget (ieee.vec [1, 2, 3, 4, 5]) s)
          (ieee.vget (ieee.vec [1, 1, 2, 2, 3]) s)
          (ieee.fit_polynomial (ieee.vec [1, 2, 3, 4, 5]) (ieee.vec [1, 1, 2, 2, 3])
            (ieee.vec [9, 12, 17, 20, 25]) 5 (ieee.malloc_double 6)))
        (([9, 12, 17, 20, 25] : List ℚ).getD s 0) (1 / 10) := by
  have hall : ∀ s, s < 5 →
      ieee.binary64.near
        (ieee.predict_polynomial (ieee.vget (ieee.vec [1, 2, 3, 4, 5]) s)
          (ieee.vget (ieee.vec [1, 1, 2, 2, 3]) s)
          (ieee.fit_polynomial (ieee.vec [1, 2, 3, 4, 5]) (ieee.vec [1, 1, 2, 2, 3])
            (ieee.vec [9, 12, 17, 20, 25]) 5 (ieee.malloc_double 6)))
        (([9, 12, 17, 20, 25] : List ℚ).getD s 0) (1 / 10) := by
    intro s hs
    have hp := congrArg (fun l => l.getD s ieee.binary64.nan) ieee_predict_five_samples
    simp only at hp
    rw [List.getD_eq_getElem?_getD, List.getElem?_map,
      List.getElem?_eq_getElem (by rw [List.length_range]; exact hs), List.getElem_range] at hp
    simp only [Option.map_some', Option.getD_some] at hp
    rw [ieee_fit_five_samples, hp]
    exact ieee_predict_five_samples_near s hs
  have e1 : ieee.vget (ieee.vec [1, 2, 3, 4, 5]) 0 = ieee.lit 1 := rfl
  have e2 : ieee.vget (ieee.vec [1, 1, 2, 2, 3]) 0 = ieee.lit 1 := rfl
  have e3 : ieee.vget (ieee.vec [1, 2, 3, 4, 5]) 2 = ieee.lit 3 := rfl
  have e4 : ieee.vget (ieee.vec [1, 1, 2, 2, 3]) 2 = ieee.lit 2 := rfl
  have e5 : ([9, 12, 17, 20, 25] : List ℚ).getD 0 0 = 9 := rfl
  have e6 : ([9, 12, 17, 20, 25] : List ℚ).getD 2 0 = 17 := rfl
  have hp0 := hall 0 (by omega)
  have hp2 := hall 2 (by omega)
  rw [e1, e2, e5] at hp0
  rw [e3, e4, e6] at hp2
  exact ⟨fit_polynomial_reproduces_affine_targets_exact x1 x2 y coeffs x1q x2q c0 c1 c2 n hlen
    h1 h2 h3 hinv, hp0, hp2, hall⟩

theorem ieee_predict_not_a_number :
    ieee.predict_polynomial (ieee.lit 1) (ieee.lit 1) (List.replicate 6 ieee.binary64.nan)
      = ieee.binary64.nan := by
  decide!

/-- C12: a single sample lies on an affine surface, yet the fit divides zero by zero,
in exact and in double arithmetic alike, and the prediction at the training point is
not a number, hence not within 0.1 of the target. -/
theorem C12_counterexample :
    vget (vec [1]) 0 = double.val (1 + 0 * 1 + 0 * 1) ∧
    fit_polynomial (vec [1]) (vec [1]) (vec [1]) 1 (malloc_double 6)
      = List.replicate 6 double.nan ∧
    ¬ double.near (predict_polynomial (double.val 1) (double.val 1)
      (fit_polynomial (vec [1]) (vec [1]) (vec [1]) 1 (malloc_double 6))) 1 (1 / 10) ∧
    ieee.fit_polynomial (ieee.vec [1]) (ieee.vec [1]) (ieee.vec [1]) 1 (ieee.malloc_double 6)
      = List.replicate 6 ieee.binary64.nan ∧
    ¬ ieee.binary64.near (ieee.predict_polynomial (ieee.lit 1) (ieee.lit 1)
      (ieee.fit_polynomial (ieee.vec [1]) (ieee.vec [1]) (ieee.vec [1]) 1
        (ieee.malloc_double 6))) 1 (1 / 10) := by
  have h : fit_polynomial (vec [1]) (vec [1]) (vec [1]) 1 (malloc_double 6)
      = List.replicate 6 double.nan := by decide!
  refine ⟨by decide!, h, ?_, ieee_fit_one_sample, ?_⟩
  · rw [h]
    exact fun hn => hn
  · rw [ieee_fit_one_sample, ieee_predict_not_a_number]
    exact fun hn => hn

/-- In exact arithmetic the five samples x1=[1,2,3,4,5], x2=[1,1,2,2,3],
y=[9,12,17,20,25] give a singular normal matrix (six unknowns, five samples): the
last pivot of the elimination is exactly zero and no coefficient is a number. -/
theorem fit_polynomial_five_samples_singular :
    fit_polynomial (vec [1, 2, 3, 4, 5]) (vec [1, 1, 2, 2, 3]) (vec [9, 12, 17, 20, 25]) 5
      (malloc_double 6) = List.replicate 6 double.nan := by decide!

set_option maxRecDepth 100000 in
theorem C12_witness :
    (malloc_double 6).length = 6 ∧
    (∀ j, j < 6 →
      vget (fit_polynomial (vec [0, 1, 0, 1, 2, 2]) (vec [0, 0, 1, 1, 0, 2])
        (vec [2, 5, 6, 9, 8, 16]) 6 (malloc_double 6)) j
        = double.val (affine_coeffs 2 3 4 j)) ∧
    double.near (predict_polynomial (double.val 1) (double.val 1)
      (fit_polynomial (vec [0, 1, 0, 1, 2, 2]) (vec [0, 0, 1, 1, 0, 2])
        (vec [2, 5, 6, 9, 8, 16]) 6 (malloc_double 6))) 9 (1 / 10) := by
  have h1 : ∀ s, s < 6 → vget (vec [0, 1, 0, 1, 2, 2]) s
      = double.val (([0, 1, 0, 1, 2, 2] : List ℚ).getD s 0) := by decide!
  have h2 : ∀ s, s < 6 → vget (vec [0, 0, 1, 1, 0, 2]) s
      = double.val (([0, 0, 1, 1, 0, 2] : List ℚ).getD s 0) := by decide!
  have h3 : ∀ s, s < 6 → vget (vec [2, 5, 6, 9, 8, 16]) s
      = double.val (2 + 3 * ([0, 1, 0, 1, 2, 2] : List ℚ).getD s 0
        + 4 * ([0, 0, 1, 1, 0, 2] : List ℚ).getD s 0) := by decide!
  have hN := poly_normal_rep _ _ _ _ _ _ 6 h1 h2 h3
  have h := C12_fit_polynomial_reproduces_affine_targets
    (vec [0, 1, 0, 1, 2, 2]) (vec [0, 0, 1, 1, 0, 2]) (vec [2, 5, 6, 9, 8, 16])
    (malloc_double 6) (fun s => ([0, 1, 0, 1, 2, 2] : List ℚ).getD s 0)
    (fun s => ([0, 0, 1, 1, 0, 2] : List ℚ).getD s 0) 2 3 4 6 rfl h1 h2 h3
    (det_ne_zero_of_array_pivots _ _ 6 _ _ hN.1 hN.2 (by decide!))
  refine ⟨rfl, h.1.1, ?_⟩
  have h3 := (h.1.2 3 (by omega)).2
  have e : vget (vec [0, 1, 0, 1, 2, 2]) 3 = double.val 1 := rfl
  have e2 : vget (vec [0, 0, 1, 1, 0, 2]) 3 = double.val 1 := rfl
  rw [e, e2] at h3
  have e3 : (2 : ℚ) + 3 * ([0, 1, 0, 1, 2, 2] : List ℚ).getD 3 0
      + 4 * ([0, 0, 1, 1, 0, 2] : List ℚ).getD 3 0 = 9 := by
    simp only [List.getD_cons_succ, List.getD_cons_zero]
    norm_num
  rw [e3] at h3
  exact h3

/-! ## Missing rows in fit_polynomial -/

theorem double_add_zero (s : double) : s + double.val 0 = s := by
  cases s with
  | val a => rw [double_add_val, add_zero]
  | nan => rfl

theorem foldl_filter_skip {α β : Type} (f : β → α → β) (p : α → Bool)
    (h : ∀ s a, p a = false → f s a = s) :
    ∀ (l : List α) (s : β), l.foldl f s = (l.filter p).foldl f s
  | [], _ => rfl
  | a :: l, s => by
    cases hp : p a with
    | false =>
      rw [List.filter_cons_of_neg (by simp [hp]), List.foldl_cons, h s a hp]
      exact foldl_filter_skip f p h l s
    | true =>
      rw [List.filter_cons_of_pos hp, List.foldl_cons, List.foldl_cons]
      exact foldl_filter_skip f p h l _

theorem map_getD_range (l : List Nat) :
    (List.range l.length).map (fun k => l.getD k 0) = l := by
  apply List.ext_getElem
  · simp
  · intro i h1 h2
    simp [List.getD_eq_getElem?_getD, List.getElem?_eq_getElem h2]

theorem vget_map (l : List Nat) (f : Nat → double) (k : Nat) (hk : k < l.length) :
    vget (l.map f) k = f (l.getD k 0) := by
  unfold vget
  rw [List.getD_eq_getElem?_getD, List.getElem?_map, List.getD_eq_getElem?_getD,
    List.getElem?_eq_getElem hk]
  rfl

theorem design_row_congr (x1 x2 y x1b x2b yb : List double) (i k : Nat)
    (h1 : vget x1b k = vget x1 i) (h2 : vget x2b k = vget x2 i) (h3 : vget yb k = vget y i) :
    design_row x1b x2b yb k = design_row x1 x2 y i := by
  unfold design_row
  rw [h1, h2, h3]

theorem mget_map_range (f : Nat → List double) (n k c : Nat) (hk : k < n) :
    mget ((List.range n).map f) k c = vget (f k) c := by
  unfold mget
  rw [List.getD_eq_getElem?_getD, List.getElem?_map, List.getElem?_range hk]
  rfl

/-- A guarded sum over the samples of fit_polynomial is the same sum over the
samples that remain after the rows with a missing value are deleted. -/
theorem poly_sum_delete (x1 x2 y : List double) (n : Nat)
    (t : List double → List double → List double → Nat → double)
    (ht : ∀ (a1 a2 a3 b1 b2 b3 : List double) (i k : Nat), vget b1 k = vget a1 i →
      vget b2 k = vget a2 i → vget b3 k = vget a3 i → t b1 b2 b3 k = t a1 a2 a3 i)
    (hz : ∀ k, row_present x1 x2 y k = false → (vget y k).isnan = false →
      t x1 x2 y k = double.val 0) :
    (List.range n).foldl (fun s k => if !(vget y k).isnan then s + t x1 x2 y k else s) 0
      = (List.range (present_rows x1 x2 y n).length).foldl
          (fun s k => if !(vget (delete_missing x1 x2 y n y) k).isnan then
            s + t (delete_missing x1 x2 y n x1) (delete_missing x1 x2 y n x2)
              (delete_missing x1 x2 y n y) k else s) 0 := by
  rw [foldl_filter_skip _ (row_present x1 x2 y) (fun s k hk => by
    cases hy : (vget y k).isnan with
    | true => rfl
    | false =>
      rw [hz k hk hy, double_add_zero]
      rfl) (List.range n) 0]
  show (present_rows x1 x2 y n).foldl _ 0 = _
  conv_lhs => rw [← map_getD_range (present_rows x1 x2 y n)]
  rw [List.foldl_map]
  refine List.foldl_ext _ _ _ (fun s k hk => ?_)
  rw [List.mem_range] at hk
  have e : ∀ v, vget (delete_missing x1 x2 y n v) k
      = vget v ((present_rows x1 x2 y n).getD k 0) := fun v => vget_map _ _ k hk
  rw [e y, ht x1 x2 y _ _ _ ((present_rows x1 x2 y n).getD k 0) k (e x1) (e x2) (e y)]

theorem design_row_absent (x1 x2 y : List double) (k i : Nat)
    (hk : row_present x1 x2 y k = false) (hi : i < 6) :
    vget (design_row x1 x2 y k) i = double.val 0 := by
  rw [design_row_missing x1 x2 y k (by
    unfold row_present at hk
    cases h : ((vget x1 k).isnan || (vget x2 k).isnan || (vget y k).isnan) with
    | true => rfl
    | false => rw [h] at hk; exact absurd hk (by decide))]
  interval_cases i <;> rfl

theorem double_zero_mul (a : double) (h : a.isnan = false) :
    double.val 0 * a = double.val 0 := by
  cases a with
  | val q => rw [double_mul_val, zero_mul]
  | nan => exact absurd h (by decide)

theorem poly_XtX_delete (x1 x2 y : List double) (n : Nat) :
    poly_XtX ((List.range n).map (design_row x1 x2 y)) y n
      = poly_XtX ((List.range (present_rows x1 x2 y n).length).map
          (design_row (delete_missing x1 x2 y n x1) (delete_missing x1 x2 y n x2)
            (delete_missing x1 x2 y n y)))
          (delete_missing x1 x2 y n y) (present_rows x1 x2 y n).length := by
  unfold poly_XtX
  refine List.map_congr_left (fun i hi => ?_)
  refine List.map_congr_left (fun j hj => ?_)
  rw [List.mem_range] at hi hj
  have hl := poly_sum_delete x1 x2 y n
    (fun a1 a2 a3 k => vget (design_row a1 a2 a3 k) i * vget (design_row a1 a2 a3 k) j)
    (fun a1 a2 a3 b1 b2 b3 p k h1 h2 h3 => by
      beta_reduce
      rw [design_row_congr a1 a2 a3 b1 b2 b3 p k h1 h2 h3])
    (fun k hk _ => by
      beta_reduce
      rw [design_row_absent x1 x2 y k i hk hi, design_row_absent x1 x2 y k j hk hj,
        double_mul_val, mul_zero])
  refine Eq.trans (List.foldl_ext _ _ _ (fun s k hk => ?_)) (hl.trans
    (List.foldl_ext _ _ _ (fun s k hk => ?_)))
  · rw [List.mem_range] at hk
    rw [mget_map_range _ n k i hk, mget_map_range _ n k j hk]
  · rw [List.mem_range] at hk
    rw [mget_map_range _ _ k i hk, mget_map_range _ _ k j hk]

theorem poly_Xty_delete (x1 x2 y : List double) (n : Nat) :
    poly_Xty ((List.range n).map (design_row x1 x2 y)) y n
      = poly_Xty ((List.range (present_rows x1 x2 y n).length).map
          (design_row (delete_missing x1 x2 y n x1) (delete_missing x1 x2 y n x2)
            (delete_missing x1 x2 y n y)))
          (delete_missing x1 x2 y n y) (present_rows x1 x2 y n).length := by
  unfold poly_Xty
  refine List.map_congr_left (fun i hi => ?_)
  rw [List.mem_range] at hi
  have hl := poly_sum_delete x1 x2 y n
    (fun a1 a2 a3 k => vget (design_row a1 a2 a3 k) i * vget a3 k)
    (fun a1 a2 a3 b1 b2 b3 p k h1 h2 h3 => by
      beta_reduce
      rw [design_row_congr a1 a2 a3 b1 b2 b3 p k h1 h2 h3, h3])
    (fun k hk hy => by
      beta_reduce
      rw [design_row_absent x1 x2 y k i hk hi, double_zero_mul _ hy])
  refine Eq.trans (List.foldl_ext _ _ _ (fun s k hk => ?_)) (hl.trans
    (List.foldl_ext _ _ _ (fun s k hk => ?_)))
  · rw [List.mem_range] at hk
    rw [mget_map_range _ n k i hk]
  · rw [List.mem_range] at hk
    rw [mget_map_range _ _ k i hk]

/-- C13: for every input of numbers and missing values, the normal matrix and the
right-hand side built by fit_polynomial equal those built after every row with a
missing x1, x2 or y is deleted from x1, x2 and y (n reduced accordingly), so such
rows contribute exactly zero, and the coefficients returned are identical. -/
theorem C13_fit_polynomial_missing_rows_contribute_zero (x1 x2 y coeffs : List double)
    (n : Nat) :
    poly_XtX ((List.range n).map (design_row x1 x2 y)) y n
      = poly_XtX ((List.range (present_rows x1 x2 y n).length).map
          (design_row (delete_missing x1 x2 y n x1) (delete_missing x1 x2 y n x2)
            (delete_missing x1 x2 y n y)))
          (delete_missing x1 x2 y n y) (present_rows x1 x2 y n).length ∧
    poly_Xty ((List.range n).map (design_row x1 x2 y)) y n
      = poly_Xty ((List.range (present_rows x1 x2 y n).length).map
          (design_row (delete_missing x1 x2 y n x1) (delete_missing x1 x2 y n x2)
            (delete_missing x1 x2 y n y)))
          (delete_missing x1 x2 y n y) (present_rows x1 x2 y n).length ∧
    fit_polynomial x1 x2 y n coeffs
      = fit_polynomial (delete_missing x1 x2 y n x1) (delete_missing x1 x2 y n x2)
          (delete_missing x1 x2 y n y) (present_rows x1 x2 y n).length coeffs := by
  refine ⟨poly_XtX_delete x1 x2 y n, poly_Xty_delete x1 x2 y n, ?_⟩
  unfold fit_polynomial
  simp only
  rw [poly_XtX_delete x1 x2 y n, poly_Xty_delete x1 x2 y n]

theorem C13_witness :
    delete_missing (vec [0, 1, 0, 7, 1, 2, 2]) [double.val 0, double.val 0, double.val 1,
        double.nan, double.val 1, double.val 0, double.val 2] (vec [2, 5, 6, 1, 9, 8, 16]) 7
        (vec [2, 5, 6, 1, 9, 8, 16]) = vec [2, 5, 6, 9, 8, 16] ∧
    fit_polynomial (vec [0, 1, 0, 7, 1, 2, 2]) [double.val 0, double.val 0, double.val 1,
        double.nan, double.val 1, double.val 0, double.val 2] (vec [2, 5, 6, 1, 9, 8, 16]) 7
        (malloc_double 6)
      = fit_polynomial
          (delete_missing (vec [0, 1, 0, 7, 1, 2, 2]) [double.val 0, double.val 0, double.val 1,
            double.nan, double.val 1, double.val 0, double.val 2] (vec [2, 5, 6, 1, 9, 8, 16]) 7
            (vec [0, 1, 0, 7, 1, 2, 2]))
          (delete_missing (vec [0, 1, 0, 7, 1, 2, 2]) [double.val 0, double.val 0, double.val 1,
            double.nan, double.val 1, double.val 0, double.val 2] (vec [2, 5, 6, 1, 9, 8, 16]) 7
            [double.val 0, double.val 0, double.val 1,
              double.nan, double.val 1, double.val 0, double.val 2])
          (delete_missing (vec [0, 1, 0, 7, 1, 2, 2]) [double.val 0, double.val 0, double.val 1,
            double.nan, double.val 1, double.val 0, double.val 2] (vec [2, 5, 6, 1, 9, 8, 16]) 7
            (vec [2, 5, 6, 1, 9, 8, 16]))
          (present_rows (vec [0, 1, 0, 7, 1, 2, 2]) [double.val 0, double.val 0, double.val 1,
            double.nan, double.val 1, double.val 0, double.val 2]
            (vec [2, 5, 6, 1, 9, 8, 16]) 7).length (malloc_double 6) ∧
    fit_polynomial (vec [0, 1, 0, 7, 1, 2, 2]) [double.val 0, double.val 0, double.val 1,
        double.nan, double.val 1, double.val 0, double.val 2] (vec [2, 5, 6, 1, 9, 8, 16]) 7
        (malloc_double 6) = vec [2, 3, 4, 0, 0, 0] :=
  ⟨by decide!, (C13_fit_polynomial_missing_rows_contribute_zero _ _ _ _ 7).2.2, by decide!⟩

/-! ## calculate_rmse -/

theorem rmse_sums_succ (pred actual : List double) (n : Nat) :
    rmse_sums pred actual (n + 1)
      = (match vget pred n, vget actual n with
        | double.val p, double.val a =>
          ((rmse_sums pred actual n).1 + (p - a) * (p - a), (rmse_sums pred actual n).2 + 1)
        | _, _ => rmse_sums pred actual n) := by
  unfold rmse_sums
  rw [List.range_succ, List.foldl_append]
  rfl

theorem both_present_iff (pred actual : List double) (i : Nat) :
    both_present pred actual i = true
      ↔ ∃ p a : ℚ, vget pred i = double.val p ∧ vget actual i = double.val a := by
  unfold both_present
  cases hp : vget pred i <;> cases ha : vget actual i <;> simp [double.isnan]

theorem rmse_sums_spec (pred actual : List double) :
    ∀ n, rmse_sums pred actual n
      = (∑ i in (Finset.range n).filter (fun i => both_present pred actual i = true),
          ((vget pred i).value - (vget actual i).value) ^ 2,
         ((Finset.range n).filter (fun i => both_present pred actual i = true)).card)
  | 0 => rfl
  | n + 1 => by
    rw [rmse_sums_succ, rmse_sums_spec pred actual n, Finset.range_succ]
    have hn : n ∉ (Finset.range n).filter (fun i => both_present pred actual i = true) := by
      simp
    by_cases hb : both_present pred actual n = true
    · obtain ⟨p, a, hp, ha⟩ := (both_present_iff pred actual n).mp hb
      rw [Finset.filter_insert, if_pos hb, Finset.sum_insert hn, Finset.card_insert_of_not_mem hn,
        hp, ha]
      simp only [double.value]
      rw [add_comm, pow_two]
    · rw [Finset.filter_insert, if_neg hb]
      cases hp : vget pred n with
      | nan => rfl
      | val p =>
        cases ha : vget actual n with
        | nan => rfl
        | val a => exact absurd ((both_present_iff pred actual n).mpr ⟨p, a, hp, ha⟩) hb

/-- Over exact arithmetic: calculate_rmse returns +infinity if and only if there is no
index i < n at which both pred[i] and actual[i] are present; in particular it does so
for n = 0 and when every pair has a missing member. -/
theorem calculate_rmse_infinity_iff_exact (pred actual : List double) (n : Nat) :
    (calculate_rmse pred actual n = rmse_t.infinity
      ↔ ¬ ∃ i, i < n ∧ (vget pred i).isnan = false ∧ (vget actual i).isnan = false) ∧
    calculate_rmse pred actual 0 = rmse_t.infinity ∧
    ((∀ i, i < n → (vget pred i).isnan = true ∨ (vget actual i).isnan = true) →
      (rmse_sums pred actual n).2 = 0 ∧ calculate_rmse pred actual n = rmse_t.infinity) := by
  have key : calculate_rmse pred actual n = rmse_t.infinity
      ↔ ¬ ∃ i, i < n ∧ (vget pred i).isnan = false ∧ (vget actual i).isnan = false := by
    unfold calculate_rmse
    simp only
    rw [rmse_sums_spec]
    simp only
    constructor
    · intro h ⟨i, hi, hp, ha⟩
      by_cases hc : ((Finset.range n).filter
          (fun i => both_present pred actual i = true)).card > 0
      · rw [if_pos hc] at h
        exact absurd h (by simp)
      · have h0 : ((Finset.range n).filter
            (fun i => both_present pred actual i = true)).card = 0 := by omega
        rw [Finset.card_eq_zero] at h0
        have hm : i ∈ (Finset.range n).filter (fun i => both_present pred actual i = true) := by
          rw [Finset.mem_filter, Finset.mem_range]
          refine ⟨hi, ?_⟩
          unfold both_present
          rw [hp, ha]
          rfl
        rw [h0] at hm
        exact absurd hm (Finset.not_mem_empty i)
    · intro h
      have h0 : (Finset.range n).filter (fun i => both_present pred actual i = true) = ∅ := by
        rw [Finset.filter_eq_empty_iff]
        intro i hi hb
        rw [Finset.mem_range] at hi
        unfold both_present at hb
        refine h ⟨i, hi, ?_, ?_⟩
        · cases hp : (vget pred i).isnan with
          | false => rfl
          | true => rw [hp] at hb; simp at hb
        · cases ha : (vget actual i).isnan with
          | false => rfl
          | true => rw [ha] at hb; simp at hb
      rw [h0]
      rfl
  refine ⟨key, rfl, fun h => ?_⟩
  have hinf : calculate_rmse pred actual n = rmse_t.infinity := key.mpr (by
    rintro ⟨i, hi, hp, ha⟩
    rcases h i hi with h1 | h1
    · rw [hp] at h1; exact absurd h1 (by decide)
    · rw [ha] at h1; exact absurd h1 (by decide))
  refine ⟨?_, hinf⟩
  by_contra hc
  unfold calculate_rmse at hinf
  simp only at hinf
  rw [if_pos (by omega)] at hinf
  exact absurd hinf (by simp)

/-- C14 (amended): in double arithmetic calculate_rmse returns +infinity if and only
if there is no index i < n at which both pred[i] and actual[i] are present, or the mean
of the squared differences it computes is itself +infinity (a square overflows, or a
value is infinite); in particular for n = 0 or when every pair has a missing member it
returns +infinity rather than dividing by a zero count.  Over exact arithmetic, where
nothing overflows, it returns +infinity if and only if there is no such index. -/
theorem C14_calculate_rmse_infinity_conditions (pred actual : List ieee.binary64)
    (predq actualq : List double) (n : Nat) :
    (ieee.calculate_rmse pred actual n = ieee.INFINITY
      ↔ (¬ ∃ i, i < n ∧ (ieee.vget pred i).isnan = false ∧ (ieee.vget actual i).isnan = false)
        ∨ (ieee.rmse_sums pred actual n).1
            / ieee.binary64.of_int (ieee.rmse_sums pred actual n).2
          = ieee.binary64.infinite false) ∧
    ieee.calculate_rmse pred actual 0 = ieee.INFINITY ∧
    ((∀ i, i < n → (ieee.vget pred i).isnan = true ∨ (ieee.vget actual i).isnan = true) →
      (ieee.rmse_sums pred actual n).2 = 0 ∧
      ieee.calculate_rmse pred actual n = ieee.INFINITY) ∧
    (calculate_rmse predq actualq n = rmse_t.infinity
      ↔ ¬ ∃ i, i < n ∧ (vget predq i).isnan = false ∧ (vget actualq i).isnan = false) := by
  refine ⟨ieee_calculate_rmse_infinity pred actual n, rfl, fun hall => ?_,
    (calculate_rmse_infinity_iff_exact predq actualq n).1⟩
  have hno : ¬ ∃ i, i < n ∧ (ieee.vget pred i).isnan = false
      ∧ (ieee.vget actual i).isnan = false := by
    rintro ⟨i, hi, hp, ha⟩
    rcases hall i hi with h | h
    · rw [hp] at h
      exact absurd h (by decide)
    · rw [ha] at h
      exact absurd h (by decide)
  refine ⟨?_, (ieee_calculate_rmse_infinity pred actual n).mpr (Or.inl hno)⟩
  have h1 : ¬ 0 < (ieee.rmse_sums pred actual n).2 :=
    fun h => hno ((ieee_rmse_count_pos pred actual n).mp h)
  have h2 : 0 ≤ (ieee.rmse_sums pred actual n).2 := by
    rw [ieee_rmse_count]
    exact Int.natCast_nonneg _
  omega

/-- C14: with pred = [1e200] and actual = [0] both values are present at index 0, yet
the double result of calculate_rmse is +infinity: the square overflows. -/
theorem C14_counterexample :
    (∃ i, i < 1 ∧ (ieee.vget [ieee.lit ((10 : ℚ) ^ 200)] i).isnan = false
      ∧ (ieee.vget [ieee.lit 0] i).isnan = false) ∧
    ieee.calculate_rmse [ieee.lit ((10 : ℚ) ^ 200)] [ieee.lit 0] 1 = ieee.INFINITY :=
  ⟨⟨0, by decide, by decide!, by decide!⟩, ieee_rmse_overflow⟩

theorem C14_witness :
    (∀ i, i < 2 → (ieee.vget [ieee.binary64.nan, ieee.lit 1] i).isnan = true
      ∨ (ieee.vget [ieee.lit 2, ieee.binary64.nan] i).isnan = true) ∧
    ieee.calculate_rmse [ieee.binary64.nan, ieee.lit 1] [ieee.lit 2, ieee.binary64.nan] 2
      = ieee.INFINITY :=
  ⟨by decide!, ((C14_calculate_rmse_infinity_conditions
    [ieee.binary64.nan, ieee.lit 1] [ieee.lit 2, ieee.binary64.nan] [] [] 2).2.2.1
      (by decide!)).2⟩

theorem rmse_t_denotes_unique (q : ℚ) (r : ℝ) (h : rmse_t.denotes (rmse_t.sqrt q) r) :
    r = Real.sqrt (q : ℝ) := by
  obtain ⟨h0, h2⟩ := h
  rw [← h2, Real.sqrt_sq h0]

theorem rmse_t_denotes_zero (q : ℚ) (r : ℝ) (h : rmse_t.denotes (rmse_t.sqrt q) r) :
    r = 0 ↔ q = 0 := by
  obtain ⟨_, h2⟩ := h
  constructor
  · intro hr
    rw [hr] at h2
    have : (q : ℝ) = 0 := by rw [← h2]; norm_num
    exact_mod_cast this
  · intro hq
    rw [hq] at h2
    have : r ^ 2 = 0 := by rw [h2]; norm_num
    exact pow_eq_zero_iff (by norm_num) |>.mp this

/-- Over exact arithmetic: when at least one index has both values present,
calculate_rmse returns the non-negative real r with r^2 = (sum of
(pred[i]-actual[i])^2 over the indices where both are present) / (number of such
indices): that real exists and is unique, and it is 0 exactly when pred and actual
agree on all those indices. -/
theorem calculate_rmse_root_mean_square_exact (pred actual : List double) (n : Nat)
    (h : ∃ i, i < n ∧ both_present pred actual i = true) :
    calculate_rmse pred actual n
      = rmse_t.sqrt
          ((∑ i in (Finset.range n).filter (fun i => both_present pred actual i = true),
              ((vget pred i).value - (vget actual i).value) ^ 2)
            / (((Finset.range n).filter (fun i => both_present pred actual i = true)).card : ℚ)) ∧
    (∃ r : ℝ, rmse_t.denotes (calculate_rmse pred actual n) r ∧
      ∀ r2 : ℝ, rmse_t.denotes (calculate_rmse pred actual n) r2 → r2 = r) ∧
    ∀ r : ℝ, rmse_t.denotes (calculate_rmse pred actual n) r →
      (r = 0 ↔ ∀ i, i < n → both_present pred actual i = true → vget pred i = vget actual i) := by
  obtain ⟨i0, hi0, hb0⟩ := h
  have hmem : i0 ∈ (Finset.range n).filter (fun i => both_present pred actual i = true) := by
    rw [Finset.mem_filter, Finset.mem_range]
    exact ⟨hi0, hb0⟩
  have hcard : 0 < ((Finset.range n).filter (fun i => both_present pred actual i = true)).card :=
    Finset.card_pos.mpr ⟨i0, hmem⟩
  have hval : calculate_rmse pred actual n
      = rmse_t.sqrt
          ((∑ i in (Finset.range n).filter (fun i => both_present pred actual i = true),
              ((vget pred i).value - (vget actual i).value) ^ 2)
            / (((Finset.range n).filter
                (fun i => both_present pred actual i = true)).card : ℚ)) := by
    unfold calculate_rmse
    simp only
    rw [rmse_sums_spec]
    simp only
    rw [if_pos hcard]
  have hsum : 0 ≤ ∑ i in (Finset.range n).filter (fun i => both_present pred actual i = true),
      ((vget pred i).value - (vget actual i).value) ^ 2 :=
    Finset.sum_nonneg (fun i _ => sq_nonneg _)
  have hcq : (0 : ℚ) < (((Finset.range n).filter
      (fun i => both_present pred actual i = true)).card : ℚ) := by exact_mod_cast hcard
  have hq : 0 ≤ (∑ i in (Finset.range n).filter (fun i => both_present pred actual i = true),
      ((vget pred i).value - (vget actual i).value) ^ 2)
      / (((Finset.range n).filter (fun i => both_present pred actual i = true)).card : ℚ) :=
    div_nonneg hsum (le_of_lt hcq)
  refine ⟨hval, ?_, ?_⟩
  · rw [hval]
    refine ⟨Real.sqrt _, ⟨Real.sqrt_nonneg _, Real.sq_sqrt (by exact_mod_cast hq)⟩,
      fun r2 hr2 => rmse_t_denotes_unique _ r2 hr2⟩
  · intro r hr
    rw [hval] at hr
    rw [rmse_t_denotes_zero _ r hr, div_eq_zero_iff]
    constructor
    · intro hz i hi hb
      rcases hz with hz | hz
      · have := (Finset.sum_eq_zero_iff_of_nonneg (fun i _ => sq_nonneg _)).mp hz i (by
          rw [Finset.mem_filter, Finset.mem_range]
          exact ⟨hi, hb⟩)
        obtain ⟨p, a, hp, ha⟩ := (both_present_iff pred actual i).mp hb
        rw [hp, ha] at this ⊢
        simp only [double.value] at this
        have : p = a := by
          have := pow_eq_zero_iff (by norm_num) |>.mp this
          linarith
        rw [this]
      · exact absurd hz (ne_of_gt hcq)
    · intro hall
      left
      refine Finset.sum_eq_zero (fun i hi => ?_)
      rw [Finset.mem_filter, Finset.mem_range] at hi
      rw [hall i hi.1 hi.2, sub_self]
      norm_num

/-- Over exact arithmetic the error of pred=[1,2,3,4] against actual=[1.1,2.1,2.9,4.2]
is the square root of 7/400, positive and within 0.05 of 0.15. -/
theorem calculate_rmse_example_exact :
    (∃ i, i < 4 ∧ both_present (vec [1, 2, 3, 4]) (vec [11 / 10, 21 / 10, 29 / 10, 21 / 5]) i
      = true) ∧
    calculate_rmse (vec [1, 2, 3, 4]) (vec [11 / 10, 21 / 10, 29 / 10, 21 / 5]) 4
      = rmse_t.sqrt (7 / 400) ∧
    ∀ r : ℝ,
      rmse_t.denotes
        (calculate_rmse (vec [1, 2, 3, 4]) (vec [11 / 10, 21 / 10, 29 / 10, 21 / 5]) 4) r →
        0 < r ∧ |r - 15 / 100| ≤ 5 / 100 := by
  have hex : ∃ i, i < 4 ∧ both_present (vec [1, 2, 3, 4])
      (vec [11 / 10, 21 / 10, 29 / 10, 21 / 5]) i = true := ⟨0, by decide!⟩
  have hv : calculate_rmse (vec [1, 2, 3, 4]) (vec [11 / 10, 21 / 10, 29 / 10, 21 / 5]) 4
      = rmse_t.sqrt (7 / 400) := by decide!
  have h := calculate_rmse_root_mean_square_exact (vec [1, 2, 3, 4])
    (vec [11 / 10, 21 / 10, 29 / 10, 21 / 5]) 4 hex
  refine ⟨hex, hv, fun r hr => ?_⟩
  have hne : r ≠ 0 := by
    intro h0
    have := (h.2.2 r hr).mp h0 0 (by omega) (by decide!)
    exact absurd this (by decide!)
  rw [hv] at hr
  obtain ⟨h0, h2⟩ := hr
  have hpos : 0 < r := lt_of_le_of_ne h0 (Ne.symm hne)
  refine ⟨hpos, ?_⟩
  have h2q : r ^ 2 = 7 / 400 := by rw [h2]; norm_num
  rw [abs_le]
  constructor <;> nlinarith

/-- C15 (amended): over exact arithmetic, when at least one index has both values
present, calculate_rmse returns the non-negative real r with r^2 = (sum of
(pred[i]-actual[i])^2 over the indices where both are present) / (number of such
indices): that real exists and is unique, and it is 0 exactly when pred and actual
agree on all those indices.  In double arithmetic the result is 0 when pred and actual
hold the same finite values on all those indices (the converse fails by underflow),
and for pred=[1,2,3,4], actual=[1.1,2.1,2.9,4.2] it is the double
0.13228756555322965, positive and within 0.05 of 0.15. -/
theorem C15_calculate_rmse_root_mean_square (pred actual : List double) (n : Nat)
    (h : ∃ i, i < n ∧ both_present pred actual i = true) :
    (calculate_rmse pred actual n
      = rmse_t.sqrt
          ((∑ i in (Finset.range n).filter (fun i => both_present pred actual i = true),
              ((vget pred i).value - (vget actual i).value) ^ 2)
            / (((Finset.range n).filter (fun i => both_present pred actual i = true)).card : ℚ)) ∧
    (∃ r : ℝ, rmse_t.denotes (calculate_rmse pred actual n) r ∧
      ∀ r2 : ℝ, rmse_t.denotes (calculate_rmse pred actual n) r2 → r2 = r) ∧
    ∀ r : ℝ, rmse_t.denotes (calculate_rmse pred actual n) r →
      (r = 0 ↔ ∀ i, i < n → both_present pred actual i = true → vget pred i = vget actual i)) ∧
    (∀ (p a : List ieee.binary64) (m : Nat),
      (∃ i, i < m ∧ (ieee.vget p i).isnan = false ∧ (ieee.vget a i).isnan = false) →
      (∀ i, ieee.both_present p a i = true →
        ∃ s v, ieee.vget p i = ieee.binary64.finite s v
          ∧ ieee.vget a i = ieee.binary64.finite s v) →
      ieee.calculate_rmse p a m = ieee.binary64.finite false 0) ∧
    ieee.calculate_rmse (ieee.vec [1, 2, 3, 4]) (ieee.vec [11 / 10, 21 / 10, 29 / 10, 42 / 10]) 4
      = ieee.binary64.finite false (4766161847450201 / 36028797018963968) ∧
    ieee.binary64.gt
      (ieee.calculate_rmse (ieee.vec [1, 2, 3, 4])
        (ieee.vec [11 / 10, 21 / 10, 29 / 10, 42 / 10]) 4) (ieee.lit 0) = true ∧
    ieee.binary64.near
      (ieee.calculate_rmse (ieee.vec [1, 2, 3, 4])
        (ieee.vec [11 / 10, 21 / 10, 29 / 10, 42 / 10]) 4) (15 / 100) (5 / 100) := by
  refine ⟨calculate_rmse_root_mean_square_exact pred actual n h,
    fun p a m hex hag => ieee_calculate_rmse_zero_of_agree p a m hex hag,
    ieee_rmse_example, ?_, ?_⟩
  · rw [ieee_rmse_example]
    decide!
  · rw [ieee_rmse_example]
    decide!

/-- C15: with pred = [1e-200] and actual = [0] both values are present at index 0 and
they differ, yet the double result of calculate_rmse is 0: the square underflows; and
with pred = [1e200] the result is +infinity, no real number at all. -/
theorem C15_counterexample :
    (∃ i, i < 1 ∧ ieee.both_present [ieee.lit (1 / (10 : ℚ) ^ 200)] [ieee.lit 0] i = true) ∧
    ieee.vget [ieee.lit (1 / (10 : ℚ) ^ 200)] 0 ≠ ieee.vget [ieee.lit 0] 0 ∧
    ieee.calculate_rmse [ieee.lit (1 / (10 : ℚ) ^ 200)] [ieee.lit 0] 1
      = ieee.binary64.finite false 0 ∧
    ieee.calculate_rmse [ieee.lit ((10 : ℚ) ^ 200)] [ieee.lit 0] 1 = ieee.INFINITY :=
  ⟨⟨0, by decide, by decide!⟩, by decide!, ieee_rmse_underflow, ieee_rmse_overflow⟩

theorem C15_witness :
    (∃ i, i < 4 ∧ both_present (vec [1, 2, 3, 4]) (vec [11 / 10, 21 / 10, 29 / 10, 21 / 5]) i
      = true) ∧
    ∃ r : ℝ,
      rmse_t.denotes
        (calculate_rmse (vec [1, 2, 3, 4]) (vec [11 / 10, 21 / 10, 29 / 10, 21 / 5]) 4) r ∧
      ∀ r2 : ℝ,
        rmse_t.denotes
          (calculate_rmse (vec [1, 2, 3, 4]) (vec [11 / 10, 21 / 10, 29 / 10, 21 / 5]) 4) r2 →
        r2 = r :=
  ⟨⟨0, by decide!⟩,
    (C15_calculate_rmse_root_mean_square (vec [1, 2, 3, 4])
      (vec [11 / 10, 21 / 10, 29 / 10, 21 / 5]) 4 ⟨0, by decide!⟩).1.2.1⟩

/-! ## calculate_r2 -/

theorem calculate_r2_eq (pred actual : List double) (n : Nat) :
    calculate_r2 pred actual n
      = 1 - (r2_sums pred actual n).2 / (r2_sums pred actual n).1 := rfl

theorem r2_mean_sums_val (actual : List double) (aq : Nat → ℚ) :
    ∀ n, (∀ i, i < n → vget actual i = double.val (aq i)) →
      r2_mean_sums actual n = (double.val (∑ i in Finset.range n, aq i), n)
  | 0, _ => rfl
  | n + 1, h => by
    unfold r2_mean_sums
    rw [List.range_succ, List.foldl_append]
    have ih := r2_mean_sums_val actual aq n (fun i hi => h i (by omega))
    unfold r2_mean_sums at ih
    rw [ih, Finset.sum_range_succ]
    simp only [List.foldl_cons, List.foldl_nil]
    rw [h n (by omega)]
    rfl

theorem r2_pair_fold (pred actual : List double) (mean : double) (pq aq : Nat → ℚ) (m : ℚ)
    (hm : mean = double.val m) :
    ∀ n, (∀ i, i < n → vget pred i = double.val (pq i)) →
      (∀ i, i < n → vget actual i = double.val (aq i)) →
      (List.range n).foldl
        (fun (acc : double × double) i =>
          if !(vget pred i).isnan && !(vget actual i).isnan then
            (acc.1 + (vget actual i - mean) * (vget actual i - mean),
             acc.2 + (vget actual i - vget pred i) * (vget actual i - vget pred i))
          else acc) (0, 0)
        = (double.val (∑ i in Finset.range n, (aq i - m) ^ 2),
           double.val (∑ i in Finset.range n, (aq i - pq i) ^ 2))
  | 0, _, _ => rfl
  | n + 1, hp, ha => by
    rw [List.range_succ, List.foldl_append,
      r2_pair_fold pred actual mean pq aq m hm n (fun i hi => hp i (by omega))
        (fun i hi => ha i (by omega)), Finset.sum_range_succ, Finset.sum_range_succ]
    simp only [List.foldl_cons, List.foldl_nil]
    rw [hp n (by omega), ha n (by omega), hm]
    simp only [double.isnan, Bool.not_false, Bool.and_self, if_true, double_sub_val,
      double_mul_val, double_add_val, pow_two]

theorem r2_sums_val (pred actual : List double) (pq aq : Nat → ℚ) (n : Nat) (hn : 0 < n)
    (hp : ∀ i, i < n → vget pred i = double.val (pq i))
    (ha : ∀ i, i < n → vget actual i = double.val (aq i)) :
    r2_sums pred actual n
      = (double.val (∑ i in Finset.range n, (aq i - meanQ aq n) ^ 2),
         double.val (∑ i in Finset.range n, (aq i - pq i) ^ 2)) := by
  unfold r2_sums
  simp only
  rw [r2_mean_sums_val actual aq n ha]
  have hn0 : ((n : Nat) : ℚ) ≠ 0 := by exact_mod_cast (Nat.pos_iff_ne_zero.mp hn)
  exact r2_pair_fold pred actual _ pq aq (meanQ aq n) (double_div_val _ _ hn0) n hp ha

theorem sum_sq_pos_of_nonconstant (aq : Nat → ℚ) (n : Nat) (m : ℚ)
    (hnc : ∃ i j, i < n ∧ j < n ∧ aq i ≠ aq j) :
    0 < ∑ i in Finset.range n, (aq i - m) ^ 2 := by
  obtain ⟨i, j, hi, hj, hne⟩ := hnc
  by_contra hle
  have hz : ∑ i in Finset.range n, (aq i - m) ^ 2 = 0 :=
    le_antisymm (not_lt.mp hle) (Finset.sum_nonneg (fun _ _ => sq_nonneg _))
  have hall := (Finset.sum_eq_zero_iff_of_nonneg (fun i _ => sq_nonneg (aq i - m))).mp hz
  have e1 := pow_eq_zero_iff (by norm_num) |>.mp (hall i (Finset.mem_range.mpr hi))
  have e2 := pow_eq_zero_iff (by norm_num) |>.mp (hall j (Finset.mem_range.mpr hj))
  exact hne (by linarith)

/-- Over exact arithmetic: for every non-constant sequence a with no missing values,
calculate_r2(a, a, n) equals 1: the residual sum of squares is 0 and the total sum
of squares is positive. -/
theorem calculate_r2_identical_sequences_exact (a : List double) (aq : Nat → ℚ) (n : Nat)
    (ha : ∀ i, i < n → vget a i = double.val (aq i))
    (hnc : ∃ i j, i < n ∧ j < n ∧ aq i ≠ aq j) :
    (∃ ss_tot : ℚ, 0 < ss_tot ∧ r2_sums a a n = (double.val ss_tot, double.val 0)) ∧
    calculate_r2 a a n = double.val 1 := by
  have hn : 0 < n := by
    obtain ⟨i, _, hi, _, _⟩ := hnc
    omega
  have hs := r2_sums_val a a aq aq n hn ha ha
  have hpos := sum_sq_pos_of_nonconstant aq n (meanQ aq n) hnc
  have hres : ∑ i in Finset.range n, (aq i - aq i) ^ 2 = 0 :=
    Finset.sum_eq_zero (fun i _ => by rw [sub_self]; norm_num)
  rw [hres] at hs
  refine ⟨⟨_, hpos, hs⟩, ?_⟩
  rw [calculate_r2_eq, hs]
  simp only
  rw [double_div_val _ _ (ne_of_gt hpos), zero_div, double_one, double_sub_val, sub_zero]

/-- C16 (amended): over exact arithmetic, for every non-constant sequence a with no
missing values calculate_r2(a, a, n) equals 1: the residual sum of squares is 0 and the
total sum of squares is positive.  In double arithmetic, for every sequence a of finite
values the residual sum of squares is 0 and calculate_r2(a, a, n) equals 1 unless the
total sum of squares the function computes is zero (which underflow brings about for
some non-constant a) or not a number, and then the result is not a number; for
pred = actual = [1,2,3,4] it is 1. -/
theorem C16_calculate_r2_identical_sequences (a : List double) (aq : Nat → ℚ) (n : Nat)
    (ha : ∀ i, i < n → vget a i = double.val (aq i))
    (hnc : ∃ i j, i < n ∧ j < n ∧ aq i ≠ aq j) :
    ((∃ ss_tot : ℚ, 0 < ss_tot ∧ r2_sums a a n = (double.val ss_tot, double.val 0)) ∧
      calculate_r2 a a n = double.val 1) ∧
    (∀ (b : List ieee.binary64) (m : Nat),
      (∀ i, i < m → ∃ s v, ieee.vget b i = ieee.binary64.finite s v) →
      (ieee.r2_sums b b m).2 = ieee.binary64.finite false 0 ∧
      ieee.calculate_r2 b b m
        = (if (ieee.r2_sums b b m).1 = ieee.binary64.nan
              ∨ ∃ t, (ieee.r2_sums b b m).1 = ieee.binary64.finite t 0
            then ieee.binary64.nan else ieee.binary64.finite false 1)) ∧
    ieee.calculate_r2 (ieee.vec [1, 2, 3, 4]) (ieee.vec [1, 2, 3, 4]) 4
      = ieee.binary64.finite false 1 :=
  ⟨calculate_r2_identical_sequences_exact a aq n ha hnc,
    fun b m hfin => ieee_calculate_r2_self b m hfin, ieee_r2_example_same⟩

/-- C16: the sequence a = [0, 1e-170] is not constant and has no missing value, yet
the double result of calculate_r2(a, a, 2) is not a number: the total sum of squares
underflows to 0 and 0 is divided by 0. -/
theorem C16_counterexample :
    ieee.vec [0, 1 / 10 ^ 170]
      = [ieee.binary64.finite false 0,
         ieee.binary64.finite false (5438853046443695 / 2 ^ 617)] ∧
    ieee.vget (ieee.vec [0, 1 / 10 ^ 170]) 0 ≠ ieee.vget (ieee.vec [0, 1 / 10 ^ 170]) 1 ∧
    ieee.calculate_r2 (ieee.vec [0, 1 / 10 ^ 170]) (ieee.vec [0, 1 / 10 ^ 170]) 2
      = ieee.binary64.nan ∧
    ieee.calculate_r2 (ieee.vec [0, 1 / 10 ^ 170]) (ieee.vec [0, 1 / 10 ^ 170]) 2
      ≠ ieee.binary64.finite false 1 := by
  refine ⟨ieee_r2_underflow_data, ?_, ieee_r2_underflow, ?_⟩
  · rw [ieee_r2_underflow_data]
    decide!
  · rw [ieee_r2_underflow]
    decide

theorem C16_witness :
    (∀ i, i < 4 → vget (vec [1, 2, 3, 4]) i = double.val ((fun i : Nat => (i : ℚ) + 1) i)) ∧
    calculate_r2 (vec [1, 2, 3, 4]) (vec [1, 2, 3, 4]) 4 = double.val 1 := by
  have ha : ∀ i, i < 4 → vget (vec [1, 2, 3, 4]) i
      = double.val ((fun i : Nat => (i : ℚ) + 1) i) := by
    intro i hi
    interval_cases i <;> norm_num <;> rfl
  exact ⟨ha, (C16_calculate_r2_identical_sequences (vec [1, 2, 3, 4])
    (fun i => (i : ℚ) + 1) 4 ha ⟨0, 1, by omega, by omega, by norm_num⟩).1.2⟩

theorem sum_sq_shift (aq : Nat → ℚ) (n : Nat) (hn : 0 < n) (c : ℚ) :
    ∑ i in Finset.range n, (aq i - c) ^ 2
      = ∑ i in Finset.range n, (aq i - meanQ aq n) ^ 2 + n * (meanQ aq n - c) ^ 2 := by
  have hn0 : ((n : Nat) : ℚ) ≠ 0 := by exact_mod_cast (Nat.pos_iff_ne_zero.mp hn)
  have hmean : ∑ i in Finset.range n, aq i = n * meanQ aq n := by
    unfold meanQ
    field_simp
  have hsplit : ∀ i, (aq i - c) ^ 2
      = (aq i - meanQ aq n) ^ 2 + (2 * (meanQ aq n - c) * aq i
        + ((meanQ aq n - c) ^ 2 - 2 * (meanQ aq n - c) * meanQ aq n)) := fun i => by ring
  rw [Finset.sum_congr rfl (fun i _ => hsplit i), Finset.sum_add_distrib, Finset.sum_add_distrib,
    ← Finset.mul_sum, hmean, Finset.sum_const, Finset.card_range, nsmul_eq_mul]
  ring

/-- Over exact arithmetic: for a constant predictor pred[i] = c and a non-constant
actual sequence with no missing values, calculate_r2 returns a number r <= 0 (hence
r < 0.5), and r = 0 exactly when c is the mean of actual. -/
theorem calculate_r2_constant_predictor_exact (pred actual : List double) (aq : Nat → ℚ) (c : ℚ)
    (n : Nat)
    (hp : ∀ i, i < n → vget pred i = double.val c)
    (ha : ∀ i, i < n → vget actual i = double.val (aq i))
    (hnc : ∃ i j, i < n ∧ j < n ∧ aq i ≠ aq j) :
    ∃ r : ℚ, calculate_r2 pred actual n = double.val r ∧ r ≤ 0 ∧ r < 1 / 2 ∧
      (r = 0 ↔ c = meanQ aq n) := by
  have hn : 0 < n := by
    obtain ⟨i, _, hi, _, _⟩ := hnc
    omega
  have hnq : (0 : ℚ) < n := by exact_mod_cast hn
  have hs := r2_sums_val pred actual (fun _ => c) aq n hn hp ha
  have hpos := sum_sq_pos_of_nonconstant aq n (meanQ aq n) hnc
  have hshift := sum_sq_shift aq n hn c
  have hval : calculate_r2 pred actual n
      = double.val (1 - (∑ i in Finset.range n, (aq i - c) ^ 2)
          / (∑ i in Finset.range n, (aq i - meanQ aq n) ^ 2)) := by
    rw [calculate_r2_eq, hs]
    simp only
    rw [double_div_val _ _ (ne_of_gt hpos), double_one, double_sub_val]
  have hr : 1 - (∑ i in Finset.range n, (aq i - c) ^ 2)
      / (∑ i in Finset.range n, (aq i - meanQ aq n) ^ 2)
      = -((n : ℚ) * (meanQ aq n - c) ^ 2)
        / (∑ i in Finset.range n, (aq i - meanQ aq n) ^ 2) := by
    rw [hshift]
    field_simp
  have hle : -((n : ℚ) * (meanQ aq n - c) ^ 2)
      / (∑ i in Finset.range n, (aq i - meanQ aq n) ^ 2) ≤ 0 :=
    div_nonpos_of_nonpos_of_nonneg
      (neg_nonpos.mpr (mul_nonneg (le_of_lt hnq) (sq_nonneg _))) (le_of_lt hpos)
  refine ⟨_, hval, ?_, ?_, ?_⟩
  · rw [hr]; exact hle
  · rw [hr]; linarith
  · rw [hr, div_eq_zero_iff]
    constructor
    · intro h
      rcases h with h | h
      · have h2 : (n : ℚ) * (meanQ aq n - c) ^ 2 = 0 := by linarith
        rcases mul_eq_zero.mp h2 with h3 | h3
        · exact absurd h3 (ne_of_gt hnq)
        · have := pow_eq_zero_iff (by norm_num) |>.mp h3
          linarith
      · exact absurd h (ne_of_gt hpos)
    · intro h
      left
      rw [h, sub_self]
      norm_num

theorem calculate_r2_constant_example_exact :
    calculate_r2 (vec [1, 1, 1, 1]) (vec [1, 2, 3, 4]) 4 = double.val (1 - 14 / 5) := by
  decide!

/-- C17 (amended): over exact arithmetic, for a constant predictor pred[i] = c and a
non-constant actual sequence with no missing values, calculate_r2 returns a number
r <= 0 (hence r < 0.5), and r = 0 exactly when c is the mean of actual; for
pred=[1,1,1,1], actual=[1,2,3,4] that number is 1 - 14/5 = -1.8.  In double arithmetic
the result for that example is the double -1.7999999999999998, below 0.5 and within
1e-15 of -1.8. -/
theorem C17_calculate_r2_constant_predictor (pred actual : List double) (aq : Nat → ℚ) (c : ℚ)
    (n : Nat)
    (hp : ∀ i, i < n → vget pred i = double.val c)
    (ha : ∀ i, i < n → vget actual i = double.val (aq i))
    (hnc : ∃ i j, i < n ∧ j < n ∧ aq i ≠ aq j) :
    (∃ r : ℚ, calculate_r2 pred actual n = double.val r ∧ r ≤ 0 ∧ r < 1 / 2 ∧
      (r = 0 ↔ c = meanQ aq n)) ∧
    calculate_r2 (vec [1, 1, 1, 1]) (vec [1, 2, 3, 4]) 4 = double.val (1 - 14 / 5) ∧
    ieee.calculate_r2 (ieee.vec [1, 1, 1, 1]) (ieee.vec [1, 2, 3, 4]) 4
      = ieee.binary64.finite true (2026619832316723 / 1125899906842624) ∧
    ieee.binary64.lt
      (ieee.calculate_r2 (ieee.vec [1, 1, 1, 1]) (ieee.vec [1, 2, 3, 4]) 4)
      (ieee.lit (1 / 2)) = true ∧
    ieee.binary64.near
      (ieee.calculate_r2 (ieee.vec [1, 1, 1, 1]) (ieee.vec [1, 2, 3, 4]) 4)
      (-(9 / 5)) (1 / 10 ^ 15) := by
  refine ⟨calculate_r2_constant_predictor_exact pred actual aq c n hp ha hnc,
    calculate_r2_constant_example_exact, ieee_r2_example_constant, ?_, ?_⟩
  · rw [ieee_r2_example_constant]
    decide!
  · rw [ieee_r2_example_constant]
    decide!

/-- C17: the constant predictor 0.1 against actual = [0, 0, 0.3], a non-constant
sequence with no missing value, scores above 0 in double arithmetic (2^-53); and for
pred=[1,1,1,1], actual=[1,2,3,4] the double result is not -1.8, nor is -1.8 a
double. -/
theorem C17_counterexample :
    ieee.calculate_r2 (ieee.vec [1 / 10, 1 / 10, 1 / 10]) (ieee.vec [0, 0, 3 / 10]) 3
      = ieee.binary64.finite false (1 / 9007199254740992) ∧
    ieee.binary64.gt
      (ieee.calculate_r2 (ieee.vec [1 / 10, 1 / 10, 1 / 10]) (ieee.vec [0, 0, 3 / 10]) 3)
      (ieee.lit 0) = true ∧
    ieee.calculate_r2 (ieee.vec [1, 1, 1, 1]) (ieee.vec [1, 2, 3, 4]) 4
      ≠ ieee.binary64.finite true (9 / 5) := by
  refine ⟨ieee_r2_rounded_mean, ?_, ?_⟩
  · rw [ieee_r2_rounded_mean]
    decide!
  · rw [ieee_r2_example_constant]
    decide!

theorem C17_witness :
    (∃ i j, i < 4 ∧ j < 4 ∧ (fun i : Nat => (i : ℚ) + 1) i ≠ (fun i : Nat => (i : ℚ) + 1) j) ∧
    ∃ r : ℚ, calculate_r2 (vec [1, 1, 1, 1]) (vec [1, 2, 3, 4]) 4 = double.val r ∧ r ≤ 0 ∧
      r < 1 / 2 ∧ (r = 0 ↔ (1 : ℚ) = meanQ (fun i : Nat => (i : ℚ) + 1) 4) := by
  have hnc : ∃ i j, i < 4 ∧ j < 4
      ∧ (fun i : Nat => (i : ℚ) + 1) i ≠ (fun i : Nat => (i : ℚ) + 1) j :=
    ⟨0, 1, by omega, by omega, by norm_num⟩
  refine ⟨hnc, ?_⟩
  exact (C17_calculate_r2_constant_predictor (vec [1, 1, 1, 1]) (vec [1, 2, 3, 4])
    (fun i => (i : ℚ) + 1) 1 4
    (by intro i hi; interval_cases i <;> rfl)
    (by intro i hi; interval_cases i <;> norm_num <;> rfl) hnc).1

/-! ### The missing guard on the total sum of squares -/

/-- When every sample with both values present has its actual value equal to the
mean, the total sum of squares accumulated by calculate_r2 is zero. -/
theorem r2_sums_tot_zero (pred actual : List double) (mean : double) :
    ∀ n, (∀ i, i < n → both_present pred actual i = true →
        vget actual i - mean = double.val 0) →
      ((List.range n).foldl
        (fun (acc : double × double) i =>
          if !(vget pred i).isnan && !(vget actual i).isnan then
            (acc.1 + (vget actual i - mean) * (vget actual i - mean),
             acc.2 + (vget actual i - vget pred i) * (vget actual i - vget pred i))
          else acc) (0, 0)).1 = double.val 0
  | 0, _ => rfl
  | n + 1, h => by
    rw [List.range_succ, List.foldl_append]
    have ih := r2_sums_tot_zero pred actual mean n (fun i hi => h i (by omega))
    simp only [List.foldl_cons, List.foldl_nil]
    by_cases hb : both_present pred actual n = true
    · have hb2 := hb
      unfold both_present at hb2
      rw [if_pos hb2]
      simp only
      rw [ih, h n (by omega) hb, double_mul_val, double_add_val]
      norm_num
    · unfold both_present at hb
      rw [if_neg hb]
      exact ih

theorem r2_sums_zero_of_no_pair (pred actual : List double) (n : Nat)
    (h : ∀ i, i < n → both_present pred actual i = false) :
    (r2_sums pred actual n).1 = double.val 0 :=
  r2_sums_tot_zero pred actual _ n (fun i hi hb => by
    rw [h i hi] at hb
    exact absurd hb (by decide))

theorem r2_sums_zero_of_constant (pred actual : List double) (v : ℚ) (n : Nat) (hn : 0 < n)
    (ha : ∀ i, i < n → vget actual i = double.val v) :
    (r2_sums pred actual n).1 = double.val 0 := by
  have hn0 : ((n : Nat) : ℚ) ≠ 0 := by exact_mod_cast (Nat.pos_iff_ne_zero.mp hn)
  unfold r2_sums
  simp only
  rw [r2_mean_sums_val actual (fun _ => v) n ha]
  refine r2_sums_tot_zero pred actual _ n (fun i hi _ => ?_)
  simp only
  rw [ha i hi, double_div_val _ _ hn0, double_sub_val, Finset.sum_const, Finset.card_range,
    nsmul_eq_mul]
  congr 1
  field_simp

/-! ## multirow_gmdh -/

theorem fill_fold (f : Nat → double) :
    ∀ (m : Nat) (a : List double),
      ((List.range m).foldl (fun a k => set1 a k (f k)) a).length = a.length ∧
      ∀ i, i < a.length →
        vget ((List.range m).foldl (fun a k => set1 a k (f k)) a) i
          = if i < m then f i else vget a i
  | 0, a => ⟨rfl, fun i _ => by rw [if_neg (by omega)]; rfl⟩
  | m + 1, a => by
    obtain ⟨ih1, ih2⟩ := fill_fold f m a
    rw [List.range_succ, List.foldl_append]
    simp only [List.foldl_cons, List.foldl_nil]
    refine ⟨by rw [length_set1, ih1], fun i hi => ?_⟩
    rw [vget_set1]
    by_cases h : i = m
    · rw [if_pos ⟨h, by rw [ih1]; omega⟩, if_pos (by omega), h]
    · rw [if_neg (fun hc => h hc.1), ih2 i hi]
      by_cases h2 : i < m
      · rw [if_pos h2, if_pos (by omega)]
      · rw [if_neg h2, if_neg (by omega)]

theorem fill_array_eq_map (n : Nat) (f : Nat → double) :
    fill_array n f = (List.range n).map f := by
  obtain ⟨h1, h2⟩ := fill_fold f n (malloc_double n)
  have hlen : (malloc_double n).length = n := List.length_replicate _ _
  apply List.ext_getElem
  · unfold fill_array
    rw [h1, hlen, List.length_map, List.length_range]
  · intro i hi1 hi2
    have hi : i < n := by simpa using hi2
    have e1 : vget (fill_array n f) i = (fill_array n f)[i] := by
      unfold vget
      rw [List.getD_eq_getElem?_getD, List.getElem?_eq_getElem hi1]
      rfl
    have e2 : vget (fill_array n f) i = f i := by
      unfold fill_array
      rw [h2 i (by rw [hlen]; exact hi), if_pos hi]
    rw [← e1, e2]
    simp

theorem multirow_fit_pair_eq (train valid : dataset_t) (i j : Nat) :
    multirow_fit_pair train valid i j = fit_pair train valid i j := by
  unfold multirow_fit_pair fit_pair
  simp only [fill_array_eq_map]

theorem multirow_pair_models_eq (train valid : dataset_t) :
    multirow_pair_models train valid train.n_features = combinatorial_models train valid := by
  unfold multirow_pair_models combinatorial_models
  simp only [multirow_fit_pair_eq]

theorem multirow_select_eq (candidates : List polynomial_model_t) (models_per_layer layer : Nat) :
    multirow_select candidates models_per_layer layer
      = { models := some ((bubble_sort (fun a b => rmse_t.gt a.error b.error) candidates).take
            (min models_per_layer candidates.length))
          n_models := some (min models_per_layer candidates.length)
          layer := some layer } := by
  unfold multirow_select
  simp only
  by_cases h : models_per_layer < candidates.length
  · rw [if_pos h, Nat.min_eq_left (le_of_lt h)]
  · rw [if_neg h, Nat.min_eq_right (not_lt.mp h)]

theorem getD_set_other (l : List gmdh_layer_t) (k : Nat) (x : gmdh_layer_t) (hk : k ≠ 0) :
    (l.set k x).getD 0 gmdh_layer_t.fresh = l.getD 0 gmdh_layer_t.fresh := by
  rw [List.getD_eq_getElem?_getD, List.getD_eq_getElem?_getD, List.getElem?_set_ne hk]

theorem multirow_layer_step_layer0 (train valid : dataset_t) (models_per_layer : Nat)
    (st : multirow_state) (layer : Nat) (hl : layer ≠ 0) :
    (multirow_layer_step train valid models_per_layer st layer).layers.getD 0 gmdh_layer_t.fresh
      = st.layers.getD 0 gmdh_layer_t.fresh := by
  unfold multirow_layer_step
  by_cases hs : st.stopped = true
  · rw [if_pos hs]
  · rw [if_neg hs]
    simp only
    split
    · exact getD_set_other _ _ _ hl
    · exact getD_set_other _ _ _ hl

theorem multirow_fold_layer0 (train valid : dataset_t) (models_per_layer : Nat) :
    ∀ (L : List Nat) (st : multirow_state), (∀ k ∈ L, k ≠ 0) →
      (L.foldl (multirow_layer_step train valid models_per_layer) st).layers.getD 0
          gmdh_layer_t.fresh
        = st.layers.getD 0 gmdh_layer_t.fresh
  | [], _, _ => rfl
  | k :: L, st, h => by
    rw [List.foldl_cons, multirow_fold_layer0 train valid models_per_layer L _
      (fun q hq => h q (List.mem_cons_of_mem _ hq)),
      multirow_layer_step_layer0 train valid models_per_layer st k (h k (List.mem_cons_self _ _))]

/-- Layer 0 of multirow_gmdh is the selection made from the candidates of the pair
loop over the original features. -/
theorem multirow_gmdh_layer0 (train valid : dataset_t) (n_layers models_per_layer : Nat)
    (hL : 1 ≤ n_layers) :
    (multirow_gmdh train valid n_layers models_per_layer).getD 0 gmdh_layer_t.fresh
      = multirow_select (multirow_pair_models train valid train.n_features)
          models_per_layer 0 := by
  unfold multirow_gmdh multirow_run
  rw [multirow_fold_layer0 train valid models_per_layer _ _ (fun k hk => by
    rw [List.mem_range'_1] at hk
    omega)]
  unfold multirow_layer0
  simp only
  rw [List.getD_eq_getElem?_getD, List.getElem?_set_self (by
    rw [List.length_replicate]
    omega)]
  rfl

/-- C19: layer 0 returned by multirow_gmdh (for at least one layer) has
n_models = min(models_per_layer, C(F,2)), layer index 0, and its models are exactly
the first n_models entries, in the same order, of the list combinatorial_gmdh returns
for the same train and validation datasets. -/
theorem C19_multirow_gmdh_layer0_matches_combinatorial (train valid : dataset_t)
    (n_layers models_per_layer : Nat) (hL : 1 ≤ n_layers) :
    (multirow_gmdh train valid n_layers models_per_layer).getD 0 gmdh_layer_t.fresh
      = { models := some ((combinatorial_gmdh train valid).1.take
            (min models_per_layer (Nat.choose train.n_features 2)))
          n_models := some (min models_per_layer (Nat.choose train.n_features 2))
          layer := some 0 } ∧
    ((combinatorial_gmdh train valid).1.take
      (min models_per_layer (Nat.choose train.n_features 2))).length
        = min models_per_layer (Nat.choose train.n_features 2) := by
  have hlen : (combinatorial_models train valid).length = Nat.choose train.n_features 2 := by
    rw [combinatorial_models_length, Nat.choose_two_right]
  constructor
  · rw [multirow_gmdh_layer0 train valid n_layers models_per_layer hL, multirow_select_eq,
      multirow_pair_models_eq, hlen]
    rfl
  · rw [List.length_take]
    unfold combinatorial_gmdh
    simp only
    rw [bubble_sort_length, hlen]
    exact Nat.min_eq_left (Nat.min_le_right _ _)

theorem C19_witness :
    (1 ≤ 3) ∧ six_feature_data.n_features = 6 ∧
    ((multirow_gmdh six_feature_data six_feature_data 3 5).getD 0 gmdh_layer_t.fresh).n_models
      = some 5 ∧
    ((multirow_gmdh six_feature_data six_feature_data 3 5).getD 0 gmdh_layer_t.fresh).models
      = some ((combinatorial_gmdh six_feature_data six_feature_data).1.take 5) := by
  have h := (C19_multirow_gmdh_layer0_matches_combinatorial six_feature_data six_feature_data
    3 5 (by omega)).1
  have hmin : min 5 (Nat.choose six_feature_data.n_features 2) = 5 := by decide
  rw [hmin] at h
  rw [h]
  exact ⟨by omega, rfl, rfl, rfl⟩

/-- Every iteration of the layer loop that runs builds its two datasets from the
arguments `train` and `valid` of multirow_gmdh, whatever the layer. -/
theorem multirow_layer_step_synthetic (train valid : dataset_t) (models_per_layer : Nat)
    (st : multirow_state) (layer : Nat) (hs : st.stopped = false) :
    (multirow_layer_step train valid models_per_layer st layer).synthetic
      = st.synthetic ++
        [(multirow_new_dataset train
            ((st.layers.getD (layer - 1) gmdh_layer_t.fresh).models.getD [])
            ((st.layers.getD (layer - 1) gmdh_layer_t.fresh).n_models.getD 0),
          multirow_new_dataset valid
            ((st.layers.getD (layer - 1) gmdh_layer_t.fresh).models.getD [])
            ((st.layers.getD (layer - 1) gmdh_layer_t.fresh).n_models.getD 0))] := by
  unfold multirow_layer_step
  rw [if_neg (by rw [hs]; decide)]
  simp only
  split <;> rfl

set_option maxRecDepth 1000000 in
theorem sample_layer1_pairs :
    ((sample_layers.getD 1 gmdh_layer_t.fresh).models.getD []).map model_pair
      = [(0, 2), (0, 1), (1, 2)] := by
  decide!

set_option maxRecDepth 1000000 in
theorem sample_layer1_input :
    built_train sample_run 1 = (specified_layer_input sample_data sample_layers 1).data := by
  decide!

set_option maxRecDepth 1000000 in
theorem sample_layer2_built :
    mget (built_train sample_run 2) 0 0
      = predict_polynomial (mget sample_data.data 0 0) (mget sample_data.data 0 2)
          sample_layer1_model.coeffs := by
  decide!

set_option maxRecDepth 1000000 in
theorem sample_layer2_built_negative :
    double.lt (mget (built_train sample_run 2) 0 0) (double.val 0) = true := by
  decide!

set_option maxRecDepth 1000000 in
theorem sample_layer2_specified_lower :
    double.lt (double.val (99 / 100))
      (mget (specified_layer_input sample_data sample_layers 2).data 0 0) = true := by
  decide!

set_option maxRecDepth 1000000 in
theorem sample_layer2_specified_upper :
    double.lt (mget (specified_layer_input sample_data sample_layers 2).data 0 0)
      (double.val (101 / 100)) = true := by
  decide!

set_option maxRecDepth 1000000 in
theorem sample_layer2_differs :
    mget (built_train sample_run 2) 0 0
      ≠ mget (specified_layer_input sample_data sample_layers 2).data 0 0 := by
  decide!

/-- C20: on the sample dataset with three layers of three models, the first model of
layer 1 has feature1 = 0 and feature2 = 2, which name models of layer 0.  The
training dataset built for layer 2 holds at sample 0, column 0 the prediction of that
model on columns 0 and 2 of the original dataset (a negative number), not its
prediction on columns 0 and 2 of the dataset of layer 1 on which it was fitted (a
number within 0.01 of the target 1).  For layer 1 the two readings coincide. -/
theorem C20_multirow_gmdh_layer2_reads_original_columns :
    ((sample_layers.getD 1 gmdh_layer_t.fresh).models.getD []).map model_pair
      = [(0, 2), (0, 1), (1, 2)] ∧
    built_train sample_run 1 = (specified_layer_input sample_data sample_layers 1).data ∧
    mget (built_train sample_run 2) 0 0
      = predict_polynomial (mget sample_data.data 0 0) (mget sample_data.data 0 2)
          sample_layer1_model.coeffs ∧
    double.lt (mget (built_train sample_run 2) 0 0) (double.val 0) = true ∧
    double.lt (double.val (99 / 100))
      (mget (specified_layer_input sample_data sample_layers 2).data 0 0) = true ∧
    double.lt (mget (specified_layer_input sample_data sample_layers 2).data 0 0)
      (double.val (101 / 100)) = true ∧
    mget (built_train sample_run 2) 0 0
      ≠ mget (specified_layer_input sample_data sample_layers 2).data 0 0 :=
  ⟨sample_layer1_pairs, sample_layer1_input, sample_layer2_built, sample_layer2_built_negative,
    sample_layer2_specified_lower, sample_layer2_specified_upper, sample_layer2_differs⟩

/-! ## The layer loop of multirow_gmdh -/

theorem multirow_run_eq_upto (train valid : dataset_t) (n_layers models_per_layer : Nat) :
    multirow_run train valid n_layers models_per_layer
      = multirow_run_upto train valid n_layers models_per_layer (n_layers - 1) := rfl

theorem multirow_run_upto_succ (train valid : dataset_t) (n_layers models_per_layer k : Nat) :
    multirow_run_upto train valid n_layers models_per_layer (k + 1)
      = multirow_layer_step train valid models_per_layer
          (multirow_run_upto train valid n_layers models_per_layer k) (k + 1) := by
  unfold multirow_run_upto
  rw [List.range'_concat, List.foldl_append]
  simp only [List.foldl_cons, List.foldl_nil, Nat.one_mul]
  rw [Nat.add_comm 1 k]

theorem multirow_layer_step_length (train valid : dataset_t) (models_per_layer : Nat)
    (st : multirow_state) (layer : Nat) :
    (multirow_layer_step train valid models_per_layer st layer).layers.length
      = st.layers.length := by
  unfold multirow_layer_step
  by_cases hs : st.stopped = true
  · rw [if_pos hs]
  · rw [if_neg hs]
    simp only
    split <;> exact List.length_set _ _ _

theorem multirow_run_upto_length (train valid : dataset_t) (n_layers models_per_layer : Nat) :
    ∀ k, (multirow_run_upto train valid n_layers models_per_layer k).layers.length = n_layers
  | 0 => by
    unfold multirow_run_upto multirow_layer0
    simp
  | k + 1 => by
    rw [multirow_run_upto_succ, multirow_layer_step_length]
    exact multirow_run_upto_length train valid n_layers models_per_layer k

theorem multirow_layer_step_stopped (train valid : dataset_t) (models_per_layer : Nat)
    (st : multirow_state) (layer : Nat) (hs : st.stopped = true) :
    multirow_layer_step train valid models_per_layer st layer = st := by
  unfold multirow_layer_step
  rw [if_pos hs]

/-- Once the break is taken, the remaining iterations change nothing. -/
theorem multirow_run_upto_stopped (train valid : dataset_t) (n_layers models_per_layer k : Nat)
    (hs : (multirow_run_upto train valid n_layers models_per_layer k).stopped = true) :
    ∀ d, multirow_run_upto train valid n_layers models_per_layer (k + d)
      = multirow_run_upto train valid n_layers models_per_layer k
  | 0 => rfl
  | d + 1 => by
    rw [← Nat.add_assoc, multirow_run_upto_succ,
      multirow_run_upto_stopped train valid n_layers models_per_layer k hs d,
      multirow_layer_step_stopped _ _ _ _ _ hs]

theorem layers_getD_set (l : List gmdh_layer_t) (k i : Nat) (x : gmdh_layer_t) :
    (l.set k x).getD i gmdh_layer_t.fresh
      = if i = k ∧ k < l.length then x else l.getD i gmdh_layer_t.fresh := by
  rw [List.getD_eq_getElem?_getD, List.getD_eq_getElem?_getD, List.getElem?_set]
  by_cases hik : k = i
  · subst hik
    by_cases hk : k < l.length
    · rw [if_pos rfl, if_pos hk, if_pos ⟨rfl, hk⟩]
      rfl
    · rw [if_pos rfl, if_neg hk, if_neg (fun h => hk h.2), List.getElem?_eq_none (by omega)]
  · rw [if_neg hik, if_neg (fun h => hik h.1.symm)]

/-- An iteration assigns nothing to the layers other than its own. -/
theorem multirow_layer_step_other (train valid : dataset_t) (models_per_layer : Nat)
    (st : multirow_state) (layer i : Nat) (hi : i ≠ layer) :
    (multirow_layer_step train valid models_per_layer st layer).layers.getD i gmdh_layer_t.fresh
      = st.layers.getD i gmdh_layer_t.fresh := by
  unfold multirow_layer_step
  by_cases hs : st.stopped = true
  · rw [if_pos hs]
  · rw [if_neg hs]
    simp only
    split <;> rw [layers_getD_set, if_neg (fun h => hi h.1)]

/-- The layers with an index above the iterations run so far are as allocated, and
the iterations run so far are the only ones to have built datasets. -/
theorem multirow_run_upto_later (train valid : dataset_t) (n_layers models_per_layer : Nat) :
    ∀ k i, k < i →
      (multirow_run_upto train valid n_layers models_per_layer k).layers.getD i
        gmdh_layer_t.fresh = gmdh_layer_t.fresh
  | 0, i, hi => by
    unfold multirow_run_upto multirow_layer0
    simp only [List.range'_zero, List.foldl_nil]
    rw [layers_getD_set, if_neg (fun h => by omega), List.getD_eq_getElem?_getD]
    by_cases h : i < n_layers
    · rw [List.getElem?_replicate, if_pos h]
      rfl
    · rw [List.getElem?_eq_none (by rw [List.length_replicate]; omega)]
      rfl
  | k + 1, i, hi => by
    rw [multirow_run_upto_succ, multirow_layer_step_other _ _ _ _ _ _ (by omega)]
    exact multirow_run_upto_later train valid n_layers models_per_layer k i (by omega)

/-- The layer written by iteration `k` is not touched by the later iterations. -/
theorem multirow_run_upto_earlier (train valid : dataset_t) (n_layers models_per_layer : Nat)
    (k i : Nat) (hi : i ≤ k) :
    ∀ d, (multirow_run_upto train valid n_layers models_per_layer (k + d)).layers.getD i
        gmdh_layer_t.fresh
      = (multirow_run_upto train valid n_layers models_per_layer k).layers.getD i
          gmdh_layer_t.fresh
  | 0 => rfl
  | d + 1 => by
    rw [← Nat.add_assoc, multirow_run_upto_succ,
      multirow_layer_step_other _ _ _ _ _ _ (by omega)]
    exact multirow_run_upto_earlier train valid n_layers models_per_layer k i hi d

theorem multirow_run_upto_synthetic (train valid : dataset_t) (n_layers models_per_layer : Nat) :
    ∀ k, (multirow_run_upto train valid n_layers models_per_layer k).stopped = false →
      (multirow_run_upto train valid n_layers models_per_layer k).synthetic.length = k
  | 0, _ => rfl
  | k + 1, h => by
    rw [multirow_run_upto_succ] at h ⊢
    have hprev : (multirow_run_upto train valid n_layers models_per_layer k).stopped = false := by
      by_contra hc
      have hc2 : (multirow_run_upto train valid n_layers models_per_layer k).stopped = true := by
        simpa using hc
      rw [multirow_layer_step_stopped _ _ _ _ _ hc2, hc2] at h
      exact absurd h (by decide)
    rw [multirow_layer_step_synthetic _ _ _ _ _ hprev, List.length_append,
      multirow_run_upto_synthetic train valid n_layers models_per_layer k hprev]
    rfl

theorem multirow_layer_step_break (train valid : dataset_t) (models_per_layer : Nat)
    (st : multirow_state) (layer p : Nat) (hs : st.stopped = false)
    (hp : (st.layers.getD (layer - 1) gmdh_layer_t.fresh).n_models = some p) (hp2 : p < 2) :
    (multirow_layer_step train valid models_per_layer st layer).layers
      = st.layers.set layer
          { st.layers.getD layer gmdh_layer_t.fresh with n_models := some 0 } ∧
    (multirow_layer_step train valid models_per_layer st layer).stopped = true := by
  have hz : p * (p - 1) / 2 = 0 := by
    interval_cases p <;> rfl
  unfold multirow_layer_step
  rw [if_neg (by rw [hs]; decide)]
  simp only
  rw [hp]
  simp only [Option.getD_some]
  rw [if_pos hz]
  exact ⟨rfl, rfl⟩

theorem multirow_layer_step_select (train valid : dataset_t) (models_per_layer : Nat)
    (st : multirow_state) (layer p : Nat) (hs : st.stopped = false)
    (hp : (st.layers.getD (layer - 1) gmdh_layer_t.fresh).n_models = some p) (hp2 : 2 ≤ p) :
    (multirow_layer_step train valid models_per_layer st layer).layers
      = st.layers.set layer
          (multirow_select
            (multirow_pair_models
              (multirow_new_dataset train
                ((st.layers.getD (layer - 1) gmdh_layer_t.fresh).models.getD []) p)
              (multirow_new_dataset valid
                ((st.layers.getD (layer - 1) gmdh_layer_t.fresh).models.getD []) p) p)
            models_per_layer layer) ∧
    (multirow_layer_step train valid models_per_layer st layer).stopped = false := by
  have hz : ¬ p * (p - 1) / 2 = 0 := by
    obtain ⟨q, rfl⟩ : ∃ q, p = q + 2 := ⟨p - 2, by omega⟩
    have h1 : 2 ≤ (q + 2) * (q + 2 - 1) := by
      have e : q + 2 - 1 = q + 1 := by omega
      rw [e]
      nlinarith
    have := Nat.div_le_div_right (c := 2) h1
    omega
  unfold multirow_layer_step
  rw [if_neg (by rw [hs]; decide)]
  simp only
  rw [hp]
  simp only [Option.getD_some]
  rw [if_neg hz]
  exact ⟨rfl, rfl⟩

/-- The state with which iteration `L` starts determines the final layer `L - 1`. -/
theorem multirow_final_layer (train valid : dataset_t) (n_layers models_per_layer k i : Nat)
    (hi : i ≤ k) (hk : k ≤ n_layers - 1) :
    (multirow_gmdh train valid n_layers models_per_layer).getD i gmdh_layer_t.fresh
      = (multirow_run_upto train valid n_layers models_per_layer k).layers.getD i
          gmdh_layer_t.fresh := by
  unfold multirow_gmdh
  rw [multirow_run_eq_upto]
  have := multirow_run_upto_earlier train valid n_layers models_per_layer k i hi
    (n_layers - 1 - k)
  rwa [show k + (n_layers - 1 - k) = n_layers - 1 by omega] at this

/-- C21 (amended): for every run of multirow_gmdh and every layer index L with
1 <= L < n_layers that the layer loop reaches (all layers before L were computed), if
layer L-1 has fewer than 2 surviving models then layer L is recorded with
n_models = 0, the loop stops, and no layer with index greater than L is computed: the
datasets built are those of the iterations 1..L, and every later layer is left as it
was before the run, no model stored and no count recorded. -/
theorem C21_multirow_gmdh_stops_after_short_layer (train valid : dataset_t)
    (n_layers models_per_layer L p : Nat) (hL1 : 1 ≤ L) (hLn : L < n_layers)
    (hrun : (multirow_run_upto train valid n_layers models_per_layer (L - 1)).stopped = false)
    (hp : ((multirow_gmdh train valid n_layers models_per_layer).getD (L - 1)
      gmdh_layer_t.fresh).n_models = some p)
    (hp2 : p < 2) :
    ((multirow_gmdh train valid n_layers models_per_layer).getD L gmdh_layer_t.fresh).n_models
      = some 0 ∧
    (multirow_run train valid n_layers models_per_layer).stopped = true ∧
    (multirow_run train valid n_layers models_per_layer).synthetic.length = L ∧
    ∀ M, L < M →
      (multirow_gmdh train valid n_layers models_per_layer).getD M gmdh_layer_t.fresh
        = gmdh_layer_t.fresh ∧
      ((multirow_gmdh train valid n_layers models_per_layer).getD M gmdh_layer_t.fresh).models
        = none := by
  obtain ⟨k, rfl⟩ : ∃ k, L = k + 1 := ⟨L - 1, by omega⟩
  rw [Nat.add_sub_cancel] at hrun hp
  rw [multirow_final_layer train valid n_layers models_per_layer k k (le_refl _) (by omega)] at hp
  obtain ⟨hlayers, hstop⟩ := multirow_layer_step_break train valid models_per_layer _ (k + 1) p
    hrun (by rw [Nat.add_sub_cancel]; exact hp) hp2
  rw [← multirow_run_upto_succ] at hlayers hstop
  have hfinal : multirow_run train valid n_layers models_per_layer
      = multirow_run_upto train valid n_layers models_per_layer (k + 1) := by
    rw [multirow_run_eq_upto]
    have := multirow_run_upto_stopped train valid n_layers models_per_layer (k + 1) hstop
      (n_layers - 1 - (k + 1))
    rwa [show k + 1 + (n_layers - 1 - (k + 1)) = n_layers - 1 by omega] at this
  have hlen := multirow_run_upto_length train valid n_layers models_per_layer k
  refine ⟨?_, by rw [hfinal]; exact hstop, ?_, ?_⟩
  · unfold multirow_gmdh
    rw [hfinal, hlayers, layers_getD_set, if_pos ⟨rfl, by omega⟩]
  · rw [hfinal, multirow_run_upto_succ, multirow_layer_step_synthetic _ _ _ _ _ hrun,
      List.length_append, multirow_run_upto_synthetic train valid n_layers models_per_layer k hrun]
    rfl
  · intro M h
    have hM : (multirow_gmdh train valid n_layers models_per_layer).getD M gmdh_layer_t.fresh
        = gmdh_layer_t.fresh := by
      unfold multirow_gmdh
      rw [hfinal]
      exact multirow_run_upto_later train valid n_layers models_per_layer (k + 1) M h
    exact ⟨hM, by rw [hM]; rfl⟩

/-- The survivor counts recorded when three layers of one model each are asked for on
the sample dataset. -/
theorem sample_one_model_counts :
    (multirow_gmdh sample_data sample_data 3 1).map (fun l => l.n_models)
      = [some 1, some 0, none] := by
  decide!

/-- C21: with one model per layer and three layers, layer 1 is recorded with 0
surviving models, fewer than 2, yet layer 2 is not recorded with n_models = 0: the
field is never assigned. -/
theorem C21_counterexample :
    ((multirow_gmdh sample_data sample_data 3 1).getD 1 gmdh_layer_t.fresh).n_models = some 0 ∧
    ((multirow_gmdh sample_data sample_data 3 1).getD 2 gmdh_layer_t.fresh).n_models ≠ some 0 ∧
    ((multirow_gmdh sample_data sample_data 3 1).getD 2 gmdh_layer_t.fresh).n_models = none := by
  have h := sample_one_model_counts
  have e : ∀ i, ((multirow_gmdh sample_data sample_data 3 1).getD i gmdh_layer_t.fresh).n_models
      = (((multirow_gmdh sample_data sample_data 3 1).map (fun l => l.n_models)).getD i
          none) := by
    intro i
    rw [List.getD_eq_getElem?_getD, List.getD_eq_getElem?_getD, List.getElem?_map]
    cases (multirow_gmdh sample_data sample_data 3 1)[i]? <;> rfl
  rw [e 1, e 2, h]
  exact ⟨rfl, by decide, rfl⟩

theorem C21_witness :
    (1 ≤ 1 ∧ 1 < 3 ∧ 1 < 2) ∧
    ((multirow_gmdh sample_data sample_data 3 1).getD 1 gmdh_layer_t.fresh).n_models = some 0 ∧
    (multirow_run sample_data sample_data 3 1).synthetic.length = 1 := by
  have h0 : ((multirow_gmdh sample_data sample_data 3 1).getD (1 - 1)
      gmdh_layer_t.fresh).n_models = some 1 := by
    rw [multirow_gmdh_layer0 sample_data sample_data 3 1 (by omega), multirow_select_eq,
      multirow_pair_models_eq, combinatorial_models_length]
    rfl
  have h := C21_multirow_gmdh_stops_after_short_layer sample_data sample_data 3 1 1 1
    (by omega) (by omega) rfl h0 (by omega)
  exact ⟨⟨by omega, by omega, by omega⟩, h.1, h.2.2.1⟩

theorem multirow_new_dataset_n_features (ds : dataset_t) (ms : List polynomial_model_t)
    (p : Nat) : (multirow_new_dataset ds ms p).n_features = p := rfl

/-- C28: for every layer i >= 1 computed by multirow_gmdh (the layer loop reaches it)
whose previous layer has p >= 2 survivors, layer i has
n_models = min(models_per_layer, C(p,2)) and layer index i, a model list of that
length in non-decreasing error order, and every model satisfies
feature1 < feature2 < p. -/
theorem C28_multirow_gmdh_later_layer_shape (train valid : dataset_t)
    (n_layers models_per_layer i p : Nat) (hi1 : 1 ≤ i) (hin : i < n_layers)
    (hrun : (multirow_run_upto train valid n_layers models_per_layer (i - 1)).stopped = false)
    (hp : ((multirow_gmdh train valid n_layers models_per_layer).getD (i - 1)
      gmdh_layer_t.fresh).n_models = some p)
    (hp2 : 2 ≤ p) :
    ∃ ms : List polynomial_model_t,
      (multirow_gmdh train valid n_layers models_per_layer).getD i gmdh_layer_t.fresh
        = { models := some ms
            n_models := some (min models_per_layer (Nat.choose p 2))
            layer := some i } ∧
      ms.length = min models_per_layer (Nat.choose p 2) ∧
      ms.Pairwise error_le ∧
      ∀ m ∈ ms, m.feature1 < m.feature2 ∧ m.feature2 < p := by
  obtain ⟨k, rfl⟩ : ∃ k, i = k + 1 := ⟨i - 1, by omega⟩
  rw [Nat.add_sub_cancel] at hrun hp
  rw [multirow_final_layer train valid n_layers models_per_layer k k (le_refl _) (by omega)] at hp
  obtain ⟨hlayers, _⟩ := multirow_layer_step_select train valid models_per_layer _ (k + 1) p
    hrun (by rw [Nat.add_sub_cancel]; exact hp) hp2
  rw [← multirow_run_upto_succ, Nat.add_sub_cancel] at hlayers
  have hlen := multirow_run_upto_length train valid n_layers models_per_layer k
  generalize hnt : multirow_new_dataset train
    (((multirow_run_upto train valid n_layers models_per_layer k).layers.getD k
      gmdh_layer_t.fresh).models.getD []) p = nt at hlayers
  generalize hnv : multirow_new_dataset valid
    (((multirow_run_upto train valid n_layers models_per_layer k).layers.getD k
      gmdh_layer_t.fresh).models.getD []) p = nv at hlayers
  have hntF : nt.n_features = p := by rw [← hnt]; rfl
  have hcand : multirow_pair_models nt nv p = combinatorial_models nt nv := by
    rw [← multirow_pair_models_eq, hntF]
  have hclen : (combinatorial_models nt nv).length = Nat.choose p 2 := by
    rw [combinatorial_models_length, Nat.choose_two_right, hntF]
  rw [hcand, multirow_select_eq, hclen] at hlayers
  refine ⟨List.take (min models_per_layer (Nat.choose p 2))
    (bubble_sort (fun a b : polynomial_model_t => rmse_t.gt a.error b.error)
      (combinatorial_models nt nv)), ?_, ?_, ?_, ?_⟩
  · rw [multirow_final_layer train valid n_layers models_per_layer (k + 1) (k + 1) (le_refl _)
      (by omega), hlayers, layers_getD_set, if_pos ⟨rfl, by omega⟩]
  · rw [List.length_take, bubble_sort_length, hclen]
    exact Nat.min_eq_left (Nat.min_le_right _ _)
  · exact (combinatorial_gmdh_sorted nt nv).sublist (List.take_sublist _ _)
  · intro m hm
    have hm2 := (bubble_sort_perm _ _).mem_iff.mp (List.mem_of_mem_take hm)
    obtain ⟨a, b, hab, hb, rfl⟩ := (mem_combinatorial_models nt nv m).mp hm2
    rw [hntF] at hb
    exact ⟨hab, hb⟩

theorem C28_witness :
    (1 ≤ 1 ∧ 1 < 3 ∧ 2 ≤ 3) ∧
    ∃ ms : List polynomial_model_t,
      (multirow_gmdh sample_data sample_data 3 3).getD 1 gmdh_layer_t.fresh
        = { models := some ms, n_models := some 3, layer := some 1 } ∧
      ms.length = 3 ∧ ms.Pairwise error_le ∧
      ∀ m ∈ ms, m.feature1 < m.feature2 ∧ m.feature2 < 3 := by
  have h0 : ((multirow_gmdh sample_data sample_data 3 3).getD (1 - 1)
      gmdh_layer_t.fresh).n_models = some 3 := by
    rw [multirow_gmdh_layer0 sample_data sample_data 3 3 (by omega), multirow_select_eq,
      multirow_pair_models_eq, combinatorial_models_length]
    rfl
  obtain ⟨ms, h1, h2, h3, h4⟩ := C28_multirow_gmdh_later_layer_shape sample_data sample_data
    3 3 1 3 (by omega) (by omega) rfl h0 (by omega)
  have e : min 3 (Nat.choose 3 2) = 3 := by decide
  rw [e] at h1 h2
  exact ⟨⟨by omega, by omega, by omega⟩, ms, h1, h2, h3, h4⟩

/-! ## Fewer than two features -/

theorem combinatorial_gmdh_few_features (train valid : dataset_t) (hF : train.n_features < 2) :
    combinatorial_gmdh train valid = ([], 0) := by
  have hlen : (combinatorial_models train valid).length = 0 := by
    rw [combinatorial_models_length]
    have : train.n_features = 0 ∨ train.n_features = 1 := by omega
    rcases this with h | h <;> rw [h]
  have hnil : combinatorial_models train valid = [] := List.length_eq_zero.mp hlen
  unfold combinatorial_gmdh
  simp only
  rw [hnil]
  rfl

/-- C22: for a dataset with fewer than 2 features combinatorial_gmdh stores 0 in
`*n_models` and returns an empty array (`n_pairs = 0` elements are allocated), but its
last statement still reads `models[0]`, which lies outside that array. -/
theorem C22_combinatorial_gmdh_reads_empty_array (train valid : dataset_t)
    (hF : train.n_features < 2) :
    combinatorial_gmdh train valid = ([], 0) ∧
    combinatorial_n_pairs train = 0 ∧
    combinatorial_gmdh_printed train valid = none := by
  refine ⟨combinatorial_gmdh_few_features train valid hF, ?_, ?_⟩
  · unfold combinatorial_n_pairs
    have : train.n_features = 0 ∨ train.n_features = 1 := by omega
    rcases this with h | h <;> rw [h] <;> decide
  · unfold combinatorial_gmdh_printed
    rw [combinatorial_gmdh_few_features train valid hF]
    rfl

theorem C22_witness :
    one_feature_data.n_features < 2 ∧
    combinatorial_gmdh one_feature_data one_feature_data = ([], 0) ∧
    combinatorial_gmdh_printed one_feature_data one_feature_data = none :=
  ⟨by decide,
    (C22_combinatorial_gmdh_reads_empty_array one_feature_data one_feature_data (by decide)).1,
    (C22_combinatorial_gmdh_reads_empty_array one_feature_data one_feature_data
      (by decide)).2.2⟩

/-! ## The configuration of linear_combinatorial_gmdh is not checked -/

theorem mem_generation_order (train valid : dataset_t) (min_features max_features : Nat)
    (m : linear_model_t) (hm : m ∈ generation_order train valid min_features max_features) :
    ∃ s t, min_features ≤ s ∧ s ≤ max_features ∧ t ∈ combos train.n_features 0 s ∧
      m = fit_subset train valid s t := by
  unfold generation_order at hm
  rw [List.mem_flatMap] at hm
  obtain ⟨s, hs, hm⟩ := hm
  rw [List.mem_range'_1] at hs
  rw [List.mem_map] at hm
  obtain ⟨t, ht, rfl⟩ := hm
  exact ⟨s, t, hs.1, by omega, ht, rfl⟩

theorem generation_order_valid_n_features (train valid : dataset_t)
    (min_features max_features vF : Nat) :
    generation_order train { valid with n_features := vF } min_features max_features
      = generation_order train valid min_features max_features := rfl

theorem next_combination_oversize (indices : List Nat) (F k : Nat)
    (hbig : F ≤ indices.getD k 0) :
    next_combination indices F (k + 1) = some (indices.set k (indices.getD k 0 + 1)) := by
  unfold next_combination
  have hscan : scan_back indices F (k + 1) (k + 1) = some k := by
    unfold scan_back
    rw [if_neg (by push_cast; omega)]
  rw [hscan]
  simp only
  rw [Nat.sub_self]
  rfl

/-- For a subset size above the number of features the enumeration loop never reports
done, whatever the number of iterations allowed. -/
theorem subset_loop_oversize (train valid : dataset_t) (k : Nat) (hk : train.n_features ≤ k) :
    ∀ (fuel : Nat) (indices : List Nat) (models : List linear_model_t),
      indices.length = k + 1 → train.n_features ≤ indices.getD k 0 →
      subset_loop train valid (k + 1) fuel indices models = none
  | 0, _, _, _, _ => rfl
  | fuel + 1, indices, models, hlen, hbig => by
    unfold subset_loop
    simp only
    rw [next_combination_oversize indices train.n_features k hbig]
    simp only
    refine subset_loop_oversize train valid k hk fuel _ _ (by rw [List.length_set]; exact hlen) ?_
    rw [List.getD_eq_getElem?_getD, List.getElem?_set_self (by omega)]
    simp only [Option.getD_some]
    omega

/-- The first fit of a subset size `F + 1` uses the feature columns `0 .. F`, of which
column `F` does not exist, and the loop never ends. -/
theorem subset_loop_size_above_features (train valid : dataset_t) (fuel : Nat)
    (models : List linear_model_t) :
    subset_loop train valid (train.n_features + 1) fuel (List.range (train.n_features + 1))
      models = none ∧
    train.n_features ∈ (fit_subset train valid (train.n_features + 1)
      (List.range (train.n_features + 1))).feature_indices := by
  constructor
  · refine subset_loop_oversize train valid train.n_features (le_refl _) fuel _ _
      (List.length_range _) ?_
    rw [List.getD_eq_getElem?_getD, List.getElem?_range (by omega)]
    rfl
  · rw [fit_subset_feature_indices, List.take_of_length_le (by rw [List.length_range])]
    rw [List.mem_range]
    omega

/-! ## split_dataset -/

theorem row_copy (data : List (List double)) (F r : Nat) (hr : r < data.length)
    (hrow : (data.get ⟨r, hr⟩).length = F) :
    (List.range F).map (fun j => mget data r j) = data.get ⟨r, hr⟩ := by
  apply List.ext_getElem
  · rw [List.length_map, List.length_range, hrow]
  · intro j h1 h2
    rw [List.getElem_map, List.getElem_range]
    have e : data.getD r [] = data.get ⟨r, hr⟩ := by
      rw [List.getD_eq_getElem?_getD, List.getElem?_eq_getElem hr]
      rfl
    unfold mget vget
    rw [e, List.getD_eq_getElem?_getD, List.getElem?_eq_getElem h2]
    rfl

theorem rows_copy (data : List (List double)) (F off k : Nat) (hk : off + k ≤ data.length)
    (hrows : ∀ row ∈ data, row.length = F) :
    (List.range k).map (fun i => (List.range F).map (fun j => mget data (off + i) j))
      = (data.drop off).take k := by
  apply List.ext_getElem
  · rw [List.length_map, List.length_range, List.length_take, List.length_drop]
    omega
  · intro i h1 h2
    have hi : i < k := by simpa using h1
    rw [List.getElem_map, List.getElem_range, List.getElem_take, List.getElem_drop]
    exact row_copy data F (off + i) (by omega) (hrows _ (List.get_mem _ _ _))

theorem vector_copy (t : List double) (off k : Nat) (hk : off + k ≤ t.length) :
    (List.range k).map (fun i => vget t (off + i)) = (t.drop off).take k := by
  apply List.ext_getElem
  · rw [List.length_map, List.length_range, List.length_take, List.length_drop]
    omega
  · intro i h1 h2
    have hi : i < k := by simpa using h1
    rw [List.getElem_map, List.getElem_range, List.getElem_take, List.getElem_drop]
    unfold vget
    rw [List.getD_eq_getElem?_getD, List.getElem?_eq_getElem (by omega)]
    rfl

theorem row_copy_take (data : List (List double)) (F r : Nat) (hr : r < data.length)
    (hrow : F ≤ (data.get ⟨r, hr⟩).length) :
    (List.range F).map (fun j => mget data r j) = (data.get ⟨r, hr⟩).take F := by
  apply List.ext_getElem
  · rw [List.length_map, List.length_range, List.length_take]
    omega
  · intro j h1 h2
    have hj : j < F := by simpa using h1
    rw [List.getElem_map, List.getElem_range, List.getElem_take]
    have e : data.getD r [] = data.get ⟨r, hr⟩ := by
      rw [List.getD_eq_getElem?_getD, List.getElem?_eq_getElem hr]
      rfl
    unfold mget vget
    rw [e, List.getD_eq_getElem?_getD, List.getElem?_eq_getElem (by omega)]
    rfl

theorem rows_copy_take (data : List (List double)) (F off k : Nat)
    (hk : off + k ≤ data.length) (hrows : ∀ row ∈ data, F ≤ row.length) :
    (List.range k).map (fun i => (List.range F).map (fun j => mget data (off + i) j))
      = ((data.drop off).take k).map (List.take F) := by
  apply List.ext_getElem
  · rw [List.length_map, List.length_range, List.length_map, List.length_take,
      List.length_drop]
    omega
  · intro i h1 h2
    have hi : i < k := by simpa using h1
    rw [List.getElem_map, List.getElem_range, List.getElem_map, List.getElem_take,
      List.getElem_drop]
    exact row_copy_take data F (off + i) (by omega) (hrows _ (List.get_mem _ _ _))

theorem map_take_of_length (data : List (List double)) (F : Nat)
    (hrows : ∀ row ∈ data, row.length = F) : data.map (List.take F) = data := by
  induction data with
  | nil => rfl
  | cons a t ih =>
    rw [List.map_cons, ih (fun row hrow => hrows row (List.mem_cons_of_mem _ hrow)),
      List.take_of_length_le (by rw [hrows a (List.mem_cons_self _ _)])]

/-- C24 (amended): for every dataset with n samples (rows at least n_features long) and
every train_ratio in [0,1], split_dataset produces train with trunc(q) samples, q being
the product n*train_ratio rounded to a double, and test with the remaining samples, so
the two counts add up to n.  The count is floor(n*train_ratio), or one more when the
rounding carries the product up to the next whole number, and never more than n.  The
train rows and targets are the first rows of the dataset in order and the test rows
and targets are the rest in order (train followed by test is the original, each row
cut to its first n_features readings), and both keep n_features. -/
theorem C24_split_dataset_partitions_in_order (ds : dataset_t) (s : Bool) (r : ℚ)
    (hr0 : 0 ≤ r) (hr1 : r ≤ 1) (hs : s = true → r = 0)
    (hn : ds.n_samples < 2147483648)
    (hdata : ds.data.length = ds.n_samples)
    (hrows : ∀ row ∈ ds.data, ds.n_features ≤ row.length)
    (htarget : ds.target.length = ds.n_samples) :
    ∃ train test q, split_dataset ds (ieee.binary64.finite s r) = some (train, test) ∧
      ieee.round_mag ((ds.n_samples : ℚ) * r) = some q ∧
      (train.n_samples : Int) = ⌊q⌋ ∧
      ((train.n_samples : Int) = ⌊(ds.n_samples : ℚ) * r⌋ ∨
        ((train.n_samples : Int) = ⌊(ds.n_samples : ℚ) * r⌋ + 1 ∧
          q = ((⌊(ds.n_samples : ℚ) * r⌋ + 1 : Int) : ℚ))) ∧
      train.n_samples ≤ ds.n_samples ∧
      train.n_samples + test.n_samples = ds.n_samples ∧
      train.n_features = ds.n_features ∧ test.n_features = ds.n_features ∧
      train.data = (ds.data.take train.n_samples).map (List.take ds.n_features) ∧
      test.data = (ds.data.drop train.n_samples).map (List.take ds.n_features) ∧
      train.target = ds.target.take train.n_samples ∧
      test.target = ds.target.drop train.n_samples ∧
      train.data ++ test.data = ds.data.map (List.take ds.n_features) ∧
      train.target ++ test.target = ds.target ∧
      ((∀ row ∈ ds.data, row.length = ds.n_features) →
        train.data = ds.data.take train.n_samples ∧
        test.data = ds.data.drop train.n_samples ∧
        train.data ++ test.data = ds.data) := by
  obtain ⟨q, hq, hsplit0, hq1, hq2, hcn⟩ :=
    split_n_train_spec ds.n_samples s r hr0 hr1 hs hn
  have hx0 : 0 ≤ (ds.n_samples : ℚ) * r := mul_nonneg (Nat.cast_nonneg _) hr0
  have hf0 : 0 ≤ ⌊(ds.n_samples : ℚ) * r⌋ := Int.floor_nonneg.mpr hx0
  have hq0 : 0 ≤ q := le_trans (by exact_mod_cast hf0) hq1
  have hfq0 : 0 ≤ ⌊q⌋ := Int.floor_nonneg.mpr hq0
  have hfq1 : ⌊q⌋ ≤ ⌈(ds.n_samples : ℚ) * r⌉ := by
    have := Int.floor_le_floor hq2
    rwa [Int.floor_intCast] at this
  have hfq2 : ⌊(ds.n_samples : ℚ) * r⌋ ≤ ⌊q⌋ := by
    have := Int.floor_le_floor hq1
    rwa [Int.floor_intCast] at this
  have hceil : ⌈(ds.n_samples : ℚ) * r⌉ ≤ ⌊(ds.n_samples : ℚ) * r⌋ + 1 :=
    Int.ceil_le_floor_add_one _
  obtain ⟨k, hk⟩ : ∃ k : Nat, ⌊q⌋ = (k : Int) := ⟨⌊q⌋.toNat, (Int.toNat_of_nonneg hfq0).symm⟩
  have hkn : k ≤ ds.n_samples := by omega
  have hsplit : split_dataset ds (ieee.binary64.finite s r) = some
      ({ n_samples := k
         n_features := ds.n_features
         data := (List.range k).map (fun i =>
           (List.range ds.n_features).map (fun j => mget ds.data i j))
         target := (List.range k).map (fun i => vget ds.target i) },
       { n_samples := ds.n_samples - k
         n_features := ds.n_features
         data := (List.range (ds.n_samples - k)).map (fun i =>
           (List.range ds.n_features).map (fun j => mget ds.data (k + i) j))
         target := (List.range (ds.n_samples - k)).map (fun i => vget ds.target (k + i)) }) := by
    unfold split_dataset
    rw [hsplit0, hk]
    simp only
    rw [if_neg (by omega)]
    have e : ((ds.n_samples : Int) - (k : Int)).toNat = ds.n_samples - k := by omega
    rw [e, Int.toNat_ofNat]
  have hd1 := rows_copy_take ds.data ds.n_features 0 k (by omega) hrows
  have hd2 := rows_copy_take ds.data ds.n_features k (ds.n_samples - k) (by omega) hrows
  have ht1 := vector_copy ds.target 0 k (by omega)
  have ht2 := vector_copy ds.target k (ds.n_samples - k) (by omega)
  simp only [Nat.zero_add, List.drop_zero] at hd1 ht1
  rw [List.take_of_length_le (by rw [List.length_drop]; omega)] at hd2 ht2
  have hcases : (k : Int) = ⌊(ds.n_samples : ℚ) * r⌋ ∨
      ((k : Int) = ⌊(ds.n_samples : ℚ) * r⌋ + 1 ∧
        q = ((⌊(ds.n_samples : ℚ) * r⌋ + 1 : Int) : ℚ)) := by
    by_cases hc : (k : Int) = ⌊(ds.n_samples : ℚ) * r⌋
    · exact Or.inl hc
    · have hk1 : (k : Int) = ⌊(ds.n_samples : ℚ) * r⌋ + 1 := by omega
      refine Or.inr ⟨hk1, le_antisymm ?_ ?_⟩
      · have : ⌈(ds.n_samples : ℚ) * r⌉ = ⌊(ds.n_samples : ℚ) * r⌋ + 1 := by omega
        rw [← this]
        exact hq2
      · rw [← hk1, ← hk]
        exact Int.floor_le q
  refine ⟨_, _, q, hsplit, hq, hk.symm, hcases, hkn, by simp only; omega, rfl, rfl, ?_, ?_,
    ht1, ht2, ?_, ?_, ?_⟩
  · exact hd1
  · exact hd2
  · simp only
    rw [hd1, hd2, ← List.map_append, List.take_append_drop]
  · simp only
    rw [ht1, ht2, List.take_append_drop]
  · intro hex
    have hm := map_take_of_length ds.data ds.n_features hex
    have hm1 : (ds.data.take k).map (List.take ds.n_features) = ds.data.take k :=
      map_take_of_length _ _ (fun row hrow => hex row (List.mem_of_mem_take hrow))
    have hm2 : (ds.data.drop k).map (List.take ds.n_features) = ds.data.drop k :=
      map_take_of_length _ _ (fun row hrow => hex row (List.mem_of_mem_drop hrow))
    simp only
    rw [hd1, hd2, hm1, hm2]
    exact ⟨rfl, rfl, List.take_append_drop _ _⟩

/-- C24: with 10 samples and train_ratio 0.7, which as a double is
3152519739159347 / 2^52 and whose exact product with 10 has floor 6, split_dataset
gives 7 training samples and 3 test samples: the product is rounded to the double 7
before it is truncated. -/
theorem C24_counterexample :
    ieee.lit (7 / 10) = ieee.binary64.finite false (3152519739159347 / 4503599627370496) ∧
    ⌊((ten_sample_data.n_samples : Nat) : ℚ) * (3152519739159347 / 4503599627370496)⌋ = 6 ∧
    (split_dataset ten_sample_data (ieee.lit (7 / 10))).map
        (fun p => (p.1.n_samples, p.2.n_samples)) = some (7, 3) := by
  refine ⟨ieee_lit_seven_tenths, ?_, ieee_split_ten⟩
  rw [Int.floor_eq_iff]
  have : ((ten_sample_data.n_samples : Nat) : ℚ) = 10 := by
    show ((10 : Nat) : ℚ) = 10
    norm_num
  rw [this]
  norm_num

theorem C24_witness :
    ((0 : ℚ) ≤ 3152519739159347 / 4503599627370496 ∧
      (3152519739159347 / 4503599627370496 : ℚ) ≤ 1 ∧
      sample_data.n_samples < 2147483648 ∧
      sample_data.data.length = sample_data.n_samples ∧
      (∀ row ∈ sample_data.data, sample_data.n_features ≤ row.length) ∧
      sample_data.target.length = sample_data.n_samples) ∧
    ∃ train test,
      split_dataset sample_data
        (ieee.binary64.finite false (3152519739159347 / 4503599627370496))
        = some (train, test) ∧
      train.n_samples + test.n_samples = sample_data.n_samples ∧
      train.data ++ test.data = sample_data.data ∧
      train.target ++ test.target = sample_data.target := by
  obtain ⟨train, test, q, h1, _, _, _, _, h6, _, _, _, _, _, _, _, h14, h15⟩ :=
    C24_split_dataset_partitions_in_order sample_data false
      (3152519739159347 / 4503599627370496) (by norm_num) (by norm_num)
      (by intro h; cases h) (by decide) (by decide) (by decide) (by decide)
  exact ⟨⟨by norm_num, by norm_num, by decide, by decide, by decide, by decide⟩, train, test,
    h1, h6, (h15 (by decide)).2.2, h14⟩

/-! ## Shape of the models of linear_combinatorial_gmdh -/

theorem set1_fold_length (g : List double → Nat → double) (i : Nat) :
    ∀ (J : List Nat) (x : List double),
      (J.foldl (fun x j => set1 x i (g x j)) x).length = x.length
  | [], _ => rfl
  | j :: J, x => by
    rw [List.foldl_cons, set1_fold_length g i J, length_set1]

theorem back_substitute_row_length (aug : List (List double)) (n : Nat) (x : List double)
    (i : Nat) : (back_substitute_row aug n x i).length = x.length := by
  unfold back_substitute_row
  simp only
  rw [length_set1,
    set1_fold_length (fun x j => vget x i - mget aug i j * vget x j) i, length_set1]

theorem back_substitution_length (aug : List (List double)) (n : Nat) (x : List double) :
    (back_substitution aug n x).length = x.length := by
  unfold back_substitution
  generalize (List.range n).reverse = L
  induction L generalizing x with
  | nil => rfl
  | cons i L ih => rw [List.foldl_cons, ih, back_substitute_row_length]

theorem fit_linear_multivariate_length (X : List (List double)) (y coeffs : List double)
    (n_samples k : Nat) :
    (fit_linear_multivariate X y n_samples k coeffs).1.length = coeffs.length := by
  rw [fit_linear_multivariate_eq]
  split
  · exact (zero_fill_fold _ coeffs 0).1
  · rw [linear_back_spec]
    exact back_substitution_length _ _ _

theorem fit_subset_coeffs_length (train valid : dataset_t) (s : Nat) (t : List Nat) :
    (fit_subset train valid s t).coeffs.length = s + 1 := by
  unfold fit_subset
  simp only
  rw [fit_linear_multivariate_length]
  exact List.length_replicate _ _

/-- C25: for every input with 1 <= min_features <= max_features <= F, train and valid
both with F features (and enough loop budget), every model returned by
linear_combinatorial_gmdh has min_features <= n_features <= max_features, a
feature_indices sequence of length n_features that is strictly increasing with all
entries below F, and a coefficient vector of length n_features + 1; it is the model
fitted on exactly those columns, so every column index used to read train->data and
valid->data is below the feature count of that dataset and inside every row that holds
that many readings.  The function does return such models whenever its models array is
large enough: with at most 29 features, or a wrapped count that comes out right. -/
theorem C25_linear_models_are_well_formed (train valid : dataset_t)
    (min_features max_features fuel : Nat) (hmin : 1 ≤ min_features)
    (hle : min_features ≤ max_features) (hmax : max_features ≤ train.n_features)
    (hvalid : valid.n_features = train.n_features)
    (hfuel : 2 ^ train.n_features ≤ fuel) :
    (∀ r, linear_combinatorial_gmdh train valid min_features max_features fuel = some r →
      ∀ m ∈ r.1,
        min_features ≤ m.n_features ∧ m.n_features ≤ max_features ∧
        m.feature_indices.length = m.n_features ∧
        m.feature_indices.Pairwise (fun a b => a < b) ∧
        (∀ x ∈ m.feature_indices, x < train.n_features ∧ x < valid.n_features ∧
          (∀ row ∈ train.data, train.n_features ≤ row.length → x < row.length) ∧
          (∀ row ∈ valid.data, valid.n_features ≤ row.length → x < row.length)) ∧
        m.coeffs.length = m.n_features + 1 ∧
        m = fit_subset train valid m.n_features m.feature_indices ∧
        ∀ j, j < m.n_features →
          m.feature_indices.getD j 0 < train.n_features ∧
          m.feature_indices.getD j 0 < valid.n_features) ∧
    ((train.n_features ≤ 29 ∨ total_combinations_int train min_features max_features
        = total_combinations train min_features max_features) →
      ∃ r, linear_combinatorial_gmdh train valid min_features max_features fuel = some r ∧
        r.1.length = r.2 ∧ 1 ≤ r.2) := by
  have _ := hmin
  constructor
  · intro r hr m hm
    rw [linear_combinatorial_gmdh_some train valid min_features max_features fuel hmax hfuel r
      hr] at hm
    have hm2 := (bubble_sort_perm _ _).mem_iff.mp hm
    obtain ⟨s, t, hs1, hs2, ht, rfl⟩ := mem_generation_order train valid _ _ m hm2
    obtain ⟨hlen, hinc, hbd⟩ := (mem_combos train.n_features 0 s t).mp ht
    have htake : t.take s = t := List.take_of_length_le (by omega)
    rw [fit_subset_n_features, fit_subset_feature_indices, htake]
    refine ⟨hs1, hs2, hlen, hinc, fun x hx => ?_,
      fit_subset_coeffs_length train valid s t, rfl, fun j hj => ?_⟩
    · have := hbd x hx
      exact ⟨by omega, by omega, fun row _ hrow => by omega, fun row _ hrow => by omega⟩
    have hmem : t.getD j 0 ∈ t := by
      rw [List.getD_eq_getElem?_getD, List.getElem?_eq_getElem (by omega)]
      exact List.getElem_mem _
    have := hbd _ hmem
    omega
  · intro hcap
    refine ⟨_, linear_combinatorial_gmdh_eq train valid min_features max_features fuel hmax
      hfuel hcap, bubble_sort_length _ _, ?_⟩
    show 1 ≤ (generation_order train valid min_features max_features).length
    rw [generation_order_length]
    have h1 : Nat.choose train.n_features min_features
        ≤ ∑ s in Finset.Icc min_features max_features, Nat.choose train.n_features s :=
      Finset.single_le_sum (f := fun s => Nat.choose train.n_features s)
        (fun _ _ => Nat.zero_le _) (Finset.mem_Icc.mpr ⟨le_refl _, hle⟩)
    have h2 : 0 < Nat.choose train.n_features min_features := Nat.choose_pos (by omega)
    omega

theorem C25_witness :
    (1 ≤ 1 ∧ 1 ≤ 2 ∧ 2 ≤ sample_data.n_features ∧
      sample_data.n_features = sample_data.n_features ∧ 2 ^ sample_data.n_features ≤ 8) ∧
    ∃ r, linear_combinatorial_gmdh sample_data sample_data 1 2 8 = some r ∧
      ∀ m ∈ r.1, 1 ≤ m.n_features ∧ m.n_features ≤ 2 ∧
        m.coeffs.length = m.n_features + 1 ∧ ∀ x ∈ m.feature_indices, x < 3 := by
  obtain ⟨h2, h3⟩ := C25_linear_models_are_well_formed sample_data sample_data 1 2 8
    (by decide) (by decide) (by decide) rfl (by decide)
  obtain ⟨r, h1, _⟩ := h3 (Or.inl (by decide))
  refine ⟨⟨by decide, by decide, by decide, rfl, by decide⟩, r, h1, fun m hm => ?_⟩
  obtain ⟨a, b, _, _, e, f, _, _⟩ := h2 r h1 m hm
  exact ⟨a, b, f, fun x hx => (e x hx).1⟩

/-! ## Partial pivoting -/

theorem find_max_rowQ_first_fold (Q : Nat → Nat → ℚ) (i : Nat) :
    ∀ (K : List Nat) (m : Nat), K.Pairwise (fun a b => a < b) → (∀ k ∈ K, m < k) →
      ∀ x ∈ m :: K,
        x < K.foldl (fun max_row k => if |Q max_row i| < |Q k i| then k else max_row) m →
        |Q x i|
          < |Q (K.foldl (fun max_row k => if |Q max_row i| < |Q k i| then k else max_row) m) i|
  | [], m, _, _ => by
    intro x hx hlt
    simp only [List.mem_singleton] at hx
    simp only [List.foldl_nil] at hlt
    omega
  | k :: K, m, hK, hm => by
    intro x hx hlt
    rw [List.pairwise_cons] at hK
    simp only [List.foldl_cons] at hlt ⊢
    have hmk : m < k := hm k (List.mem_cons_self _ _)
    by_cases hc : |Q m i| < |Q k i|
    · rw [if_pos hc] at hlt ⊢
      have ih := find_max_rowQ_first_fold Q i K k hK.2 hK.1
      obtain ⟨_, h2, _⟩ := find_max_rowQ_fold Q i K k
      rcases List.mem_cons.mp hx with h | h
      · subst h
        exact lt_of_lt_of_le hc h2
      · exact ih x h hlt
    · rw [if_neg hc] at hlt ⊢
      have ih := find_max_rowQ_first_fold Q i K m hK.2
        (fun y hy => hm y (List.mem_cons_of_mem _ hy))
      rcases List.mem_cons.mp hx with h | h
      · subst h
        exact ih x (List.mem_cons_self _ _) hlt
      · rcases List.mem_cons.mp h with h2 | h2
        · subst h2
          have hmp : |Q m i| < |Q (K.foldl
              (fun max_row k => if |Q max_row i| < |Q k i| then k else max_row) m) i| :=
            ih m (List.mem_cons_self _ _) (by omega)
          exact lt_of_le_of_lt (not_lt.mp hc) hmp
        · exact ih x (List.mem_cons_of_mem _ h2) hlt

/-- The pivot search returns the lowest-indexed row of largest magnitude: every row
before the selected one is strictly smaller in column `i`. -/
theorem find_max_rowQ_first (Q : Nat → Nat → ℚ) (i n r : Nat) (hir : i ≤ r)
    (hr : r < find_max_rowQ Q i n) : |Q r i| < |Q (find_max_rowQ Q i n) i| := by
  unfold find_max_rowQ at hr ⊢
  refine find_max_rowQ_first_fold Q i _ i (List.pairwise_lt_range' _ _)
    (fun k hk => by rw [List.mem_range'_1] at hk; omega) r ?_ hr
  rcases Nat.eq_or_lt_of_le hir with h | h
  · rw [← h]
    exact List.mem_cons_self _ _
  · refine List.mem_cons_of_mem _ ?_
    rw [List.mem_range'_1]
    have hp := find_max_rowQ_fold Q i (List.range' (i + 1) (n - (i + 1))) i
    simp only at hp
    rcases hp.1 with h1 | h1
    · rw [h1] at hr
      omega
    · rw [List.mem_range'_1] at h1
      omega

theorem fabs_val (q : ℚ) : double.fabs (double.val q) = double.val |q| := rfl

/-- C26: over exact arithmetic and as long as no selected pivot is zero, at every
elimination step i of solve_linear_system the row swapped in is the lowest-indexed row
of largest magnitude in column i among the rows i..n-1; after the swap
|aug[i][i]| >= |aug[k][i]| for every row k >= i; after step i every entry aug[k][i]
with k > i is zero; and the matrix is upper triangular before back substitution. -/
theorem C26_solve_linear_system_partial_pivoting (A : List (List double)) (b : List double)
    (n : Nat) (Aq : Nat → Nat → ℚ) (bq : Nat → ℚ)
    (hA : ∀ r c, r < n → c < n → mget A r c = double.val (Aq r c))
    (hb : ∀ r, r < n → vget b r = double.val (bq r))
    (hpiv : ∀ k, k < n → mget (swap_rows (forward_elimination (build_aug A b n) n k) k
      (find_max_row (forward_elimination (build_aug A b n) n k) k n)) k k ≠ double.val 0) :
    (∀ i, i < n →
      (i ≤ find_max_row (forward_elimination (build_aug A b n) n i) i n ∧
        find_max_row (forward_elimination (build_aug A b n) n i) i n < n) ∧
      (∀ k, i ≤ k → k < find_max_row (forward_elimination (build_aug A b n) n i) i n →
        double.lt (double.fabs (mget (forward_elimination (build_aug A b n) n i) k i))
          (double.fabs (mget (forward_elimination (build_aug A b n) n i)
            (find_max_row (forward_elimination (build_aug A b n) n i) i n) i)) = true) ∧
      (∀ k, i ≤ k → k < n →
        double.le
          (double.fabs (mget (swap_rows (forward_elimination (build_aug A b n) n i) i
            (find_max_row (forward_elimination (build_aug A b n) n i) i n)) k i))
          (double.fabs (mget (swap_rows (forward_elimination (build_aug A b n) n i) i
            (find_max_row (forward_elimination (build_aug A b n) n i) i n)) i i))) ∧
      ∀ k, i < k → k < n →
        mget (forward_elimination (build_aug A b n) n (i + 1)) k i = double.val 0) ∧
    ∀ r c, c < r → r < n → mget (forward_elimination (build_aug A b n) n n) r c = double.val 0 := by
  have hrep0 := build_aug_rep A b n Aq bq hA hb
  have hpq := pivotQ_ne_zero_of_arrays _ _ n hrep0 hpiv
  constructor
  · intro i hi
    have hrep := forward_rep _ _ n hrep0 i (by omega) (fun k hk => hpq k (by omega))
    have hrep1 := forward_rep _ _ n hrep0 (i + 1) (by omega) (fun k hk => hpq k (by omega))
    generalize hQ : forwardQ (fun r c => if c < n then Aq r c else bq r) n i = Q at hrep
    rw [find_max_row_rep _ Q i n hrep hi]
    obtain ⟨hp1, hp2, hp3⟩ := find_max_rowQ_spec Q i n hi
    have hsw := swap_rep _ Q i _ n hrep hi hp2
    refine ⟨⟨hp1, hp2⟩, ?_, ?_, ?_⟩
    · intro k hk1 hk2
      rw [hrep.2 k i (by omega) (by omega), hrep.2 _ i hp2 (by omega), fabs_val, fabs_val]
      exact decide_eq_true (find_max_rowQ_first Q i n k hk1 hk2)
    · intro k hk1 hk2
      rw [hsw.2 k i hk2 (by omega), hsw.2 i i hi (by omega), fabs_val, fabs_val]
      show |_| ≤ |_|
      have hii : swapQ Q i (find_max_rowQ Q i n) i i = Q (find_max_rowQ Q i n) i := by
        unfold swapQ
        by_cases h : i = find_max_rowQ Q i n
        · rw [if_pos h, ← h]
        · rw [if_neg h, if_pos rfl]
      rw [hii]
      unfold swapQ
      split
      · exact hp3 i (le_refl _) hi
      · split
        · exact le_refl _
        · exact hp3 k hk1 hk2
    · intro k hk1 hk2
      rw [hrep1.2 k i hk2 (by omega)]
      have hlow := (forwardQ_inv _ n (i + 1) (by omega) (fun k hk => hpq k (by omega))).1
      rw [hlow k i (by omega) hk1 hk2]
  · intro r c hcr hr
    have hrep := forward_rep _ _ n hrep0 n (le_refl _) hpq
    rw [hrep.2 r c hr (by omega)]
    have hlow := (forwardQ_inv _ n n (le_refl _) hpq).1
    rw [hlow r c (by omega) hcr hr]

theorem C26_witness :
    (∀ k, k < 2 →
      mget (swap_rows (forward_elimination (build_aug (mat [[1, 2], [3, 4]]) (vec [5, 6]) 2) 2 k)
        k (find_max_row (forward_elimination (build_aug (mat [[1, 2], [3, 4]]) (vec [5, 6]) 2)
          2 k) k 2)) k k ≠ double.val 0) ∧
    find_max_row (forward_elimination (build_aug (mat [[1, 2], [3, 4]]) (vec [5, 6]) 2) 2 0) 0 2
      = 1 ∧
    mget (forward_elimination (build_aug (mat [[1, 2], [3, 4]]) (vec [5, 6]) 2) 2 (0 + 1)) 1 0
      = double.val 0 ∧
    double.lt
      (double.fabs (mget (forward_elimination (build_aug (mat [[1, 2], [3, 4]]) (vec [5, 6]) 2)
        2 0) 0 0))
      (double.fabs (mget (forward_elimination (build_aug (mat [[1, 2], [3, 4]]) (vec [5, 6]) 2)
        2 0) 1 0)) = true := by
  have hp : ∀ k, k < 2 →
      mget (swap_rows (forward_elimination (build_aug (mat [[1, 2], [3, 4]]) (vec [5, 6]) 2) 2 k)
        k (find_max_row (forward_elimination (build_aug (mat [[1, 2], [3, 4]]) (vec [5, 6]) 2)
          2 k) k 2)) k k ≠ double.val 0 := by decide!
  have hm : find_max_row (forward_elimination (build_aug (mat [[1, 2], [3, 4]]) (vec [5, 6]) 2)
      2 0) 0 2 = 1 := by decide!
  have h := C26_solve_linear_system_partial_pivoting (mat [[1, 2], [3, 4]]) (vec [5, 6]) 2
    (fun r c => (([[1, 2], [3, 4]] : List (List ℚ)).getD r []).getD c 0)
    (fun r => ([5, 6] : List ℚ).getD r 0)
    (by intro r c hr hc; interval_cases r <;> interval_cases c <;> rfl)
    (by intro r hr; interval_cases r <;> rfl) hp
  obtain ⟨_, h2, _, h4⟩ := h.1 0 (by omega)
  refine ⟨hp, hm, h4 1 (by omega) (by omega), ?_⟩
  have := h2 0 (le_refl _) (by rw [hm]; omega)
  rw [hm] at this
  exact this

/-! ## The inlined elimination of fit_linear_multivariate -/

/-- As long as no selected pivot has magnitude below 1e-10, the guarded elimination
loop of fit_linear_multivariate never jumps to `cleanup` and transforms the augmented
matrix exactly as the loop of solve_linear_system does. -/
theorem linear_forward_eq_forward_elimination (n : Nat) (aug : List (List double))
    (hd : dims aug n (n + 1))
    (hpiv : ∀ i, i < n → double.lt (double.fabs (mget (swap_rows (forward_elimination aug n i) i
      (find_max_row (forward_elimination aug n i) i n)) i i)) eps = false) :
    ∀ m, m ≤ n →
      (linear_forward n { aug := aug, singular := false, divisors := [] } m).singular = false ∧
      (linear_forward n { aug := aug, singular := false, divisors := [] } m).aug
        = forward_elimination aug n m
  | 0, _ => ⟨rfl, rfl⟩
  | m + 1, hm => by
    obtain ⟨h1, h2⟩ := linear_forward_eq_forward_elimination n aug hd hpiv m (by omega)
    have hdm := (linear_forward_inv n { aug := aug, singular := false, divisors := [] } hd
      (fun d hd' => by simp at hd') m (by omega)).1
    rw [linear_forward_succ, forward_elimination_succ]
    unfold linear_forward_step
    rw [if_neg (by rw [h1]; decide)]
    simp only
    rw [h2]
    rw [if_neg (by rw [hpiv m (by omega)]; decide)]
    have hrange := find_max_row_range (forward_elimination aug n m) m n (by omega)
    rw [h2] at hdm
    have hds := (swap_rows_spec (forward_elimination aug n m) m _ n (n + 1) hdm (by omega)
      hrange.2).1
    rw [linear_eliminate_spec _ m n hds]
    exact ⟨h1, rfl⟩

/-- The inlined solver on an arbitrary matrix and right-hand side. -/
theorem inlined_solver_eq (A : List (List double)) (b coeffs : List double) (n : Nat)
    (hpiv : ∀ i, i < n → double.lt (double.fabs (mget
      (swap_rows (forward_elimination (build_aug A b n) n i) i
        (find_max_row (forward_elimination (build_aug A b n) n i) i n)) i i)) eps = false) :
    (linear_forward n { aug := build_aug A b n, singular := false, divisors := [] } n).singular
      = false ∧
    (linear_back (linear_forward n { aug := build_aug A b n, singular := false, divisors := [] }
      n) n coeffs).1 = solve_linear_system A b coeffs n := by
  obtain ⟨h1, h2⟩ := linear_forward_eq_forward_elimination n (build_aug A b n)
    (build_aug_spec A b n).1 hpiv n (le_refl _)
  refine ⟨h1, ?_⟩
  rw [linear_back_spec, h2]
  rfl

/-- C27: the Gaussian elimination inlined in fit_linear_multivariate is the solver
solve_linear_system: for every input whose normal matrix and right-hand side give no
selected pivot of magnitude below 1e-10, the coefficients fit_linear_multivariate
produces are the vector solve_linear_system produces for the same normal matrix and
right-hand side. -/
theorem C27_fit_linear_multivariate_uses_same_solver (X : List (List double))
    (y coeffs : List double) (n_samples k : Nat)
    (hpiv : ∀ i, i < k + 1 → double.lt (double.fabs (mget
      (swap_rows
        (forward_elimination
          (build_aug (linear_XtX (linear_design X n_samples k) n_samples (k + 1))
            (linear_Xty (linear_design X n_samples k) y n_samples (k + 1)) (k + 1)) (k + 1) i) i
        (find_max_row
          (forward_elimination
            (build_aug (linear_XtX (linear_design X n_samples k) n_samples (k + 1))
              (linear_Xty (linear_design X n_samples k) y n_samples (k + 1)) (k + 1)) (k + 1) i)
          i (k + 1))) i i)) eps = false) :
    (fit_linear_multivariate X y n_samples k coeffs).1
      = solve_linear_system (linear_XtX (linear_design X n_samples k) n_samples (k + 1))
          (linear_Xty (linear_design X n_samples k) y n_samples (k + 1)) coeffs (k + 1) := by
  obtain ⟨h1, h2⟩ := inlined_solver_eq
    (linear_XtX (linear_design X n_samples k) n_samples (k + 1))
    (linear_Xty (linear_design X n_samples k) y n_samples (k + 1)) coeffs (k + 1) hpiv
  rw [fit_linear_multivariate_eq]
  have hs : (linear_forward (k + 1) (linear_initial_state X y n_samples k) (k + 1)).singular
      = false := h1
  rw [if_neg (by rw [hs]; decide)]
  exact h2

theorem C27_witness :
    (fit_linear_multivariate (mat [[1, 1], [2, 1], [3, 2], [4, 2], [5, 3]])
      (vec [9, 12, 17, 20, 25]) 5 2 (malloc_double 3)).1
      = solve_linear_system
          (linear_XtX (linear_design (mat [[1, 1], [2, 1], [3, 2], [4, 2], [5, 3]]) 5 2) 5 (2 + 1))
          (linear_Xty (linear_design (mat [[1, 1], [2, 1], [3, 2], [4, 2], [5, 3]]) 5 2)
            (vec [9, 12, 17, 20, 25]) 5 (2 + 1)) (malloc_double 3) (2 + 1) ∧
    (fit_linear_multivariate (mat [[1, 1], [2, 1], [3, 2], [4, 2], [5, 3]])
      (vec [9, 12, 17, 20, 25]) 5 2 (malloc_double 3)).1 = vec [4, 3, 2] :=
  ⟨C27_fit_linear_multivariate_uses_same_solver (mat [[1, 1], [2, 1], [3, 2], [4, 2], [5, 3]])
    (vec [9, 12, 17, 20, 25]) (malloc_double 3) 5 2 (by decide!), by decide!⟩

/-! ## The counting loop and the capacity of the models array -/

/-- C29: for every F and 0 <= s <= F the counting loop of linear_combinatorial_gmdh
(count = count * (F - i) / (i + 1) for i = 0..s-1, truncating integer division, no
overflow) yields exactly C(F,s), and every division in it is exact; hence for
max_features <= F the capacity total_combinations of the models array equals the
number of models the enumeration writes, the final value of model_idx.  With no int
overflow (at most 29 features, or a wrapped count that comes out right) that is also
the capacity the machine computes, and the function returns those models. -/
theorem C29_counting_loop_is_binomial (train valid : dataset_t)
    (min_features max_features fuel : Nat) (hmax : max_features ≤ train.n_features)
    (hfuel : 2 ^ train.n_features ≤ fuel) :
    (∀ s, s ≤ train.n_features →
      combination_count train.n_features s = (Nat.choose train.n_features s : Int) ∧
      ∀ i, i < s →
        ((i : Int) + 1) ∣ combination_count train.n_features i
          * ((train.n_features : Int) - (i : Int))) ∧
    ∃ r, linear_search train valid min_features max_features fuel = some r ∧
      total_combinations train min_features max_features = (r.2 : Int) ∧
      r.1.length = r.2 ∧
      r.2 = ∑ s in Finset.Icc min_features max_features, Nat.choose train.n_features s ∧
      (train.n_features ≤ 29 →
        total_combinations_int train min_features max_features
          = total_combinations train min_features max_features) ∧
      (total_combinations_int train min_features max_features
          = total_combinations train min_features max_features →
        linear_combinatorial_gmdh train valid min_features max_features fuel = some r) := by
  constructor
  · intro s hs
    exact ⟨(combination_count_eq _ s hs).1,
      fun i hi => (combination_count_eq _ i (by omega)).2⟩
  · exact ⟨_, linear_search_eq train valid min_features max_features fuel hmax hfuel,
      total_combinations_eq train valid min_features max_features hmax,
      bubble_sort_length _ _, generation_order_length train valid min_features max_features,
      fun hF => total_combinations_int_eq train min_features max_features hF hmax,
      fun hcap => linear_combinatorial_gmdh_eq train valid min_features max_features fuel hmax
        hfuel (Or.inr hcap)⟩

theorem C29_witness :
    (2 ≤ sample_data.n_features ∧ 2 ^ sample_data.n_features ≤ 8) ∧
    combination_count 3 2 = 3 ∧ combination_count 6 3 = 20 ∧
    ∃ r, linear_combinatorial_gmdh sample_data sample_data 1 2 8 = some r ∧
      total_combinations sample_data 1 2 = (r.2 : Int) ∧ total_combinations sample_data 1 2 = 6 := by
  obtain ⟨_, r, _, h2, _, _, h5, h6⟩ := C29_counting_loop_is_binomial sample_data sample_data
    1 2 8 (by decide) (by decide)
  exact ⟨⟨by decide, by decide⟩, by decide, by decide, r, h6 (h5 (by decide)), h2, by decide⟩

/-! ## Records stay whole under sorting -/

theorem fit_pair_feature1 (train valid : dataset_t) (i j : Nat) :
    (fit_pair train valid i j).feature1 = i := by
  unfold fit_pair
  rfl

theorem fit_pair_feature2 (train valid : dataset_t) (i j : Nat) :
    (fit_pair train valid i j).feature2 = j := by
  unfold fit_pair
  rfl

theorem fit_pair_coeffs (train valid : dataset_t) (i j : Nat) :
    (fit_pair train valid i j).coeffs = fit_polynomial
      ((List.range train.n_samples).map (fun k => mget train.data k i))
      ((List.range train.n_samples).map (fun k => mget train.data k j))
      train.target train.n_samples (malloc_double 6) := by
  simp only [fit_pair]

theorem fit_pair_error (train valid : dataset_t) (i j : Nat) :
    (fit_pair train valid i j).error = calculate_rmse
      ((List.range valid.n_samples).map (fun k =>
        predict_polynomial (mget valid.data k i) (mget valid.data k j)
          (fit_pair train valid i j).coeffs))
      valid.target valid.n_samples := by
  simp only [fit_pair]

theorem fit_pair_r2 (train valid : dataset_t) (i j : Nat) :
    (fit_pair train valid i j).r2 = calculate_r2
      ((List.range valid.n_samples).map (fun k =>
        predict_polynomial (mget valid.data k i) (mget valid.data k j)
          (fit_pair train valid i j).coeffs))
      valid.target valid.n_samples := by
  simp only [fit_pair]

/-- C30: sorting moves whole model records: every model in the list returned by
combinatorial_gmdh is the record built for its own pair (feature1, feature2): its
coeffs are the result of fit_polynomial on training columns feature1 and feature2, and
its error and r2 are calculate_rmse and calculate_r2 of predict_polynomial applied
with those coeffs to validation columns feature1 and feature2 against the validation
targets. -/
theorem C30_combinatorial_gmdh_records_stay_whole (train valid : dataset_t) :
    ∀ m ∈ (combinatorial_gmdh train valid).1,
      m = fit_pair train valid m.feature1 m.feature2 ∧
      m.coeffs = fit_polynomial
        ((List.range train.n_samples).map (fun k => mget train.data k m.feature1))
        ((List.range train.n_samples).map (fun k => mget train.data k m.feature2))
        train.target train.n_samples (malloc_double 6) ∧
      m.error = calculate_rmse
        ((List.range valid.n_samples).map (fun k =>
          predict_polynomial (mget valid.data k m.feature1) (mget valid.data k m.feature2)
            m.coeffs))
        valid.target valid.n_samples ∧
      m.r2 = calculate_r2
        ((List.range valid.n_samples).map (fun k =>
          predict_polynomial (mget valid.data k m.feature1) (mget valid.data k m.feature2)
            m.coeffs))
        valid.target valid.n_samples := by
  intro m hm
  have hm2 := (combinatorial_gmdh_perm train valid).mem_iff.mp hm
  obtain ⟨i, j, _, _, hmij⟩ := (mem_combinatorial_models train valid m).mp hm2
  have h1 : m.feature1 = i := by rw [hmij]; exact fit_pair_feature1 train valid i j
  have h2 : m.feature2 = j := by rw [hmij]; exact fit_pair_feature2 train valid i j
  rw [h1, h2]
  refine ⟨hmij, ?_, ?_, ?_⟩
  · rw [hmij]
    exact fit_pair_coeffs train valid i j
  · rw [hmij]
    exact fit_pair_error train valid i j
  · rw [hmij]
    exact fit_pair_r2 train valid i j

theorem C30_witness :
    ∃ m, (combinatorial_gmdh sample_data sample_data).1[0]? = some m ∧
      m = fit_pair sample_data sample_data m.feature1 m.feature2 := by
  have hlen : (combinatorial_gmdh sample_data sample_data).1.length = 3 :=
    (combinatorial_gmdh_perm sample_data sample_data).length_eq.trans
      (combinatorial_models_length sample_data sample_data)
  have h0 : 0 < (combinatorial_gmdh sample_data sample_data).1.length := by omega
  refine ⟨(combinatorial_gmdh sample_data sample_data).1[0], List.getElem?_eq_getElem h0, ?_⟩
  exact (C30_combinatorial_gmdh_records_stay_whole sample_data sample_data _
    (List.getElem_mem _)).1

/-! ## Layers after an early stop -/

/-- The survivor count of layer 0. -/
theorem multirow_layer0_count (train valid : dataset_t) (n_layers models_per_layer : Nat)
    (hL : 1 ≤ n_layers) :
    ((multirow_run_upto train valid n_layers models_per_layer 0).layers.getD 0
      gmdh_layer_t.fresh).n_models
      = some (min models_per_layer (Nat.choose train.n_features 2)) := by
  rw [← multirow_final_layer train valid n_layers models_per_layer 0 0 (le_refl _) (by omega),
    multirow_gmdh_layer0 train valid n_layers models_per_layer hL, multirow_select_eq,
    multirow_pair_models_eq, combinatorial_models_length, Nat.choose_two_right]

/-- C31: when layer 0 keeps fewer than 2 models (for example models_per_layer = 1) and
more than 2 layers are asked for, multirow_gmdh returns an array of n_layers entries in
which layer 1 has n_models = 0 but no layer index, and every entry from index 2 on has
no assigned n_models and no assigned layer index: a caller reading n_models of all
n_layers entries reads fields that were never written. -/
theorem C31_multirow_gmdh_leaves_layers_unassigned (train valid : dataset_t)
    (n_layers models_per_layer : Nat) (hn : 2 < n_layers)
    (hp : min models_per_layer (Nat.choose train.n_features 2) < 2) :
    (multirow_gmdh train valid n_layers models_per_layer).length = n_layers ∧
    ((multirow_gmdh train valid n_layers models_per_layer).getD 1 gmdh_layer_t.fresh).n_models
      = some 0 ∧
    ((multirow_gmdh train valid n_layers models_per_layer).getD 1 gmdh_layer_t.fresh).layer
      = none ∧
    ∀ i, 2 ≤ i → i < n_layers →
      (multirow_gmdh train valid n_layers models_per_layer)[i]? = some gmdh_layer_t.fresh ∧
      ((multirow_gmdh train valid n_layers models_per_layer).getD i gmdh_layer_t.fresh).n_models
        = none ∧
      ((multirow_gmdh train valid n_layers models_per_layer).getD i gmdh_layer_t.fresh).layer
        = none := by
  have h0 := multirow_layer0_count train valid n_layers models_per_layer (by omega)
  obtain ⟨hlayers, hstop⟩ := multirow_layer_step_break train valid models_per_layer
    (multirow_run_upto train valid n_layers models_per_layer 0) 1 _ rfl h0 hp
  rw [← multirow_run_upto_succ] at hlayers hstop
  have hfinal : multirow_run train valid n_layers models_per_layer
      = multirow_run_upto train valid n_layers models_per_layer 1 := by
    rw [multirow_run_eq_upto]
    have := multirow_run_upto_stopped train valid n_layers models_per_layer 1 hstop
      (n_layers - 1 - 1)
    rwa [show 1 + (n_layers - 1 - 1) = n_layers - 1 by omega] at this
  have hlen0 := multirow_run_upto_length train valid n_layers models_per_layer 0
  have hlen1 := multirow_run_upto_length train valid n_layers models_per_layer 1
  have hfresh1 := multirow_run_upto_later train valid n_layers models_per_layer 0 1 (by omega)
  have hone : (multirow_gmdh train valid n_layers models_per_layer).getD 1 gmdh_layer_t.fresh
      = { gmdh_layer_t.fresh with n_models := some 0 } := by
    unfold multirow_gmdh
    rw [hfinal, hlayers, layers_getD_set, if_pos ⟨rfl, by omega⟩, hfresh1]
  refine ⟨by unfold multirow_gmdh; rw [hfinal]; exact hlen1, by rw [hone], by rw [hone]; rfl,
    fun i hi1 hi2 => ?_⟩
  have hi : (multirow_gmdh train valid n_layers models_per_layer).getD i gmdh_layer_t.fresh
      = gmdh_layer_t.fresh := by
    unfold multirow_gmdh
    rw [hfinal]
    exact multirow_run_upto_later train valid n_layers models_per_layer 1 i (by omega)
  refine ⟨?_, by rw [hi]; rfl, by rw [hi]; rfl⟩
  have hlt : i < (multirow_gmdh train valid n_layers models_per_layer).length := by
    unfold multirow_gmdh
    rw [hfinal, hlen1]
    exact hi2
  rw [List.getElem?_eq_getElem hlt]
  rw [List.getD_eq_getElem?_getD, List.getElem?_eq_getElem hlt] at hi
  exact congrArg some hi

theorem C31_witness :
    (2 < 3 ∧ min 1 (Nat.choose sample_data.n_features 2) < 2) ∧
    (multirow_gmdh sample_data sample_data 3 1).length = 3 ∧
    (multirow_gmdh sample_data sample_data 3 1)[2]? = some gmdh_layer_t.fresh ∧
    ((multirow_gmdh sample_data sample_data 3 1).getD 2 gmdh_layer_t.fresh).n_models = none := by
  have h := C31_multirow_gmdh_leaves_layers_unassigned sample_data sample_data 3 1
    (by omega) (by decide)
  exact ⟨⟨by omega, by decide⟩, h.1, (h.2.2.2 2 (le_refl _) (by omega)).1,
    (h.2.2.2 2 (le_refl _) (by omega)).2.1⟩

end GMDH
